import Mathlib

/-!
Mini-Google: a verification development.

Shallow embedding of the search engine's core (linked list, chained hash
table, tokenizer, doc table, in-memory index, index-file writer and query
processor) and theorems about it.

Conventions of the embedding.

* A C function that can stop the process through `Verify333` (or that
  can fail to terminate) returns an `Option`; `none` is the abort.
* A `bool` result with an out-parameter is an `Option` of the value that the
  out-parameter receives.
* `int` counters are unbounded (`Nat` or `Int`): the development does not
  cover tables with more than `2^31` entries. The comparison result of
  `LinkedList_Sort` is a 32-bit `int` (`wrapInt32`).
* A file is the list of its bytes; file offsets are unbounded, and the
  theorems about the index file bound its size by `2^31`, below which the
  32-bit arithmetic of the writer is exact.
* The readers of the index file, the layout structures and the checksum are
  not among the sources: the readers follow the specification, the magic
  number and the checksum function are parameters.
-/

namespace MiniGoogle

/-! ## LinkedList.c -/

/-- A `LinkedList` is embedded as the list of its payloads, head first;
`num_elements` is the length of that list. -/
abbrev LinkedList (α : Type) := List α

/-- `LinkedList_Allocate`: the empty list. -/
def LinkedList_Allocate {α : Type} : LinkedList α := []

/-- `LinkedList_NumElements`. -/
def LinkedList_NumElements {α : Type} (list : LinkedList α) : Nat := list.length

/-- `LinkedList_Push`: the new node becomes the head. -/
def LinkedList_Push {α : Type} (list : LinkedList α) (payload : α) : LinkedList α :=
  payload :: list

/-- `LinkedList_Append`: the new node becomes the tail. -/
def LinkedList_Append {α : Type} (list : LinkedList α) (payload : α) : LinkedList α :=
  list ++ [payload]

/-- An `LLIterator` is a cursor into a list: `before` holds the payloads of
the nodes in front of `iter->node`, `node` holds the payload of `iter->node`
followed by those of its successors (`node = []` is `iter->node == NULL`).
The list the iterator walks (and mutates) is `before ++ node`. -/
structure LLIterator (α : Type) where
  before : List α
  node : List α

/-- The list an iterator points into. -/
def LLIterator.list {α : Type} (iter : LLIterator α) : LinkedList α :=
  iter.before ++ iter.node

/-- `LLIterator_Allocate`: `li->node = list->head`. -/
def LLIterator_Allocate {α : Type} (list : LinkedList α) : LLIterator α :=
  ⟨[], list⟩

/-- `LLIterator_IsValid`: `iter->node != NULL`. -/
def LLIterator_IsValid {α : Type} (iter : LLIterator α) : Bool :=
  !iter.node.isEmpty

/-- `LLIterator_Next`: aborts on a NULL node, else moves to the successor and
reports whether the iterator is still valid. -/
def LLIterator_Next {α : Type} (iter : LLIterator α) : Option (LLIterator α × Bool) :=
  match iter.node with
  | [] => none
  | x :: rest => some (⟨iter.before ++ [x], rest⟩, !rest.isEmpty)

/-- `LLIterator_Get`: aborts on a NULL node, else the payload of the node. -/
def LLIterator_Get {α : Type} (iter : LLIterator α) : Option α :=
  iter.node.head?

/-- `LLIterator_Remove`: aborts on a NULL node. Otherwise the node is
unlinked; the four cases of the source are kept: the list becomes empty
(result `false`), the node is the head (the iterator is rewound to the new
head), the node is the tail (the iterator moves to the new tail, that is the
predecessor), the node is in the middle (the iterator moves to the
successor). -/
def LLIterator_Remove {α : Type} (iter : LLIterator α) : Option (LLIterator α × Bool) :=
  match iter.node with
  | [] => none
  | _ :: rest =>
    if LinkedList_NumElements iter.list = 1 then
      some (⟨[], []⟩, false)
    else if iter.before.isEmpty then
      some (⟨[], rest⟩, true)
    else if rest.isEmpty then
      some (⟨iter.before.dropLast, iter.before.getLast?.toList⟩, true)
    else
      some (⟨iter.before, rest⟩, true)

/-- The value of a C `int` (32 bits, two's complement) that stands for the
integer `x`: `x` reduced modulo `2 ^ 32` into `-2 ^ 31 .. 2 ^ 31 - 1`. It is
the identity on the range of `int`; the one product of `LinkedList_Sort`
that leaves the range, `INT_MIN * -1`, wraps around to `INT_MIN` (C leaves
that overflow undefined; the wrap-around is what the negation instruction
of the machine computes). -/
def wrapInt32 (x : Int) : Int := (x + 2 ^ 31) % 2 ^ 32 - 2 ^ 31

/-- The inner `while (curnode->next != NULL)` loop of `LinkedList_Sort` from
a node on: `a` is the payload of `curnode`, the list holds the payloads of
its successors. `compare_result` is an `int`: the result of the comparator
is held in 32 bits and `compare_result *= -1` is computed in 32 bits. The
payloads of `curnode` and its successor are swapped when the (possibly
negated) comparison is negative, then `curnode` advances. Returns the
payloads from `curnode` on after the sweep and the `swapped` flag. -/
def LinkedList_Sort_sweepFrom {α : Type} (ascending : Bool)
    (comparator_function : α → α → Int) : α → List α → List α × Bool
  | a, [] => ([a], false)
  | a, b :: rest =>
    let compare_result := wrapInt32 (comparator_function a b)
    let compare_result :=
      if ascending then wrapInt32 (compare_result * (-1)) else compare_result
    if compare_result < 0 then
      let r := LinkedList_Sort_sweepFrom ascending comparator_function a rest
      (b :: r.1, true)
    else
      let r := LinkedList_Sort_sweepFrom ascending comparator_function b rest
      (a :: r.1, r.2)

/-- One sweep of the inner loop of `LinkedList_Sort`, from `list->head`. -/
def LinkedList_Sort_sweep {α : Type} (ascending : Bool) (comparator_function : α → α → Int) :
    List α → List α × Bool
  | [] => ([], false)
  | a :: rest => LinkedList_Sort_sweepFrom ascending comparator_function a rest

/-- The `do ... while (swapped)` loop of `LinkedList_Sort`, with a bound on
the number of sweeps; `none` when the bound is reached with `swapped` still
set. -/
def LinkedList_Sort_loop {α : Type} (ascending : Bool) (comparator_function : α → α → Int) :
    Nat → List α → Option (List α)
  | 0, _ => none
  | fuel + 1, l =>
    let r := LinkedList_Sort_sweep ascending comparator_function l
    if r.2 then LinkedList_Sort_loop ascending comparator_function fuel r.1 else some r.1

/-- `LinkedList_Sort`: bubble sort; lists of fewer than two elements are
returned at once. -/
def LinkedList_Sort {α : Type} (fuel : Nat) (list : LinkedList α) (ascending : Bool)
    (comparator_function : α → α → Int) : Option (LinkedList α) :=
  if LinkedList_NumElements list < 2 then some list
  else LinkedList_Sort_loop ascending comparator_function fuel list

/-! ## HashTable.c -/

/-- `HTKey_t` is `uint64_t`. -/
abbrev HTKey_t := Nat

/-- `HTKeyValue_t`: a key and the (pointer to the) value. -/
structure HTKeyValue_t (V : Type) where
  key : HTKey_t
  value : V
deriving DecidableEq, Repr

/-- The `HashTable` record: `num_buckets`, `num_elements` (an `int`, which
the code can drive below zero) and the array of bucket chains. -/
structure HashTable (V : Type) where
  num_buckets : Nat
  num_elements : Int
  buckets : List (LinkedList (HTKeyValue_t V))
deriving DecidableEq, Repr

/-- `buckets[i]`; the tables built by `HashTable_Allocate` always have
`num_buckets` chains, the default is for indices outside the array. -/
def HashTable.chain {V : Type} (ht : HashTable V) (i : Nat) : LinkedList (HTKeyValue_t V) :=
  ht.buckets.getD i []

/-- Store a chain back into `buckets[i]`. -/
def HashTable.setChain {V : Type} (ht : HashTable V) (i : Nat)
    (c : LinkedList (HTKeyValue_t V)) : HashTable V :=
  { ht with buckets := ht.buckets.set i c }

/-- `HashKeyToBucketNum`: `key % ht->num_buckets`. -/
def HashKeyToBucketNum {V : Type} (ht : HashTable V) (key : HTKey_t) : Nat :=
  key % ht.num_buckets

/-- `FNVHash64`: FNV-1a over the bytes of the buffer, modulo `2^64`. -/
def FNVHash64 (buffer : List Nat) : HTKey_t :=
  buffer.foldl (fun hval b => ((hval ^^^ b) * 0x100000001b3) % 2 ^ 64) 0xcbf29ce484222325

/-- `HashTable_Allocate`: `num_buckets` empty chains, no elements. The source
asserts `num_buckets > 0`. -/
def HashTable_Allocate {V : Type} (num_buckets : Nat) : HashTable V :=
  { num_buckets := num_buckets, num_elements := 0,
    buckets := List.replicate num_buckets LinkedList_Allocate }

/-- `HashTable_NumElements`. -/
def HashTable_NumElements {V : Type} (table : HashTable V) : Int :=
  table.num_elements

/-- The loop of the static helper `Find`: walk from the iterator's node to
the first payload with `key`. Returns the iterator where the walk stopped and
the pair found (`none` when the walk ran off the end). -/
def Find_loop {V : Type} (key : HTKey_t) :
    List (HTKeyValue_t V) → List (HTKeyValue_t V) → LLIterator (HTKeyValue_t V) × Option (HTKeyValue_t V)
  | before, [] => (⟨before, []⟩, none)
  | before, kv :: rest =>
    if kv.key = key then (⟨before, kv :: rest⟩, some kv)
    else Find_loop key (before ++ [kv]) rest

/-- The static helper `Find`. -/
def Find {V : Type} (ll_iter : LLIterator (HTKeyValue_t V)) (key : HTKey_t) :
    LLIterator (HTKeyValue_t V) × Option (HTKeyValue_t V) :=
  Find_loop key ll_iter.before ll_iter.node

/-- `HashTable_Find`. -/
def HashTable_Find {V : Type} (table : HashTable V) (key : HTKey_t) : Option (HTKeyValue_t V) :=
  let index := HashKeyToBucketNum table key
  let chain := table.chain index
  (Find (LLIterator_Allocate chain) key).2

/-- `HashTable_Remove`: the table after the call and the pair removed. -/
def HashTable_Remove {V : Type} (table : HashTable V) (key : HTKey_t) :
    Option (HashTable V × Option (HTKeyValue_t V)) :=
  let index := HashKeyToBucketNum table key
  let chain := table.chain index
  let r := Find (LLIterator_Allocate chain) key
  match r.2 with
  | some kv =>
    (LLIterator_Remove r.1).map fun r2 =>
      ({ table.setChain index r2.1.list with num_elements := table.num_elements - 1 }, some kv)
  | none => some (table, none)

/-- The `HTIterator` record. -/
structure HTIterator (V : Type) where
  ht : HashTable V
  bucket_idx : Int
  bucket_it : Option (LLIterator (HTKeyValue_t V))

/-- The scan for the first non-empty bucket, shared by `HTIterator_Allocate`
and `HTIterator_Next`: `bs` are the buckets from index `i` up to
`num_buckets`. -/
def firstNonEmpty {α : Type} : List (LinkedList α) → Nat → Option Nat
  | [], _ => none
  | b :: bs, i => if LinkedList_NumElements b > 0 then some i else firstNonEmpty bs (i + 1)

/-- The buckets with index in `[i, num_buckets)`. -/
def HashTable.bucketsFrom {V : Type} (ht : HashTable V) (i : Nat) :
    List (LinkedList (HTKeyValue_t V)) :=
  (ht.buckets.take ht.num_buckets).drop i

/-- `HTIterator_Allocate`: an invalid iterator when `num_elements == 0`, else
an iterator on the head of the first non-empty bucket; aborts when there is
none. -/
def HTIterator_Allocate {V : Type} (table : HashTable V) : Option (HTIterator V) :=
  if table.num_elements = 0 then
    some ⟨table, -1, none⟩
  else
    match firstNonEmpty (table.bucketsFrom 0) 0 with
    | none => none
    | some i => some ⟨table, i, some (LLIterator_Allocate (table.chain i))⟩

/-- `HTIterator_IsValid`. -/
def HTIterator_IsValid {V : Type} (iter : HTIterator V) : Bool :=
  match iter.bucket_it with
  | none => false
  | some li => LLIterator_IsValid li

/-- `HTIterator_Next`. -/
def HTIterator_Next {V : Type} (iter : HTIterator V) : Option (HTIterator V × Bool) :=
  match iter.bucket_it with
  | none => some (iter, false)
  | some li =>
    if !LLIterator_IsValid li then some (iter, false)
    else
      (LLIterator_Next li).map fun r =>
        if r.2 then ({ iter with bucket_it := some r.1 }, true)
        else
          let idx := (iter.bucket_idx + 1).toNat
          match firstNonEmpty (iter.ht.bucketsFrom idx) idx with
          | some j =>
            ({ iter with bucket_idx := j,
                         bucket_it := some (LLIterator_Allocate (iter.ht.chain j)) }, true)
          | none =>
            ({ iter with bucket_idx := max (iter.bucket_idx + 1) iter.ht.num_buckets,
                         bucket_it := none }, false)

/-- `HTIterator_Get`. -/
def HTIterator_Get {V : Type} (iter : HTIterator V) : Option (HTKeyValue_t V) :=
  if !HTIterator_IsValid iter || iter.ht.num_elements = 0 then none
  else
    match iter.bucket_it with
    | none => none
    | some li => LLIterator_Get li

/-- The total number of chain nodes of a table. -/
def HashTable.numNodes {V : Type} (ht : HashTable V) : Nat :=
  (ht.buckets.map List.length).sum

/-- The `for` loop of `MaybeResize`: every pair the iterator yields is
inserted into `newht` with `insert`. The loop runs once per node of the old
table at most: `n` bounds the number of turns. -/
def MaybeResize_loop {V : Type}
    (insert : HashTable V → HTKeyValue_t V → Option (HashTable V × Option (HTKeyValue_t V))) :
    Nat → HTIterator V → HashTable V → Option (HashTable V)
  | 0, it, newht => if HTIterator_IsValid it then none else some newht
  | n + 1, it, newht =>
    if HTIterator_IsValid it then
      (HTIterator_Get it).bind fun item =>
        (insert newht item).bind fun r =>
          (HTIterator_Next it).bind fun it2 =>
            MaybeResize_loop insert n it2.1 r.1
    else some newht

/-- `MaybeResize`, with the `HashTable_Insert` it calls as a parameter: when
`num_elements >= 3 * num_buckets` a table with nine times the buckets is
filled from the old one and takes its place. -/
def MaybeResize {V : Type}
    (insert : HashTable V → HTKeyValue_t V → Option (HashTable V × Option (HTKeyValue_t V)))
    (ht : HashTable V) : Option (HashTable V) :=
  if ht.num_elements < 3 * ht.num_buckets then some ht
  else
    let newht : HashTable V := HashTable_Allocate (ht.num_buckets * 9)
    (HTIterator_Allocate ht).bind fun it =>
      MaybeResize_loop insert ht.numNodes it newht

/-- The part of `HashTable_Insert` after the call of `MaybeResize`: remove
the pair with the key when there is one, push the new pair on the chain,
count the element when none was removed. Returns the pair removed. -/
def HashTable_Insert_body {V : Type} (table : HashTable V) (newkeyvalue : HTKeyValue_t V) :
    Option (HashTable V × Option (HTKeyValue_t V)) :=
  let bucket := HashKeyToBucketNum table newkeyvalue.key
  (HashTable_Remove table newkeyvalue.key).map fun r =>
    let table := r.1
    let table := table.setChain bucket (LinkedList_Push (table.chain bucket) newkeyvalue)
    let table :=
      if r.2.isNone then { table with num_elements := table.num_elements + 1 } else table
    (table, r.2)

/-- `HashTable_Insert`. `HashTable_Insert` and `MaybeResize` call each other;
`fuel` bounds the depth of that recursion, `none` when it is used up. -/
def HashTable_Insert {V : Type} : Nat → HashTable V → HTKeyValue_t V →
    Option (HashTable V × Option (HTKeyValue_t V))
  | 0 => fun _ _ => none
  | fuel + 1 => fun table newkeyvalue =>
    (MaybeResize (HashTable_Insert fuel) table).bind fun table =>
      HashTable_Insert_body table newkeyvalue

/-! ## DocTable.c -/

/-- `DocID_t` is `uint64_t`. -/
abbrev DocID_t := Nat

/-- Modelled from the spec: the constant `INVALID_DOCID` of `DocTable.h`,
which is not among the sources; the doc-id `0` is reserved as "invalid". -/
def INVALID_DOCID : DocID_t := 0

/-- A C string is embedded as the list of its bytes in front of the
terminator. -/
abbrev CString := List Nat

/-- The bytes of a string literal. -/
def bytes (s : String) : CString := s.toList.map Char.toNat

/-- `struct doctable_st`. -/
structure DocTable where
  id_to_name : HashTable CString
  name_to_id : HashTable DocID_t
  max_id : DocID_t
deriving DecidableEq, Repr

/-- `DocTable_Allocate`. -/
def DocTable_Allocate : DocTable :=
  { id_to_name := HashTable_Allocate 2, name_to_id := HashTable_Allocate 2, max_id := 1 }

/-- `DocTable_NumDocs`. -/
def DocTable_NumDocs (table : DocTable) : Int :=
  HashTable_NumElements table.id_to_name

/-- `DocTable_GetDocID`. -/
def DocTable_GetDocID (table : DocTable) (doc_name : CString) : DocID_t :=
  let key := FNVHash64 doc_name
  match HashTable_Find table.name_to_id key with
  | some kv => kv.value
  | none => INVALID_DOCID

/-- `DocTable_Add`: the table after the call and the doc-id returned. The
key of the `name_to_id` pair is `res`, as in the source. -/
def DocTable_Add (fuel : Nat) (table : DocTable) (doc_name : CString) :
    Option (DocTable × DocID_t) :=
  let res := DocTable_GetDocID table doc_name
  if res ≠ INVALID_DOCID then some (table, res)
  else
    let doc_copy := doc_name
    let doc_id := table.max_id
    let max_id := (table.max_id + 1) % 2 ^ 64
    (HashTable_Insert fuel table.id_to_name ⟨doc_id, doc_copy⟩).bind fun r1 =>
      (HashTable_Insert fuel table.name_to_id ⟨res, doc_id⟩).bind fun r2 =>
        some ({ id_to_name := r1.1, name_to_id := r2.1, max_id := max_id }, doc_id)

/-- `DocTable_GetDocName`: aborts on `INVALID_DOCID`; else the name stored
for the doc-id, or NULL. -/
def DocTable_GetDocName (table : DocTable) (doc_id : DocID_t) : Option (Option CString) :=
  if doc_id = INVALID_DOCID then none
  else some ((HashTable_Find table.id_to_name doc_id).map fun kv => kv.value)

/-! ## FileParser.c -/

/-- `WordPositions`: a word and the list of its offsets. The header that
declares it is not among the sources; the fields are those the code uses. -/
structure WordPositions where
  word : CString
  positions : LinkedList Nat
deriving DecidableEq, Repr

/-- `isalpha` of `<ctype.h>` in the C locale. -/
def isalpha (c : Nat) : Bool :=
  (65 ≤ c && c ≤ 90) || (97 ≤ c && c ≤ 122)

/-- `tolower` of `<ctype.h>` in the C locale. -/
def tolower (c : Nat) : Nat :=
  if 65 ≤ c ∧ c ≤ 90 then c + 32 else c

/-- `strlen`: the number of bytes in front of the first NUL. -/
def strlen (s : List Nat) : Nat :=
  (s.takeWhile fun b => b != 0).length

/-- The C string that starts at offset `start` of a buffer. -/
def cstring (buf : List Nat) (start : Nat) : CString :=
  (buf.drop start).takeWhile fun b => b != 0

/-- Replace the first element that satisfies `p`. -/
def modifyFirst {α : Type} (p : α → Bool) (f : α → α) : List α → List α
  | [] => []
  | x :: xs => if p x then f x :: xs else x :: modifyFirst p f xs

/-- A write through the value pointer that `HashTable_Find` handed out for
`key`: the value of that node changes in place, the table's structure does
not. -/
def HashTable.updateValue {V : Type} (t : HashTable V) (key : HTKey_t) (f : V → V) :
    HashTable V :=
  let i := HashKeyToBucketNum t key
  t.setChain i
    (modifyFirst (fun kv => decide (kv.key = key)) (fun kv => { kv with value := f kv.value })
      (t.chain i))

/-- `PrepNewWordPos`. -/
def PrepNewWordPos (word : CString) (pos : Nat) : WordPositions :=
  { word := word, positions := LinkedList_Append LinkedList_Allocate pos }

/-- `AddWordPosition`: aborts when the word stored under the hash is another
word (`Verify333(strcmp(wp->word, word) == 0)`). -/
def AddWordPosition (fuel : Nat) (tab : HashTable WordPositions) (word : CString) (pos : Nat) :
    Option (HashTable WordPositions) :=
  let hash_key := FNVHash64 word
  match HashTable_Find tab hash_key with
  | some kv =>
    let wp := kv.value
    if wp.word ≠ word then none
    else
      some (tab.updateValue hash_key fun wp =>
        { wp with positions := LinkedList_Append wp.positions pos })
  | none =>
    let wp := PrepNewWordPos word pos
    (HashTable_Insert fuel tab ⟨hash_key, wp⟩).map fun r => r.1

/-- The call `AddWordPosition(tab, word_start, word_start - content)` guarded
by `strlen(word_start) > 0`; the offset is converted to the 32-bit
`DocPositionOffset_t`. -/
def InsertContent_emit (fuel : Nat) (tab : HashTable WordPositions) (content : List Nat)
    (word_start : Nat) : Option (HashTable WordPositions) :=
  if strlen (content.drop word_start) > 0 then
    AddWordPosition fuel tab (cstring content word_start) (word_start % 2 ^ 32)
  else some tab

/-- The `while (*cur_ptr != '\0')` loop of `InsertContent`. `content` is the
buffer (a read at its length gives the terminator), `cur_ptr` and
`word_start` are offsets into it. The first argument counts the bytes still
ahead, it bounds the number of turns. Returns the buffer, `word_start` and
the table at the exit of the loop. -/
def InsertContent_loop (fuel : Nat) :
    Nat → List Nat → Nat → Nat → HashTable WordPositions →
      Option (List Nat × Nat × HashTable WordPositions)
  | 0, content, cur_ptr, word_start, tab =>
    if content.getD cur_ptr 0 = 0 then some (content, word_start, tab) else none
  | n + 1, content, cur_ptr, word_start, tab =>
    let c := content.getD cur_ptr 0
    if c = 0 then some (content, word_start, tab)
    else if isalpha c then
      InsertContent_loop fuel n (content.set cur_ptr (tolower c)) (cur_ptr + 1) word_start tab
    else
      let content := content.set cur_ptr 0
      (InsertContent_emit fuel tab content word_start).bind fun tab =>
        InsertContent_loop fuel n content (cur_ptr + 1) (cur_ptr + 1) tab

/-- `InsertContent`. -/
def InsertContent (fuel : Nat) (tab : HashTable WordPositions) (content : List Nat) :
    Option (HashTable WordPositions) :=
  (InsertContent_loop fuel content.length content 0 0 tab).bind fun r =>
    InsertContent_emit fuel r.2.2 r.1 r.2.1

/-- `ParseIntoWordPositionsTable` on the buffer `ReadFileToString` returned:
`file_contents` are the bytes of the buffer in front of the terminator that
`ReadFileToString` wrote at `buf[*size]`. The outer `none` is an abort, the
inner `none` is the NULL result. -/
def ParseIntoWordPositionsTable (fuel : Nat) (file_contents : List Nat) :
    Option (Option (HashTable WordPositions)) :=
  let file_len := strlen file_contents
  if file_len = 0 then some none
  else if (List.range file_len).any fun i =>
      file_contents.getD i 0 == 0 || decide (file_contents.getD i 0 > 0x7F) then
    some none
  else
    (InsertContent fuel (HashTable_Allocate 2) file_contents).map fun tab =>
      if HashTable_NumElements tab = 0 then none else some tab

/-! ## MemIndex.c -/

/-- `WordPostings`: a word and the table from doc-id to positions list. The
header that declares it is not among the sources; the fields are those the
code uses. -/
structure WordPostings where
  word : CString
  postings : HashTable (LinkedList Nat)
deriving DecidableEq, Repr

/-- `MemIndex` is a `HashTable` of `WordPostings`, keyed by the hash of the
word. -/
abbrev MemIndex := HashTable WordPostings

/-- `SearchResult`: a doc-id and its rank. -/
structure SearchResult where
  doc_id : DocID_t
  rank : Nat
deriving DecidableEq, Repr

/-- `MI_SearchResultComparator`. -/
def MI_SearchResultComparator (sr1 sr2 : SearchResult) : Int :=
  if sr1.rank > sr2.rank then 1
  else if sr1.rank < sr2.rank then -1
  else 0

/-- `MemIndex_Allocate`. -/
def MemIndex_Allocate : MemIndex := HashTable_Allocate 2

/-- `MemIndex_NumWords`. -/
def MemIndex_NumWords (index : MemIndex) : Int := HashTable_NumElements index

/-- `MemIndex_AddPostingList`: aborts on a hash collision between two words
and when the doc-id already has a posting for the word. The insert into
`wp->postings` changes the table that the index entry points to. -/
def MemIndex_AddPostingList (fuel : Nat) (index : MemIndex) (word : CString) (doc_id : DocID_t)
    (postings : LinkedList Nat) : Option MemIndex :=
  let key := FNVHash64 word
  let found : Option (MemIndex × WordPostings) :=
    match HashTable_Find index key with
    | none =>
      let wp : WordPostings := { word := word, postings := HashTable_Allocate 2 }
      (HashTable_Insert fuel index ⟨key, wp⟩).map fun r => (r.1, wp)
    | some mi_kv =>
      let wp := mi_kv.value
      if wp.word ≠ word then none else some (index, wp)
  found.bind fun r =>
    let index := r.1
    let wp := r.2
    if (HashTable_Find wp.postings doc_id).isSome then none
    else
      (HashTable_Insert fuel wp.postings ⟨doc_id, postings⟩).map fun r2 =>
        index.updateValue key fun wp => { wp with postings := r2.1 }

/-- `GetPostingsIter`: the inner `none` is the NULL result. -/
def GetPostingsIter (index : MemIndex) (query_word : CString) :
    Option (Option (HTIterator (LinkedList Nat))) :=
  let key := FNVHash64 query_word
  match HashTable_Find index key with
  | some kv => (HTIterator_Allocate kv.value.postings).map some
  | none => some none

/-- The first loop of `MemIndex_Search`: one `SearchResult` per pair of the
postings table of `query[0]`, pushed on `ret_list`. The first argument bounds
the number of turns (one per node of the table). -/
def MemIndex_Search_first :
    Nat → HTIterator (LinkedList Nat) → LinkedList SearchResult → Option (LinkedList SearchResult)
  | 0, postings_it, ret_list => if HTIterator_IsValid postings_it then none else some ret_list
  | n + 1, postings_it, ret_list =>
    if HTIterator_IsValid postings_it then
      (HTIterator_Get postings_it).bind fun words_curr_kv =>
        let result_doc : SearchResult :=
          { doc_id := words_curr_kv.key, rank := LinkedList_NumElements words_curr_kv.value }
        let ret_list := LinkedList_Push ret_list result_doc
        (HTIterator_Next postings_it).bind fun r => MemIndex_Search_first n r.1 ret_list
    else some ret_list

/-- The loop `for (j = 0; j < num_docs; j++)` of `MemIndex_Search` over the
result list: a document that has the word gets its rank raised (in place) and
the iterator advances; a document without it is removed through the
iterator. -/
def MemIndex_Search_filter (curr_postings : HashTable (LinkedList Nat)) :
    Nat → LLIterator SearchResult → Option (LLIterator SearchResult)
  | 0, ll_it => some ll_it
  | j + 1, ll_it =>
    (LLIterator_Get ll_it).bind fun result_doc =>
      match HashTable_Find curr_postings result_doc.doc_id with
      | some temp =>
        let num_occurrences_word_in_doc := LinkedList_NumElements temp.value
        let ll_it : LLIterator SearchResult :=
          { ll_it with node :=
              { result_doc with rank := result_doc.rank + num_occurrences_word_in_doc }
                :: ll_it.node.tail }
        (LLIterator_Next ll_it).bind fun r => MemIndex_Search_filter curr_postings j r.1
      | none =>
        (LLIterator_Remove ll_it).bind fun r => MemIndex_Search_filter curr_postings j r.1

/-- The loop `for (i = 1; i < query_len; i++)` of `MemIndex_Search`; the
inner `none` is the NULL result. -/
def MemIndex_Search_rest (index : MemIndex) :
    List CString → LinkedList SearchResult → Option (Option (LinkedList SearchResult))
  | [], ret_list => some (some ret_list)
  | w :: ws, ret_list =>
    let key := FNVHash64 w
    match HashTable_Find index key with
    | none => some none
    | some kv =>
      let curr_postings := kv.value.postings
      let num_docs := LinkedList_NumElements ret_list
      (MemIndex_Search_filter curr_postings num_docs (LLIterator_Allocate ret_list)).bind
        fun ll_it =>
          let ret_list := ll_it.list
          if LinkedList_NumElements ret_list = 0 then some none
          else MemIndex_Search_rest index ws ret_list

/-- `MemIndex_Search`. The outer `none` is an abort (or `fuel`, the bound on
the sweeps of the final sort, used up), the inner `none` is the NULL
result. -/
def MemIndex_Search (fuel : Nat) (index : MemIndex) (query : List CString) :
    Option (Option (LinkedList SearchResult)) :=
  match query with
  | [] => some none
  | q0 :: qs =>
    (GetPostingsIter index q0).bind fun it =>
      match it with
      | none => some none
      | some postings_it =>
        (MemIndex_Search_first postings_it.ht.numNodes postings_it LinkedList_Allocate).bind
          fun ret_list =>
            if query.length = 1 then
              (LinkedList_Sort fuel ret_list false MI_SearchResultComparator).map some
            else
              (MemIndex_Search_rest index qs ret_list).bind fun r =>
                match r with
                | none => some none
                | some ret_list =>
                  (LinkedList_Sort fuel ret_list false MI_SearchResultComparator).map some

/-! ## QueryProcessor.cc -/

/-- `DocIDElementHeader`: a doc-id and the number of positions of the word in
that document. -/
structure DocIDElementHeader where
  doc_id : DocID_t
  num_positions : Nat
deriving DecidableEq, Repr

/-- The readers of one index file, as `QueryProcessor` uses them: the
classes are not among the sources and are taken as parameters.
`LookupWord w` is `IndexTableReader::LookupWord(w)` followed by
`DocIDTableReader::GetDocIDList()` (`none` when the word is not in the
file), `LookupDocID` is `DocTableReader::LookupDocID`. -/
structure IndexReaders where
  LookupWord : CString → Option (List DocIDElementHeader)
  LookupDocID : DocID_t → Option CString

/-- `QueryProcessor::QueryResult`. -/
structure QueryResult where
  document_name : CString
  rank : Nat
deriving DecidableEq, Repr

/-- The loop over the headers of one index file in `AddFirstWordDocs`; aborts
when a doc-id has no name (`Verify333`). -/
def AddFirstWordDocs_headers (curr_dtr : IndexReaders) :
    List DocIDElementHeader → List QueryResult → Option (List QueryResult)
  | [], final_result => some final_result
  | header :: rest, final_result =>
    (curr_dtr.LookupDocID header.doc_id).bind fun doc_name =>
      AddFirstWordDocs_headers curr_dtr rest
        (final_result ++ [{ document_name := doc_name, rank := header.num_positions }])

/-- `AddFirstWordDocs`: the loop over the index files. -/
def AddFirstWordDocs (first_word : CString) :
    List IndexReaders → List QueryResult → Option (List QueryResult)
  | [], final_result => some final_result
  | curr :: rest, final_result =>
    match curr.LookupWord first_word with
    | some headers =>
      (AddFirstWordDocs_headers curr headers final_result).bind fun final_result =>
        AddFirstWordDocs first_word rest final_result
    | none => AddFirstWordDocs first_word rest final_result

/-- The innermost loop of `UpdateDocsForWord`: the first result with the name
gets the positions added, then `break`. Returns the results and whether one
was found. -/
def UpdateDocsForWord_bump (doc_name : CString) (num_positions : Nat) :
    List QueryResult → List QueryResult × Bool
  | [] => ([], false)
  | result :: rest =>
    if result.document_name = doc_name then
      ({ result with rank := result.rank + num_positions } :: rest, true)
    else
      let r := UpdateDocsForWord_bump doc_name num_positions rest
      (result :: r.1, r.2)

/-- The state of `UpdateDocsForWord`: the results, `found_ith_word` and
`results_with_ith_word`. -/
structure UpdateState where
  final_result : List QueryResult
  found_ith_word : Bool
  results_with_ith_word : List CString

/-- The loop over the headers of one index file in `UpdateDocsForWord`. -/
def UpdateDocsForWord_headers (curr_dtr : IndexReaders) :
    List DocIDElementHeader → UpdateState → Option UpdateState
  | [], st => some st
  | header :: rest, st =>
    (curr_dtr.LookupDocID header.doc_id).bind fun doc_name =>
      let r := UpdateDocsForWord_bump doc_name header.num_positions st.final_result
      let st : UpdateState :=
        if r.2 then
          { final_result := r.1, found_ith_word := true,
            results_with_ith_word := doc_name :: st.results_with_ith_word }
        else st
      UpdateDocsForWord_headers curr_dtr rest st

/-- The loop over the index files in `UpdateDocsForWord`. -/
def UpdateDocsForWord_files (word : CString) :
    List IndexReaders → UpdateState → Option UpdateState
  | [], st => some st
  | curr :: rest, st =>
    match curr.LookupWord word with
    | some headers =>
      (UpdateDocsForWord_headers curr headers st).bind fun st =>
        UpdateDocsForWord_files word rest st
    | none => UpdateDocsForWord_files word rest st

/-- `RemoveResultsWithoutWord`: erase the results whose name is not in the
set. -/
def RemoveResultsWithoutWord (results_with_word : List CString)
    (final_result : List QueryResult) : List QueryResult :=
  final_result.filter fun result => decide (result.document_name ∈ results_with_word)

/-- `UpdateDocsForWord`. -/
def UpdateDocsForWord (word : CString) (readers : List IndexReaders)
    (final_result : List QueryResult) : Option (List QueryResult) :=
  (UpdateDocsForWord_files word readers
    { final_result := final_result, found_ith_word := false, results_with_ith_word := [] }).map
    fun st =>
      let final_result := if !st.found_ith_word then [] else st.final_result
      RemoveResultsWithoutWord st.results_with_ith_word final_result

/-- The loop `for (i = 1; i < query.size(); i++)` of `ProcessQuery`; the
second component tells whether the loop returned early on an empty result. -/
def ProcessQuery_rest (readers : List IndexReaders) :
    List CString → List QueryResult → Option (List QueryResult × Bool)
  | [], final_result => some (final_result, false)
  | curr_word :: rest, final_result =>
    (UpdateDocsForWord curr_word readers final_result).bind fun final_result =>
      if final_result.isEmpty then some (final_result, true)
      else ProcessQuery_rest readers rest final_result

/-- `std::sort` with `QueryResult::operator<` (`rank > rhs.rank`); the order
among results of equal rank is not specified by the library, the embedding
keeps their order. -/
def sortResults (final_result : List QueryResult) : List QueryResult :=
  final_result.insertionSort fun a b => a.rank ≥ b.rank

/-- `QueryProcessor::ProcessQuery` over the readers of the index files;
aborts on an empty query. -/
def ProcessQuery (readers : List IndexReaders) (query : List CString) :
    Option (List QueryResult) :=
  match query with
  | [] => none
  | first_word :: rest =>
    (AddFirstWordDocs first_word readers []).bind fun final_result =>
      (ProcessQuery_rest readers rest final_result).map fun r =>
        if r.2 then r.1 else sortResults r.1
/-! ## WriteIndex.cc -/

/-- An index file: the list of its bytes. -/
abbrev File := List Nat

/-- A call of `fseek(f, offset, SEEK_SET)` followed by an `fwrite` of the
bytes `data` (never empty where it is used): the bytes land at `offset`, and
a gap between the end of the file and `offset` reads as zero bytes. -/
def pwrite (f : File) (offset : Nat) (data : List Nat) : File :=
  let g := f ++ List.replicate (offset - f.length) 0
  g.take offset ++ data ++ g.drop (offset + data.length)

/-- The two bytes of a 16-bit field in network order. -/
def be16 (n : Nat) : List Nat := [n / 2 ^ 8 % 256, n % 256]

/-- The four bytes that `htonl` gives a 32-bit field: the low 32 bits of the
value, most significant byte first. -/
def be32 (n : Nat) : List Nat :=
  [n / 2 ^ 24 % 256, n / 2 ^ 16 % 256, n / 2 ^ 8 % 256, n % 256]

/-- The eight bytes of a 64-bit field in network order. -/
def be64 (n : Nat) : List Nat := be32 (n / 2 ^ 32) ++ be32 n

/-- Modelled from the spec: `sizeof(IndexFileHeader)`, four `u32` fields;
`LayoutStructs.h` is not among the sources. -/
def sizeof_IndexFileHeader : Nat := 16

/-- Modelled from the spec: `sizeof(BucketListHeader)`, `num_buckets : i32`. -/
def sizeof_BucketListHeader : Nat := 4

/-- Modelled from the spec: `sizeof(BucketRecord)`,
`chain_len : i32, bucket_offset : i32`. -/
def sizeof_BucketRecord : Nat := 8

/-- Modelled from the spec: `sizeof(ElementPositionRecord)`, one `i32`. -/
def sizeof_ElementPositionRecord : Nat := 4

/-- Modelled from the spec: `sizeof(DoctableElementHeader)`,
`doc-id u64, name-length i16`. -/
def sizeof_DoctableElementHeader : Nat := 10

/-- Modelled from the spec: `sizeof(DocIDElementHeader)`,
`doc-id u64, n-positions i32`. -/
def sizeof_DocIDElementHeader : Nat := 12

/-- Modelled from the spec: `sizeof(WordPostingsHeader)`,
`word-length i16, ht-length i32`. -/
def sizeof_WordPostingsHeader : Nat := 6

/-- The type of a `WriteElementFn`: the file after the call and the number of
bytes written, or `none` for `kFailedWrite`. -/
abbrev WriteElementFn (V : Type) := File → Nat → HTKeyValue_t V → Option (File × Nat)

/-- `WriteHTBucketRecord`. -/
def WriteHTBucketRecord (f : File) (offset : Nat) (num_elts : Nat) (bucket_offset : Nat) :
    File × Nat :=
  (pwrite f offset (be32 num_elts ++ be32 bucket_offset), sizeof_BucketRecord)

/-- The loop of `WriteHTBucket` over the chain: the element position record
of a node, then the node's element through `fn`. Returns the file and the
final `element_pos`. -/
def WriteHTBucket_loop {V : Type} (fn : WriteElementFn V) :
    List (HTKeyValue_t V) → File → Nat → Nat → Option (File × Nat)
  | [], f, _, element_pos => some (f, element_pos)
  | payload :: rest, f, record_pos, element_pos =>
    let f := pwrite f record_pos (be32 element_pos)
    (fn f element_pos payload).bind fun r =>
      let elem_bytes := r.2
      WriteHTBucket_loop fn rest r.1 (record_pos + sizeof_ElementPositionRecord)
        (element_pos + elem_bytes)

/-- `WriteHTBucket`. -/
def WriteHTBucket {V : Type} (fn : WriteElementFn V) (f : File) (offset : Nat)
    (li : LinkedList (HTKeyValue_t V)) : Option (File × Nat) :=
  let num_elts := LinkedList_NumElements li
  if num_elts = 0 then some (f, 0)
  else
    let record_pos := offset
    let element_pos := offset + sizeof_ElementPositionRecord * num_elts
    (WriteHTBucket_loop fn li f record_pos element_pos).map fun r => (r.1, r.2 - offset)

/-- The loop `for (int i = 0; i < ht->num_buckets; i++)` of `WriteHashTable`;
the first argument is the number of buckets still to write. Returns the file
and the final `bucket_pos`. -/
def WriteHashTable_loop {V : Type} (fn : WriteElementFn V) (ht : HashTable V) :
    Nat → Nat → File → Nat → Nat → Option (File × Nat)
  | 0, _, f, _, bucket_pos => some (f, bucket_pos)
  | n + 1, i, f, record_pos, bucket_pos =>
    let bucket := ht.chain i
    let num_elems := LinkedList_NumElements bucket
    let f := (WriteHTBucketRecord f record_pos num_elems bucket_pos).1
    if num_elems > 0 then
      (WriteHTBucket fn f bucket_pos bucket).bind fun r =>
        let bucket_bytes := r.2
        WriteHashTable_loop fn ht n (i + 1) r.1 (record_pos + sizeof_BucketRecord)
          (bucket_pos + bucket_bytes)
    else
      WriteHashTable_loop fn ht n (i + 1) f (record_pos + sizeof_BucketRecord) bucket_pos

/-- `WriteHashTable`. -/
def WriteHashTable {V : Type} (fn : WriteElementFn V) (f : File) (offset : Nat)
    (ht : HashTable V) : Option (File × Nat) :=
  let f := pwrite f offset (be32 ht.num_buckets)
  let record_pos := offset + sizeof_BucketListHeader
  let bucket_pos := offset + sizeof_BucketListHeader + ht.num_buckets * sizeof_BucketRecord
  (WriteHashTable_loop fn ht ht.num_buckets 0 f record_pos bucket_pos).map fun r =>
    (r.1, r.2 - offset)

/-- The value of an `int16_t` that a length is stored in, when it is
positive; `none` when it is zero or negative. An `fwrite(ptr, size, 1, f)`
with this `size` returns 0 when the size is 0, and cannot write the
`size_t` a negative size converts to. -/
def int16_size (len : Nat) : Option Nat :=
  if len % 2 ^ 16 = 0 ∨ 2 ^ 15 ≤ len % 2 ^ 16 then none else some (len % 2 ^ 16)

/-- `WriteDocidToDocnameFn`. The header is written, then `file_name_bytes`
bytes of the name behind it; the function returns `kFailedWrite` when the
`fwrite` of the name does not return 1. -/
def WriteDocidToDocnameFn : WriteElementFn CString := fun f offset kv =>
  let doc_name := kv.value
  match int16_size doc_name.length with
  | none => none
  | some file_name_bytes =>
    let f := pwrite f offset (be64 kv.key ++ be16 file_name_bytes)
    let f := pwrite f (offset + sizeof_DoctableElementHeader) (doc_name.take file_name_bytes)
    some (f, sizeof_DoctableElementHeader + file_name_bytes)

/-- The loop of `WriteDocIDToPositionListFn` over the positions. -/
def WriteDocIDToPositionListFn_loop : List Nat → File → Nat → File
  | [], f, _ => f
  | pos :: rest, f, offset =>
    WriteDocIDToPositionListFn_loop rest (pwrite f offset (be32 pos)) (offset + 4)

/-- `WriteDocIDToPositionListFn`. -/
def WriteDocIDToPositionListFn : WriteElementFn (LinkedList Nat) := fun f offset kv =>
  let doc_id := kv.key
  let positions := kv.value
  let num_positions := LinkedList_NumElements positions
  let f := pwrite f offset (be64 doc_id ++ be32 num_positions)
  let offset := offset + sizeof_DocIDElementHeader
  let f := WriteDocIDToPositionListFn_loop positions f offset
  some (f, sizeof_DocIDElementHeader + num_positions * 4)

/-- `WriteWordToPostingsFn`. The nested table is written first, behind the
place of the header and the word; then the header; then `word_bytes` bytes of
the word. When `word_bytes` is not positive the `fwrite` of the word does not
return 1 and the function returns `kFailedWrite` whatever was written
before, which is decided first here. -/
def WriteWordToPostingsFn : WriteElementFn WordPostings := fun f offset kv =>
  let wp := kv.value
  let word := wp.word
  match int16_size word.length with
  | none => none
  | some word_bytes =>
    (WriteHashTable WriteDocIDToPositionListFn f
        (offset + sizeof_WordPostingsHeader + word_bytes) wp.postings).bind fun r =>
      let ht_bytes := r.2
      let f := pwrite r.1 offset (be16 word_bytes ++ be32 ht_bytes)
      let f := pwrite f (offset + sizeof_WordPostingsHeader) (word.take word_bytes)
      some (f, sizeof_WordPostingsHeader + word_bytes + ht_bytes)

/-- `DT_GetIDToNameTable`. -/
def DT_GetIDToNameTable (table : DocTable) : HashTable CString := table.id_to_name

/-- `WriteDocTable`. -/
def WriteDocTable (f : File) (dt : DocTable) (offset : Nat) : Option (File × Nat) :=
  WriteHashTable WriteDocidToDocnameFn f offset (DT_GetIDToNameTable dt)

/-- `WriteMemIndex`. -/
def WriteMemIndex (f : File) (mi : MemIndex) (offset : Nat) : Option (File × Nat) :=
  WriteHashTable WriteWordToPostingsFn f offset mi

/-- `CalcChecksumOver`: the checksum `crc` of the bytes of the two tables,
read back from the file, as a `uint32_t`; `kFailedWrite` converted to
`uint32_t` on a short read. The class `CRC32` is not among the sources and is
the parameter `crc`. -/
def CalcChecksumOver (crc : List Nat → Nat) (f : File) (doctable_bytes memidx_bytes : Nat) :
    Nat :=
  let sum_bytes := doctable_bytes + memidx_bytes
  if sizeof_IndexFileHeader + sum_bytes ≤ f.length then
    crc ((f.drop sizeof_IndexFileHeader).take sum_bytes) % 2 ^ 32
  else 2 ^ 32 - 1

/-- `WriteHeader`; the constant `kMagicNumber` of `LayoutStructs.h` is a
parameter. -/
def WriteHeader (kMagicNumber : Nat) (crc : List Nat → Nat) (f : File)
    (doctable_bytes memidx_bytes : Nat) : File :=
  let checksum := CalcChecksumOver crc f doctable_bytes memidx_bytes
  pwrite f 0 (be32 kMagicNumber ++ be32 checksum ++ be32 doctable_bytes ++ be32 memidx_bytes)

/-- `WriteIndex`: the bytes of the file and the total written, or `none` for
`kFailedWrite` (the file is then unlinked). -/
def WriteIndex (kMagicNumber : Nat) (crc : List Nat → Nat) (mi : MemIndex) (dt : DocTable) :
    Option (File × Nat) :=
  let f : File := []
  let cur_pos := sizeof_IndexFileHeader
  (WriteDocTable f dt cur_pos).bind fun r1 =>
    let dt_bytes := r1.2
    let cur_pos := cur_pos + dt_bytes
    (WriteMemIndex r1.1 mi cur_pos).bind fun r2 =>
      let mi_bytes := r2.2
      let cur_pos := cur_pos + mi_bytes
      let f := WriteHeader kMagicNumber crc r2.1 dt_bytes mi_bytes
      some (f, cur_pos)

/-! ## The readers of the index file -/

/-- Modelled from the spec: a read of `n` bytes at `offset`; `none` is a
short read. The readers are not among the sources. -/
def readBytes (f : File) (offset n : Nat) : Option (List Nat) :=
  if offset + n ≤ f.length then some ((f.drop offset).take n) else none

/-- The value of a field in network order. -/
def fromBE (bs : List Nat) : Nat := bs.foldl (fun a b => a * 256 + b) 0

/-- Modelled from the spec: a read of an `n`-byte integer field. -/
def readInt (f : File) (offset n : Nat) : Option Nat :=
  (readBytes f offset n).map fromBE

/-- Modelled from the spec: a read of `n` consecutive 32-bit fields
(element position records, or positions). -/
def readInts (f : File) : Nat → Nat → Option (List Nat)
  | _, 0 => some []
  | offset, n + 1 =>
    (readInt f offset 4).bind fun x => (readInts f (offset + 4) n).map fun xs => x :: xs

/-- Modelled from the spec: the elements at the given positions are parsed
in turn by the content-specific parser, which decides whether the key
matches; the outer `none` of the parser is a short read. -/
def lookupFirst {α : Type} (parse : Nat → Option (Option α)) : List Nat → Option α
  | [] => none
  | p :: ps =>
    match parse p with
    | none => none
    | some (some v) => some v
    | some none => lookupFirst parse ps

/-- Modelled from the spec: the generic `HashTableReader` on the table at
`offset`, looking `key` up: `bucket = key mod num_buckets`, the bucket record
gives `(chain_len, bucket_offset)`, not found when `chain_len = 0`, else the
`chain_len` element position records at `bucket_offset` are read and the
elements parsed. -/
def HashTableReader_lookup {α : Type} (f : File) (offset : Nat)
    (parse : Nat → Option (Option α)) (key : Nat) : Option α :=
  (readInt f offset 4).bind fun num_buckets =>
    if num_buckets = 0 then none
    else
      let bucket := key % num_buckets
      let rec_pos := offset + sizeof_BucketListHeader + sizeof_BucketRecord * bucket
      (readInt f rec_pos 4).bind fun chain_len =>
        (readInt f (rec_pos + 4) 4).bind fun bucket_offset =>
          if chain_len = 0 then none
          else (readInts f bucket_offset chain_len).bind fun ps => lookupFirst parse ps

/-- Modelled from the spec: the `DocTableReader` parses an element as
`(doc-id u64, name-length i16, name bytes)`. -/
def DocTableReader_parse (f : File) (doc_id : DocID_t) (p : Nat) : Option (Option CString) :=
  (readInt f p 8).bind fun d =>
    (readInt f (p + 8) 2).bind fun len =>
      if 2 ^ 15 ≤ len then none
      else (readBytes f (p + 10) len).map fun name => if d = doc_id then some name else none

/-- Modelled from the spec: `DocTableReader.LookupDocID` on the table at
`offset`. -/
def DocTableReader_LookupDocID (f : File) (offset : Nat) (doc_id : DocID_t) : Option CString :=
  HashTableReader_lookup f offset (DocTableReader_parse f doc_id) doc_id

/-- Modelled from the spec: the `DocIDTableReader` parses an element as
`(doc-id u64, n-positions i32, positions i32 × n)`. -/
def DocIDTableReader_parse (f : File) (doc_id : DocID_t) (p : Nat) :
    Option (Option (List Nat)) :=
  (readInt f p 8).bind fun d =>
    (readInt f (p + 8) 4).bind fun n =>
      (readInts f (p + 12) n).map fun positions => if d = doc_id then some positions else none

/-- Modelled from the spec: `DocIDTableReader.LookupDocID` on the nested
table at `offset`. -/
def DocIDTableReader_LookupDocID (f : File) (offset : Nat) (doc_id : DocID_t) :
    Option (List Nat) :=
  HashTableReader_lookup f offset (DocIDTableReader_parse f doc_id) doc_id

/-- Modelled from the spec: the `IndexTableReader` parses an element as
`(word-length i16, ht-length i32, word bytes, inner-table)`; the result for
a matching word is the offset of the inner table. -/
def IndexTableReader_parse (f : File) (word : CString) (p : Nat) : Option (Option Nat) :=
  (readInt f p 2).bind fun len =>
    (readInt f (p + 2) 4).bind fun _ =>
      if 2 ^ 15 ≤ len then none
      else (readBytes f (p + 6) len).map fun w => if w = word then some (p + 6 + len) else none

/-- Modelled from the spec: `IndexTableReader.LookupWord` on the table at
`offset`; the `DocIDTableReader` returned is given by the offset of its
table. -/
def IndexTableReader_LookupWord (f : File) (offset : Nat) (word : CString) : Option Nat :=
  HashTableReader_lookup f offset (IndexTableReader_parse f word) (FNVHash64 word)

/-- Modelled from the spec: the `FileIndexReader` reads the header and
validates it: the magic number matches and, with `validate`, the checksum of
the two regions is the one of the header. The result is the pair of the
offsets of the doc table and of the index table. -/
def FileIndexReader_open (kMagicNumber : Nat) (crc : List Nat → Nat) (f : File)
    (validate : Bool) : Option (Nat × Nat) :=
  (readInt f 0 4).bind fun magic =>
    (readInt f 4 4).bind fun checksum =>
      (readInt f 8 4).bind fun doctable_bytes =>
        (readInt f 12 4).bind fun memindex_bytes =>
          if magic ≠ kMagicNumber then none
          else
            (readBytes f sizeof_IndexFileHeader (doctable_bytes + memindex_bytes)).bind
              fun region =>
                if validate = true ∧ crc region % 2 ^ 32 ≠ checksum then none
                else some (sizeof_IndexFileHeader,
                  sizeof_IndexFileHeader + doctable_bytes)

/-- Modelled from the spec: `R.DocTable.LookupDocID(d)` on a file. -/
def Reader_LookupDocName (kMagicNumber : Nat) (crc : List Nat → Nat) (f : File)
    (validate : Bool) (doc_id : DocID_t) : Option CString :=
  (FileIndexReader_open kMagicNumber crc f validate).bind fun r =>
    DocTableReader_LookupDocID f r.1 doc_id

/-- Modelled from the spec: `R.LookupWord(w).LookupDocID(d)` on a file. -/
def Reader_LookupPositions (kMagicNumber : Nat) (crc : List Nat → Nat) (f : File)
    (validate : Bool) (word : CString) (doc_id : DocID_t) : Option (List Nat) :=
  (FileIndexReader_open kMagicNumber crc f validate).bind fun r =>
    (IndexTableReader_LookupWord f r.2 word).bind fun inner =>
      DocIDTableReader_LookupDocID f inner doc_id
/-! ## WriteIndex.cc with file operations that can fail -/

/-- The outcome of the file operations of a run of `WriteIndex`: whether
`fopen` succeeds, whether the `fseek` to an offset succeeds, whether the
`fwrite` at a file position writes its element, and whether the `fread` at a
file position reads all the bytes asked for. -/
structure FileOps where
  fopen_ok : Bool
  fseek_ok : Nat → Bool
  fwrite_ok : Nat → Bool
  fread_ok : Nat → Bool

/-- The constant `kFailedWrite`. -/
def kFailedWrite : Int := -1

/-- A call of `fwrite` at the file position `pos`; `none` when it does not
return 1. -/
def fwrite_at (ops : FileOps) (f : File) (pos : Nat) (data : List Nat) : Option File :=
  if ops.fwrite_ok pos then some (pwrite f pos data) else none

/-- A call of `fseek(f, offset, SEEK_SET)` followed by an `fwrite`; `none`
when one of them fails. -/
def fseek_fwrite (ops : FileOps) (f : File) (offset : Nat) (data : List Nat) : Option File :=
  if ops.fseek_ok offset then fwrite_at ops f offset data else none

/-- `WriteHTBucketRecord`, with file operations that can fail. -/
def WriteHTBucketRecord_io (ops : FileOps) (f : File) (offset : Nat) (num_elts : Nat)
    (bucket_offset : Nat) : Option (File × Nat) :=
  (fseek_fwrite ops f offset (be32 num_elts ++ be32 bucket_offset)).map fun f =>
    (f, sizeof_BucketRecord)

/-- The loop of `WriteHTBucket`, with file operations that can fail. -/
def WriteHTBucket_loop_io {V : Type} (ops : FileOps) (fn : WriteElementFn V) :
    List (HTKeyValue_t V) → File → Nat → Nat → Option (File × Nat)
  | [], f, _, element_pos => some (f, element_pos)
  | payload :: rest, f, record_pos, element_pos =>
    (fseek_fwrite ops f record_pos (be32 element_pos)).bind fun f =>
      (fn f element_pos payload).bind fun r =>
        let elem_bytes := r.2
        WriteHTBucket_loop_io ops fn rest r.1 (record_pos + sizeof_ElementPositionRecord)
          (element_pos + elem_bytes)

/-- `WriteHTBucket`, with file operations that can fail. -/
def WriteHTBucket_io {V : Type} (ops : FileOps) (fn : WriteElementFn V) (f : File)
    (offset : Nat) (li : LinkedList (HTKeyValue_t V)) : Option (File × Nat) :=
  let num_elts := LinkedList_NumElements li
  if num_elts = 0 then some (f, 0)
  else
    let record_pos := offset
    let element_pos := offset + sizeof_ElementPositionRecord * num_elts
    (WriteHTBucket_loop_io ops fn li f record_pos element_pos).map fun r => (r.1, r.2 - offset)

/-- The loop over the buckets of `WriteHashTable`, with file operations that
can fail. -/
def WriteHashTable_loop_io {V : Type} (ops : FileOps) (fn : WriteElementFn V)
    (ht : HashTable V) : Nat → Nat → File → Nat → Nat → Option (File × Nat)
  | 0, _, f, _, bucket_pos => some (f, bucket_pos)
  | n + 1, i, f, record_pos, bucket_pos =>
    let bucket := ht.chain i
    let num_elems := LinkedList_NumElements bucket
    (WriteHTBucketRecord_io ops f record_pos num_elems bucket_pos).bind fun r0 =>
      if num_elems > 0 then
        (WriteHTBucket_io ops fn r0.1 bucket_pos bucket).bind fun r =>
          let bucket_bytes := r.2
          WriteHashTable_loop_io ops fn ht n (i + 1) r.1 (record_pos + sizeof_BucketRecord)
            (bucket_pos + bucket_bytes)
      else
        WriteHashTable_loop_io ops fn ht n (i + 1) r0.1 (record_pos + sizeof_BucketRecord)
          bucket_pos

/-- `WriteHashTable`, with file operations that can fail. -/
def WriteHashTable_io {V : Type} (ops : FileOps) (fn : WriteElementFn V) (f : File)
    (offset : Nat) (ht : HashTable V) : Option (File × Nat) :=
  (fseek_fwrite ops f offset (be32 ht.num_buckets)).bind fun f =>
    let record_pos := offset + sizeof_BucketListHeader
    let bucket_pos := offset + sizeof_BucketListHeader + ht.num_buckets * sizeof_BucketRecord
    (WriteHashTable_loop_io ops fn ht ht.num_buckets 0 f record_pos bucket_pos).map fun r =>
      (r.1, r.2 - offset)

/-- `WriteDocidToDocnameFn`, with file operations that can fail. -/
def WriteDocidToDocnameFn_io (ops : FileOps) : WriteElementFn CString := fun f offset kv =>
  let doc_name := kv.value
  match int16_size doc_name.length with
  | none => none
  | some file_name_bytes =>
    (fseek_fwrite ops f offset (be64 kv.key ++ be16 file_name_bytes)).bind fun f =>
      (fwrite_at ops f (offset + sizeof_DoctableElementHeader)
        (doc_name.take file_name_bytes)).map fun f =>
          (f, sizeof_DoctableElementHeader + file_name_bytes)

/-- The loop of `WriteDocIDToPositionListFn`, with file operations that can
fail. -/
def WriteDocIDToPositionListFn_loop_io (ops : FileOps) : List Nat → File → Nat → Option File
  | [], f, _ => some f
  | pos :: rest, f, offset =>
    (fseek_fwrite ops f offset (be32 pos)).bind fun f =>
      WriteDocIDToPositionListFn_loop_io ops rest f (offset + 4)

/-- `WriteDocIDToPositionListFn`, with file operations that can fail. -/
def WriteDocIDToPositionListFn_io (ops : FileOps) : WriteElementFn (LinkedList Nat) :=
  fun f offset kv =>
    let doc_id := kv.key
    let positions := kv.value
    let num_positions := LinkedList_NumElements positions
    (fseek_fwrite ops f offset (be64 doc_id ++ be32 num_positions)).bind fun f =>
      let offset := offset + sizeof_DocIDElementHeader
      (WriteDocIDToPositionListFn_loop_io ops positions f offset).map fun f =>
        (f, sizeof_DocIDElementHeader + num_positions * 4)

/-- `WriteWordToPostingsFn`, with file operations that can fail. -/
def WriteWordToPostingsFn_io (ops : FileOps) : WriteElementFn WordPostings :=
  fun f offset kv =>
    let wp := kv.value
    let word := wp.word
    match int16_size word.length with
    | none => none
    | some word_bytes =>
      (WriteHashTable_io ops (WriteDocIDToPositionListFn_io ops) f
          (offset + sizeof_WordPostingsHeader + word_bytes) wp.postings).bind fun r =>
        let ht_bytes := r.2
        (fseek_fwrite ops r.1 offset (be16 word_bytes ++ be32 ht_bytes)).bind fun f =>
          (fwrite_at ops f (offset + sizeof_WordPostingsHeader) (word.take word_bytes)).map
            fun f => (f, sizeof_WordPostingsHeader + word_bytes + ht_bytes)

/-- `WriteDocTable`, with file operations that can fail. -/
def WriteDocTable_io (ops : FileOps) (f : File) (dt : DocTable) (offset : Nat) :
    Option (File × Nat) :=
  WriteHashTable_io ops (WriteDocidToDocnameFn_io ops) f offset (DT_GetIDToNameTable dt)

/-- `WriteMemIndex`, with file operations that can fail. -/
def WriteMemIndex_io (ops : FileOps) (f : File) (mi : MemIndex) (offset : Nat) :
    Option (File × Nat) :=
  WriteHashTable_io ops (WriteWordToPostingsFn_io ops) f offset mi

/-- The constant `BUF_SIZE` of `WriteIndex.cc`. -/
def BUF_SIZE : Nat := 1024

/-- `CalcChecksumOver`, with file operations that can fail: the function
returns `kFailedWrite`, converted to `uint32_t`, when its `fseek` fails or
when an `fread` of one of the chunks of `BUF_SIZE` bytes falls short. -/
def CalcChecksumOver_io (ops : FileOps) (crc : List Nat → Nat) (f : File)
    (doctable_bytes memidx_bytes : Nat) : Nat :=
  let sum_bytes := doctable_bytes + memidx_bytes
  if !ops.fseek_ok sizeof_IndexFileHeader then 2 ^ 32 - 1
  else if ((List.range ((sum_bytes + BUF_SIZE - 1) / BUF_SIZE)).all fun k =>
      ops.fread_ok (sizeof_IndexFileHeader + BUF_SIZE * k)) &&
      decide (sizeof_IndexFileHeader + sum_bytes ≤ f.length) then
    crc ((f.drop sizeof_IndexFileHeader).take sum_bytes) % 2 ^ 32
  else 2 ^ 32 - 1

/-- `WriteHeader`, with file operations that can fail: the file it leaves and
the value it returns. -/
def WriteHeader_io (ops : FileOps) (kMagicNumber : Nat) (crc : List Nat → Nat) (f : File)
    (doctable_bytes memidx_bytes : Nat) : File × Int :=
  let checksum := CalcChecksumOver_io ops crc f doctable_bytes memidx_bytes
  if !ops.fseek_ok 0 then (f, kFailedWrite)
  else
    match fseek_fwrite ops f 0
      (be32 kMagicNumber ++ be32 checksum ++ be32 doctable_bytes ++ be32 memidx_bytes) with
    | none => (f, kFailedWrite)
    | some f => (f, sizeof_IndexFileHeader)

/-- What a call of `WriteIndex` did: the value returned, whether the file
was closed and whether the output path was unlinked. -/
structure WriteIndexOutcome where
  ret : Int
  closed : Bool
  unlinked : Bool
deriving DecidableEq, Repr

/-- `failedCleanupFile`: `fclose`, `unlink`, return `kFailedWrite`. -/
def failedCleanupFile : WriteIndexOutcome :=
  { ret := kFailedWrite, closed := true, unlinked := true }

/-- `WriteIndex`, with file operations that can fail. The value that
`WriteHeader` returns is not looked at. -/
def WriteIndex_io (ops : FileOps) (kMagicNumber : Nat) (crc : List Nat → Nat) (mi : MemIndex)
    (dt : DocTable) : WriteIndexOutcome :=
  if !ops.fopen_ok then { ret := kFailedWrite, closed := false, unlinked := false }
  else
    let f : File := []
    let cur_pos := sizeof_IndexFileHeader
    match WriteDocTable_io ops f dt cur_pos with
    | none => failedCleanupFile
    | some r1 =>
      let dt_bytes := r1.2
      let cur_pos := cur_pos + dt_bytes
      match WriteMemIndex_io ops r1.1 mi cur_pos with
      | none => failedCleanupFile
      | some r2 =>
        let mi_bytes := r2.2
        let cur_pos := cur_pos + mi_bytes
        let _ := WriteHeader_io ops kMagicNumber crc r2.1 dt_bytes mi_bytes
        { ret := cur_pos, closed := true, unlinked := false }

/-- File operations that all succeed, except the `fwrite` at offset 0, which
is the one of the header. -/
def opsHeaderWriteFails : FileOps :=
  { fopen_ok := true, fseek_ok := fun _ => true, fwrite_ok := fun p => decide (p ≠ 0),
    fread_ok := fun _ => true }

/-- File operations that all succeed, except the `fread` calls. -/
def opsReadFails : FileOps :=
  { fopen_ok := true, fseek_ok := fun _ => true, fwrite_ok := fun _ => true,
    fread_ok := fun _ => false }

/-- File operations that all succeed, except the `fwrite` at offset 16, the
first one of the doc table. -/
def opsTableWriteFails : FileOps :=
  { fopen_ok := true, fseek_ok := fun _ => true, fwrite_ok := fun p => decide (p ≠ 16),
    fread_ok := fun _ => true }

/-! ## http333d.cc -/

/-- `isspace` of `<ctype.h>` in the C locale. -/
def isspace (c : Nat) : Bool :=
  c == 32 || (9 ≤ c && c ≤ 13)

/-- `isdigit` of `<ctype.h>`. -/
def isdigit (c : Nat) : Bool :=
  48 ≤ c && c ≤ 57

/-- The value of a run of decimal digits, continuing from `acc`. -/
def strtol_digits (acc : Nat) : List Nat → Nat
  | [] => acc
  | d :: rest => strtol_digits (acc * 10 + (d - 48)) rest

/-- `strtol(nptr, &endptr, 10)` of `<cstdlib>` with a `long` of 64 bits:
white space is skipped, then an optional sign and the longest run of decimal
digits are converted; a value out of the range of `long` is clamped to
`LONG_MAX` or `LONG_MIN`. Without a digit nothing is converted: the value is
0 and `endptr` is `nptr`. Returns the value and `endptr` as an offset into
the string. -/
def strtol (nptr : CString) : Int × Nat :=
  let ws := nptr.takeWhile isspace
  let s1 := nptr.drop ws.length
  let negative := s1.head? = some 45
  let sign_len := if s1.head? = some 45 ∨ s1.head? = some 43 then 1 else 0
  let s2 := s1.drop sign_len
  let digits := s2.takeWhile isdigit
  if digits.isEmpty then (0, 0)
  else
    let magnitude := strtol_digits 0 digits
    let value : Int :=
      if negative then (if magnitude > 2 ^ 63 then -(2 ^ 63 : Int) else -(magnitude : Int))
      else (if magnitude > 2 ^ 63 - 1 then (2 ^ 63 - 1 : Int) else (magnitude : Int))
    (value, ws.length + sign_len + digits.length)

/-- `GetPort` of `http333d.cc`: the result and the value of `*port` after
the call (`port` is its value before). The `long` that `strtol` returns is
cast to `uint16_t` before it is compared with the bounds. -/
def GetPort (port_str : CString) (port : Nat) : Bool × Nat :=
  let r := strtol port_str
  let str_end := r.2
  let port_num := (r.1 % 2 ^ 16).toNat
  if port_str.getD str_end 0 ≠ 0 ∨ port_num < 1024 ∨ port_num > 65535 then (false, port)
  else (true, port_num)

/-! ## WriteIndex.cc as a sequence of file operations -/

/-- A file operation of `WriteIndex.cc` on its one `FILE*`, in a run in which
every operation succeeds: `fopen(file_name, "wb+")`, `fseek(f, offset,
SEEK_SET)`, an `fwrite` of the bytes `data`, an `fread` that reads `count`
bytes, `fsync(fileno(f))` and `fclose(f)`. -/
inductive FileOp where
  | fopen
  | fseek (offset : Nat)
  | fwrite (data : List Nat)
  | fread (count : Nat)
  | fsync
  | fclose
deriving DecidableEq, Repr

/-- The state of the `FILE*`: the bytes of the file and the file position. -/
structure FileState where
  content : File
  pos : Nat
deriving DecidableEq, Repr

/-- What one file operation does to the state of the file: `fopen` with
`"wb+"` creates or truncates, `fseek` moves the position, `fwrite` puts its
bytes at the position (a gap behind the end reads as zero bytes) and moves
the position behind them, `fread` moves the position; `fsync` and `fclose`
leave the bytes as they are. -/
def FileOp.run (op : FileOp) (s : FileState) : FileState :=
  match op with
  | .fopen => { content := [], pos := 0 }
  | .fseek offset => { s with pos := offset }
  | .fwrite data => { content := pwrite s.content s.pos data, pos := s.pos + data.length }
  | .fread count => { s with pos := s.pos + count }
  | .fsync => s
  | .fclose => s

/-- The state after a sequence of file operations. -/
def runOps (ops : List FileOp) (s : FileState) : FileState :=
  ops.foldl (fun s op => op.run s) s

/-- The type of a `WriteElementFn` as a producer of file operations: the
operations of the call at the offset and the number of bytes it returns, or
`none` for `kFailedWrite`. -/
abbrev WriteElementOps (V : Type) := Nat → HTKeyValue_t V → Option (List FileOp × Nat)

/-- The file operations of `WriteHTBucketRecord`. -/
def WriteHTBucketRecord_ops (offset : Nat) (num_elts : Nat) (bucket_offset : Nat) :
    List FileOp × Nat :=
  ([.fseek offset, .fwrite (be32 num_elts ++ be32 bucket_offset)], sizeof_BucketRecord)

/-- The file operations of the loop of `WriteHTBucket` and the final
`element_pos`. -/
def WriteHTBucket_loop_ops {V : Type} (fn : WriteElementOps V) :
    List (HTKeyValue_t V) → Nat → Nat → Option (List FileOp × Nat)
  | [], _, element_pos => some ([], element_pos)
  | payload :: rest, record_pos, element_pos =>
    (fn element_pos payload).bind fun r =>
      let elem_bytes := r.2
      (WriteHTBucket_loop_ops fn rest (record_pos + sizeof_ElementPositionRecord)
          (element_pos + elem_bytes)).map fun r2 =>
        ([.fseek record_pos, .fwrite (be32 element_pos)] ++ r.1 ++ r2.1, r2.2)

/-- The file operations of `WriteHTBucket`. -/
def WriteHTBucket_ops {V : Type} (fn : WriteElementOps V) (offset : Nat)
    (li : LinkedList (HTKeyValue_t V)) : Option (List FileOp × Nat) :=
  let num_elts := LinkedList_NumElements li
  if num_elts = 0 then some ([], 0)
  else
    let record_pos := offset
    let element_pos := offset + sizeof_ElementPositionRecord * num_elts
    (WriteHTBucket_loop_ops fn li record_pos element_pos).map fun r => (r.1, r.2 - offset)

/-- The file operations of the loop over the buckets of `WriteHashTable` and
the final `bucket_pos`. -/
def WriteHashTable_loop_ops {V : Type} (fn : WriteElementOps V) (ht : HashTable V) :
    Nat → Nat → Nat → Nat → Option (List FileOp × Nat)
  | 0, _, _, bucket_pos => some ([], bucket_pos)
  | n + 1, i, record_pos, bucket_pos =>
    let bucket := ht.chain i
    let num_elems := LinkedList_NumElements bucket
    let r0 := WriteHTBucketRecord_ops record_pos num_elems bucket_pos
    if num_elems > 0 then
      (WriteHTBucket_ops fn bucket_pos bucket).bind fun r =>
        let bucket_bytes := r.2
        (WriteHashTable_loop_ops fn ht n (i + 1) (record_pos + sizeof_BucketRecord)
            (bucket_pos + bucket_bytes)).map fun r2 => (r0.1 ++ r.1 ++ r2.1, r2.2)
    else
      (WriteHashTable_loop_ops fn ht n (i + 1) (record_pos + sizeof_BucketRecord)
          bucket_pos).map fun r2 => (r0.1 ++ r2.1, r2.2)

/-- The file operations of `WriteHashTable`. -/
def WriteHashTable_ops {V : Type} (fn : WriteElementOps V) (offset : Nat) (ht : HashTable V) :
    Option (List FileOp × Nat) :=
  let record_pos := offset + sizeof_BucketListHeader
  let bucket_pos := offset + sizeof_BucketListHeader + ht.num_buckets * sizeof_BucketRecord
  (WriteHashTable_loop_ops fn ht ht.num_buckets 0 record_pos bucket_pos).map fun r =>
    ([.fseek offset, .fwrite (be32 ht.num_buckets)] ++ r.1, r.2 - offset)

/-- The file operations of `WriteDocidToDocnameFn`: the name is written
without a seek, behind the header. -/
def WriteDocidToDocnameFn_ops : WriteElementOps CString := fun offset kv =>
  let doc_name := kv.value
  match int16_size doc_name.length with
  | none => none
  | some file_name_bytes =>
    some ([.fseek offset, .fwrite (be64 kv.key ++ be16 file_name_bytes),
        .fwrite (doc_name.take file_name_bytes)],
      sizeof_DoctableElementHeader + file_name_bytes)

/-- The file operations of the loop of `WriteDocIDToPositionListFn`. -/
def WriteDocIDToPositionListFn_loop_ops : List Nat → Nat → List FileOp
  | [], _ => []
  | pos :: rest, offset =>
    [.fseek offset, .fwrite (be32 pos)] ++ WriteDocIDToPositionListFn_loop_ops rest (offset + 4)

/-- The file operations of `WriteDocIDToPositionListFn`. -/
def WriteDocIDToPositionListFn_ops : WriteElementOps (LinkedList Nat) := fun offset kv =>
  let doc_id := kv.key
  let positions := kv.value
  let num_positions := LinkedList_NumElements positions
  some ([.fseek offset, .fwrite (be64 doc_id ++ be32 num_positions)] ++
      WriteDocIDToPositionListFn_loop_ops positions (offset + sizeof_DocIDElementHeader),
    sizeof_DocIDElementHeader + num_positions * 4)

/-- The file operations of `WriteWordToPostingsFn`: the nested table first,
then the header at the offset, then the word without a seek. -/
def WriteWordToPostingsFn_ops : WriteElementOps WordPostings := fun offset kv =>
  let wp := kv.value
  let word := wp.word
  match int16_size word.length with
  | none => none
  | some word_bytes =>
    (WriteHashTable_ops WriteDocIDToPositionListFn_ops
        (offset + sizeof_WordPostingsHeader + word_bytes) wp.postings).bind fun r =>
      let ht_bytes := r.2
      some (r.1 ++ [.fseek offset, .fwrite (be16 word_bytes ++ be32 ht_bytes),
          .fwrite (word.take word_bytes)],
        sizeof_WordPostingsHeader + word_bytes + ht_bytes)

/-- The file operations of `WriteDocTable`. -/
def WriteDocTable_ops (dt : DocTable) (offset : Nat) : Option (List FileOp × Nat) :=
  WriteHashTable_ops WriteDocidToDocnameFn_ops offset (DT_GetIDToNameTable dt)

/-- The file operations of `WriteMemIndex`. -/
def WriteMemIndex_ops (mi : MemIndex) (offset : Nat) : Option (List FileOp × Nat) :=
  WriteHashTable_ops WriteWordToPostingsFn_ops offset mi

/-- The reads of the loop of `CalcChecksumOver`: chunks of at most `BUF_SIZE`
bytes while bytes remain; the first argument bounds the number of turns. -/
def CalcChecksumOver_reads : Nat → Nat → List FileOp
  | 0, _ => []
  | n + 1, remaining_bytes =>
    if remaining_bytes > 0 then
      let count := if remaining_bytes > BUF_SIZE then BUF_SIZE else remaining_bytes
      .fread count :: CalcChecksumOver_reads n (remaining_bytes - count)
    else []

/-- The file operations of `CalcChecksumOver`. -/
def CalcChecksumOver_ops (doctable_bytes memidx_bytes : Nat) : List FileOp :=
  let sum_bytes := doctable_bytes + memidx_bytes
  .fseek sizeof_IndexFileHeader :: CalcChecksumOver_reads sum_bytes sum_bytes

/-- The file operations of `WriteHeader` on the file `f`: those of the
checksum computation, the two `fseek(f, 0, SEEK_SET)`, the one `fwrite` of
the whole `IndexFileHeader`, and the `fsync`. -/
def WriteHeader_ops (kMagicNumber : Nat) (crc : List Nat → Nat) (f : File)
    (doctable_bytes memidx_bytes : Nat) : List FileOp :=
  let checksum := CalcChecksumOver crc f doctable_bytes memidx_bytes
  CalcChecksumOver_ops doctable_bytes memidx_bytes ++
    [.fseek 0, .fseek 0,
      .fwrite (be32 kMagicNumber ++ be32 checksum ++ be32 doctable_bytes ++ be32 memidx_bytes),
      .fsync]

/-- The file operations of a run of `WriteIndex` that succeeds, in order, and
the value returned; `none` for `kFailedWrite`. -/
def WriteIndex_ops (kMagicNumber : Nat) (crc : List Nat → Nat) (mi : MemIndex) (dt : DocTable) :
    Option (List FileOp × Nat) :=
  let cur_pos := sizeof_IndexFileHeader
  (WriteDocTable_ops dt cur_pos).bind fun r1 =>
    let dt_bytes := r1.2
    let cur_pos := cur_pos + dt_bytes
    (WriteMemIndex_ops mi cur_pos).bind fun r2 =>
      let mi_bytes := r2.2
      let cur_pos := cur_pos + mi_bytes
      let tables := FileOp.fopen :: (r1.1 ++ r2.1)
      let f := (runOps tables { content := [], pos := 0 }).content
      some (tables ++ WriteHeader_ops kMagicNumber crc f dt_bytes mi_bytes ++ [.fclose],
        cur_pos)

/-! ## Specification-level notions for the hash table -/

section
variable {V : Type}

/-- the test used by `Find`. -/
def keyIs (key : HTKey_t) (kv : HTKeyValue_t V) : Bool := decide (kv.key = key)

/-- The well-formed tables: the bucket array has `num_buckets > 0` chains,
every pair sits in the chain of `key % num_buckets`, no chain holds a key
twice, and `num_elements` does not exceed the number of nodes. -/
structure HashTable.WF (t : HashTable V) : Prop where
  pos : 0 < t.num_buckets
  len : t.buckets.length = t.num_buckets
  placed : ∀ i, ∀ kv ∈ t.chain i, kv.key % t.num_buckets = i
  nodup : ∀ i, ((t.chain i).map (fun kv => kv.key)).Nodup
  le : t.num_elements ≤ t.numNodes

/-- The table `HashTable_Insert_body` leaves behind. -/
def insertPure (t : HashTable V) (kv : HTKeyValue_t V) : HashTable V :=
  { num_buckets := t.num_buckets,
    num_elements :=
      if ((t.chain (kv.key % t.num_buckets)).find? (keyIs kv.key)).isSome
      then t.num_elements - 1 else t.num_elements + 1,
    buckets := t.buckets.set (kv.key % t.num_buckets)
      (kv :: (t.chain (kv.key % t.num_buckets)).eraseP (keyIs kv.key)) }

/-- The table `HashTable_Remove` leaves behind. -/
def removePure (t : HashTable V) (k : HTKey_t) : HashTable V :=
  if ((t.chain (k % t.num_buckets)).find? (keyIs k)).isSome then
    { num_buckets := t.num_buckets,
      num_elements := t.num_elements - 1,
      buckets := t.buckets.set (k % t.num_buckets)
        ((t.chain (k % t.num_buckets)).eraseP (keyIs k)) }
  else t

/-- The pairs of a table in the order its iterator yields them: bucket by
bucket, each chain from its head. -/
def HashTable.entries (t : HashTable V) : List (HTKeyValue_t V) :=
  (t.bucketsFrom 0).flatten

/-- The pairs an iterator has still to yield. -/
def HTIterator.remaining (it : HTIterator V) : List (HTKeyValue_t V) :=
  match it.bucket_it with
  | none => []
  | some li => li.node ++ (it.ht.bucketsFrom (it.bucket_idx + 1).toNat).flatten

/-- The invariant of `HTIterator`: a chain iterator, when there is one, is on
a node. -/
def HTIterator.Ok (it : HTIterator V) : Prop :=
  ∀ li, it.bucket_it = some li → li.node ≠ [] ∧ 0 ≤ it.bucket_idx

/-- The tables whose `num_elements` is the number of their nodes. -/
def HashTable.Exact (t : HashTable V) : Prop :=
  t.WF ∧ t.num_elements = t.numNodes

/-- The tables within the resize policy: `num_elements <= 3 * num_buckets`. -/
def HashTable.PB (t : HashTable V) : Prop :=
  t.num_elements ≤ 3 * t.num_buckets

/-- The behaviour of an insert function on the tables of `J i`, `i < N`, for
keys that are not in the table. -/
def InsertsFresh
    (insert : HashTable V → HTKeyValue_t V → Option (HashTable V × Option (HTKeyValue_t V)))
    (J : Nat → HashTable V → Prop) (N : Nat) : Prop :=
  ∀ i u kv, i < N → J i u → HashTable_Find u kv.key = none →
    ∃ u2, insert u kv = some (u2, none) ∧ J (i + 1) u2 ∧
      ∀ k, HashTable_Find u2 k = if k = kv.key then some kv else HashTable_Find u k

/-- One insert function extends another: what the first returns, the second
returns as well. -/
def InsertLe
    (i1 i2 : HashTable V → HTKeyValue_t V → Option (HashTable V × Option (HTKeyValue_t V))) :
    Prop :=
  ∀ u kv r, i1 u kv = some r → i2 u kv = some r

/-- The tables reachable from `HashTable_Allocate` by calls of
`HashTable_Insert` and `HashTable_Remove` that return. -/
inductive Reachable : HashTable V → Prop
  | alloc (n : Nat) (h : 0 < n) : Reachable (HashTable_Allocate n)
  | insert (fuel : Nat) (t t2 : HashTable V) (kv : HTKeyValue_t V)
      (old : Option (HTKeyValue_t V)) :
      Reachable t → HashTable_Insert fuel t kv = some (t2, old) → Reachable t2
  | remove (t t2 : HashTable V) (k : HTKey_t) (old : Option (HTKeyValue_t V)) :
      Reachable t → HashTable_Remove t k = some (t2, old) → Reachable t2

end

/-! ## Specification-level notions for the tokenizer -/

/-- `p` is the offset of the first byte of a maximal run of ASCII letters of
`c`: the byte at `p` is a letter and the byte in front of it, when there is
one, is not. -/
def runStart (c : List Nat) (p : Nat) : Bool :=
  isalpha (c.getD p 0) && (p == 0 || !isalpha (c.getD (p - 1) 0))

/-- The maximal run of ASCII letters of `c` that starts at offset `p`,
lowercased. -/
def runAt (c : List Nat) (p : Nat) : CString :=
  ((c.drop p).takeWhile isalpha).map tolower

/-- The tokens of `c` from offset `s` on: for every start of a maximal run of
letters, in increasing order, the lowercased run and its offset. -/
def specTokensFrom (c : List Nat) (s : Nat) : List (CString × Nat) :=
  ((List.range' s (c.length - s)).filter (runStart c)).map fun p => (runAt c p, p)

/-- The tokens of `c`. -/
def specTokens (c : List Nat) : List (CString × Nat) := specTokensFrom c 0

/-- The tokens `InsertContent` emits, as a function of the bytes still ahead,
the current offset, `word_start` and the word read so far. -/
def scan : List Nat → Nat → Nat → CString → List (CString × Nat)
  | [], _, word_start, word => if word ≠ [] then [(word, word_start)] else []
  | b :: rest, cur, word_start, word =>
    if isalpha b then scan rest (cur + 1) word_start (word ++ [tolower b])
    else (if word ≠ [] then [(word, word_start)] else []) ++ scan rest (cur + 1) (cur + 1) []

/-- The offsets the specification gives the word `w` in `c`: the starts of
the maximal runs of letters whose lowercased bytes are `w`, in increasing
order. -/
def specPositions (c : List Nat) (w : CString) : List Nat :=
  (List.range c.length).filter fun p => runStart c p && decide (runAt c p = w)

/-- `AddWordPosition` for each token of a list, in order. -/
def addTokens (fuel : Nat) : List (CString × Nat) → HashTable WordPositions →
    Option (HashTable WordPositions)
  | [], tab => some tab
  | t :: rest, tab =>
    (AddWordPosition fuel tab t.1 (t.2 % 2 ^ 32)).bind fun tab => addTokens fuel rest tab

/-- The tail call of `InsertContent` after its loop. -/
def InsertContent_finish (fuel : Nat)
    (r : Option (List Nat × Nat × HashTable WordPositions)) :
    Option (HashTable WordPositions) :=
  r.bind fun r => InsertContent_emit fuel r.2.2 r.1 r.2.1

/-- The offsets recorded for the word `w` by a list of tokens, in order, as
32-bit `DocPositionOffset_t` values. -/
def posOf (toks : List (CString × Nat)) (w : CString) : List Nat :=
  (toks.filter fun t => decide (t.1 = w)).map fun t => t.2 % 2 ^ 32

/-- No two distinct words of the tokens have the same `FNVHash64`. -/
def NoCollisionToks (toks : List (CString × Nat)) : Prop :=
  ∀ t1 ∈ toks, ∀ t2 ∈ toks, FNVHash64 t1.1 = FNVHash64 t2.1 → t1.1 = t2.1

/-- The first token whose word hashes to `k`. -/
def firstWithHash (toks : List (CString × Nat)) (k : HTKey_t) : Option (CString × Nat) :=
  toks.find? fun t => decide (FNVHash64 t.1 = k)

/-- The table of `WordPositions` that holds exactly the tokens `toks`. -/
def TokTable (tab : HashTable WordPositions) (toks : List (CString × Nat)) : Prop :=
  tab.Exact ∧ tab.PB ∧
    ∀ k, HashTable_Find tab k =
      (firstWithHash toks k).map fun t =>
        (⟨k, ⟨t.1, posOf toks t.1⟩⟩ : HTKeyValue_t WordPositions)

/-- The offsets a result of `ParseIntoWordPositionsTable` (NULL or a table)
holds for the word `w`: the positions list of the entry stored under the
hash of `w` when its stored word is `w`, else none. -/
def wordPositions (r : Option (HashTable WordPositions)) (w : CString) : List Nat :=
  match r with
  | none => []
  | some tab =>
    match HashTable_Find tab (FNVHash64 w) with
    | some kv => if kv.value.word = w then kv.value.positions else []
    | none => []

/-- No two distinct words of the content `c` have the same `FNVHash64`. -/
def NoCollision (c : List Nat) : Prop := NoCollisionToks (specTokens c)

instance (toks : List (CString × Nat)) : Decidable (NoCollisionToks toks) := by
  unfold NoCollisionToks
  infer_instance

instance (c : List Nat) : Decidable (NoCollision c) := by
  unfold NoCollision
  infer_instance

/-- The content of scenario S1. -/
def contentS1 : List Nat := bytes "The Fox CAN'T CATCH the Chicken."

/-- The word of fourteen lowercase letters with the given digits. -/
def letterWord (g : Fin 14 → Fin 26) : CString :=
  (List.ofFn g).map fun d => 97 + d.val

/-- The bytes of a buffer in front of its first NUL: the C string that the
buffer holds. -/
def beforeNul (c : List Nat) : CString := c.takeWhile fun b => b != 0

/-- The table `ParseIntoWordPositionsTable` returns for the content
`"a b a"`. -/
def tableABA : HashTable WordPositions :=
  { num_buckets := 2, num_elements := 2,
    buckets := [[⟨FNVHash64 (bytes "a"), ⟨bytes "a", [0, 4]⟩⟩],
      [⟨FNVHash64 (bytes "b"), ⟨bytes "b", [2]⟩⟩]] }

/-! ## Specification-level notions for the query processor -/

/-- The (document name, number of positions) pairs one index file lists for
the word `w`, in the order of its doc-id list. -/
def wordHits (r : IndexReaders) (w : CString) : List (CString × Nat) :=
  match r.LookupWord w with
  | none => []
  | some headers =>
    headers.filterMap fun h => (r.LookupDocID h.doc_id).map fun n => (n, h.num_positions)

/-- The (document name, number of positions) pairs all index files list for
the word `w`, file after file. -/
def allHits (readers : List IndexReaders) (w : CString) : List (CString × Nat) :=
  (readers.map fun r => wordHits r w).flatten

/-- Every doc-id of a doc-id list has a name in the doc table of its index
file. -/
def Resolves (readers : List IndexReaders) : Prop :=
  ∀ r ∈ readers, ∀ w headers, r.LookupWord w = some headers →
    ∀ h ∈ headers, (r.LookupDocID h.doc_id).isSome = true

/-- The occurrence count of the word `w` for the document `name`, summed over
all index files. -/
def occurrences (readers : List IndexReaders) (w : CString) (name : CString) : Nat :=
  (((allHits readers w).filter fun t => decide (t.1 = name)).map fun t => t.2).sum

/-- The document `name` contains the word `w` in at least one index file. -/
def containsWord (readers : List IndexReaders) (w : CString) (name : CString) : Prop :=
  name ∈ (allHits readers w).map fun t => t.1

/-- The result entry of a hit. -/
def hitResult (t : CString × Nat) : QueryResult :=
  { document_name := t.1, rank := t.2 }

/-- The effect of one hit on the state of `UpdateDocsForWord`. -/
def bumpHit (st : UpdateState) (t : CString × Nat) : UpdateState :=
  let r := UpdateDocsForWord_bump t.1 t.2 st.final_result
  if r.2 then
    { final_result := r.1, found_ith_word := true,
      results_with_ith_word := t.1 :: st.results_with_ith_word }
  else st

/-- The occurrence count a list of hits gives the document `name`. -/
def occIn (H : List (CString × Nat)) (name : CString) : Nat :=
  ((H.filter fun t => decide (t.1 = name)).map fun t => t.2).sum

/-- Raise the rank of a result. -/
def addRank (k : Nat) (r : QueryResult) : QueryResult :=
  { r with rank := r.rank + k }

/-- What `UpdateDocsForWord` makes of the results for the word `w`: the
results whose document has the word are kept, their rank raised by the
occurrence count. -/
def stepWord (readers : List IndexReaders) (w : CString) (R : List QueryResult) :
    List QueryResult :=
  (R.filter fun r => decide (r.document_name ∈ (allHits readers w).map fun t => t.1)).map
    fun r => addRank (occurrences readers w r.document_name) r

/-- The test of `LinkedList_Sort` that makes it swap two neighbours. -/
def sortSwaps {α : Type} (ascending : Bool) (comparator_function : α → α → Int) (a b : α) :
    Bool :=
  decide ((if ascending then wrapInt32 (wrapInt32 (comparator_function a b) * (-1))
    else wrapInt32 (comparator_function a b)) < 0)

/-- The number of pairs of a list (first component in front of the second)
that `LinkedList_Sort` would swap if they were neighbours. -/
def invCount {α : Type} (sw : α → α → Bool) : List α → Nat
  | [] => 0
  | a :: l => l.countP (sw a) + invCount sw l

/-- The `SearchResult` the first loop of `MemIndex_Search` makes of a pair of
the postings table. -/
def firstResult (kv : HTKeyValue_t (LinkedList Nat)) : SearchResult :=
  { doc_id := kv.key, rank := LinkedList_NumElements kv.value }

/-- What the filtering loop of `MemIndex_Search` makes of a result for the
postings table of a word: the rank is raised when the document has a
posting, the result is dropped when it has none. -/
def filterResult (T : HashTable (LinkedList Nat)) (r : SearchResult) : Option SearchResult :=
  (HashTable_Find T r.doc_id).map fun temp =>
    { r with rank := r.rank + LinkedList_NumElements temp.value }

/-- The arguments of one call of `MemIndex_AddPostingList`: the word, the
doc-id and the positions list. -/
abbrev Posting := CString × DocID_t × LinkedList Nat

/-- A run of `MemIndex_AddPostingList` calls, one per element of the list. -/
def buildIndex (fuel : Nat) : List Posting → MemIndex → Option MemIndex
  | [], index => some index
  | a :: rest, index =>
    (MemIndex_AddPostingList fuel index a.1 a.2.1 a.2.2).bind (buildIndex fuel rest)

/-- The positions list that the calls `adds` gave the word `w` for the
document `d`. -/
def postingOf (adds : List Posting) (w : CString) (d : DocID_t) : Option (LinkedList Nat) :=
  (adds.find? fun a => decide (a.1 = w ∧ a.2.1 = d)).map fun a => a.2.2

/-- The first call whose word hashes to `k`. -/
def firstAdd (adds : List Posting) (k : HTKey_t) : Option Posting :=
  adds.find? fun a => decide (FNVHash64 a.1 = k)

/-- The postings table `T` holds exactly the postings that `adds` gave the
word `w`. -/
def PostInv (T : HashTable (LinkedList Nat)) (adds : List Posting) (w : CString) : Prop :=
  T.Exact ∧ T.PB ∧
    ∀ d, HashTable_Find T d =
      (postingOf adds w d).map fun p => (⟨d, p⟩ : HTKeyValue_t (LinkedList Nat))

/-- The index holds exactly the postings of the calls `adds`. -/
def IndexInv (index : MemIndex) (adds : List Posting) : Prop :=
  index.Exact ∧ index.PB ∧
  (∀ a1 ∈ adds, ∀ a2 ∈ adds, FNVHash64 a1.1 = FNVHash64 a2.1 → a1.1 = a2.1) ∧
  ∀ k, (firstAdd adds k = none → HashTable_Find index k = none) ∧
    (∀ a, firstAdd adds k = some a →
      ∃ T, HashTable_Find index k = some ⟨k, ⟨a.1, T⟩⟩ ∧ PostInv T adds a.1)

/-- The document `d` has a posting for every word of `P`. -/
def qualifies (adds : List Posting) (P : List CString) (d : DocID_t) : Prop :=
  ∀ w ∈ P, (postingOf adds w d).isSome = true

/-- The sum, over the entries of `P`, of the length of the word's positions
list for the document `d`. -/
def rankOf (adds : List Posting) (P : List CString) (d : DocID_t) : Nat :=
  (P.map fun w => ((postingOf adds w d).getD []).length).sum

/-- The result list holds, once each, the documents that have every word of
`P`, with the rank of the specification. -/
def Good (adds : List Posting) (P : List CString) (R : List SearchResult) : Prop :=
  (R.map fun r => r.doc_id).Nodup ∧
    ∀ d r, (⟨d, r⟩ : SearchResult) ∈ R ↔ qualifies adds P d ∧ r = rankOf adds P d

/-- The positions list the index holds for the pair of the word `w` and the
doc-id `d`: the entry under the key `FNVHash64 w`, when its stored word is
`w`, is asked for `d`. -/
def MemIndex_posting (index : MemIndex) (w : CString) (d : DocID_t) :
    Option (LinkedList Nat) :=
  match HashTable_Find index (FNVHash64 w) with
  | none => none
  | some kv =>
    if kv.value.word = w then (HashTable_Find kv.value.postings d).map fun x => x.value
    else none
/-! ## Specification-level notions for the index file -/

/-- The file `g` holds the bytes `d` at `off`. -/
def Holds (g : File) (off : Nat) (d : List Nat) : Prop :=
  readBytes g off d.length = some d

/-- The file `g` reaches `hi` and has the bytes of `f` in `[lo, hi)`. -/
def Agree (f g : File) (lo hi : Nat) : Prop :=
  hi ≤ g.length ∧ ∀ i, lo ≤ i → i < hi → g.getD i 0 = f.getD i 0

/-- What a `WriteElementFn` does for the elements of `Q`, as long as the file
stays below `2^32` bytes: it changes the file only in the `n` bytes at the
offset it is given, and every file that has these `n` bytes there decodes
(`Dec`) to the element. -/
def ElemSpec {V : Type} (fn : WriteElementFn V) (Q : HTKeyValue_t V → Prop)
    (Dec : File → Nat → HTKeyValue_t V → Prop) : Prop :=
  ∀ f p kv f2 n, Q kv → fn f p kv = some (f2, n) → p + n < 2 ^ 32 →
    f.length ≤ f2.length ∧ p + n ≤ f2.length ∧
    (∀ i, (i < p ∨ p + n ≤ i) → f2.getD i 0 = f.getD i 0) ∧
    ∀ g, Agree f2 g p (p + n) → Dec g p kv

/-- The file `g` holds at `off` a table that decodes to `ht`: the number of
buckets, and for every bucket its record, the element position records the
record leads to, and elements that decode to the chain. -/
def TableDec {V : Type} (Dec : File → Nat → HTKeyValue_t V → Prop) (g : File) (off : Nat)
    (ht : HashTable V) : Prop :=
  readInt g off 4 = some ht.num_buckets ∧
  ∀ i, i < ht.num_buckets → ∃ bo ps,
    readInt g (off + 4 + 8 * i) 4 = some (ht.chain i).length ∧
    readInt g (off + 4 + 8 * i + 4) 4 = some bo ∧
    readInts g bo (ht.chain i).length = some ps ∧ List.Forall₂ (Dec g) ps (ht.chain i)

/-- A `WriteElementFn` that does not fail on the elements of `Q`. -/
def ElemTotal {V : Type} (fn : WriteElementFn V) (Q : HTKeyValue_t V → Prop) : Prop :=
  ∀ f p kv, Q kv → ∃ r, fn f p kv = some r

/-- The pairs of the doc table that the format can hold: a 64-bit doc-id and
a name of 1 to `2^15 - 1` bytes. -/
def DocQ (kv : HTKeyValue_t CString) : Prop :=
  kv.key < 2 ^ 64 ∧ 0 < kv.value.length ∧ kv.value.length < 2 ^ 15

/-- The file `g` holds at `p` the element of a pair of the doc table. -/
def DocDec (g : File) (p : Nat) (kv : HTKeyValue_t CString) : Prop :=
  readInt g p 8 = some kv.key ∧ readInt g (p + 8) 2 = some kv.value.length ∧
    readBytes g (p + 10) kv.value.length = some kv.value ∧ kv.value.length < 2 ^ 15

/-- The pairs of a postings table that the format can hold: a 64-bit doc-id
and 32-bit positions. -/
def PostQ (kv : HTKeyValue_t (LinkedList Nat)) : Prop :=
  kv.key < 2 ^ 64 ∧ ∀ x ∈ kv.value, x < 2 ^ 32

/-- The file `g` holds at `p` the element of a pair of a postings table. -/
def PostDec (g : File) (p : Nat) (kv : HTKeyValue_t (LinkedList Nat)) : Prop :=
  readInt g p 8 = some kv.key ∧ readInt g (p + 8) 4 = some kv.value.length ∧
    readInts g (p + 12) kv.value.length = some kv.value

/-- The pairs of the index that the format can hold: a word of 1 to
`2^15 - 1` bytes and a postings table of pairs it can hold. -/
def WordQ (kv : HTKeyValue_t WordPostings) : Prop :=
  0 < kv.value.word.length ∧ kv.value.word.length < 2 ^ 15 ∧
    ∀ j, ∀ e ∈ kv.value.postings.chain j, PostQ e

/-- The file `g` holds at `p` the element of a pair of the index. -/
def WordDec (g : File) (p : Nat) (kv : HTKeyValue_t WordPostings) : Prop :=
  readInt g p 2 = some kv.value.word.length ∧ (∃ x, readInt g (p + 2) 4 = some x) ∧
    readBytes g (p + 6) kv.value.word.length = some kv.value.word ∧
    TableDec PostDec g (p + 6 + kv.value.word.length) kv.value.postings ∧
    kv.value.word.length < 2 ^ 15

/-- A run of `DocTable_Add` calls, one per name of the list. -/
def buildDocTable (fuel : Nat) : List CString → DocTable → Option DocTable
  | [], table => some table
  | doc_name :: rest, table =>
    (DocTable_Add fuel table doc_name).bind fun r => buildDocTable fuel rest r.1

/-- The invariant of a doc table built from the names `seen`. -/
def DocInv (D : DocTable) (seen : List CString) : Prop :=
  D.id_to_name.WF ∧ D.name_to_id.WF ∧ D.max_id < 2 ^ 64 ∧
    ∀ k kv, HashTable_Find D.id_to_name k = some kv → kv.key < 2 ^ 64 ∧ kv.value ∈ seen

/-- What the layout asks of a `WriteElementFn`: the element it serializes
takes `sz kv` bytes, and the call changes the file only in these bytes at the
offset it is given. -/
def ElemLayout {V : Type} (fn : WriteElementFn V) (sz : HTKeyValue_t V → Nat) : Prop :=
  ∀ f p kv f2 n, fn f p kv = some (f2, n) →
    n = sz kv ∧ f.length ≤ f2.length ∧ p + n ≤ f2.length ∧
    ∀ i, (i < p ∨ p + n ≤ i) → f2.getD i 0 = f.getD i 0

/-- The file `g` holds at `p` the element `kv` as `fn` serializes it: the
`sz kv` bytes at `p` are those a call of `fn` at `p` wrote. -/
def ElemAt {V : Type} (fn : WriteElementFn V) (sz : HTKeyValue_t V → Nat) (g : File) (p : Nat)
    (kv : HTKeyValue_t V) : Prop :=
  ∃ fa fb, fn fa p kv = some (fb, sz kv) ∧ p + sz kv ≤ g.length ∧
    ∀ x, p ≤ x → x < p + sz kv → g.getD x 0 = fb.getD x 0

/-- Following the spec: in a bucket that starts at `bucket_offset`, the
element position records come first, then the elements in chain order; the
offset at which the `j`-th element begins. -/
def specElementOffset {V : Type} (sz : HTKeyValue_t V → Nat) (bucket_offset : Nat)
    (li : List (HTKeyValue_t V)) (j : Nat) : Nat :=
  bucket_offset + 4 * li.length + ((li.take j).map sz).sum

/-- Following the spec: the bytes of a bucket, its element position records
and its elements (none for an empty chain). -/
def specBucketBytes {V : Type} (sz : HTKeyValue_t V → Nat) (li : List (HTKeyValue_t V)) : Nat :=
  4 * li.length + (li.map sz).sum

/-- Following the spec: the bytes of the `n` buckets from bucket `i` on. -/
def specBucketsBytes {V : Type} (sz : HTKeyValue_t V → Nat) (ht : HashTable V) :
    Nat → Nat → Nat
  | _, 0 => 0
  | i, n + 1 => specBucketBytes sz (ht.chain i) + specBucketsBytes sz ht (i + 1) n

/-- Following the spec: the table at `offset` is the 4-byte number of
buckets, the 8-byte bucket records, then the buckets in bucket order; the
offset at which the data of bucket `i` begins. -/
def specBucketOffset {V : Type} (sz : HTKeyValue_t V → Nat) (offset : Nat) (ht : HashTable V)
    (i : Nat) : Nat :=
  offset + 4 + 8 * ht.num_buckets + specBucketsBytes sz ht 0 i

/-- A `WriteElementFn` and its producer of file operations agree: the
operations, run on any file from any position, leave the bytes the function
leaves, and the two return the same. -/
def ElemLink {V : Type} (fn : WriteElementFn V) (fn_ops : WriteElementOps V) : Prop :=
  ∀ (f : File) (pos p : Nat) (kv : HTKeyValue_t V),
    (fn_ops p kv).map (fun r => ((runOps r.1 ⟨f, pos⟩).content, r.2)) = fn f p kv

/-- The operations of the table writers: a seek to an offset that is at
least `lo`, or a write. -/
def FileOp.tableOp (lo : Nat) : FileOp → Bool
  | .fseek o => decide (lo ≤ o)
  | .fwrite _ => true
  | _ => false

/-- The operations that leave the bytes of the file as they are. -/
def FileOp.readOnly : FileOp → Bool
  | .fwrite _ => false
  | .fopen => false
  | _ => true

/-- The operations of the checksum computation: a seek or a read. -/
def FileOp.seekRead : FileOp → Bool
  | .fseek _ => true
  | .fread _ => true
  | _ => false

/-- The first `lo` bytes of the file, as far as it has them, are zero. -/
def LowZero (lo : Nat) (f : File) : Prop := ∀ i, i < lo → f.getD i 0 = 0

/-- The operations a `WriteElementFn` performs at an offset that is at least
`lo` are seeks to offsets that are at least `lo`, and writes. -/
def ElemAbove {V : Type} (fn_ops : WriteElementOps V) (lo : Nat) : Prop :=
  ∀ p kv ops n, lo ≤ p → fn_ops p kv = some (ops, n) → ∀ op ∈ ops, FileOp.tableOp lo op = true

/-- The invariant of the doc-ids of a doc table: both tables are well-formed,
no id from `max_id` on is in `id_to_name`, and `name_to_id` holds no key
other than 0. -/
def DocIds (D : DocTable) : Prop :=
  D.id_to_name.WF ∧ D.name_to_id.WF ∧ 1 ≤ D.max_id ∧
    (∀ k, D.max_id ≤ k → HashTable_Find D.id_to_name k = none) ∧
    ∀ k, k ≠ 0 → HashTable_Find D.name_to_id k = none
/-! ## The sizes of the serialized elements -/

/-- The size of the element `WriteDocIDToPositionListFn` writes. -/
def sizeDocIDElement (kv : HTKeyValue_t (LinkedList Nat)) : Nat :=
  sizeof_DocIDElementHeader + kv.value.length * 4

/-- The size of the element `WriteDocidToDocnameFn` writes. -/
def sizeDocElement (kv : HTKeyValue_t CString) : Nat :=
  sizeof_DoctableElementHeader + kv.value.length % 2 ^ 16

/-- The size of the element `WriteWordToPostingsFn` writes: the header, the
word and the nested table. -/
def sizeWordElement (kv : HTKeyValue_t WordPostings) : Nat :=
  sizeof_WordPostingsHeader + kv.value.word.length % 2 ^ 16 +
    (4 + 8 * kv.value.postings.num_buckets +
      specBucketsBytes sizeDocIDElement kv.value.postings 0 kv.value.postings.num_buckets)
/-! ## Building the index from files -/

/-- Modelled from the spec: the words of a tokenized file are added to the
index one by one, each with its positions list, under the doc-id of the
file. The crawler that does this is not among the sources; the words are
taken in the order the iterator of the table yields them. -/
def addWordPositions (fuel : Nat) (doc_id : DocID_t) :
    List (HTKeyValue_t WordPositions) → MemIndex → Option MemIndex
  | [], index => some index
  | kv :: rest, index =>
    (MemIndex_AddPostingList fuel index kv.value.word doc_id kv.value.positions).bind
      (addWordPositions fuel doc_id rest)

/-- Modelled from the spec: the handling of one file, given by its name and
its content: the content is tokenized with `ParseIntoWordPositionsTable`; a
file that yields no table is skipped; else `DocTable_Add` assigns the doc-id
and the words are added with `MemIndex_AddPostingList`. -/
def indexFile (fuel : Nat) (state : DocTable × MemIndex) (file : CString × List Nat) :
    Option (DocTable × MemIndex) :=
  (ParseIntoWordPositionsTable fuel file.2).bind fun parsed =>
    match parsed with
    | none => some state
    | some tab =>
      (DocTable_Add fuel state.1 file.1).bind fun r =>
        (addWordPositions fuel r.2 tab.entries state.2).map fun index => (r.1, index)

/-- Modelled from the spec: the handling of a list of files, from a fresh doc
table and a fresh index. -/
def indexFiles (fuel : Nat) : List (CString × List Nat) → DocTable × MemIndex →
    Option (DocTable × MemIndex)
  | [], state => some state
  | file :: rest, state => (indexFile fuel state file).bind (indexFiles fuel rest)

/-! ## The hash function: its loop and the reference -/

/-- The `while (bp < be)` loop of `FNVHash64`, with `bp` and `be` as offsets
into the buffer and `hval` as a `uint64_t`: XOR the octet in, multiply by
`FNV_64_PRIME` modulo `2^64`. The first argument bounds the number of
turns. -/
def FNVHash64_while (buffer : List Nat) (be : Nat) : Nat → Nat → Nat → HTKey_t
  | 0, _, hval => hval
  | n + 1, bp, hval =>
    if bp < be then
      let hval := hval ^^^ buffer.getD bp 0
      let hval := (hval * 0x100000001b3) % 2 ^ 64
      FNVHash64_while buffer be n (bp + 1) hval
    else hval

/-- The FNV-1a-64 reference, in the words of the specification: the left
fold, from `0xCBF29CE484222325`, of `h ↦ ((h XOR byte) × 0x100000001B3) mod
2^64`. -/
def refFNV1a64 (data : List Nat) : Nat :=
  data.foldl (fun h byte => ((Nat.xor h byte) * 0x100000001B3) % 2 ^ 64) 0xCBF29CE484222325

/-! ## Example tables -/

/-- A run of `HashTable_Insert` calls, one per pair of the list, from the
table `t`. -/
def insertMany {V : Type} (fuel : Nat) : List (HTKeyValue_t V) → HashTable V → Option (HashTable V)
  | [], t => some t
  | kv :: rest, t => (HashTable_Insert fuel t kv).bind fun r => insertMany fuel rest r.1

/-- The table with two buckets that holds the keys `0 .. 5`: its
`num_elements` is `3 * num_buckets`. -/
def fullTable : HashTable Nat :=
  { num_buckets := 2, num_elements := 6,
    buckets := [[⟨4, 40⟩, ⟨2, 20⟩, ⟨0, 0⟩], [⟨5, 50⟩, ⟨3, 30⟩, ⟨1, 10⟩]] }

/-- The readers of an index file that lists the document `F` (doc-id 1) with
one occurrence of `cat`. -/
def readersF : IndexReaders :=
  { LookupWord := fun w => if w = bytes "cat" then some [⟨1, 1⟩] else none,
    LookupDocID := fun d => if d = 1 then some (bytes "F") else none }

/-- Scenario S6, the readers of index file I1: the document `F1` (doc-id 1)
with content `dog cat dog`. -/
def readersI1 : IndexReaders :=
  { LookupWord := fun w =>
      if w = bytes "dog" then some [⟨1, 2⟩]
      else if w = bytes "cat" then some [⟨1, 1⟩] else none,
    LookupDocID := fun d => if d = 1 then some (bytes "F1") else none }

/-- Scenario S6, the readers of index file I2: the document `F2` (doc-id 1)
with content `cat cat`. -/
def readersI2 : IndexReaders :=
  { LookupWord := fun w => if w = bytes "cat" then some [⟨1, 2⟩] else none,
    LookupDocID := fun d => if d = 1 then some (bytes "F2") else none }

/-- Scenario S2 as calls of `MemIndex_AddPostingList`: `F1 = "dog cat dog"`
is document 1, `F2 = "cat cat"` is document 2. -/
def addsS2 : List Posting :=
  [(bytes "dog", 1, [0, 8]), (bytes "cat", 1, [4]), (bytes "cat", 2, [0, 4])]

/-- The index the calls of scenario S2 build. -/
def indexS2 : MemIndex :=
  (buildIndex 3 addsS2 MemIndex_Allocate).getD MemIndex_Allocate

/-- Scenario S3: the word `"a"` at positions `[0, 2]` in doc-id 1. -/
def indexS3 : MemIndex :=
  (MemIndex_AddPostingList 3 MemIndex_Allocate (bytes "a") 1 [0, 2]).getD MemIndex_Allocate

/-- Scenario S3: the doc table with `"x.txt"`. -/
def docTableS3 : DocTable :=
  ((DocTable_Add 3 DocTable_Allocate (bytes "x.txt")).map fun r => r.1).getD DocTable_Allocate

/-- A checksum for the examples. -/
def crcS3 (l : List Nat) : Nat := l.foldl (fun a b => (a * 31 + b) % 2 ^ 32) 0

/-- The file of scenario S3. -/
def fileS3 : File := ((WriteIndex 0xcafef00d crcS3 indexS3 docTableS3).map fun r => r.1).getD []

/-- Scenario S3 as a call of `MemIndex_AddPostingList`. -/
def addsS3 : List Posting := [(bytes "a", 1, [0, 2])]

/-- A name of eight bytes (no NUL among them) whose `FNVHash64` is 0. -/
def zeroHashName : CString := [0xd5, 0x6b, 0xb9, 0x53, 0x42, 0x87, 0x08, 0x36]

/-- The bytes of `tableS13` as a table at offset 0: the number of buckets,
the two bucket records (bucket 0 is empty, the data of bucket 1 begins at 20),
the two element position records of bucket 1 (28 and 48), the element of
doc-id 1 with positions 0 and 2, the element of doc-id 3 with position 7. -/
def fileS13 : File :=
  [0, 0, 0, 2] ++ [0, 0, 0, 0, 0, 0, 0, 20] ++ [0, 0, 0, 2, 0, 0, 0, 20] ++
    [0, 0, 0, 28, 0, 0, 0, 48] ++
    [0, 0, 0, 0, 0, 0, 0, 1, 0, 0, 0, 2, 0, 0, 0, 0, 0, 0, 0, 2] ++
    [0, 0, 0, 0, 0, 0, 0, 3, 0, 0, 0, 1, 0, 0, 0, 7]

/-- A postings table with an empty bucket and a bucket of two pairs. -/
def tableS13 : HashTable (LinkedList Nat) :=
  { num_buckets := 2, num_elements := 2, buckets := [[], [⟨1, [0, 2]⟩, ⟨3, [7]⟩]] }

/-- The files of scenario S2. -/
def filesS2 : List (CString × List Nat) :=
  [(bytes "F1", bytes "dog cat dog"), (bytes "F2", bytes "cat cat")]

/-- The doc table and the index that the files of scenario S2 give. -/
def builtS2 : DocTable × MemIndex :=
  ({ id_to_name := { num_buckets := 2, num_elements := 2,
                     buckets := [[⟨2, bytes "F2"⟩], [⟨1, bytes "F1"⟩]] },
     name_to_id := { num_buckets := 2, num_elements := 0, buckets := [[⟨0, 2⟩], []] },
     max_id := 3 },
   { num_buckets := 2, num_elements := 2,
     buckets := [[],
       [⟨FNVHash64 (bytes "dog"),
          { word := bytes "dog",
            postings := { num_buckets := 2, num_elements := 1,
                          buckets := [[], [⟨1, [0, 8]⟩]] } }⟩,
        ⟨FNVHash64 (bytes "cat"),
          { word := bytes "cat",
            postings := { num_buckets := 2, num_elements := 2,
                          buckets := [[⟨2, [0, 4]⟩], [⟨1, [4]⟩]] } }⟩]] })

/-- The chain that holds the keys `0 .. m - 1` with value 1, the last one
inserted at its head. -/
def undercountChain (m : Nat) : List (HTKeyValue_t Nat) :=
  (List.range m).reverse.map fun k => (⟨k, 1⟩ : HTKeyValue_t Nat)

/-- A run of inserts: each of the keys `0 .. m - 1` is inserted twice (the
second insert replaces the pair). -/
def replaceSeq (m : Nat) : List (HTKeyValue_t Nat) :=
  ((List.range m).map fun k => [(⟨k, 0⟩ : HTKeyValue_t Nat), ⟨k, 1⟩]).flatten

/-- A run of inserts on a table with one bucket: each of the keys `0 .. 24`
is inserted twice, then the keys `25`, `26` and `27` are inserted once. -/
def undercountSeq : List (HTKeyValue_t Nat) :=
  replaceSeq 25 ++ [⟨25, 0⟩, ⟨26, 0⟩, ⟨27, 0⟩]

/-- The table the run `undercountSeq` leaves: one bucket, 28 nodes, and
`num_elements = 3`. -/
def undercountTable : HashTable Nat :=
  { num_buckets := 1, num_elements := 3,
    buckets := [[⟨27, 0⟩, ⟨26, 0⟩, ⟨25, 0⟩] ++ undercountChain 25] }

/-- The file operations of `WriteIndex` on the index and doc table of
scenario S3, with the example checksum. -/
def opsS3 : List FileOp :=
  [.fopen, .fseek 16, .fwrite [0, 0, 0, 2], .fseek 20, .fwrite [0, 0, 0, 0, 0, 0, 0, 36],
    .fseek 28, .fwrite [0, 0, 0, 1, 0, 0, 0, 36], .fseek 36, .fwrite [0, 0, 0, 40], .fseek 40,
    .fwrite [0, 0, 0, 0, 0, 0, 0, 1, 0, 5], .fwrite [120, 46, 116, 120, 116], .fseek 55,
    .fwrite [0, 0, 0, 2], .fseek 59, .fwrite [0, 0, 0, 1, 0, 0, 0, 75], .fseek 75,
    .fwrite [0, 0, 0, 79], .fseek 86, .fwrite [0, 0, 0, 2], .fseek 90,
    .fwrite [0, 0, 0, 0, 0, 0, 0, 106], .fseek 98, .fwrite [0, 0, 0, 1, 0, 0, 0, 106],
    .fseek 106, .fwrite [0, 0, 0, 110], .fseek 110,
    .fwrite [0, 0, 0, 0, 0, 0, 0, 1, 0, 0, 0, 2], .fseek 122, .fwrite [0, 0, 0, 0], .fseek 126,
    .fwrite [0, 0, 0, 2], .fseek 79, .fwrite [0, 1, 0, 0, 0, 44], .fwrite [97], .fseek 67,
    .fwrite [0, 0, 0, 0, 0, 0, 0, 130], .fseek 16, .fread 114, .fseek 0, .fseek 0,
    .fwrite [202, 254, 240, 13, 75, 77, 144, 222, 0, 0, 0, 39, 0, 0, 0, 75], .fsync, .fclose]

/-! ## Iteration over a table, filesearchshell.cc, ReadFileToString -/

/-- The loop `for (it = HTIterator_Allocate(t); HTIterator_IsValid(it);
HTIterator_Next(it)) { HTIterator_Get(it, &kv); ... }` from an iterator on:
the pairs `HTIterator_Get` yields, in order. The first argument bounds the
number of turns; `none` when the bound is reached with the iterator still
valid, when `HTIterator_Get` returns false on a valid iterator, or on an
abort. -/
def HTIterator_collect {V : Type} : Nat → HTIterator V → Option (List (HTKeyValue_t V))
  | 0, it => if HTIterator_IsValid it then none else some []
  | n + 1, it =>
    if HTIterator_IsValid it then
      (HTIterator_Get it).bind fun kv =>
        (HTIterator_Next it).bind fun r =>
          (HTIterator_collect n r.1).map fun l => kv :: l
    else some []

/-- `HTIterator_Allocate` followed by the loop over the iterator. -/
def HashTable_iterate {V : Type} (fuel : Nat) (t : HashTable V) :
    Option (List (HTKeyValue_t V)) :=
  (HTIterator_Allocate t).bind fun it => HTIterator_collect fuel it

/-- The table of two buckets after `HashTable_Insert` of `(1, 10)` and then
of `(1, 11)`: one node, `num_elements = 0`. -/
def replacedTable : HashTable Nat :=
  { num_buckets := 2, num_elements := 0, buckets := [[], [⟨1, 11⟩]] }

/-- A postings table with the one document `1`, at two positions. -/
def postingsOne : HashTable (LinkedList Nat) :=
  { num_buckets := 2, num_elements := 1, buckets := [[], [⟨1, [0, 4]⟩]] }

/-- The three-way comparison of the first components of two pairs, with
results `-1`, `0` and `1`. -/
def cmpFst (a b : Int × Nat) : Int :=
  if a.1 < b.1 then -1 else if a.1 = b.1 then 0 else 1

/-- A three-way comparison of integers that answers `INT_MIN` for "less":
negative, zero or positive as `a` is less than, equal to or greater than
`b`, every result within the range of `int`. -/
def cmpIntMin (a b : Int) : Int :=
  if a < b then -2 ^ 31 else if a = b then 0 else 1

/-- `ToLowerWord` of filesearchshell.cc: `for (i = 0; word[i]; i++)
word[i] = tolower(word[i])`, the loop ends at the first NUL byte (or at the
terminator behind the last byte). -/
def ToLowerWord : List Nat → List Nat
  | [] => []
  | c :: rest => if c = 0 then c :: rest else tolower c :: ToLowerWord rest

/-- The loop `while (ss >> word) { ToLowerWord(&word); push_back(word); }` of
`SplitQuery` on the bytes still in the stream: the extraction skips the
whitespace in front, fails at the end of the stream and else takes the bytes
up to the next whitespace. Every turn consumes a byte at least, the first
argument bounds the number of turns. -/
def SplitQuery_loop : Nat → List Nat → List CString
  | 0, _ => []
  | n + 1, ss =>
    let ss := ss.dropWhile isspace
    if ss.isEmpty then []
    else
      let word := ss.takeWhile fun b => !isspace b
      ToLowerWord word :: SplitQuery_loop n (ss.dropWhile fun b => !isspace b)

/-- `SplitQuery` of filesearchshell.cc: the vector of query words of a
line. -/
def SplitQuery (query : List Nat) : List CString :=
  SplitQuery_loop query.length query

/-- One turn of the loop of `main` in filesearchshell.cc for a line that
`getline` read: `SplitQuery`, then `ProcessQuery` on the vector; `none` is an
abort. -/
def shellQuery (readers : List IndexReaders) (query : List Nat) : Option (List QueryResult) :=
  ProcessQuery readers (SplitQuery query)

/-- What a call of `read` does: it stores `n` bytes (`n = 0` at the end of the
file), or it fails with `EINTR`, with `EAGAIN`, or with another error. -/
inductive ReadOutcome where
  | bytes (n : Nat)
  | eintr
  | eagain
  | error
deriving DecidableEq, Repr

/-- `ReadFileToStrWork` on the outcomes of the successive calls of `read`:
the `size_t` it returns, `(size_t) -1` after a hard error; `none` when the
loop is still running after the last outcome of the list. -/
def ReadFileToStrWork : List ReadOutcome → Nat → Option Nat
  | outcomes, left_to_read =>
    if left_to_read = 0 then some left_to_read
    else
      match outcomes with
      | [] => none
      | ReadOutcome.error :: _ => some (2 ^ 64 - 1)
      | ReadOutcome.eintr :: rest => ReadFileToStrWork rest left_to_read
      | ReadOutcome.eagain :: rest => ReadFileToStrWork rest left_to_read
      | ReadOutcome.bytes n :: rest =>
        ReadFileToStrWork rest ((left_to_read + 2 ^ 64 - n) % 2 ^ 64)

/-- The conversion of a 64-bit unsigned value to `int`. -/
def toInt32 (x : Nat) : Int :=
  if x % 2 ^ 32 < 2 ^ 31 then (x % 2 ^ 32 : Nat) else (x % 2 ^ 32 : Nat) - 2 ^ 32

/-- The result of `ReadFileToString` on a regular file that could be opened:
the number of bytes allocated for the buffer and the value stored through
`size`, which is also the index at which the terminator is written. -/
structure ReadFileResult where
  buf_len : Nat
  size : Int
deriving DecidableEq, Repr

/-- `ReadFileToString` on a regular file of `st_size` bytes that `open`
opened, with the outcomes of the calls of `read`: `malloc(st_size + 1)`,
`left_to_read = ReadFileToStrWork(...)`, `*size = st_size - left_to_read`
(computed in 64 bits without sign, stored in an `int`),
`buf[*size] = 0`. -/
def ReadFileToString (st_size : Nat) (outcomes : List ReadOutcome) : Option ReadFileResult :=
  (ReadFileToStrWork outcomes (st_size % 2 ^ 64)).map fun left_to_read =>
    { buf_len := st_size + 1,
      size := toInt32 ((st_size % 2 ^ 64 + 2 ^ 64 - left_to_read) % 2 ^ 64) }

/-- The number of bytes the calls of `read` stored up to the return of
`ReadFileToStrWork`. -/
def bytesRead : List ReadOutcome → Nat → Nat
  | outcomes, left_to_read =>
    if left_to_read = 0 then 0
    else
      match outcomes with
      | [] => 0
      | ReadOutcome.error :: _ => 0
      | ReadOutcome.eintr :: rest => bytesRead rest left_to_read
      | ReadOutcome.eagain :: rest => bytesRead rest left_to_read
      | ReadOutcome.bytes n :: rest => n + bytesRead rest ((left_to_read + 2 ^ 64 - n) % 2 ^ 64)

/-- No call of `read` fails hard and none stores more bytes than it was
asked for. -/
def ReadsOk : List ReadOutcome → Nat → Bool
  | [], _ => true
  | ReadOutcome.error :: _, left_to_read => left_to_read == 0
  | ReadOutcome.eintr :: rest, left_to_read => ReadsOk rest left_to_read
  | ReadOutcome.eagain :: rest, left_to_read => ReadsOk rest left_to_read
  | ReadOutcome.bytes n :: rest, left_to_read =>
    left_to_read == 0 || (decide (n ≤ left_to_read) && ReadsOk rest (left_to_read - n))

/-- A postings table whose last bucket is empty. -/
def tableS32 : HashTable (LinkedList Nat) :=
  { num_buckets := 2, num_elements := 1, buckets := [[⟨2, [5]⟩], []] }

/-- The bytes of `tableS32` as a table at offset 0: the number of buckets,
the record of bucket 0 (one element, data at 20), the record of the empty
bucket 1 (offset 40), the element position record of bucket 0 (24) and the
element of doc-id 2 with position 5. -/
def fileS32 : File :=
  [0, 0, 0, 2] ++ [0, 0, 0, 1, 0, 0, 0, 20] ++ [0, 0, 0, 0, 0, 0, 0, 40] ++ [0, 0, 0, 24] ++
    [0, 0, 0, 0, 0, 0, 0, 2, 0, 0, 0, 1, 0, 0, 0, 5]

/-- The file position after a file operation. -/
def FileOp.posAfter (op : FileOp) (pos : Nat) : Nat :=
  match op with
  | .fopen => 0
  | .fseek offset => offset
  | .fwrite data => pos + data.length
  | .fread count => pos + count
  | .fsync => pos
  | .fclose => pos

/-- The offsets of the bytes a file operation writes at a position. -/
def FileOp.written (op : FileOp) (pos : Nat) : List Nat :=
  match op with
  | .fwrite data => List.range' pos data.length
  | _ => []

/-- The offsets of the bytes a sequence of file operations writes, one entry
for every byte of every `fwrite`, in the order of the writes. -/
def writtenOffsets : List FileOp → Nat → List Nat
  | [], _ => []
  | op :: ops, pos => op.written pos ++ writtenOffsets ops (op.posAfter pos)

/-- The writes of the operations `ops`, from whatever state they start, are
the offsets `L` up to their order, and they leave the file no longer than
`B` bytes unless it was longer before. -/
def OpsCover (ops : List FileOp) (L : List Nat) (B : Nat) : Prop :=
  ∀ s : FileState, (writtenOffsets ops s.pos).Perm L ∧
    (runOps ops s).content.length ≤ max s.content.length B

/-- The writes of a `WriteElementFn` at `p` that returns `n` write each byte
of `[p, p + n)` once and no other byte. -/
def ElemCover {V : Type} (fn_ops : WriteElementOps V) : Prop :=
  ∀ p kv ops n, fn_ops p kv = some (ops, n) → OpsCover ops (List.range' p n) (p + n)

/-- The writes of a `WriteHashTable(f, offset, ht, fn)` that returned `n` and
left the file `f2`: they are the operations `WriteHashTable_ops` lists, they
lead from `f` to `f2`, they write each byte of `[offset, offset + n)` once and
no other byte, and `n` is the header, the bucket records and, for each
stored element, its element position record and the element. -/
def TableTiled {V : Type} (fn_ops : WriteElementOps V) (sz : HTKeyValue_t V → Nat) (f : File)
    (offset : Nat) (ht : HashTable V) (f2 : File) (n : Nat) : Prop :=
  ∃ ops, WriteHashTable_ops fn_ops offset ht = some (ops, n) ∧
    (∀ pos, (runOps ops ⟨f, pos⟩).content = f2 ∧
      (writtenOffsets ops pos).Perm (List.range' offset n)) ∧
    n = 4 + 8 * ht.num_buckets + (ht.entries.map fun kv => 4 + sz kv).sum

/-- Modelled from the spec: the headers `(doc-id, n-positions)` of the
elements at the given positions, one per element, without reading the
positions; `none` is a short read. -/
def DocIDTableReader_headers (f : File) : List Nat → Option (List DocIDElementHeader)
  | [] => some []
  | p :: ps =>
    (readInt f p 8).bind fun d =>
      (readInt f (p + 8) 4).bind fun n =>
        (DocIDTableReader_headers f ps).map fun hs => ⟨d, n⟩ :: hs

/-- Modelled from the spec: the headers of the elements of the buckets `i`,
..., `i + n - 1` of the table at `offset`, bucket after bucket, each chain in
the order of its element position records. -/
def DocIDTableReader_buckets (f : File) (offset : Nat) :
    Nat → Nat → Option (List DocIDElementHeader)
  | 0, _ => some []
  | n + 1, i =>
    let rec_pos := offset + sizeof_BucketListHeader + sizeof_BucketRecord * i
    (readInt f rec_pos 4).bind fun chain_len =>
      (readInt f (rec_pos + 4) 4).bind fun bucket_offset =>
        (readInts f bucket_offset chain_len).bind fun ps =>
          (DocIDTableReader_headers f ps).bind fun hs =>
            (DocIDTableReader_buckets f offset n (i + 1)).map fun rest => hs ++ rest

/-- Modelled from the spec: `DocIDTableReader.GetDocIDList()` on the nested
table at `offset`: one `(doc-id, n-positions)` header per element. -/
def DocIDTableReader_GetDocIDList (f : File) (offset : Nat) :
    Option (List DocIDElementHeader) :=
  (readInt f offset 4).bind fun num_buckets => DocIDTableReader_buckets f offset num_buckets 0

/-- Modelled from the spec: the readers of one index file as
`QueryProcessor` uses them, for a doc table at `doctable_offset` and an index
table at `index_offset`: `LookupWord` of the index table followed by
`GetDocIDList` of the table it returns, and `LookupDocID` of the doc
table. -/
def readersAt (f : File) (doctable_offset index_offset : Nat) : IndexReaders :=
  { LookupWord := fun word =>
      (IndexTableReader_LookupWord f index_offset word).bind fun inner =>
        DocIDTableReader_GetDocIDList f inner,
    LookupDocID := fun doc_id => DocTableReader_LookupDocID f doctable_offset doc_id }

/-- Modelled from the spec: the readers of an index file that the
`FileIndexReader` opened; `none` when the file does not open. -/
def fileReaders (kMagicNumber : Nat) (crc : List Nat → Nat) (f : File) (validate : Bool) :
    Option IndexReaders :=
  (FileIndexReader_open kMagicNumber crc f validate).map fun r => readersAt f r.1 r.2

/-- The header of an element of a postings table. -/
def headerOf (kv : HTKeyValue_t (LinkedList Nat)) : DocIDElementHeader :=
  { doc_id := kv.key, num_positions := LinkedList_NumElements kv.value }

/-- The name the doc table stores for a doc-id, if any. -/
def docName (D : DocTable) (d : DocID_t) : Option CString :=
  (HashTable_Find D.id_to_name d).map fun kv => kv.value

/-- A search result with its doc-id replaced by the name the doc table
stores for it. -/
def namedResult (D : DocTable) (s : SearchResult) : Option (CString × Nat) :=
  (docName D s.doc_id).map fun name => (name, s.rank)

/-- The hit `(name, n-positions)` of an element of a postings table. -/
def hitOf (D : DocTable) (kv : HTKeyValue_t (LinkedList Nat)) : CString × Nat :=
  ((docName D kv.key).getD [], LinkedList_NumElements kv.value)

/-- The postings table of one document, `1`, with the one position `0`. -/
def postingsDoc1 : HashTable (LinkedList Nat) :=
  { num_buckets := 2, num_elements := 1, buckets := [[], [⟨1, [0]⟩]] }

/-- The index `MemIndex_AddPostingList` builds from the empty index for the
word `w`, the doc-id `1` and the positions `[0]`. -/
def oneWordIndex (w : CString) : MemIndex :=
  { num_buckets := 2, num_elements := 1,
    buckets := (List.replicate 2 []).set (FNVHash64 w % 2)
      [⟨FNVHash64 w, { word := w, postings := postingsDoc1 }⟩] }

/-- The file after `WriteDocTable` of the doc table of scenario S3 at offset
16 of an empty file. -/
def docTableFileS3 : File := ((WriteDocTable [] docTableS3 16).map fun r => r.1).getD []

/-! ## Theorems: linked list and hash table -/

section
variable {V : Type}

theorem Find_loop_snd (key : HTKey_t) (node before : List (HTKeyValue_t V)) :
    (Find_loop key before node).2 = node.find? (keyIs key) := by
  induction node generalizing before with
  | nil => rfl
  | cons kv rest ih =>
    unfold Find_loop
    by_cases h : kv.key = key
    · simp [h, keyIs]
    · simp [h, keyIs, ih]

theorem Find_loop_remove (key : HTKey_t) (node before : List (HTKeyValue_t V))
    (kv : HTKeyValue_t V) (h : node.find? (keyIs key) = some kv) :
    ∃ r, LLIterator_Remove (Find_loop key before node).1 = some r ∧
      r.1.list = before ++ node.eraseP (keyIs key) := by
  induction node generalizing before with
  | nil => simp at h
  | cons x rest ih =>
    unfold Find_loop
    by_cases hk : x.key = key
    · simp only [hk, if_true]
      have hx : keyIs key x = true := by simp [keyIs, hk]
      simp only [List.eraseP_cons_of_pos hx]
      unfold LLIterator_Remove
      simp only [LLIterator.list, LinkedList_NumElements]
      split_ifs with h1 h2 h3
      · refine ⟨_, rfl, ?_⟩
        simp at h1
        have : before = [] ∧ rest = [] := by
          constructor
          · apply List.eq_nil_of_length_eq_zero; omega
          · apply List.eq_nil_of_length_eq_zero; omega
        simp [this.1, this.2]
      · refine ⟨_, rfl, ?_⟩
        simp at h2
        simp [h2]
      · refine ⟨_, rfl, ?_⟩
        simp at h3 h2
        subst h3
        simp
        cases hl : before.getLast? with
        | none => simp at hl; exact absurd hl h2
        | some a =>
          simp
          exact List.dropLast_append_getLast? a hl
      · exact ⟨_, rfl, rfl⟩
    · have hx : keyIs key x = false := by simp [keyIs, hk]
      simp only [hk, if_false]
      simp only [List.find?_cons, hx] at h
      obtain ⟨r, hr, hl⟩ := ih (before ++ [x]) h
      refine ⟨r, hr, ?_⟩
      rw [hl, List.eraseP_cons_of_neg (by simp [hx])]
      simp

theorem HashTable_Find_eq (t : HashTable V) (k : HTKey_t) :
    HashTable_Find t k = (t.chain (k % t.num_buckets)).find? (keyIs k) := by
  simp [HashTable_Find, Find, LLIterator_Allocate, Find_loop_snd, HashKeyToBucketNum]

theorem HashTable_Remove_eq (t : HashTable V) (k : HTKey_t) :
    HashTable_Remove t k = some
      (match (t.chain (k % t.num_buckets)).find? (keyIs k) with
       | some kv =>
         ({ t.setChain (k % t.num_buckets) ((t.chain (k % t.num_buckets)).eraseP (keyIs k)) with
            num_elements := t.num_elements - 1 }, some kv)
       | none => (t, none)) := by
  unfold HashTable_Remove
  simp only [Find, LLIterator_Allocate, Find_loop_snd, HashKeyToBucketNum]
  cases h : (t.chain (k % t.num_buckets)).find? (keyIs k) with
  | none => rfl
  | some kv =>
    obtain ⟨r, hr, hl⟩ := Find_loop_remove k (t.chain (k % t.num_buckets)) [] kv h
    simp only [hr, Option.map_some', hl, List.nil_append]

theorem chain_setChain (t : HashTable V) (i j : Nat) (c : LinkedList (HTKeyValue_t V)) :
    (t.setChain i c).chain j = if i = j ∧ i < t.buckets.length then c else t.chain j := by
  simp only [HashTable.chain, HashTable.setChain, List.getD_eq_getElem?_getD, List.getElem?_set]
  by_cases h : i = j
  · subst h
    by_cases h2 : i < t.buckets.length
    · simp [h2]
    · simp [h2]
      simp at h2
      simp [List.getElem?_eq_none h2]
  · simp [h]

theorem sum_length_set (L : List (List α)) (i : Nat) (c : List α) (h : i < L.length) :
    ((L.set i c).map List.length).sum + (L.getD i []).length = (L.map List.length).sum + c.length := by
  induction L generalizing i with
  | nil => simp at h
  | cons a L ih =>
    cases i with
    | zero => simp; omega
    | succ i =>
      simp at h
      have := ih i h
      simp at this ⊢
      omega

theorem numNodes_setChain (t : HashTable V) (i : Nat) (c : LinkedList (HTKeyValue_t V))
    (h : i < t.buckets.length) :
    (t.setChain i c).numNodes + (t.chain i).length = t.numNodes + c.length := by
  simp only [HashTable.numNodes, HashTable.setChain, HashTable.chain]
  exact sum_length_set _ _ _ h


theorem HashTable_Remove_eq_pure (t : HashTable V) (k : HTKey_t) :
    HashTable_Remove t k = some (removePure t k, HashTable_Find t k) := by
  rw [HashTable_Remove_eq, HashTable_Find_eq, removePure]
  cases h : (t.chain (k % t.num_buckets)).find? (keyIs k) with
  | none => simp
  | some kv => simp [HashTable.setChain]

theorem eraseP_of_find_none (c : List (HTKeyValue_t V)) (k : HTKey_t)
    (h : c.find? (keyIs k) = none) : c.eraseP (keyIs k) = c := by
  apply List.eraseP_of_forall_not
  intro a ha
  have := List.find?_eq_none.1 h a ha
  simpa using this

theorem HashTable_Insert_body_eq (t : HashTable V) (kv : HTKeyValue_t V)
    (hl : t.buckets.length = t.num_buckets) (hp : 0 < t.num_buckets) :
    HashTable_Insert_body t kv = some (insertPure t kv, HashTable_Find t kv.key) := by
  have hlt : kv.key % t.num_buckets < t.buckets.length := by
    rw [hl]; exact Nat.mod_lt _ hp
  unfold HashTable_Insert_body
  rw [HashTable_Remove_eq_pure]
  simp only [Option.map_some', HashKeyToBucketNum, LinkedList_Push, HashTable_Find_eq]
  cases h : (t.chain (kv.key % t.num_buckets)).find? (keyIs kv.key) with
  | none =>
    simp [removePure, insertPure, h, HashTable.setChain, eraseP_of_find_none _ _ h]
  | some x =>
    have e1 : removePure t kv.key =
        { num_buckets := t.num_buckets, num_elements := t.num_elements - 1,
          buckets := t.buckets.set (kv.key % t.num_buckets)
            ((t.chain (kv.key % t.num_buckets)).eraseP (keyIs kv.key)) } := by
      simp [removePure, h]
    rw [e1]
    simp only [insertPure, h]
    simp [HashTable.chain, HashTable.setChain, hlt]


theorem find_eraseP_ne (c : List (HTKeyValue_t V)) (k k2 : HTKey_t) (h : k2 ≠ k) :
    (c.eraseP (keyIs k)).find? (keyIs k2) = c.find? (keyIs k2) := by
  induction c with
  | nil => rfl
  | cons x c ih =>
    by_cases hx : x.key = k
    · have : keyIs k x = true := by simp [keyIs, hx]
      rw [List.eraseP_cons_of_pos this]
      have h2 : keyIs k2 x = false := by simp [keyIs, hx]; exact fun e => h e.symm
      simp [List.find?_cons, h2]
    · have : ¬ keyIs k x = true := by simp [keyIs, hx]
      rw [List.eraseP_cons_of_neg this]
      simp only [List.find?_cons, ih]

theorem not_mem_keys_eraseP (c : List (HTKeyValue_t V)) (k : HTKey_t)
    (hn : (c.map (fun kv => kv.key)).Nodup) :
    ∀ x ∈ c.eraseP (keyIs k), x.key ≠ k := by
  induction c with
  | nil => simp
  | cons y c ih =>
    simp only [List.map_cons, List.nodup_cons] at hn
    by_cases hy : y.key = k
    · have : keyIs k y = true := by simp [keyIs, hy]
      rw [List.eraseP_cons_of_pos this]
      intro x hx hxk
      apply hn.1
      rw [hy, ← hxk]
      exact List.mem_map_of_mem _ hx
    · have : ¬ keyIs k y = true := by simp [keyIs, hy]
      rw [List.eraseP_cons_of_neg this]
      intro x hx
      rcases List.mem_cons.1 hx with rfl | hx
      · exact hy
      · exact ih hn.2 x hx

theorem find_eq_none_of_keys (c : List (HTKeyValue_t V)) (k : HTKey_t)
    (h : ∀ x ∈ c, x.key ≠ k) : c.find? (keyIs k) = none := by
  rw [List.find?_eq_none]
  intro x hx
  simp [keyIs, h x hx]

theorem find_some_iff (c : List (HTKeyValue_t V)) (k : HTKey_t) (kv : HTKeyValue_t V)
    (hn : (c.map (fun kv => kv.key)).Nodup) :
    c.find? (keyIs k) = some kv ↔ kv ∈ c ∧ kv.key = k := by
  induction c with
  | nil => simp
  | cons y c ih =>
    simp only [List.map_cons, List.nodup_cons] at hn
    by_cases hy : y.key = k
    · have : keyIs k y = true := by simp [keyIs, hy]
      simp only [List.find?_cons, this, Option.some.injEq, List.mem_cons]
      constructor
      · rintro rfl
        exact ⟨Or.inl rfl, hy⟩
      · rintro ⟨h1 | h1, h2⟩
        · exact h1.symm
        · exfalso
          apply hn.1
          rw [hy, ← h2]
          exact List.mem_map_of_mem _ h1
    · have : keyIs k y = false := by simp [keyIs, hy]
      simp only [List.find?_cons, this, List.mem_cons]
      rw [ih hn.2]
      constructor
      · rintro ⟨h1, h2⟩
        exact ⟨Or.inr h1, h2⟩
      · rintro ⟨h1 | h1, h2⟩
        · subst h1
          exact absurd h2 hy
        · exact ⟨h1, h2⟩

theorem chain_insertPure (t : HashTable V) (kv : HTKeyValue_t V)
    (hl : t.buckets.length = t.num_buckets) (hp : 0 < t.num_buckets) (j : Nat) :
    (insertPure t kv).chain j =
      if j = kv.key % t.num_buckets then kv :: (t.chain j).eraseP (keyIs kv.key)
      else t.chain j := by
  have hlt : kv.key % t.num_buckets < t.buckets.length := by
    rw [hl]; exact Nat.mod_lt _ hp
  have := chain_setChain t (kv.key % t.num_buckets) j
    (kv :: (t.chain (kv.key % t.num_buckets)).eraseP (keyIs kv.key))
  simp only [HashTable.chain, HashTable.setChain, insertPure] at this ⊢
  rw [this]
  by_cases h : j = kv.key % t.num_buckets
  · subst h
    simp [hlt]
  · have h2 : ¬ kv.key % t.num_buckets = j := fun e => h e.symm
    simp [h, h2]

theorem chain_removePure (t : HashTable V) (k : HTKey_t)
    (hl : t.buckets.length = t.num_buckets) (hp : 0 < t.num_buckets) (j : Nat) :
    (removePure t k).chain j =
      if j = k % t.num_buckets then (t.chain j).eraseP (keyIs k) else t.chain j := by
  have hlt : k % t.num_buckets < t.buckets.length := by
    rw [hl]; exact Nat.mod_lt _ hp
  unfold removePure
  cases hf : (t.chain (k % t.num_buckets)).find? (keyIs k) with
  | none =>
    simp only [Option.isSome_none, Bool.false_eq_true, if_false]
    by_cases h : j = k % t.num_buckets
    · subst h
      simp [eraseP_of_find_none _ _ hf]
    · simp [h]
  | some x =>
    simp only [Option.isSome_some, if_true]
    have := chain_setChain t (k % t.num_buckets) j
      ((t.chain (k % t.num_buckets)).eraseP (keyIs k))
    simp only [HashTable.chain, HashTable.setChain] at this ⊢
    rw [this]
    by_cases h : j = k % t.num_buckets
    · subst h
      simp [hlt]
    · have h2 : ¬ k % t.num_buckets = j := fun e => h e.symm
      simp [h, h2]


theorem length_eraseP_find (c : List (HTKeyValue_t V)) (k : HTKey_t) :
    (c.eraseP (keyIs k)).length + (if (c.find? (keyIs k)).isSome then 1 else 0) = c.length := by
  induction c with
  | nil => simp
  | cons x c ih =>
    by_cases hx : keyIs k x = true
    · simp [List.eraseP_cons_of_pos hx, List.find?_cons, hx]
    · rw [List.eraseP_cons_of_neg hx]
      simp only [Bool.not_eq_true] at hx
      simp only [List.find?_cons, hx, List.length_cons]
      omega

theorem numNodes_insertPure (t : HashTable V) (kv : HTKeyValue_t V)
    (hl : t.buckets.length = t.num_buckets) (hp : 0 < t.num_buckets) :
    (insertPure t kv).numNodes + (if (HashTable_Find t kv.key).isSome then 1 else 0)
      = t.numNodes + 1 := by
  have hlt : kv.key % t.num_buckets < t.buckets.length := by
    rw [hl]; exact Nat.mod_lt _ hp
  have h1 := numNodes_setChain t (kv.key % t.num_buckets)
    (kv :: (t.chain (kv.key % t.num_buckets)).eraseP (keyIs kv.key)) hlt
  have h2 := length_eraseP_find (t.chain (kv.key % t.num_buckets)) kv.key
  rw [HashTable_Find_eq]
  have e : (insertPure t kv).numNodes = (t.setChain (kv.key % t.num_buckets)
    (kv :: (t.chain (kv.key % t.num_buckets)).eraseP (keyIs kv.key))).numNodes := rfl
  rw [e]
  simp only [List.length_cons] at h1
  omega

theorem numNodes_removePure (t : HashTable V) (k : HTKey_t)
    (hl : t.buckets.length = t.num_buckets) (hp : 0 < t.num_buckets) :
    (removePure t k).numNodes + (if (HashTable_Find t k).isSome then 1 else 0)
      = t.numNodes := by
  have hlt : k % t.num_buckets < t.buckets.length := by
    rw [hl]; exact Nat.mod_lt _ hp
  have h1 := numNodes_setChain t (k % t.num_buckets)
    ((t.chain (k % t.num_buckets)).eraseP (keyIs k)) hlt
  have h2 := length_eraseP_find (t.chain (k % t.num_buckets)) k
  rw [HashTable_Find_eq]
  unfold removePure
  cases hf : (t.chain (k % t.num_buckets)).find? (keyIs k) with
  | none => simp
  | some x =>
    simp only [Option.isSome_some, if_true]
    change (t.setChain (k % t.num_buckets)
          ((t.chain (k % t.num_buckets)).eraseP (keyIs k))).numNodes + 1 = t.numNodes
    rw [hf] at h2
    simp only [Option.isSome_some, if_true] at h2
    omega

theorem num_buckets_insertPure (t : HashTable V) (kv : HTKeyValue_t V) :
    (insertPure t kv).num_buckets = t.num_buckets := rfl

theorem num_buckets_removePure (t : HashTable V) (k : HTKey_t) :
    (removePure t k).num_buckets = t.num_buckets := by
  unfold removePure
  split_ifs <;> rfl

theorem length_buckets_removePure (t : HashTable V) (k : HTKey_t) :
    (removePure t k).buckets.length = t.buckets.length := by
  unfold removePure
  split_ifs <;> simp

theorem num_elements_removePure (t : HashTable V) (k : HTKey_t) :
    (removePure t k).num_elements =
      if (HashTable_Find t k).isSome then t.num_elements - 1 else t.num_elements := by
  rw [HashTable_Find_eq]
  unfold removePure
  split_ifs <;> rfl

theorem num_elements_insertPure (t : HashTable V) (kv : HTKeyValue_t V) :
    (insertPure t kv).num_elements =
      if (HashTable_Find t kv.key).isSome then t.num_elements - 1 else t.num_elements + 1 := by
  rw [HashTable_Find_eq]
  rfl

theorem WF_insertPure (t : HashTable V) (kv : HTKeyValue_t V) (h : t.WF) :
    (insertPure t kv).WF := by
  have hc := chain_insertPure t kv h.len h.pos
  refine ⟨h.pos, ?_, ?_, ?_, ?_⟩
  · simp [insertPure, h.len]
  · intro i x hx
    rw [hc] at hx
    show x.key % t.num_buckets = i
    split_ifs at hx with hi
    · rcases List.mem_cons.1 hx with rfl | hx
      · exact hi.symm
      · exact h.placed i x (List.mem_of_mem_eraseP hx)
    · exact h.placed i x hx
  · intro i
    rw [hc]
    split_ifs with hi
    · simp only [List.map_cons, List.nodup_cons]
      constructor
      · intro hm
        obtain ⟨y, hy, hyk⟩ := List.mem_map.1 hm
        exact not_mem_keys_eraseP _ _ (h.nodup i) y hy hyk
      · exact (h.nodup i).sublist ((List.eraseP_sublist _).map _)
    · exact h.nodup i
  · have h1 := numNodes_insertPure t kv h.len h.pos
    have h2 := num_elements_insertPure t kv
    have h3 := h.le
    rw [h2]
    split_ifs at h1 ⊢ <;> omega

theorem WF_removePure (t : HashTable V) (k : HTKey_t) (h : t.WF) :
    (removePure t k).WF := by
  have hc := chain_removePure t k h.len h.pos
  refine ⟨?_, ?_, ?_, ?_, ?_⟩
  · rw [num_buckets_removePure]; exact h.pos
  · rw [num_buckets_removePure, length_buckets_removePure]; exact h.len
  · intro i x hx
    rw [hc] at hx
    rw [num_buckets_removePure]
    split_ifs at hx with hi
    · exact h.placed i x (List.mem_of_mem_eraseP hx)
    · exact h.placed i x hx
  · intro i
    rw [hc]
    split_ifs with hi
    · exact (h.nodup i).sublist ((List.eraseP_sublist _).map _)
    · exact h.nodup i
  · have h1 := numNodes_removePure t k h.len h.pos
    have h2 := num_elements_removePure t k
    have h3 := h.le
    rw [h2]
    split_ifs at h1 ⊢ <;> omega

theorem Find_insertPure (t : HashTable V) (kv : HTKeyValue_t V) (h : t.WF) (k : HTKey_t) :
    HashTable_Find (insertPure t kv) k = if k = kv.key then some kv else HashTable_Find t k := by
  rw [HashTable_Find_eq, HashTable_Find_eq, num_buckets_insertPure,
    chain_insertPure t kv h.len h.pos]
  by_cases hk : k = kv.key
  · subst hk
    simp [keyIs]
  · simp only [hk, if_false]
    have hkv : keyIs k kv = false := by simp [keyIs]; exact fun e => hk e.symm
    split_ifs with hi
    · simp only [List.find?_cons, hkv]
      exact find_eraseP_ne _ _ _ hk
    · rfl

theorem Find_removePure (t : HashTable V) (k : HTKey_t) (h : t.WF) (k2 : HTKey_t) :
    HashTable_Find (removePure t k) k2 = if k2 = k then none else HashTable_Find t k2 := by
  rw [HashTable_Find_eq, HashTable_Find_eq, num_buckets_removePure,
    chain_removePure t k h.len h.pos]
  by_cases hk : k2 = k
  · subst hk
    simp only [if_true]
    exact find_eq_none_of_keys _ _ (not_mem_keys_eraseP _ _ (h.nodup _))
  · simp only [hk, if_false]
    split_ifs with hi
    · exact find_eraseP_ne _ _ _ hk
    · rfl

theorem firstNonEmpty_none {α : Type} (bs : List (LinkedList α)) (i : Nat)
    (h : firstNonEmpty bs i = none) : bs.flatten = [] := by
  induction bs generalizing i with
  | nil => rfl
  | cons b bs ih =>
    unfold firstNonEmpty at h
    split_ifs at h with hb
    simp only [LinkedList_NumElements, gt_iff_lt, List.length_pos, ne_eq, not_not] at hb
    simp [hb, ih (i + 1) h]

theorem firstNonEmpty_some {α : Type} (bs : List (LinkedList α)) (i j : Nat)
    (h : firstNonEmpty bs i = some j) :
    i ≤ j ∧ ∃ b, bs[j - i]? = some b ∧ b ≠ [] ∧
      bs.flatten = b ++ (bs.drop (j - i + 1)).flatten := by
  induction bs generalizing i with
  | nil => simp [firstNonEmpty] at h
  | cons b bs ih =>
    unfold firstNonEmpty at h
    split_ifs at h with hb
    · simp only [Option.some.injEq] at h
      subst h
      simp only [LinkedList_NumElements, gt_iff_lt, List.length_pos, ne_eq] at hb
      exact ⟨le_refl _, b, by simp, hb, by simp⟩
    · simp only [LinkedList_NumElements, gt_iff_lt, List.length_pos, ne_eq, not_not] at hb
      obtain ⟨h1, c, h2, h3, h4⟩ := ih (i + 1) h
      refine ⟨by omega, c, ?_, h3, ?_⟩
      · have e : j - i = (j - (i + 1)) + 1 := by omega
        rw [e, List.getElem?_cons_succ]
        exact h2
      · have e : j - i + 1 = (j - (i + 1) + 1) + 1 := by omega
        rw [e, List.drop_succ_cons, List.flatten_cons, hb, List.nil_append]
        exact h4

theorem chain_of_bucketsFrom (t : HashTable V) (i k : Nat) (b : LinkedList (HTKeyValue_t V))
    (h : (t.bucketsFrom i)[k]? = some b) : t.chain (i + k) = b := by
  simp only [HashTable.bucketsFrom, List.getElem?_drop, List.getElem?_take] at h
  split_ifs at h with h1
  simp [HashTable.chain, List.getD_eq_getElem?_getD, h]

theorem drop_bucketsFrom (t : HashTable V) (i k : Nat) :
    (t.bucketsFrom i).drop k = t.bucketsFrom (i + k) := by
  simp [HashTable.bucketsFrom, List.drop_drop, Nat.add_comm]

theorem HTIterator_done (it : HTIterator V) (hok : it.Ok) (hr : it.remaining = []) :
    HTIterator_IsValid it = false := by
  unfold HTIterator_IsValid
  cases hb : it.bucket_it with
  | none => rfl
  | some li =>
    exfalso
    have := (hok li hb).1
    simp only [HTIterator.remaining, hb, List.append_eq_nil] at hr
    exact this hr.1

theorem HTIterator_step (it : HTIterator V) (x : HTKeyValue_t V) (r : List (HTKeyValue_t V))
    (hok : it.Ok) (hr : it.remaining = x :: r) :
    HTIterator_IsValid it = true ∧
    (it.ht.num_elements ≠ 0 → HTIterator_Get it = some x) ∧
    ∃ it2 b, HTIterator_Next it = some (it2, b) ∧ it2.Ok ∧ it2.remaining = r ∧
      it2.ht = it.ht := by
  cases hb : it.bucket_it with
  | none => simp [HTIterator.remaining, hb] at hr
  | some li =>
    obtain ⟨hne, hpos⟩ := hok li hb
    cases hnode : li.node with
    | nil => exact absurd hnode hne
    | cons y rest =>
      simp only [HTIterator.remaining, hb, hnode, List.cons_append, List.cons.injEq] at hr
      obtain ⟨rfl, hr⟩ := hr
      have hv : HTIterator_IsValid it = true := by
        simp [HTIterator_IsValid, hb, LLIterator_IsValid, hnode]
      refine ⟨hv, ?_, ?_⟩
      · intro hn
        simp [HTIterator_Get, hv, hn, hb, LLIterator_Get, hnode]
      · unfold HTIterator_Next
        simp only [hb, LLIterator_IsValid, hnode, List.isEmpty_cons, Bool.not_false,
          Bool.not_true, Bool.false_eq_true, if_false, LLIterator_Next, Option.map_some']
        cases hrest : rest with
        | cons z rest2 =>
          simp only [List.isEmpty_cons, Bool.not_false, if_true]
          refine ⟨_, _, rfl, ?_, ?_, rfl⟩
          · intro li2 h2
            simp only [Option.some.injEq] at h2
            subst h2
            exact ⟨by simp, hpos⟩
          · simp [HTIterator.remaining, ← hr, hrest]
        | nil =>
          simp only [List.isEmpty_nil, Bool.not_true, Bool.false_eq_true, if_false]
          subst hrest
          simp only [List.nil_append] at hr
          cases hf : firstNonEmpty (it.ht.bucketsFrom (it.bucket_idx + 1).toNat)
              (it.bucket_idx + 1).toNat with
          | none =>
            refine ⟨_, _, rfl, ?_, ?_, rfl⟩
            · intro li2 h2
              simp at h2
            · rw [← hr, firstNonEmpty_none _ _ hf]
              simp [HTIterator.remaining]
          | some j =>
            obtain ⟨h1, b, h2, h3, h4⟩ := firstNonEmpty_some _ _ _ hf
            have hc := chain_of_bucketsFrom _ _ _ _ h2
            have e : (it.bucket_idx + 1).toNat + (j - (it.bucket_idx + 1).toNat) = j := by omega
            rw [e] at hc
            refine ⟨_, _, rfl, ?_, ?_, rfl⟩
            · intro li2 h5
              simp only [Option.some.injEq] at h5
              subst h5
              simp only [LLIterator_Allocate, hc]
              exact ⟨h3, by omega⟩
            · rw [← hr, h4, drop_bucketsFrom]
              simp only [HTIterator.remaining, LLIterator_Allocate, hc]
              congr 3
              omega

theorem HTIterator_Allocate_zero (t : HashTable V) (hn : t.num_elements = 0) :
    ∃ it, HTIterator_Allocate t = some it ∧ it.Ok ∧ it.remaining = [] ∧ it.ht = t := by
  refine ⟨⟨t, -1, none⟩, by simp [HTIterator_Allocate, hn], ?_, rfl, rfl⟩
  intro li h
  simp at h

theorem HTIterator_Allocate_spec (t : HashTable V) (hn : t.num_elements ≠ 0)
    (he : t.entries ≠ []) :
    ∃ it, HTIterator_Allocate t = some it ∧ it.Ok ∧ it.remaining = t.entries ∧ it.ht = t := by
  unfold HTIterator_Allocate
  simp only [hn, if_false]
  cases hf : firstNonEmpty (t.bucketsFrom 0) 0 with
  | none => exact absurd (firstNonEmpty_none _ _ hf) he
  | some j =>
    obtain ⟨h1, b, h2, h3, h4⟩ := firstNonEmpty_some _ _ _ hf
    have hc := chain_of_bucketsFrom _ _ _ _ h2
    simp only [Nat.sub_zero, Nat.zero_add] at hc h4
    refine ⟨_, rfl, ?_, ?_, rfl⟩
    · intro li2 h5
      simp only [Option.some.injEq] at h5
      subst h5
      simp only [LLIterator_Allocate, hc]
      exact ⟨h3, by omega⟩
    · rw [HashTable.entries, h4, drop_bucketsFrom]
      simp only [HTIterator.remaining, LLIterator_Allocate, hc]
      congr 3
      omega

theorem entries_eq (t : HashTable V) (h : t.WF) : t.entries = t.buckets.flatten := by
  simp [HashTable.entries, HashTable.bucketsFrom, ← h.len]

theorem chain_eq_getElem (t : HashTable V) (i : Nat) (hi : i < t.buckets.length) :
    t.chain i = t.buckets[i] := by
  simp [HashTable.chain, List.getD_eq_getElem?_getD, hi]

theorem mem_entries (t : HashTable V) (h : t.WF) (kv : HTKeyValue_t V) :
    kv ∈ t.entries ↔ kv ∈ t.chain (kv.key % t.num_buckets) := by
  rw [entries_eq t h, List.mem_flatten]
  constructor
  · rintro ⟨l, hl, hkv⟩
    obtain ⟨i, hi, rfl⟩ := List.mem_iff_getElem.1 hl
    rw [← chain_eq_getElem t i hi] at hkv
    rw [h.placed i kv hkv]
    exact hkv
  · intro hkv
    have hlt : kv.key % t.num_buckets < t.buckets.length := by
      rw [h.len]; exact Nat.mod_lt _ h.pos
    rw [chain_eq_getElem t _ hlt] at hkv
    exact ⟨_, List.getElem_mem _, hkv⟩

theorem entries_length (t : HashTable V) (h : t.WF) : t.entries.length = t.numNodes := by
  rw [entries_eq t h, List.length_flatten]
  rfl

theorem entries_keys_nodup (t : HashTable V) (h : t.WF) :
    (t.entries.map (fun kv => kv.key)).Nodup := by
  rw [entries_eq t h, List.map_flatten, List.nodup_flatten]
  constructor
  · intro l hl
    obtain ⟨c, hc, rfl⟩ := List.mem_map.1 hl
    obtain ⟨i, hi, rfl⟩ := List.mem_iff_getElem.1 hc
    rw [← chain_eq_getElem t i hi]
    exact h.nodup i
  · rw [List.pairwise_map, List.pairwise_iff_getElem]
    intro i j hi hj hij
    rw [← chain_eq_getElem t i hi, ← chain_eq_getElem t j hj]
    intro a ha hb
    obtain ⟨x, hx, rfl⟩ := List.mem_map.1 ha
    obtain ⟨y, hy, hxy⟩ := List.mem_map.1 hb
    have h1 := h.placed i x hx
    have h2 := h.placed j y hy
    have hxy2 : y.key = x.key := hxy
    rw [hxy2] at h2
    exact absurd (h1.symm.trans h2) (Nat.ne_of_lt hij)

theorem Find_some_iff (t : HashTable V) (h : t.WF) (k : HTKey_t) (kv : HTKeyValue_t V) :
    HashTable_Find t k = some kv ↔ kv ∈ t.entries ∧ kv.key = k := by
  rw [HashTable_Find_eq, find_some_iff _ _ _ (h.nodup _), mem_entries t h]
  constructor
  · rintro ⟨h1, rfl⟩
    exact ⟨h1, rfl⟩
  · rintro ⟨h1, rfl⟩
    exact ⟨h1, rfl⟩

theorem entries_find (t : HashTable V) (h : t.WF) (k : HTKey_t) :
    t.entries.find? (keyIs k) = HashTable_Find t k := by
  apply Option.ext
  intro kv
  simp only [Option.mem_def]
  rw [find_some_iff _ _ _ (entries_keys_nodup t h), Find_some_iff t h]

theorem chain_Allocate (n i : Nat) : (HashTable_Allocate n : HashTable V).chain i = [] := by
  simp only [HashTable.chain, HashTable_Allocate, LinkedList_Allocate,
    List.getD_eq_getElem?_getD, List.getElem?_replicate]
  split_ifs <;> rfl

theorem numNodes_Allocate (n : Nat) : (HashTable_Allocate n : HashTable V).numNodes = 0 := by
  simp [HashTable.numNodes, HashTable_Allocate, LinkedList_Allocate]

theorem WF_Allocate (n : Nat) (hn : 0 < n) : (HashTable_Allocate n : HashTable V).WF := by
  refine ⟨hn, by simp [HashTable_Allocate], ?_, ?_, ?_⟩
  · intro i kv hkv
    rw [chain_Allocate] at hkv
    simp at hkv
  · intro i
    rw [chain_Allocate]
    simp
  · rw [numNodes_Allocate]
    simp [HashTable_Allocate]

theorem Find_Allocate (n : Nat) (k : HTKey_t) :
    HashTable_Find (HashTable_Allocate n : HashTable V) k = none := by
  rw [HashTable_Find_eq, chain_Allocate]
  rfl


theorem MaybeResize_loop_spec
    (insert : HashTable V → HTKeyValue_t V → Option (HashTable V × Option (HTKeyValue_t V)))
    (J : Nat → HashTable V → Prop) (N : Nat) (hins : InsertsFresh insert J N) :
    ∀ (rem : List (HTKeyValue_t V)) (n i : Nat) (it : HTIterator V) (u : HashTable V),
      it.Ok → it.remaining = rem → rem.length ≤ n → i + rem.length ≤ N →
      it.ht.num_elements ≠ 0 → J i u →
      (rem.map (fun kv => kv.key)).Nodup → (∀ x ∈ rem, HashTable_Find u x.key = none) →
      ∃ u2, MaybeResize_loop insert n it u = some u2 ∧ J (i + rem.length) u2 ∧
        ∀ k, HashTable_Find u2 k = (rem.find? (keyIs k)).or (HashTable_Find u k) := by
  intro rem
  induction rem with
  | nil =>
    intro n i it u hok hrem _ _ _ hJ _ _
    have hv := HTIterator_done it hok hrem
    refine ⟨u, ?_, hJ, by simp⟩
    cases n <;> simp [MaybeResize_loop, hv]
  | cons x r ih =>
    intro n i it u hok hrem hlen hN hne hJ hnd hfresh
    obtain ⟨hv, hget, it2, b, hnext, hok2, hrem2, hht⟩ := HTIterator_step it x r hok hrem
    simp only [List.length_cons] at hlen hN
    cases n with
    | zero => omega
    | succ m =>
      obtain ⟨u1, hi1, hJ1, hf1⟩ := hins i u x (by omega) hJ (hfresh x (List.mem_cons_self _ _))
      simp only [List.map_cons, List.nodup_cons] at hnd
      have hfresh1 : ∀ y ∈ r, HashTable_Find u1 y.key = none := by
        intro y hy
        rw [hf1]
        have : y.key ≠ x.key := by
          intro e
          apply hnd.1
          rw [← e]
          exact List.mem_map_of_mem _ hy
        simp only [this, if_false]
        exact hfresh y (List.mem_cons_of_mem _ hy)
      obtain ⟨u2, hl2, hJ2, hf2⟩ := ih m (i + 1) it2 u1 hok2 hrem2
        (by omega) (by omega) (by rw [hht]; exact hne) hJ1 hnd.2 hfresh1
      refine ⟨u2, ?_, ?_, ?_⟩
      · simp only [MaybeResize_loop, hv, if_true, hget hne, Option.some_bind, hi1, hnext]
        exact hl2
      · have e : i + (r.length + 1) = i + 1 + r.length := by omega
        rw [List.length_cons, e]
        exact hJ2
      · intro k
        rw [hf2, hf1]
        by_cases hk : k = x.key
        · subst hk
          have h1 : keyIs x.key x = true := by simp [keyIs]
          have h2 : r.find? (keyIs x.key) = none := by
            apply find_eq_none_of_keys
            intro y hy e
            apply hnd.1
            rw [← e]
            exact List.mem_map_of_mem _ hy
          simp [List.find?_cons, h1, h2]
        · have h1 : keyIs k x = false := by simp [keyIs]; exact fun e => hk e.symm
          simp [List.find?_cons, h1, hk]

theorem MaybeResize_small
    (insert : HashTable V → HTKeyValue_t V → Option (HashTable V × Option (HTKeyValue_t V)))
    (t : HashTable V) (h : t.num_elements < 3 * t.num_buckets) :
    MaybeResize insert t = some t := by
  simp [MaybeResize, h]

theorem MaybeResize_big
    (insert : HashTable V → HTKeyValue_t V → Option (HashTable V × Option (HTKeyValue_t V)))
    (J : Nat → HashTable V → Prop) (t : HashTable V) (hins : InsertsFresh insert J t.numNodes)
    (hwf : t.WF) (h : ¬ t.num_elements < 3 * t.num_buckets)
    (hJ : J 0 (HashTable_Allocate (t.num_buckets * 9))) :
    ∃ t2, MaybeResize insert t = some t2 ∧ J t.numNodes t2 ∧
      ∀ k, HashTable_Find t2 k = HashTable_Find t k := by
  have hpos := hwf.pos
  have hn : t.num_elements ≠ 0 := by omega
  have hle := hwf.le
  have hne : t.entries ≠ [] := by
    intro e
    have := entries_length t hwf
    rw [e] at this
    simp at this
    omega
  obtain ⟨it, hit, hok, hrem, hht⟩ := HTIterator_Allocate_spec t hn hne
  have hlen := entries_length t hwf
  obtain ⟨t2, h1, h2, h3⟩ := MaybeResize_loop_spec insert J t.numNodes hins t.entries
    t.numNodes 0 it (HashTable_Allocate (t.num_buckets * 9)) hok hrem (by omega) (by omega)
    (by rw [hht]; exact hn) hJ (entries_keys_nodup t hwf) (fun x _ => Find_Allocate _ _)
  refine ⟨t2, ?_, ?_, ?_⟩
  · simp only [MaybeResize, h, if_false, hit, Option.some_bind]
    exact h1
  · rw [hlen, Nat.zero_add] at h2
    exact h2
  · intro k
    rw [h3, Find_Allocate, entries_find t hwf]
    simp

theorem Exact_Allocate (n : Nat) (hn : 0 < n) : (HashTable_Allocate n : HashTable V).Exact := by
  refine ⟨WF_Allocate n hn, ?_⟩
  rw [numNodes_Allocate]
  rfl

theorem Exact_insertPure_fresh (t : HashTable V) (kv : HTKeyValue_t V) (he : t.Exact)
    (hf : HashTable_Find t kv.key = none) :
    (insertPure t kv).Exact ∧ (insertPure t kv).num_elements = t.num_elements + 1 ∧
      (insertPure t kv).numNodes = t.numNodes + 1 := by
  have h1 := numNodes_insertPure t kv he.1.len he.1.pos
  have h2 := num_elements_insertPure t kv
  rw [hf] at h1 h2
  simp only [Option.isSome_none, Bool.false_eq_true, if_false, Nat.add_zero] at h1 h2
  refine ⟨⟨WF_insertPure t kv he.1, ?_⟩, h2, h1⟩
  rw [h2, h1, he.2]
  simp

theorem HashTable_Insert_succ (f : Nat) (t : HashTable V) (kv : HTKeyValue_t V) :
    HashTable_Insert (f + 1) t kv =
      (MaybeResize (HashTable_Insert f) t).bind fun t2 => HashTable_Insert_body t2 kv := rfl

theorem Insert_small (f : Nat) (t : HashTable V) (kv : HTKeyValue_t V) (hwf : t.WF)
    (h : t.num_elements < 3 * t.num_buckets) :
    HashTable_Insert (f + 1) t kv = some (insertPure t kv, HashTable_Find t kv.key) := by
  rw [HashTable_Insert_succ, MaybeResize_small _ t h, Option.some_bind,
    HashTable_Insert_body_eq t kv hwf.len hwf.pos]

theorem Insert_exact (f : Nat) (t : HashTable V) (kv : HTKeyValue_t V) (he : t.Exact)
    (hpb : t.PB) :
    ∃ t2, HashTable_Insert (f + 2) t kv = some (insertPure t2 kv, HashTable_Find t kv.key) ∧
      t2.Exact ∧ (∀ k, HashTable_Find t2 k = HashTable_Find t k) ∧
      t2.numNodes = t.numNodes ∧
      (if t.num_elements < 3 * t.num_buckets then t2 = t
       else t2.num_buckets = t.num_buckets * 9) := by
  by_cases h : t.num_elements < 3 * t.num_buckets
  · refine ⟨t, Insert_small (f + 1) t kv he.1 h, he, fun _ => rfl, rfl, by simp [h]⟩
  · have hN : t.numNodes = 3 * t.num_buckets := by
      have := he.2
      unfold HashTable.PB at hpb
      omega
    have hins : InsertsFresh (HashTable_Insert (f + 1))
        (fun i (u : HashTable V) => u.Exact ∧ u.num_buckets = t.num_buckets * 9 ∧ u.numNodes = i)
        t.numNodes := by
      intro i u x hi ⟨hu1, hu2, hu3⟩ hfr
      have hsm : u.num_elements < 3 * u.num_buckets := by
        rw [hu1.2, hu2, hu3]
        omega
      refine ⟨insertPure u x, ?_, ?_, ?_⟩
      · rw [Insert_small f u x hu1.1 hsm, hfr]
      · obtain ⟨h1, _, h3⟩ := Exact_insertPure_fresh u x hu1 hfr
        exact ⟨h1, hu2, by rw [h3, hu3]⟩
      · exact Find_insertPure u x hu1.1
    obtain ⟨t2, h1, ⟨h2, h3, h4⟩, h5⟩ := MaybeResize_big (HashTable_Insert (f + 1)) _ t hins
      he.1 h ⟨Exact_Allocate _ (by have := he.1.pos; omega), rfl, numNodes_Allocate _⟩
    refine ⟨t2, ?_, h2, h5, h4, by simp [h, h3]⟩
    rw [HashTable_Insert_succ, h1, Option.some_bind,
      HashTable_Insert_body_eq t2 kv h2.1.len h2.1.pos, h5]

theorem Insert_exact_fresh (f : Nat) (t : HashTable V) (kv : HTKeyValue_t V) (he : t.Exact)
    (hpb : t.PB) (hf : HashTable_Find t kv.key = none) :
    ∃ t3, HashTable_Insert (f + 2) t kv = some (t3, none) ∧ t3.Exact ∧ t3.PB ∧
      t3.numNodes = t.numNodes + 1 ∧ t.num_buckets ≤ t3.num_buckets ∧
      ∀ k, HashTable_Find t3 k = if k = kv.key then some kv else HashTable_Find t k := by
  obtain ⟨t2, h1, h2, h3, h4, h5⟩ := Insert_exact f t kv he hpb
  have hf2 : HashTable_Find t2 kv.key = none := by rw [h3, hf]
  obtain ⟨e1, e2, e3⟩ := Exact_insertPure_fresh t2 kv h2 hf2
  refine ⟨insertPure t2 kv, by rw [h1, hf], e1, ?_, by rw [e3, h4], ?_, ?_⟩
  · unfold HashTable.PB at hpb ⊢
    rw [e2, num_buckets_insertPure]
    split_ifs at h5 with hs
    · subst h5
      exact Int.add_one_le_iff.2 hs
    · have := h2.2
      have := he.2
      have hp := he.1.pos
      rw [h5]
      omega
  · rw [num_buckets_insertPure]
    split_ifs at h5 with hs
    · rw [h5]
    · rw [h5]
      omega
  · intro k
    rw [Find_insertPure t2 kv h2.1, h3]

theorem Insert_general (f : Nat) (t : HashTable V) (kv : HTKeyValue_t V) (hwf : t.WF) :
    ∃ t2, HashTable_Insert (f + 3) t kv = some (insertPure t2 kv, HashTable_Find t kv.key) ∧
      t2.WF ∧ (∀ k, HashTable_Find t2 k = HashTable_Find t k) ∧
      (if t.num_elements < 3 * t.num_buckets then t2 = t
       else t2.Exact ∧ t2.PB ∧ t2.numNodes = t.numNodes ∧
         t.num_buckets * 9 ≤ t2.num_buckets) := by
  by_cases h : t.num_elements < 3 * t.num_buckets
  · refine ⟨t, Insert_small (f + 2) t kv hwf h, hwf, fun _ => rfl, by simp [h]⟩
  · have hins : InsertsFresh (HashTable_Insert (f + 2))
        (fun i (u : HashTable V) => u.Exact ∧ u.PB ∧ u.numNodes = i ∧
          t.num_buckets * 9 ≤ u.num_buckets) t.numNodes := by
      intro i u x _ ⟨hu1, hu2, hu3, hu4⟩ hfr
      obtain ⟨t3, g1, g2, g3, g4, g5, g6⟩ := Insert_exact_fresh f u x hu1 hu2 hfr
      exact ⟨t3, g1, ⟨g2, g3, by rw [g4, hu3], by omega⟩, g6⟩
    have hpos := hwf.pos
    have hA : (HashTable_Allocate (t.num_buckets * 9) : HashTable V).PB := by
      simp [HashTable.PB, HashTable_Allocate]
    obtain ⟨t2, h1, ⟨h2, h3, h4, h6⟩, h5⟩ := MaybeResize_big (HashTable_Insert (f + 2)) _ t hins
      hwf h ⟨Exact_Allocate _ (by omega), hA, numNodes_Allocate _, le_refl _⟩
    refine ⟨t2, ?_, h2.1, h5, by simp [h, h2, h3, h4, h6]⟩
    rw [HashTable_Insert_succ, h1, Option.some_bind,
      HashTable_Insert_body_eq t2 kv h2.1.len h2.1.pos, h5]


theorem MaybeResize_loop_mono
    (i1 i2 : HashTable V → HTKeyValue_t V → Option (HashTable V × Option (HTKeyValue_t V)))
    (h : InsertLe i1 i2) (n : Nat) (it : HTIterator V) (u r : HashTable V)
    (hr : MaybeResize_loop i1 n it u = some r) : MaybeResize_loop i2 n it u = some r := by
  induction n generalizing it u with
  | zero => exact hr
  | succ m ih =>
    simp only [MaybeResize_loop] at hr ⊢
    split_ifs at hr ⊢ with hv
    · cases hg : HTIterator_Get it with
      | none => simp [hg] at hr
      | some item =>
        simp only [hg, Option.some_bind] at hr ⊢
        cases hi : i1 u item with
        | none => simp [hi] at hr
        | some x =>
          simp only [hi, h u item x hi, Option.some_bind] at hr ⊢
          cases hn : HTIterator_Next it with
          | none => simp [hn] at hr
          | some y =>
            simp only [hn, Option.some_bind] at hr ⊢
            exact ih _ _ hr
    · exact hr

theorem MaybeResize_mono
    (i1 i2 : HashTable V → HTKeyValue_t V → Option (HashTable V × Option (HTKeyValue_t V)))
    (h : InsertLe i1 i2) (t r : HashTable V)
    (hr : MaybeResize i1 t = some r) : MaybeResize i2 t = some r := by
  unfold MaybeResize at hr ⊢
  split_ifs at hr ⊢ with hs
  · exact hr
  · cases ha : HTIterator_Allocate t with
    | none => simp [ha] at hr
    | some it =>
      simp only [ha, Option.some_bind] at hr ⊢
      exact MaybeResize_loop_mono i1 i2 h _ _ _ _ hr

theorem HashTable_Insert_mono (f : Nat) :
    InsertLe (HashTable_Insert f : HashTable V → _) (HashTable_Insert (f + 1)) := by
  induction f with
  | zero =>
    intro u kv r hr
    simp [HashTable_Insert] at hr
  | succ m ih =>
    intro u kv r hr
    rw [HashTable_Insert_succ] at hr ⊢
    cases hm : MaybeResize (HashTable_Insert m) u with
    | none => simp [hm] at hr
    | some t2 =>
      rw [MaybeResize_mono _ _ ih u t2 hm]
      rw [hm] at hr
      exact hr

theorem HashTable_Insert_mono_add (f g : Nat) (t : HashTable V) (kv : HTKeyValue_t V)
    (r : HashTable V × Option (HTKeyValue_t V)) (h : HashTable_Insert f t kv = some r) :
    HashTable_Insert (f + g) t kv = some r := by
  induction g with
  | zero => exact h
  | succ m ih => exact HashTable_Insert_mono (f + m) t kv r ih

theorem WF_of_Insert (fuel : Nat) (t t2 : HashTable V) (kv : HTKeyValue_t V)
    (old : Option (HTKeyValue_t V)) (hwf : t.WF)
    (h : HashTable_Insert fuel t kv = some (t2, old)) : t2.WF := by
  have h1 := HashTable_Insert_mono_add fuel 3 t kv _ h
  obtain ⟨t3, h2, h3, _⟩ := Insert_general fuel t kv hwf
  have e : fuel + 3 = fuel + 3 := rfl
  rw [h2] at h1
  simp only [Option.some.injEq, Prod.mk.injEq] at h1
  rw [← h1.1]
  exact WF_insertPure t3 kv h3

theorem Reachable.wf {t : HashTable V} (h : Reachable t) : t.WF := by
  induction h with
  | alloc n hn => exact WF_Allocate n hn
  | insert fuel t t2 kv old _ hi ih => exact WF_of_Insert fuel t t2 kv old ih hi
  | remove t t2 k old _ hr ih =>
    rw [HashTable_Remove_eq_pure] at hr
    simp only [Option.some.injEq, Prod.mk.injEq] at hr
    rw [← hr.1]
    exact WF_removePure t k ih

theorem length_modifyFirst {α : Type} (p : α → Bool) (g : α → α) (l : List α) :
    (modifyFirst p g l).length = l.length := by
  induction l with
  | nil => rfl
  | cons x l ih =>
    unfold modifyFirst
    split_ifs <;> simp [ih]

theorem map_key_modifyFirst (p : HTKeyValue_t V → Bool) (f : V → V) (l : List (HTKeyValue_t V)) :
    (modifyFirst p (fun kv => { kv with value := f kv.value }) l).map (fun kv => kv.key) =
      l.map (fun kv => kv.key) := by
  induction l with
  | nil => rfl
  | cons x l ih =>
    unfold modifyFirst
    split_ifs <;> simp [ih]

theorem mem_modifyFirst_key (p : HTKeyValue_t V → Bool) (f : V → V) (l : List (HTKeyValue_t V))
    (x : HTKeyValue_t V)
    (h : x ∈ modifyFirst p (fun kv => { kv with value := f kv.value }) l) :
    ∃ y ∈ l, y.key = x.key := by
  have : x.key ∈ (modifyFirst p (fun kv => { kv with value := f kv.value }) l).map
      (fun kv => kv.key) := List.mem_map_of_mem _ h
  rw [map_key_modifyFirst] at this
  obtain ⟨y, hy, hk⟩ := List.mem_map.1 this
  exact ⟨y, hy, hk⟩

theorem find_modifyFirst (key k : HTKey_t) (f : V → V) (l : List (HTKeyValue_t V)) :
    (modifyFirst (keyIs key) (fun kv => { kv with value := f kv.value }) l).find? (keyIs k) =
      if k = key then (l.find? (keyIs key)).map (fun kv => { kv with value := f kv.value })
      else l.find? (keyIs k) := by
  induction l with
  | nil => simp [modifyFirst]
  | cons x l ih =>
    unfold modifyFirst
    by_cases hx : x.key = key
    · have h1 : keyIs key x = true := by simp [keyIs, hx]
      simp only [h1, if_true, List.find?_cons]
      by_cases hk : k = key
      · subst hk
        simp [keyIs, hx]
      · have h2 : keyIs k x = false := by simp [keyIs, hx]; exact fun e => hk e.symm
        have h3 : keyIs k { x with value := f x.value } = false := h2
        simp [hk, h2, h3]
    · have h1 : keyIs key x = false := by simp [keyIs, hx]
      simp only [h1, Bool.false_eq_true, if_false, List.find?_cons, ih]
      by_cases hk : k = key
      · subst hk
        simp [h1]
      · simp only [hk, if_false]

theorem chain_updateValue (t : HashTable V) (key : HTKey_t) (f : V → V)
    (hl : t.buckets.length = t.num_buckets) (hp : 0 < t.num_buckets) (j : Nat) :
    (t.updateValue key f).chain j =
      if j = key % t.num_buckets then
        modifyFirst (keyIs key) (fun kv => { kv with value := f kv.value }) (t.chain j)
      else t.chain j := by
  have hlt : key % t.num_buckets < t.buckets.length := by
    rw [hl]; exact Nat.mod_lt _ hp
  unfold HashTable.updateValue
  simp only [HashKeyToBucketNum]
  rw [chain_setChain]
  by_cases h : j = key % t.num_buckets
  · subst h
    simp only [hlt, and_self, if_true]
    rfl
  · have h2 : ¬ key % t.num_buckets = j := fun e => h e.symm
    simp [h, h2]

theorem num_buckets_updateValue (t : HashTable V) (key : HTKey_t) (f : V → V) :
    (t.updateValue key f).num_buckets = t.num_buckets := rfl

theorem num_elements_updateValue (t : HashTable V) (key : HTKey_t) (f : V → V) :
    (t.updateValue key f).num_elements = t.num_elements := rfl

theorem numNodes_updateValue (t : HashTable V) (key : HTKey_t) (f : V → V)
    (hl : t.buckets.length = t.num_buckets) (hp : 0 < t.num_buckets) :
    (t.updateValue key f).numNodes = t.numNodes := by
  have hlt : key % t.num_buckets < t.buckets.length := by
    rw [hl]; exact Nat.mod_lt _ hp
  have := numNodes_setChain t (key % t.num_buckets)
    (modifyFirst (keyIs key) (fun kv => { kv with value := f kv.value })
      (t.chain (key % t.num_buckets))) hlt
  rw [length_modifyFirst] at this
  have e : (t.updateValue key f).numNodes = (t.setChain (key % t.num_buckets)
    (modifyFirst (keyIs key) (fun kv => { kv with value := f kv.value })
      (t.chain (key % t.num_buckets)))).numNodes := rfl
  omega

theorem WF_updateValue (t : HashTable V) (key : HTKey_t) (f : V → V) (h : t.WF) :
    (t.updateValue key f).WF := by
  have hc := chain_updateValue t key f h.len h.pos
  refine ⟨h.pos, ?_, ?_, ?_, ?_⟩
  · simp [HashTable.updateValue, HashTable.setChain, h.len]
  · intro i x hx
    rw [hc] at hx
    rw [num_buckets_updateValue]
    split_ifs at hx with hi
    · obtain ⟨y, hy, hk⟩ := mem_modifyFirst_key _ _ _ _ hx
      rw [← hk]
      exact h.placed i y hy
    · exact h.placed i x hx
  · intro i
    rw [hc]
    split_ifs with hi
    · rw [map_key_modifyFirst]
      exact h.nodup i
    · exact h.nodup i
  · rw [num_elements_updateValue, numNodes_updateValue t key f h.len h.pos]
    exact h.le

theorem Exact_updateValue (t : HashTable V) (key : HTKey_t) (f : V → V) (h : t.Exact) :
    (t.updateValue key f).Exact := by
  refine ⟨WF_updateValue t key f h.1, ?_⟩
  rw [num_elements_updateValue, numNodes_updateValue t key f h.1.len h.1.pos]
  exact h.2

theorem Find_updateValue (t : HashTable V) (key : HTKey_t) (f : V → V) (h : t.WF)
    (k : HTKey_t) :
    HashTable_Find (t.updateValue key f) k =
      if k = key then (HashTable_Find t k).map (fun kv => { kv with value := f kv.value })
      else HashTable_Find t k := by
  rw [HashTable_Find_eq, HashTable_Find_eq, num_buckets_updateValue,
    chain_updateValue t key f h.len h.pos]
  by_cases hk : k = key
  · subst hk
    simp [find_modifyFirst]
  · simp only [hk, if_false]
    split_ifs with hi
    · rw [find_modifyFirst]
      simp [hk]
    · rfl

end

/-! ## Theorems: the hash table contract (claims C4 to C7) -/

theorem removePure_of_find_none {V : Type} (t : HashTable V) (k : HTKey_t)
    (h : HashTable_Find t k = none) : removePure t k = t := by
  rw [HashTable_Find_eq] at h
  unfold removePure
  rw [h]
  rfl

theorem Reachable_insertMany {V : Type} (fuel : Nat) (l : List (HTKeyValue_t V))
    (t t2 : HashTable V) (ht : Reachable t) (h : insertMany fuel l t = some t2) :
    Reachable t2 := by
  induction l generalizing t with
  | nil =>
    simp only [insertMany, Option.some.injEq] at h
    exact h ▸ ht
  | cons kv rest ih =>
    simp only [insertMany] at h
    cases hi : HashTable_Insert fuel t kv with
    | none => simp [hi] at h
    | some r =>
      rw [hi] at h
      exact ih r.1 (Reachable.insert fuel t r.1 kv r.2 ht hi) h

theorem Reachable_fullTable : Reachable fullTable :=
  Reachable_insertMany 3 [⟨0, 0⟩, ⟨1, 10⟩, ⟨2, 20⟩, ⟨3, 30⟩, ⟨4, 40⟩, ⟨5, 50⟩]
    (HashTable_Allocate 2) fullTable (Reachable.alloc 2 (by decide)) (by decide)

/-- C5: on a reachable table that stores `(k, v)`, `HashTable_Remove(t, k)`
returns that pair; afterwards `HashTable_Find(t, k)` finds nothing and a
second `HashTable_Remove(t, k)` returns nothing. For a key that is not stored
`HashTable_Remove` returns nothing and leaves the table as it was. -/
theorem C5_remove_returns_once {V : Type} (t : HashTable V) (ht : Reachable t) (k : HTKey_t) :
    (∀ v, (⟨k, v⟩ : HTKeyValue_t V) ∈ t.entries →
      ∃ t2, HashTable_Remove t k = some (t2, some ⟨k, v⟩) ∧
        HashTable_Find t2 k = none ∧ HashTable_Remove t2 k = some (t2, none)) ∧
    ((∀ x ∈ t.entries, x.key ≠ k) → HashTable_Remove t k = some (t, none)) := by
  constructor
  · intro v hv
    have hf : HashTable_Find t k = some ⟨k, v⟩ := (Find_some_iff t ht.wf k _).2 ⟨hv, rfl⟩
    have hn : HashTable_Find (removePure t k) k = none := by
      rw [Find_removePure t k ht.wf]
      simp
    refine ⟨removePure t k, by rw [HashTable_Remove_eq_pure, hf], hn, ?_⟩
    rw [HashTable_Remove_eq_pure, hn]
    rw [removePure_of_find_none _ k hn]
  · intro hab
    have hf : HashTable_Find t k = none := by
      cases hf : HashTable_Find t k with
      | none => rfl
      | some x =>
        obtain ⟨hx, hk⟩ := (Find_some_iff t ht.wf k x).1 hf
        exact absurd hk (hab x hx)
    rw [HashTable_Remove_eq_pure, hf]
    rw [removePure_of_find_none t k hf]

theorem C5_witness :
    (∀ v, (⟨3, v⟩ : HTKeyValue_t Nat) ∈ fullTable.entries →
      ∃ t2, HashTable_Remove fullTable 3 = some (t2, some ⟨3, v⟩) ∧
        HashTable_Find t2 3 = none ∧ HashTable_Remove t2 3 = some (t2, none)) ∧
    ((∀ x ∈ fullTable.entries, x.key ≠ 3) → HashTable_Remove fullTable 3 = some (fullTable, none)) :=
  C5_remove_returns_once fullTable Reachable_fullTable 3

/-- C6 (the code breaks the claim): after `HashTable_Allocate(2)`,
`HashTable_Insert` of `(1, 10)` and then of `(1, 11)`, the table is reachable,
holds one node, and `HashTable_NumElements` is `0`. -/
theorem C6_num_elements_after_replace :
    ∃ t : HashTable Nat, Reachable t ∧
      insertMany 3 [⟨1, 10⟩, ⟨1, 11⟩] (HashTable_Allocate 2) = some t ∧
      HashTable_NumElements t = 0 ∧ t.numNodes = 1 ∧
      (t.buckets.map LinkedList_NumElements).sum = 1 := by
  refine ⟨{ num_buckets := 2, num_elements := 0, buckets := [[], [⟨1, 11⟩]] }, ?_, by decide,
    by decide, by decide, by decide⟩
  exact Reachable_insertMany 3 [⟨1, 10⟩, ⟨1, 11⟩] (HashTable_Allocate 2) _
    (Reachable.alloc 2 (by decide)) (by decide)

theorem FNVHash64_while_eq (pre rest : List Nat) (hval : Nat) :
    FNVHash64_while (pre ++ rest) (pre ++ rest).length rest.length pre.length hval =
      rest.foldl (fun h byte => ((Nat.xor h byte) * 0x100000001B3) % 2 ^ 64) hval := by
  induction rest generalizing pre hval with
  | nil => simp [FNVHash64_while]
  | cons b rest ih =>
    have hlt : pre.length < (pre ++ b :: rest).length := by simp
    have hb : (pre ++ b :: rest).getD pre.length 0 = b := by
      rw [List.getD_eq_getElem?_getD, List.getElem?_append_right (le_refl _)]
      simp
    have := ih (pre ++ [b]) (((hval ^^^ b) * 0x100000001b3) % 2 ^ 64)
    simp only [List.append_assoc, List.singleton_append, List.length_append,
      List.length_singleton] at this
    simp only [List.length_cons, FNVHash64_while, hlt, if_true, hb, List.foldl_cons]
    rw [List.length_append]
    exact this

/-- C25: `FNVHash64` is the FNV-1a-64 reference: for every byte sequence the
loop of `FNVHash64`, run over the whole buffer from `FNV1_64_INIT`, gives the
left fold from `0xCBF29CE484222325` of `h ↦ ((h XOR byte) × 0x100000001B3)
mod 2^64`; so does the closed form `FNVHash64` used in this development. The
hash of the empty buffer is `0xCBF29CE484222325` and the hash of the buffer
`"a"` is `0xAF63DC4C8601EC8C`. -/
theorem C25_fnv1a64_reference (buffer : List Nat) :
    FNVHash64_while buffer buffer.length buffer.length 0 0xcbf29ce484222325 =
      refFNV1a64 buffer ∧
    FNVHash64 buffer = refFNV1a64 buffer ∧
    FNVHash64 [] = 0xCBF29CE484222325 ∧
    FNVHash64 (bytes "a") = 0xAF63DC4C8601EC8C := by
  refine ⟨?_, rfl, by decide, by decide⟩
  have := FNVHash64_while_eq [] buffer 0xcbf29ce484222325
  simpa [refFNV1a64] using this

/-- C30: in every hash table reachable from `HashTable_Allocate` by calls of
`HashTable_Insert` and `HashTable_Remove` (resizes included), every pair
stored in the chain of a bucket `i` has `HashKeyToBucketNum` of its key equal
to `i`, the bucket array has `num_buckets` chains, and no key occurs twice
among the pairs of the whole table. -/
theorem C30_bucket_placement {V : Type} (t : HashTable V) (h : Reachable t) :
    (∀ i, ∀ kv ∈ t.chain i, HashKeyToBucketNum t kv.key = i) ∧
    t.buckets.length = t.num_buckets ∧
    (∀ kv ∈ t.buckets.flatten, kv ∈ t.chain (kv.key % t.num_buckets)) ∧
    (t.buckets.flatten.map fun kv => kv.key).Nodup := by
  have hwf := h.wf
  refine ⟨hwf.placed, hwf.len, ?_, ?_⟩
  · intro kv hkv
    rw [← entries_eq t hwf] at hkv
    exact ((mem_entries t hwf kv).1 hkv)
  · rw [← entries_eq t hwf]
    exact entries_keys_nodup t hwf

theorem C30_witness :
    (∀ i, ∀ kv ∈ fullTable.chain i, HashKeyToBucketNum fullTable kv.key = i) ∧
    fullTable.buckets.length = fullTable.num_buckets ∧
    (∀ kv ∈ fullTable.buckets.flatten, kv ∈ fullTable.chain (kv.key % fullTable.num_buckets)) ∧
    (fullTable.buckets.flatten.map fun kv => kv.key).Nodup :=
  C30_bucket_placement fullTable Reachable_fullTable

theorem Insert_exact_num_buckets {V : Type} (f : Nat) (t : HashTable V) (kv : HTKeyValue_t V)
    (he : t.Exact) (hpb : t.PB) :
    ∃ t3 old, HashTable_Insert (f + 2) t kv = some (t3, old) ∧
      t3.num_buckets =
        if t.num_elements < 3 * t.num_buckets then t.num_buckets else t.num_buckets * 9 := by
  obtain ⟨t2, h1, _, _, _, h5⟩ := Insert_exact f t kv he hpb
  refine ⟨_, _, h1, ?_⟩
  rw [num_buckets_insertPure]
  split_ifs at h5 ⊢ with hs
  · rw [h5]
  · exact h5

theorem Remove_num_buckets {V : Type} (t t2 : HashTable V) (k : HTKey_t)
    (old : Option (HTKeyValue_t V)) (h : HashTable_Remove t k = some (t2, old)) :
    t2.num_buckets = t.num_buckets := by
  rw [HashTable_Remove_eq_pure] at h
  simp only [Option.some.injEq, Prod.mk.injEq] at h
  rw [← h.1, num_buckets_removePure]

theorem Insert_resize_once {V : Type} (f : Nat) (t : HashTable V) (kv : HTKeyValue_t V)
    (hwf : t.WF) (h : ¬ t.num_elements < 3 * t.num_buckets)
    (hN : t.numNodes ≤ 27 * t.num_buckets) :
    ∃ t2, HashTable_Insert (f + 2) t kv = some (insertPure t2 kv, HashTable_Find t kv.key) ∧
      t2.num_buckets = t.num_buckets * 9 := by
  have hins : InsertsFresh (HashTable_Insert (f + 1))
      (fun i (u : HashTable V) => u.Exact ∧ u.num_buckets = t.num_buckets * 9 ∧ u.numNodes = i)
      t.numNodes := by
    intro i u x hi ⟨hu1, hu2, hu3⟩ hfr
    have hsm : u.num_elements < 3 * u.num_buckets := by
      rw [hu1.2, hu2, hu3]
      omega
    refine ⟨insertPure u x, ?_, ?_, ?_⟩
    · rw [Insert_small f u x hu1.1 hsm, hfr]
    · obtain ⟨h1, _, h3⟩ := Exact_insertPure_fresh u x hu1 hfr
      exact ⟨h1, hu2, by rw [h3, hu3]⟩
    · exact Find_insertPure u x hu1.1
  obtain ⟨t2, h1, ⟨h2, h3, _⟩, h5⟩ := MaybeResize_big (HashTable_Insert (f + 1)) _ t hins
    hwf h ⟨Exact_Allocate _ (by have := hwf.pos; omega), rfl, numNodes_Allocate _⟩
  refine ⟨t2, ?_, h3⟩
  rw [HashTable_Insert_succ, h1, Option.some_bind,
    HashTable_Insert_body_eq t2 kv h2.1.len h2.1.pos, h5]

theorem Insert_resize_twice {V : Type} (f : Nat) (t : HashTable V) (kv : HTKeyValue_t V)
    (hwf : t.WF) (h : ¬ t.num_elements < 3 * t.num_buckets)
    (hN1 : 27 * t.num_buckets < t.numNodes) (hN2 : t.numNodes ≤ 243 * t.num_buckets) :
    ∃ t2, HashTable_Insert (f + 3) t kv = some (insertPure t2 kv, HashTable_Find t kv.key) ∧
      t2.num_buckets = t.num_buckets * 81 := by
  have hins : InsertsFresh (HashTable_Insert (f + 2))
      (fun i (u : HashTable V) => u.Exact ∧ u.numNodes = i ∧
        u.num_buckets = if i ≤ 27 * t.num_buckets then t.num_buckets * 9
          else t.num_buckets * 81)
      t.numNodes := by
    intro i u x hi ⟨hu1, hu3, hu4⟩ hfr
    have hpos := hwf.pos
    have hpb : u.PB := by
      unfold HashTable.PB
      rw [hu1.2, hu3, hu4]
      split_ifs with hc
      · push_cast; omega
      · push_cast; omega
    obtain ⟨t2, g1, g2, g3, g4, g5⟩ := Insert_exact f u x hu1 hpb
    have hf2 : HashTable_Find t2 x.key = none := by rw [g3, hfr]
    obtain ⟨e1, _, e3⟩ := Exact_insertPure_fresh t2 x g2 hf2
    refine ⟨insertPure t2 x, by rw [g1, hfr], ⟨e1, by rw [e3, g4, hu3], ?_⟩, ?_⟩
    · rw [num_buckets_insertPure]
      rw [hu1.2, hu3, hu4] at g5
      by_cases hc : i ≤ 27 * t.num_buckets
      · simp only [hc, if_true] at g5 hu4
        by_cases hc2 : i + 1 ≤ 27 * t.num_buckets
        · simp only [hc2, if_true]
          have hlt : (i : Int) < 3 * ((t.num_buckets * 9 : Nat) : Int) := by push_cast; omega
          rw [if_pos hlt] at g5
          rw [g5, hu4]
        · simp only [hc2, if_false]
          have hlt : ¬ (i : Int) < 3 * ((t.num_buckets * 9 : Nat) : Int) := by push_cast; omega
          rw [if_neg hlt] at g5
          rw [g5]
          omega
      · simp only [hc, if_false] at g5 hu4
        have hc2 : ¬ i + 1 ≤ 27 * t.num_buckets := by omega
        simp only [hc2, if_false]
        have hlt : (i : Int) < 3 * ((t.num_buckets * 81 : Nat) : Int) := by push_cast; omega
        rw [if_pos hlt] at g5
        rw [g5, hu4]
    · intro k
      rw [Find_insertPure t2 x g2.1, g3]
  obtain ⟨t2, h1, ⟨h2, _, h3⟩, h5⟩ := MaybeResize_big (HashTable_Insert (f + 2)) _ t hins
    hwf h ⟨Exact_Allocate _ (by have := hwf.pos; omega), numNodes_Allocate _,
      by simp [HashTable_Allocate]⟩
  refine ⟨t2, ?_, ?_⟩
  · rw [HashTable_Insert_succ, h1, Option.some_bind,
      HashTable_Insert_body_eq t2 kv h2.1.len h2.1.pos, h5]
  · rw [h3, if_neg (by omega)]

theorem insert_one_fresh (f : Nat) (c : List (HTKeyValue_t Nat)) (n : Int) (hn : n < 3)
    (kv : HTKeyValue_t Nat) (hf : c.find? (keyIs kv.key) = none) :
    HashTable_Insert (f + 1) ⟨1, n, [c]⟩ kv = some (⟨1, n + 1, [kv :: c]⟩, none) := by
  rw [HashTable_Insert_succ, MaybeResize_small _ _ (by simpa using hn), Option.some_bind,
    HashTable_Insert_body_eq _ kv rfl Nat.one_pos, HashTable_Find_eq]
  simp [insertPure, HashTable.chain, Nat.mod_one, hf, eraseP_of_find_none _ _ hf]

theorem insert_one_head (f : Nat) (c : List (HTKeyValue_t Nat)) (n : Int) (hn : n < 3)
    (k : HTKey_t) (v0 v : Nat) :
    HashTable_Insert (f + 1) ⟨1, n, [⟨k, v0⟩ :: c]⟩ ⟨k, v⟩ =
      some (⟨1, n - 1, [⟨k, v⟩ :: c]⟩, some ⟨k, v0⟩) := by
  rw [HashTable_Insert_succ, MaybeResize_small _ _ (by simpa using hn), Option.some_bind,
    HashTable_Insert_body_eq _ _ rfl Nat.one_pos, HashTable_Find_eq]
  simp [insertPure, HashTable.chain, Nat.mod_one, keyIs]

theorem find_undercountChain (m k : Nat) (h : m ≤ k) :
    (undercountChain m).find? (keyIs k) = none := by
  rw [List.find?_eq_none]
  intro x hx
  simp only [undercountChain, List.mem_map, List.mem_reverse, List.mem_range] at hx
  obtain ⟨j, hj, rfl⟩ := hx
  simp only [keyIs, decide_eq_true_eq]
  exact Nat.ne_of_lt (Nat.lt_of_lt_of_le hj h)

theorem insertMany_append {V : Type} (fuel : Nat) (l1 l2 : List (HTKeyValue_t V))
    (t : HashTable V) :
    insertMany fuel (l1 ++ l2) t = (insertMany fuel l1 t).bind (insertMany fuel l2) := by
  induction l1 generalizing t with
  | nil => simp [insertMany]
  | cons kv l1 ih =>
    simp only [List.cons_append, insertMany]
    cases HashTable_Insert fuel t kv with
    | none => rfl
    | some r => simp [ih]

theorem insertMany_replaceSeq (f m : Nat) :
    insertMany (f + 1) (replaceSeq m) (HashTable_Allocate 1) =
      some ⟨1, 0, [undercountChain m]⟩ := by
  induction m with
  | zero => rfl
  | succ m ih =>
    have e : replaceSeq (m + 1) = replaceSeq m ++ [⟨m, 0⟩, ⟨m, 1⟩] := by
      simp [replaceSeq, List.range_succ]
    rw [e, insertMany_append, ih, Option.some_bind]
    simp only [insertMany]
    rw [insert_one_fresh f _ 0 (by decide) ⟨m, 0⟩ (find_undercountChain m m (le_refl _)),
      Option.some_bind, insert_one_head f _ _ (by decide) m 0 1, Option.some_bind]
    simp [undercountChain, List.range_succ]

theorem insertMany_undercountSeq (f : Nat) :
    insertMany (f + 1) undercountSeq (HashTable_Allocate 1) = some undercountTable := by
  rw [undercountSeq, insertMany_append, insertMany_replaceSeq, Option.some_bind]
  simp only [insertMany]
  rw [insert_one_fresh f _ 0 (by decide) ⟨25, 0⟩ (find_undercountChain 25 25 (by decide)),
    Option.some_bind,
    insert_one_fresh f _ _ (by decide) ⟨26, 0⟩
      (by simp [keyIs, find_undercountChain 25 26 (by decide)]),
    Option.some_bind,
    insert_one_fresh f _ _ (by decide) ⟨27, 0⟩
      (by simp [keyIs, find_undercountChain 25 27 (by decide)]),
    Option.some_bind]
  rfl

/-- C24 (the code breaks the claim): the run `undercountSeq` on
`HashTable_Allocate(1)` (each of 25 keys inserted twice, then three more
keys) leaves a reachable table with `b = 1` bucket, `num_elements = 3` and 28
nodes, since every replacing insert lowers `num_elements`. Then
`3 * b <= num_elements` holds, and the next `HashTable_Insert` leaves the
table with 81 buckets, not with `9 * b = 9`: the table of 9 buckets that
`MaybeResize` fills receives 28 pairs and is resized itself on the last of
them. -/
theorem C24_resize_overshoots :
    Reachable undercountTable ∧
    insertMany 3 undercountSeq (HashTable_Allocate 1) = some undercountTable ∧
    undercountTable.num_buckets = 1 ∧ HashTable_NumElements undercountTable = 3 ∧
    undercountTable.numNodes = 28 ∧
    ∃ t2 old, HashTable_Insert 3 undercountTable ⟨28, 0⟩ = some (t2, old) ∧
      t2.num_buckets = 81 := by
  have h := insertMany_undercountSeq 2
  have hr : Reachable undercountTable :=
    Reachable_insertMany 3 undercountSeq (HashTable_Allocate 1) _
      (Reachable.alloc 1 (by decide)) h
  have hn : undercountTable.numNodes = 28 := by decide
  obtain ⟨t2, h1, h2⟩ := Insert_resize_twice 0 undercountTable ⟨28, 0⟩ hr.wf (by decide)
    (by rw [hn]; decide) (by rw [hn]; decide)
  exact ⟨hr, h, rfl, rfl, hn, _, _, h1, by rw [num_buckets_insertPure, h2]; rfl⟩

/-! ## Theorems: the tokenizer -/

theorem runStart_eq (c : List Nat) (p : Nat) :
    runStart c p = (isalpha (c.getD p 0) && (p == 0 || !isalpha (c.getD (p - 1) 0))) := rfl

theorem specTokensFrom_ge (c : List Nat) (s : Nat) (h : c.length ≤ s) :
    specTokensFrom c s = [] := by
  have : c.length - s = 0 := by omega
  simp [specTokensFrom, this]

theorem specTokensFrom_lt (c : List Nat) (s : Nat) (h : s < c.length) :
    specTokensFrom c s =
      (if runStart c s then [(runAt c s, s)] else []) ++ specTokensFrom c (s + 1) := by
  have e : c.length - s = (c.length - (s + 1)) + 1 := by omega
  unfold specTokensFrom
  rw [e, List.range'_succ, List.filter_cons]
  split_ifs <;> simp

theorem takeWhile_append_of_all {α : Type} (p : α → Bool) (l1 l2 : List α)
    (h : ∀ x ∈ l1, p x = true) :
    (l1 ++ l2).takeWhile p = l1 ++ l2.takeWhile p := by
  induction l1 with
  | nil => rfl
  | cons x l1 ih =>
    simp only [List.cons_append, List.takeWhile_cons, h x (List.mem_cons_self _ _), if_true,
      List.cons.injEq, true_and]
    exact ih fun y hy => h y (List.mem_cons_of_mem _ hy)

theorem getD_append_length (done rest : List Nat) (b : Nat) :
    (done ++ b :: rest).getD done.length 0 = b := by
  rw [List.getD_eq_getElem?_getD, List.getElem?_append_right (le_refl _)]
  simp

theorem scan_spec (rest : List Nat) :
    ∀ (c done : List Nat) (ws : Nat), c = done ++ rest → ws ≤ done.length →
      (ws = 0 ∨ isalpha (c.getD (ws - 1) 0) = false) →
      (∀ b ∈ done.drop ws, isalpha b = true) →
      scan rest done.length ws ((done.drop ws).map tolower) =
        (if ws < done.length then [(runAt c ws, ws)] else []) ++ specTokensFrom c done.length := by
  induction rest with
  | nil =>
    intro c done ws hc hws _ hall
    simp only [List.append_nil] at hc
    subst hc
    rw [specTokensFrom_ge _ _ (le_refl _), List.append_nil]
    simp only [scan, ne_eq, List.map_eq_nil_iff, List.drop_eq_nil_iff, not_le]
    split_ifs with h
    · simp only [runAt, List.cons.injEq, Prod.mk.injEq, and_true]
      rw [List.takeWhile_eq_self_iff.2 hall]
    · rfl
  | cons b rest ih =>
    intro c done ws hc hws hbd hall
    have hc2 : c = (done ++ [b]) ++ rest := by rw [hc]; simp
    have hlen : (done ++ [b]).length = done.length + 1 := by simp
    have hlt : done.length < c.length := by rw [hc]; simp
    have hcur : c.getD done.length 0 = b := by rw [hc]; exact getD_append_length _ _ _
    rw [specTokensFrom_lt c _ hlt]
    by_cases ha : isalpha b = true
    · have h1 := ih c (done ++ [b]) ws hc2 (by rw [hlen]; omega) hbd (by
        intro x hx
        rw [List.drop_append_of_le_length hws] at hx
        rcases List.mem_append.1 hx with hx | hx
        · exact hall x hx
        · simp only [List.mem_singleton] at hx
          subst hx
          exact ha)
      rw [hlen, List.drop_append_of_le_length hws, List.map_append] at h1
      have hlt2 : ws < done.length + 1 := by omega
      simp only [hlt2, if_true, List.map_cons, List.map_nil] at h1
      simp only [scan, ha, if_true]
      rw [h1]
      by_cases hw : ws < done.length
      · have hns : runStart c done.length = false := by
          have hprev : isalpha (c.getD (done.length - 1) 0) = true := by
            apply hall
            rw [hc, List.getD_eq_getElem?_getD,
              List.getElem?_append_left (by omega : done.length - 1 < done.length)]
            have hd : done.length - 1 < done.length := by omega
            rw [List.getElem?_eq_getElem hd]
            simp only [Option.getD_some]
            rw [List.mem_iff_getElem]
            refine ⟨done.length - 1 - ws, by simp; omega, ?_⟩
            simp only [List.getElem_drop]
            congr 1
            omega
          have hne : ¬ done.length = 0 := by omega
          rw [runStart_eq, hprev]
          simp [hne]
        simp [hw, hns]
      · have hweq : ws = done.length := by omega
        have hs : runStart c done.length = true := by
          rw [hweq] at hbd
          rw [runStart_eq, hcur, ha]
          rcases hbd with h0 | h0
          · simp [h0]
          · rw [h0]
            simp
        subst hweq
        simp [hs]
    · simp only [Bool.not_eq_true] at ha
      have h1 := ih c (done ++ [b]) (done.length + 1) hc2 (by rw [hlen]) (by
        right
        simp only [Nat.add_sub_cancel]
        rw [hcur]
        exact ha) (by
        intro x hx
        rw [List.drop_eq_nil_of_le (by rw [hlen])] at hx
        simp at hx)
      rw [hlen, List.drop_eq_nil_of_le (by rw [hlen])] at h1
      simp only [List.map_nil, lt_self_iff_false, if_false, List.nil_append] at h1
      have hns : runStart c done.length = false := by
        rw [runStart_eq, hcur, ha]
        simp
      simp only [scan, ha, Bool.false_eq_true, if_false, h1, hns, List.nil_append, ne_eq,
        List.map_eq_nil_iff, List.drop_eq_nil_iff, not_le]
      congr 1
      split_ifs with hw
      · simp only [runAt, List.cons.injEq, Prod.mk.injEq, and_true]
        rw [hc, List.drop_append_of_le_length hws, takeWhile_append_of_all _ _ _ hall]
        simp [List.takeWhile_cons, ha]
      · rfl

theorem scan_eq_specTokens (c : List Nat) : scan c 0 0 [] = specTokens c := by
  have := scan_spec c c [] 0 rfl (le_refl _) (Or.inl rfl) (by simp)
  simpa [specTokens] using this

theorem addTokens_append (fuel : Nat) (l1 l2 : List (CString × Nat))
    (tab : HashTable WordPositions) :
    addTokens fuel (l1 ++ l2) tab = (addTokens fuel l1 tab).bind (addTokens fuel l2) := by
  induction l1 generalizing tab with
  | nil => simp [addTokens]
  | cons t l1 ih =>
    simp only [List.cons_append, addTokens]
    cases h : AddWordPosition fuel tab t.1 (t.2 % 2 ^ 32) with
    | none => simp
    | some tab2 => simp [ih]

theorem tolower_ne_zero (b : Nat) (h : b ≠ 0) : tolower b ≠ 0 := by
  unfold tolower
  split_ifs <;> omega

theorem isalpha_ne_zero (b : Nat) (h : isalpha b = true) : b ≠ 0 := by
  rintro rfl
  simp [isalpha] at h

theorem takeWhile_ne_zero_append (w rest : List Nat) (hw : ∀ b ∈ w, b ≠ 0) :
    (w ++ 0 :: rest).takeWhile (fun b => b != 0) = w := by
  induction w with
  | nil => simp
  | cons x w ih =>
    have hx : x ≠ 0 := hw x (List.mem_cons_self _ _)
    simp only [List.cons_append, List.takeWhile_cons, bne_iff_ne, ne_eq, hx, not_false_eq_true,
      if_true, List.cons.injEq, true_and]
    exact ih fun b hb => hw b (List.mem_cons_of_mem _ hb)

theorem takeWhile_ne_zero_self (w : List Nat) (hw : ∀ b ∈ w, b ≠ 0) :
    w.takeWhile (fun b => b != 0) = w := by
  rw [List.takeWhile_eq_self_iff]
  intro b hb
  simp [hw b hb]

theorem InsertContent_emit_word (fuel : Nat) (tab : HashTable WordPositions)
    (content word : List Nat) (word_start : Nat)
    (h : cstring content word_start = word) :
    InsertContent_emit fuel tab content word_start =
      addTokens fuel (if word ≠ [] then [(word, word_start)] else []) tab := by
  unfold InsertContent_emit
  have : strlen (content.drop word_start) = word.length := by
    rw [← h]; rfl
  rw [this, h]
  by_cases hw : word = []
  · simp [hw, addTokens]
  · have : 0 < word.length := List.length_pos.2 hw
    simp only [gt_iff_lt, this, if_true, ne_eq, hw, not_false_eq_true, addTokens]
    cases AddWordPosition fuel tab word (word_start % 2 ^ 32) <;> simp

theorem InsertContent_loop_scan (fuel : Nat) (rest : List Nat) :
    ∀ (n : Nat) (done : List Nat) (word_start : Nat) (tab : HashTable WordPositions),
      rest.length ≤ n → word_start ≤ done.length →
      (∀ b ∈ done.drop word_start, b ≠ 0) → (∀ b ∈ rest, b ≠ 0) →
      InsertContent_finish fuel
          (InsertContent_loop fuel n (done ++ rest) done.length word_start tab) =
        addTokens fuel (scan rest done.length word_start (done.drop word_start)) tab := by
  induction rest with
  | nil =>
    intro n done ws tab _ hws hword _
    have hexit : InsertContent_loop fuel n (done ++ []) done.length ws tab =
        some (done, ws, tab) := by
      cases n <;> simp [InsertContent_loop]
    rw [hexit]
    simp only [InsertContent_finish, Option.some_bind, scan]
    apply InsertContent_emit_word
    exact takeWhile_ne_zero_self _ hword
  | cons b rest ih =>
    intro n done ws tab hn hws hword hrest
    have hb : b ≠ 0 := hrest b (List.mem_cons_self _ _)
    have hrest2 : ∀ x ∈ rest, x ≠ 0 := fun x hx => hrest x (List.mem_cons_of_mem _ hx)
    cases n with
    | zero => simp at hn
    | succ m =>
      have hget : (done ++ b :: rest).getD done.length 0 = b := by
        rw [List.getD_eq_getElem?_getD, List.getElem?_append_right (le_refl _)]
        simp
      have hset : ∀ x, (done ++ b :: rest).set done.length x = (done ++ [x]) ++ rest := by
        intro x
        simp [List.set_append]
      simp only [InsertContent_loop, hget, hb, if_false, hset, scan]
      have hlen : (done ++ [tolower b]).length = done.length + 1 := by simp
      have hlen0 : (done ++ [0]).length = done.length + 1 := by simp
      by_cases ha : isalpha b = true
      · simp only [ha, if_true]
        have := ih m (done ++ [tolower b]) ws tab (by simp at hn; omega) (by omega)
          (by
            intro x hx
            rw [List.drop_append_of_le_length hws] at hx
            rcases List.mem_append.1 hx with hx | hx
            · exact hword x hx
            · simp only [List.mem_singleton] at hx
              subst hx
              exact tolower_ne_zero b hb) hrest2
        rw [hlen] at this
        rw [this, List.drop_append_of_le_length hws]
      · simp only [ha, Bool.false_eq_true, if_false]
        have hc : cstring (done ++ [0] ++ rest) ws = done.drop ws := by
          unfold cstring
          rw [List.append_assoc, List.drop_append_of_le_length hws]
          exact takeWhile_ne_zero_append _ _ hword
        rw [InsertContent_emit_word fuel tab _ _ ws hc, addTokens_append]
        cases hadd : addTokens fuel (if done.drop ws ≠ [] then [(done.drop ws, ws)] else []) tab with
        | none => simp [InsertContent_finish]
        | some tab2 =>
          simp only [Option.some_bind]
          have := ih m (done ++ [0]) (done.length + 1) tab2 (by simp at hn; omega)
            (by omega) (by simp) hrest2
          rw [hlen0] at this
          rw [this]
          simp

theorem posOf_append (l1 l2 : List (CString × Nat)) (w : CString) :
    posOf (l1 ++ l2) w = posOf l1 w ++ posOf l2 w := by
  simp [posOf]

theorem posOf_single (w w2 : CString) (p : Nat) :
    posOf [(w, p)] w2 = if w = w2 then [p % 2 ^ 32] else [] := by
  unfold posOf
  by_cases h : w = w2 <;> simp [h]

theorem firstWithHash_append (l1 l2 : List (CString × Nat)) (k : HTKey_t) :
    firstWithHash (l1 ++ l2) k = (firstWithHash l1 k).or (firstWithHash l2 k) := by
  simp [firstWithHash, List.find?_append]

theorem firstWithHash_single (w : CString) (p : Nat) (k : HTKey_t) :
    firstWithHash [(w, p)] k = if FNVHash64 w = k then some (w, p) else none := by
  unfold firstWithHash
  by_cases h : FNVHash64 w = k <;> simp [h]

theorem firstWithHash_some (toks : List (CString × Nat)) (k : HTKey_t) (t : CString × Nat)
    (h : firstWithHash toks k = some t) : t ∈ toks ∧ FNVHash64 t.1 = k := by
  unfold firstWithHash at h
  have h1 := List.find?_some h
  have h2 := List.mem_of_find?_eq_some h
  simp only [decide_eq_true_eq] at h1
  exact ⟨h2, h1⟩

theorem firstWithHash_none (toks : List (CString × Nat)) (k : HTKey_t)
    (h : firstWithHash toks k = none) : ∀ t ∈ toks, FNVHash64 t.1 ≠ k := by
  unfold firstWithHash at h
  intro t ht
  have := List.find?_eq_none.1 h t ht
  simpa using this

theorem posOf_eq_nil (toks : List (CString × Nat)) (w : CString)
    (h : ∀ t ∈ toks, t.1 ≠ w) : posOf toks w = [] := by
  unfold posOf
  rw [List.map_eq_nil_iff, List.filter_eq_nil_iff]
  intro t ht
  simp [h t ht]

theorem TokTable_Allocate : TokTable (HashTable_Allocate 2) [] := by
  refine ⟨Exact_Allocate 2 (by decide), ?_, ?_⟩
  · simp [HashTable.PB, HashTable_Allocate]
  · intro k
    rw [Find_Allocate]
    rfl

theorem AddWordPosition_step (f : Nat) (tab : HashTable WordPositions)
    (seen : List (CString × Nat)) (w : CString) (p : Nat)
    (h : TokTable tab seen) (hnc : NoCollisionToks (seen ++ [(w, p)])) :
    ∃ tab2, AddWordPosition (f + 2) tab w (p % 2 ^ 32) = some tab2 ∧
      TokTable tab2 (seen ++ [(w, p)]) := by
  obtain ⟨hex, hpb, hfind⟩ := h
  unfold AddWordPosition
  simp only
  cases hfw : firstWithHash seen (FNVHash64 w) with
  | none =>
    have hnone : HashTable_Find tab (FNVHash64 w) = none := by rw [hfind, hfw]; rfl
    have hnot := firstWithHash_none _ _ hfw
    obtain ⟨t3, g1, g2, g3, _, _, g6⟩ := Insert_exact_fresh f tab
      ⟨FNVHash64 w, PrepNewWordPos w (p % 2 ^ 32)⟩ hex hpb hnone
    refine ⟨t3, by rw [hnone]; simp only [g1, Option.map_some'], g2, g3, ?_⟩
    intro k
    rw [g6, firstWithHash_append, firstWithHash_single]
    by_cases hk : k = FNVHash64 w
    · subst hk
      have hp : posOf seen w = [] := posOf_eq_nil _ _ fun t ht e => hnot t ht (by rw [e])
      simp [hfw, posOf_append, posOf_single, hp, PrepNewWordPos, LinkedList_Append,
        LinkedList_Allocate]
    · have hk2 : ¬ FNVHash64 w = k := fun e => hk e.symm
      simp only [hk, if_false, hk2, hfind]
      cases hs : firstWithHash seen k with
      | none => rfl
      | some t =>
        obtain ⟨_, ht2⟩ := firstWithHash_some _ _ _ hs
        have hne : ¬ w = t.1 := by
          intro e
          apply hk
          rw [← ht2, e]
        simp [posOf_append, posOf_single, hne]
  | some t =>
    obtain ⟨ht1, ht2⟩ := firstWithHash_some _ _ _ hfw
    have htw : t.1 = w := by
      apply hnc t (List.mem_append_left _ ht1) (w, p) (by simp)
      exact ht2
    have hsome : HashTable_Find tab (FNVHash64 w) =
        some ⟨FNVHash64 w, ⟨t.1, posOf seen t.1⟩⟩ := by rw [hfind, hfw]; rfl
    rw [hsome]
    simp only [htw, ne_eq, not_true_eq_false, if_false]
    refine ⟨_, rfl, Exact_updateValue _ _ _ hex, hpb, ?_⟩
    intro k
    rw [Find_updateValue _ _ _ hex.1, firstWithHash_append, firstWithHash_single]
    by_cases hk : k = FNVHash64 w
    · subst hk
      rw [hsome]
      simp [hfw, htw, posOf_append, posOf_single, LinkedList_Append]
    · have hk2 : ¬ FNVHash64 w = k := fun e => hk e.symm
      simp only [hk, if_false, hk2, hfind]
      cases hs : firstWithHash seen k with
      | none => rfl
      | some t2 =>
        obtain ⟨_, ht3⟩ := firstWithHash_some _ _ _ hs
        have hne : ¬ w = t2.1 := by
          intro e
          apply hk
          rw [← ht3, e]
        simp [posOf_append, posOf_single, hne]

theorem addTokens_spec (f : Nat) (toks : List (CString × Nat)) :
    ∀ (seen : List (CString × Nat)) (tab : HashTable WordPositions),
      TokTable tab seen → NoCollisionToks (seen ++ toks) →
      ∃ tab2, addTokens (f + 2) toks tab = some tab2 ∧ TokTable tab2 (seen ++ toks) := by
  induction toks with
  | nil =>
    intro seen tab h _
    exact ⟨tab, rfl, by simpa using h⟩
  | cons t toks ih =>
    intro seen tab h hnc
    have hnc1 : NoCollisionToks (seen ++ [(t.1, t.2)]) := by
      intro a ha b hb
      apply hnc
      · rcases List.mem_append.1 ha with ha | ha
        · exact List.mem_append_left _ ha
        · simp only [Prod.mk.eta, List.mem_singleton] at ha
          subst ha
          simp
      · rcases List.mem_append.1 hb with hb | hb
        · exact List.mem_append_left _ hb
        · simp only [Prod.mk.eta, List.mem_singleton] at hb
          subst hb
          simp
    obtain ⟨tab1, h1, h2⟩ := AddWordPosition_step f tab seen t.1 t.2 h hnc1
    have e : seen ++ t :: toks = (seen ++ [(t.1, t.2)]) ++ toks := by simp
    rw [e] at hnc ⊢
    obtain ⟨tab2, h3, h4⟩ := ih _ tab1 h2 hnc
    exact ⟨tab2, by simp only [addTokens, h1, Option.some_bind, h3], h4⟩

theorem specPositions_eq (c : List Nat) (w : CString) :
    specPositions c w = ((specTokens c).filter fun t => decide (t.1 = w)).map fun t => t.2 := by
  simp only [specPositions, specTokens, specTokensFrom, Nat.sub_zero, List.filter_map,
    List.map_map, List.filter_filter, List.range_eq_range']
  have : ((fun t : CString × Nat => t.2) ∘ fun p => (runAt c p, p)) = id := by
    funext p; rfl
  rw [this, List.map_id]
  congr 1
  funext p
  simp [Bool.and_comm]

theorem specTokens_pos_lt (c : List Nat) (t : CString × Nat) (h : t ∈ specTokens c) :
    t.2 < c.length := by
  simp only [specTokens, specTokensFrom, Nat.sub_zero, List.mem_map, List.mem_filter,
    List.mem_range'_1] at h
  obtain ⟨p, ⟨hp, _⟩, rfl⟩ := h
  simp only
  omega

theorem posOf_specTokens (c : List Nat) (w : CString) (hsize : c.length < 2 ^ 32) :
    posOf (specTokens c) w = specPositions c w := by
  rw [specPositions_eq, posOf]
  apply List.map_congr_left
  intro t ht
  have := specTokens_pos_lt c t (List.mem_of_mem_filter ht)
  exact Nat.mod_eq_of_lt (by omega)

theorem strlen_of_ne_zero (c : List Nat) (h : ∀ b ∈ c, b ≠ 0) : strlen c = c.length := by
  unfold strlen
  rw [takeWhile_ne_zero_self c h]

theorem InsertContent_eq (fuel : Nat) (tab : HashTable WordPositions) (c : List Nat)
    (h : ∀ b ∈ c, b ≠ 0) :
    InsertContent fuel tab c = addTokens fuel (specTokens c) tab := by
  have := InsertContent_loop_scan fuel c c.length [] 0 tab (le_refl _) (le_refl _)
    (by simp) h
  simp only [List.nil_append, List.length_nil, List.drop_nil] at this
  rw [← scan_eq_specTokens, ← this]
  rfl

theorem Find_none_of_numNodes {V : Type} (t : HashTable V) (h : t.WF) (h0 : t.numNodes = 0)
    (k : HTKey_t) : HashTable_Find t k = none := by
  cases hf : HashTable_Find t k with
  | none => rfl
  | some kv =>
    have := ((Find_some_iff t h k kv).1 hf).1
    have hl := entries_length t h
    rw [h0] at hl
    rw [List.length_eq_zero.1 hl] at this
    simp at this

theorem Parse_spec (c : List Nat) (f : Nat)
    (hascii : ∀ b ∈ c, 1 ≤ b ∧ b ≤ 0x7F) (hsize : c.length < 2 ^ 32) (hnc : NoCollision c) :
    ∃ r, ParseIntoWordPositionsTable (f + 2) c = some r ∧
      ∀ w, wordPositions r w = specPositions c w := by
  have hnz : ∀ b ∈ c, b ≠ 0 := fun b hb => by have := (hascii b hb).1; omega
  unfold ParseIntoWordPositionsTable
  simp only [strlen_of_ne_zero c hnz]
  by_cases hc : c.length = 0
  · refine ⟨none, by simp [hc], ?_⟩
    intro w
    have : c = [] := List.length_eq_zero.1 hc
    subst this
    rfl
  · simp only [hc, if_false]
    have hany : ((List.range c.length).any fun i =>
        c.getD i 0 == 0 || decide (c.getD i 0 > 0x7F)) = false := by
      rw [List.any_eq_false]
      intro i hi
      simp only [List.mem_range] at hi
      have hm : c.getD i 0 ∈ c := by
        rw [List.getD_eq_getElem?_getD, List.getElem?_eq_getElem hi]
        exact List.getElem_mem _
      have := hascii _ hm
      simp only [Bool.or_eq_true, beq_iff_eq, decide_eq_true_eq, not_or]
      omega
    simp only [hany, Bool.false_eq_true, if_false]
    rw [InsertContent_eq _ _ c hnz]
    obtain ⟨tab, h1, hex, hpb, hfind⟩ := addTokens_spec f (specTokens c) [] _ TokTable_Allocate
      (by simpa using hnc)
    simp only [List.nil_append] at hfind
    rw [h1]
    simp only [Option.map_some']
    refine ⟨_, rfl, ?_⟩
    intro w
    rw [← posOf_specTokens c w hsize]
    have hcase : ∀ tabr, tabr = some tab ∨ (tabr = none ∧ tab.numNodes = 0) →
        wordPositions tabr w = posOf (specTokens c) w := by
      intro tabr htabr
      have key : wordPositions (some tab) w = posOf (specTokens c) w := by
        simp only [wordPositions, hfind]
        cases hfw : firstWithHash (specTokens c) (FNVHash64 w) with
        | none =>
          have := firstWithHash_none _ _ hfw
          simp only [Option.map_none']
          exact (posOf_eq_nil _ _ fun t ht e => this t ht (by rw [e])).symm
        | some t =>
          obtain ⟨ht1, ht2⟩ := firstWithHash_some _ _ _ hfw
          simp only [Option.map_some']
          split_ifs with hw
          · rw [hw]
          · symm
            apply posOf_eq_nil
            intro t2 ht3 e
            apply hw
            rw [← e]
            exact hnc t ht1 t2 ht3 (by rw [ht2, e])
      rcases htabr with rfl | ⟨rfl, h0⟩
      · exact key
      · rw [← key]
        simp only [wordPositions]
        rw [Find_none_of_numNodes tab hex.1 h0]
    apply hcase
    by_cases hn : HashTable_NumElements tab = 0
    · right
      simp only [hn, if_true, true_and]
      have := hex.2
      simp only [HashTable_NumElements] at hn
      omega
    · left
      simp [hn]

theorem FNVHash64_lt (l : List Nat) : FNVHash64 l < 2 ^ 64 := by
  unfold FNVHash64
  have : ∀ (l : List Nat) (h : Nat), h < 2 ^ 64 →
      l.foldl (fun hval b => ((hval ^^^ b) * 0x100000001b3) % 2 ^ 64) h < 2 ^ 64 := by
    intro l
    induction l with
    | nil => intro h hh; exact hh
    | cons b l ih =>
      intro h _
      simp only [List.foldl_cons]
      exact ih _ (Nat.mod_lt _ (by norm_num))
  exact this l _ (by norm_num)

theorem letterWord_injective : Function.Injective letterWord := by
  intro g1 g2 h
  unfold letterWord at h
  have hinj : Function.Injective (fun d : Fin 26 => 97 + d.val) := by
    intro a b hab
    simp only at hab
    exact Fin.ext (by omega)
  exact List.ofFn_injective (List.map_injective_iff.2 hinj h)

theorem letterWord_length (g : Fin 14 → Fin 26) : (letterWord g).length = 14 := by
  simp [letterWord]

theorem letterWord_mem (g : Fin 14 → Fin 26) (b : Nat) (h : b ∈ letterWord g) :
    97 ≤ b ∧ b ≤ 122 := by
  simp only [letterWord, List.mem_map, List.mem_ofFn] at h
  obtain ⟨d, _, rfl⟩ := h
  have := d.isLt
  omega

theorem exists_collision :
    ∃ g1 g2 : Fin 14 → Fin 26, letterWord g1 ≠ letterWord g2 ∧
      FNVHash64 (letterWord g1) = FNVHash64 (letterWord g2) := by
  let f : (Fin 14 → Fin 26) → Fin (2 ^ 64) := fun g => ⟨FNVHash64 (letterWord g), FNVHash64_lt _⟩
  have hcard : Fintype.card (Fin (2 ^ 64)) < Fintype.card (Fin 14 → Fin 26) := by
    simp only [Fintype.card_fin, Fintype.card_fun]
    norm_num
  obtain ⟨g1, g2, hne, heq⟩ := Fintype.exists_ne_map_eq_of_card_lt f hcard
  refine ⟨g1, g2, fun h => hne (letterWord_injective h), ?_⟩
  exact congrArg Fin.val heq

theorem isalpha_lower (b : Nat) (h : 97 ≤ b ∧ b ≤ 122) : isalpha b = true := by
  simp [isalpha, h.1, h.2]

theorem tolower_lower (b : Nat) (h : 97 ≤ b ∧ b ≤ 122) : tolower b = b := by
  unfold tolower
  split_ifs with h2
  · omega
  · rfl

theorem scan_lower (l : List Nat) (hl : ∀ b ∈ l, 97 ≤ b ∧ b ≤ 122) :
    ∀ (rest : List Nat) (cur ws : Nat) (word : CString),
      scan (l ++ rest) cur ws word = scan rest (cur + l.length) ws (word ++ l) := by
  induction l with
  | nil => intro rest cur ws word; simp
  | cons b l ih =>
    intro rest cur ws word
    have hb := hl b (List.mem_cons_self _ _)
    simp only [List.cons_append, scan, isalpha_lower b hb, if_true, tolower_lower b hb,
      List.append_eq]
    rw [ih (fun x hx => hl x (List.mem_cons_of_mem _ hx))]
    simp only [List.length_cons, List.append_assoc, List.singleton_append]
    congr 1
    omega

theorem scan_two_words (w1 w2 : CString) (h1 : ∀ b ∈ w1, 97 ≤ b ∧ b ≤ 122)
    (h2 : ∀ b ∈ w2, 97 ≤ b ∧ b ≤ 122) (hn1 : w1 ≠ []) (hn2 : w2 ≠ []) :
    scan (w1 ++ 32 :: w2) 0 0 [] = [(w1, 0), (w2, w1.length + 1)] := by
  rw [scan_lower w1 h1]
  have h32 : isalpha 32 = false := by decide
  simp only [scan, h32, Bool.false_eq_true, if_false, List.nil_append, ne_eq, hn1,
    not_false_eq_true, if_true, Nat.zero_add]
  have := scan_lower w2 h2 [] (w1.length + 1) (w1.length + 1) []
  simp only [List.append_nil, List.nil_append] at this
  rw [this]
  simp [scan, hn2]

theorem Parse_collision_aborts (w1 w2 : CString) (h1 : ∀ b ∈ w1, 97 ≤ b ∧ b ≤ 122)
    (h2 : ∀ b ∈ w2, 97 ≤ b ∧ b ≤ 122) (hn1 : w1 ≠ []) (hn2 : w2 ≠ []) (hne : w1 ≠ w2)
    (hh : FNVHash64 w1 = FNVHash64 w2) (fuel : Nat) :
    ParseIntoWordPositionsTable fuel (w1 ++ 32 :: w2) = none := by
  have hnz : ∀ b ∈ w1 ++ 32 :: w2, b ≠ 0 := by
    intro b hb
    rcases List.mem_append.1 hb with hb | hb
    · have := h1 b hb; omega
    · rcases List.mem_cons.1 hb with rfl | hb
      · decide
      · have := h2 b hb; omega
  have hins : InsertContent fuel (HashTable_Allocate 2) (w1 ++ 32 :: w2) = none := by
    rw [InsertContent_eq _ _ _ hnz, ← scan_eq_specTokens, scan_two_words w1 w2 h1 h2 hn1 hn2]
    simp only [addTokens]
    have hf0 : HashTable_Find (HashTable_Allocate 2 : HashTable WordPositions)
        (FNVHash64 w1) = none := Find_Allocate _ _
    cases fuel with
    | zero => simp [AddWordPosition, hf0, HashTable_Insert]
    | succ f =>
      have hsmall := Insert_small f (HashTable_Allocate 2 : HashTable WordPositions)
        ⟨FNVHash64 w1, PrepNewWordPos w1 (0 % 2 ^ 32)⟩ (WF_Allocate 2 (by decide))
        (by simp [HashTable_Allocate])
      have hA1 : AddWordPosition (f + 1) (HashTable_Allocate 2) w1 (0 % 2 ^ 32) =
          some (insertPure (HashTable_Allocate 2)
            ⟨FNVHash64 w1, PrepNewWordPos w1 (0 % 2 ^ 32)⟩) := by
        unfold AddWordPosition
        simp only [hf0, hsmall, Option.map_some']
      rw [hA1]
      simp only [Option.some_bind]
      have hf1 : HashTable_Find (insertPure (HashTable_Allocate 2 : HashTable WordPositions)
          ⟨FNVHash64 w1, PrepNewWordPos w1 (0 % 2 ^ 32)⟩) (FNVHash64 w2) =
          some ⟨FNVHash64 w1, PrepNewWordPos w1 (0 % 2 ^ 32)⟩ := by
        rw [Find_insertPure _ _ (WF_Allocate 2 (by decide))]
        simp [hh]
      have hA2 : AddWordPosition (f + 1) (insertPure (HashTable_Allocate 2)
            ⟨FNVHash64 w1, PrepNewWordPos w1 (0 % 2 ^ 32)⟩) w2 ((w1.length + 1) % 2 ^ 32) =
          none := by
        unfold AddWordPosition
        simp only [hf1]
        simp [PrepNewWordPos, hne]
      rw [hA2]
      rfl
  unfold ParseIntoWordPositionsTable
  simp only [hins, Option.map_none']
  rw [strlen_of_ne_zero _ hnz]
  have hlen : (w1 ++ 32 :: w2).length ≠ 0 := by simp
  simp only [hlen, if_false]
  split_ifs with hany
  · exfalso
    rw [List.any_eq_true] at hany
    obtain ⟨i, hi, hbad⟩ := hany
    simp only [List.mem_range] at hi
    have hm : (w1 ++ 32 :: w2).getD i 0 ∈ w1 ++ 32 :: w2 := by
      rw [List.getD_eq_getElem?_getD, List.getElem?_eq_getElem hi]
      exact List.getElem_mem _
    have hb : 1 ≤ (w1 ++ 32 :: w2).getD i 0 ∧ (w1 ++ 32 :: w2).getD i 0 ≤ 0x7F := by
      rcases List.mem_append.1 hm with hb | hb
      · have := h1 _ hb; omega
      · rcases List.mem_cons.1 hb with hb | hb
        · rw [hb]; decide
        · have := h2 _ hb; omega
    simp only [Bool.or_eq_true, beq_iff_eq, decide_eq_true_eq] at hbad
    omega
  · rfl

/-- C8, as stated, fails: not every NUL-free ASCII content (even of fewer
than `2^31` bytes) is tokenized: on a content made of two distinct words with
the same `FNVHash64`, which exists among the words of fourteen lowercase
letters, `ParseIntoWordPositionsTable` aborts whatever the fuel. -/
theorem C8_counterexample :
    ¬ ∀ c : List Nat, (∀ b ∈ c, 1 ≤ b ∧ b ≤ 0x7F) → c.length < 2 ^ 31 →
      ∃ fuel r, ParseIntoWordPositionsTable fuel c = some r ∧
        ∀ w, wordPositions r w = specPositions c w := by
  intro hclaim
  obtain ⟨g1, g2, hne, hh⟩ := exists_collision
  have h1 := letterWord_mem g1
  have h2 := letterWord_mem g2
  have hn1 : letterWord g1 ≠ [] := by
    intro e
    have := letterWord_length g1
    rw [e] at this
    simp at this
  have hn2 : letterWord g2 ≠ [] := by
    intro e
    have := letterWord_length g2
    rw [e] at this
    simp at this
  obtain ⟨fuel, r, hr, _⟩ := hclaim (letterWord g1 ++ 32 :: letterWord g2)
    (by
      intro b hb
      rcases List.mem_append.1 hb with hb | hb
      · have := h1 b hb; omega
      · rcases List.mem_cons.1 hb with rfl | hb
        · decide
        · have := h2 b hb; omega)
    (by simp [letterWord_length])
  rw [Parse_collision_aborts _ _ h1 h2 hn1 hn2 hne hh fuel] at hr
  simp at hr

/-- C10 (the code breaks the claim): on a fresh `DocTable`, `DocTable_Add` of
the name `a` returns 1; a second `DocTable_Add` of the same name returns 2
and `DocTable_NumDocs` goes from 1 to 2. -/
theorem C10_add_twice_new_id :
    ∃ dt1 dt2, DocTable_Add 3 DocTable_Allocate (bytes "a") = some (dt1, 1) ∧
      DocTable_Add 3 dt1 (bytes "a") = some (dt2, 2) ∧
      DocTable_NumDocs dt1 = 1 ∧ DocTable_NumDocs dt2 = 2 ∧
      DocTable_GetDocID dt1 (bytes "a") = INVALID_DOCID ∧
      HashTable_Find dt1.name_to_id 0 = some ⟨0, 1⟩ := by
  refine ⟨{ id_to_name := { num_buckets := 2, num_elements := 1, buckets := [[], [⟨1, [97]⟩]] },
            name_to_id := { num_buckets := 2, num_elements := 1, buckets := [[⟨0, 1⟩], []] },
            max_id := 2 },
          { id_to_name := { num_buckets := 2, num_elements := 2,
                            buckets := [[⟨2, [97]⟩], [⟨1, [97]⟩]] },
            name_to_id := { num_buckets := 2, num_elements := 0, buckets := [[⟨0, 2⟩], []] },
            max_id := 3 }, ?_, ?_, ?_, ?_, ?_, ?_⟩ <;> decide

/-- C9 (the code breaks the claim): the three-byte file content `a`, NUL,
`b` is not rejected: `ParseIntoWordPositionsTable` returns a table that holds
the word `a` at offset 0. The same holds when the byte after the NUL is
`0xC8`. -/
theorem C9_embedded_nul_not_rejected :
    (∃ tab, ParseIntoWordPositionsTable 3 [97, 0, 98] = some (some tab) ∧
      wordPositions (some tab) [97] = [0]) ∧
    (∃ tab, ParseIntoWordPositionsTable 3 [97, 0, 200] = some (some tab) ∧
      wordPositions (some tab) [97] = [0]) := by
  constructor
  · refine ⟨{ num_buckets := 2, num_elements := 1,
              buckets := [[⟨FNVHash64 [97], ⟨[97], [0]⟩⟩], []] }, ?_, ?_⟩ <;> decide
  · refine ⟨{ num_buckets := 2, num_elements := 1,
              buckets := [[⟨FNVHash64 [97], ⟨[97], [0]⟩⟩], []] }, ?_, ?_⟩ <;> decide

theorem takeWhile_ne_zero_tail (w tail : List Nat) (hw : ∀ b ∈ w, b ≠ 0)
    (ht : tail.getD 0 0 = 0) : (w ++ tail).takeWhile (fun b => b != 0) = w := by
  cases tail with
  | nil => rw [List.append_nil]; exact takeWhile_ne_zero_self w hw
  | cons x tl =>
    have : x = 0 := by simpa using ht
    subst this
    exact takeWhile_ne_zero_append w tl hw

theorem InsertContent_loop_scan_tail (fuel : Nat) (tail : List Nat) (ht : tail.getD 0 0 = 0)
    (rest : List Nat) :
    ∀ (n : Nat) (done : List Nat) (word_start : Nat) (tab : HashTable WordPositions),
      rest.length ≤ n → word_start ≤ done.length →
      (∀ b ∈ done.drop word_start, b ≠ 0) → (∀ b ∈ rest, b ≠ 0) →
      InsertContent_finish fuel
          (InsertContent_loop fuel n (done ++ rest ++ tail) done.length word_start tab) =
        addTokens fuel (scan rest done.length word_start (done.drop word_start)) tab := by
  induction rest with
  | nil =>
    intro n done ws tab _ hws hword _
    have hget : (done ++ [] ++ tail).getD done.length 0 = 0 := by
      rw [List.append_nil, List.getD_eq_getElem?_getD, List.getElem?_append_right (le_refl _),
        Nat.sub_self, ← List.getD_eq_getElem?_getD]
      exact ht
    have hexit : InsertContent_loop fuel n (done ++ [] ++ tail) done.length ws tab =
        some (done ++ [] ++ tail, ws, tab) := by
      cases n <;> simp only [InsertContent_loop, hget, if_true]
    rw [hexit]
    simp only [InsertContent_finish, Option.some_bind, scan]
    apply InsertContent_emit_word
    unfold cstring
    rw [List.append_nil, List.drop_append_of_le_length hws]
    exact takeWhile_ne_zero_tail _ _ hword ht
  | cons b rest ih =>
    intro n done ws tab hn hws hword hrest
    have hb : b ≠ 0 := hrest b (List.mem_cons_self _ _)
    have hrest2 : ∀ x ∈ rest, x ≠ 0 := fun x hx => hrest x (List.mem_cons_of_mem _ hx)
    cases n with
    | zero => simp at hn
    | succ m =>
      have hget : (done ++ b :: rest ++ tail).getD done.length 0 = b := by
        rw [List.append_assoc, List.getD_eq_getElem?_getD,
          List.getElem?_append_right (le_refl _)]
        simp
      have hset : ∀ x, (done ++ b :: rest ++ tail).set done.length x =
          (done ++ [x]) ++ rest ++ tail := by
        intro x
        simp [List.set_append]
      simp only [InsertContent_loop, hget, hb, if_false, hset, scan]
      have hlen : (done ++ [tolower b]).length = done.length + 1 := by simp
      have hlen0 : (done ++ [0]).length = done.length + 1 := by simp
      by_cases ha : isalpha b = true
      · simp only [ha, if_true]
        have := ih m (done ++ [tolower b]) ws tab (by simp at hn; omega) (by omega)
          (by
            intro x hx
            rw [List.drop_append_of_le_length hws] at hx
            rcases List.mem_append.1 hx with hx | hx
            · exact hword x hx
            · simp only [List.mem_singleton] at hx
              subst hx
              exact tolower_ne_zero b hb) hrest2
        rw [hlen] at this
        rw [this, List.drop_append_of_le_length hws]
      · simp only [ha, Bool.false_eq_true, if_false]
        have hc : cstring (done ++ [0] ++ rest ++ tail) ws = done.drop ws := by
          unfold cstring
          rw [List.append_assoc, List.append_assoc, List.drop_append_of_le_length hws]
          exact takeWhile_ne_zero_append _ _ hword
        rw [InsertContent_emit_word fuel tab _ _ ws hc, addTokens_append]
        cases hadd : addTokens fuel (if done.drop ws ≠ [] then [(done.drop ws, ws)] else []) tab with
        | none => simp [InsertContent_finish]
        | some tab2 =>
          simp only [Option.some_bind]
          have := ih m (done ++ [0]) (done.length + 1) tab2 (by simp at hn; omega)
            (by omega) (by simp) hrest2
          rw [hlen0] at this
          rw [this]
          simp

theorem split_at_nul (c : List Nat) :
    ∃ tail, c = beforeNul c ++ tail ∧ tail.getD 0 0 = 0 ∧ ∀ b ∈ beforeNul c, b ≠ 0 := by
  refine ⟨c.dropWhile fun b => b != 0, (List.takeWhile_append_dropWhile _ c).symm, ?_, ?_⟩
  · induction c with
    | nil => rfl
    | cons x c ih =>
      by_cases hx : x = 0
      · subst hx; rfl
      · have : (x != 0) = true := by simpa using hx
        simp only [List.dropWhile_cons, this, if_true]
        exact ih
  · intro b hb
    have := List.mem_takeWhile_imp hb
    simpa using this

theorem InsertContent_eq_prefix (fuel : Nat) (tab : HashTable WordPositions) (c : List Nat) :
    InsertContent fuel tab c = addTokens fuel (specTokens (beforeNul c)) tab := by
  obtain ⟨tail, hc, ht, hnz⟩ := split_at_nul c
  have hlen : (beforeNul c).length ≤ c.length := by
    have := congrArg List.length hc
    rw [List.length_append] at this
    omega
  have := InsertContent_loop_scan_tail fuel tail ht (beforeNul c) c.length [] 0 tab hlen
    (le_refl _) (by simp) hnz
  simp only [List.nil_append, List.length_nil, List.drop_nil] at this
  rw [← hc] at this
  rw [← scan_eq_specTokens, ← this]
  rfl

theorem getD_beforeNul (c : List Nat) (i : Nat) (hi : i < (beforeNul c).length) :
    (beforeNul c).getD i 0 = c.getD i 0 := by
  obtain ⟨tail, hc, _, _⟩ := split_at_nul c
  conv_rhs => rw [hc]
  simp only [List.getD_eq_getElem?_getD]
  rw [List.getElem?_append_left hi]

theorem Parse_eq (fuel : Nat) (c : List Nat) :
    ParseIntoWordPositionsTable fuel c =
      if beforeNul c = [] then some none
      else if ∃ b ∈ beforeNul c, b > 0x7F then some none
      else (addTokens fuel (specTokens (beforeNul c)) (HashTable_Allocate 2)).map fun tab =>
        if HashTable_NumElements tab = 0 then none else some tab := by
  obtain ⟨tail, hc, ht, hnz⟩ := split_at_nul c
  unfold ParseIntoWordPositionsTable
  have hs : strlen c = (beforeNul c).length := rfl
  simp only [hs, List.length_eq_zero]
  by_cases h0 : beforeNul c = []
  · simp [h0]
  · simp only [h0, if_false]
    have hany : ((List.range (beforeNul c).length).any fun i =>
        c.getD i 0 == 0 || decide (c.getD i 0 > 0x7F)) = true ↔
        ∃ b ∈ beforeNul c, b > 0x7F := by
      rw [List.any_eq_true]
      constructor
      · rintro ⟨i, hi, hb⟩
        simp only [List.mem_range] at hi
        rw [← getD_beforeNul c i hi] at hb
        have hm : (beforeNul c).getD i 0 ∈ beforeNul c := by
          rw [List.getD_eq_getElem?_getD, List.getElem?_eq_getElem hi]
          exact List.getElem_mem _
        have := hnz _ hm
        simp only [Bool.or_eq_true, beq_iff_eq, decide_eq_true_eq] at hb
        exact ⟨_, hm, by omega⟩
      · rintro ⟨b, hb, hgt⟩
        obtain ⟨i, hi, rfl⟩ := List.mem_iff_getElem.1 hb
        refine ⟨i, List.mem_range.2 hi, ?_⟩
        rw [← getD_beforeNul c i hi, List.getD_eq_getElem?_getD, List.getElem?_eq_getElem hi]
        simp only [Option.getD_some, Bool.or_eq_true, beq_iff_eq, decide_eq_true_eq]
        right
        exact hgt
    by_cases hex : ∃ b ∈ beforeNul c, b > 0x7F
    · rw [if_pos (hany.2 hex), if_pos hex]
    · have : ¬ ((List.range (beforeNul c).length).any fun i =>
          c.getD i 0 == 0 || decide (c.getD i 0 > 0x7F)) = true := fun h => hex (hany.1 h)
      rw [if_neg this, if_neg hex, InsertContent_eq_prefix]

theorem AddWordPosition_mono (fuel g : Nat) (tab tab2 : HashTable WordPositions) (w : CString)
    (pos : Nat) (h : AddWordPosition fuel tab w pos = some tab2) :
    AddWordPosition (fuel + g) tab w pos = some tab2 := by
  unfold AddWordPosition at h ⊢
  cases hf : HashTable_Find tab (FNVHash64 w) with
  | some kv =>
    simp only [hf] at h ⊢
    exact h
  | none =>
    simp only [hf] at h ⊢
    cases hi : HashTable_Insert fuel tab ⟨FNVHash64 w, PrepNewWordPos w pos⟩ with
    | none => rw [hi] at h; simp at h
    | some r =>
      rw [hi] at h
      rw [HashTable_Insert_mono_add fuel g _ _ r hi]
      exact h

theorem AddWordPosition_nocollision (fuel : Nat) (tab tab2 : HashTable WordPositions)
    (seen : List (CString × Nat)) (w : CString) (p pos : Nat) (h : TokTable tab seen)
    (hs : NoCollisionToks seen) (ha : AddWordPosition fuel tab w pos = some tab2) :
    NoCollisionToks (seen ++ [(w, p)]) := by
  have K : ∀ t ∈ seen, FNVHash64 t.1 = FNVHash64 w → t.1 = w := by
    intro t ht hh
    cases hfw : firstWithHash seen (FNVHash64 w) with
    | none => exact absurd hh (firstWithHash_none _ _ hfw t ht)
    | some t0 =>
      obtain ⟨ht0, hh0⟩ := firstWithHash_some _ _ _ hfw
      have hfind := h.2.2 (FNVHash64 w)
      rw [hfw, Option.map_some'] at hfind
      unfold AddWordPosition at ha
      simp only [hfind] at ha
      by_cases hw : t0.1 = w
      · rw [← hw]
        exact hs t ht t0 ht0 (by rw [hh, hh0])
      · simp [hw] at ha
  intro t1 h1 t2 h2 hh
  rcases List.mem_append.1 h1 with h1 | h1 <;> rcases List.mem_append.1 h2 with h2 | h2
  · exact hs t1 h1 t2 h2 hh
  · simp only [List.mem_singleton] at h2
    subst h2
    exact K t1 h1 hh
  · simp only [List.mem_singleton] at h1
    subst h1
    exact (K t2 h2 hh.symm).symm
  · simp only [List.mem_singleton] at h1 h2
    rw [h1, h2]

theorem addTokens_inv (fuel : Nat) (toks : List (CString × Nat)) :
    ∀ (seen : List (CString × Nat)) (tab0 tab : HashTable WordPositions),
      TokTable tab0 seen → NoCollisionToks seen → addTokens fuel toks tab0 = some tab →
      TokTable tab (seen ++ toks) ∧ NoCollisionToks (seen ++ toks) := by
  induction toks with
  | nil =>
    intro seen tab0 tab h hs ha
    simp only [addTokens, Option.some.injEq] at ha
    subst ha
    simpa using ⟨h, hs⟩
  | cons t toks ih =>
    intro seen tab0 tab h hs ha
    simp only [addTokens] at ha
    cases h1 : AddWordPosition fuel tab0 t.1 (t.2 % 2 ^ 32) with
    | none => rw [h1] at ha; simp at ha
    | some tab1 =>
      rw [h1, Option.some_bind] at ha
      have hnc := AddWordPosition_nocollision fuel tab0 tab1 seen t.1 t.2 _ h hs h1
      obtain ⟨tab1b, h2, h3⟩ := AddWordPosition_step fuel tab0 seen t.1 t.2 h hnc
      rw [AddWordPosition_mono fuel 2 tab0 tab1 t.1 _ h1] at h2
      simp only [Option.some.injEq] at h2
      subst h2
      have := ih (seen ++ [(t.1, t.2)]) tab1 tab h3 hnc ha
      simpa using this

theorem specTokens_ne_nil_iff (c : List Nat) :
    specTokens c ≠ [] ↔ ∃ b ∈ c, isalpha b = true := by
  have hmem : ∀ p, (runAt c p, p) ∈ specTokens c ↔ p < c.length ∧ runStart c p = true := by
    intro p
    simp only [specTokens, specTokensFrom, Nat.sub_zero, List.mem_map, List.mem_filter,
      List.mem_range'_1, Prod.mk.injEq]
    constructor
    · rintro ⟨q, ⟨⟨_, hq⟩, hr⟩, _, rfl⟩
      exact ⟨by omega, hr⟩
    · rintro ⟨hp, hr⟩
      exact ⟨p, ⟨⟨by omega, by omega⟩, hr⟩, rfl, rfl⟩
  constructor
  · intro hne
    obtain ⟨t, ht⟩ := List.exists_mem_of_ne_nil _ hne
    have ht2 := ht
    simp only [specTokens, specTokensFrom, Nat.sub_zero, List.mem_map, List.mem_filter,
      List.mem_range'_1] at ht2
    obtain ⟨p, ⟨⟨_, hp⟩, hr⟩, _⟩ := ht2
    have hp2 : p < c.length := by omega
    refine ⟨c.getD p 0, ?_, ?_⟩
    · rw [List.getD_eq_getElem?_getD, List.getElem?_eq_getElem hp2]
      exact List.getElem_mem _
    · simp only [runStart, Bool.and_eq_true] at hr
      exact hr.1
  · rintro ⟨b, hb, ha⟩
    obtain ⟨i, hi, rfl⟩ := List.mem_iff_getElem.1 hb
    have hex : ∃ j, j < c.length ∧ isalpha (c.getD j 0) = true := by
      refine ⟨i, hi, ?_⟩
      rw [List.getD_eq_getElem?_getD, List.getElem?_eq_getElem hi]
      exact ha
    have hmin : ∀ m, m < Nat.find hex → ¬ (m < c.length ∧ isalpha (c.getD m 0) = true) :=
      fun m hm => Nat.find_min hex hm
    obtain ⟨hj, hja⟩ := Nat.find_spec hex
    have hrs : runStart c (Nat.find hex) = true := by
      simp only [runStart, Bool.and_eq_true, hja, true_and, Bool.or_eq_true, beq_iff_eq,
        Bool.not_eq_true']
      by_cases h0 : Nat.find hex = 0
      · left; exact h0
      · right
        have := hmin (Nat.find hex - 1) (by omega)
        simp only [not_and, Bool.not_eq_true] at this
        exact this (by omega)
    intro e
    have := (hmem (Nat.find hex)).2 ⟨hj, hrs⟩
    rw [e] at this
    simp at this

theorem TokTable_numElements (tab : HashTable WordPositions) (toks : List (CString × Nat))
    (h : TokTable tab toks) : HashTable_NumElements tab = 0 ↔ toks = [] := by
  obtain ⟨hex, _, hfind⟩ := h
  have hlen := entries_length tab hex.1
  simp only [HashTable_NumElements, hex.2]
  constructor
  · intro h0
    cases toks with
    | nil => rfl
    | cons t toks =>
      exfalso
      have hf := hfind (FNVHash64 t.1)
      have : firstWithHash (t :: toks) (FNVHash64 t.1) = some t := by
        simp [firstWithHash]
      rw [this, Option.map_some'] at hf
      have := ((Find_some_iff tab hex.1 _ _).1 hf).1
      have hl : tab.entries.length = 0 := by rw [hlen]; exact_mod_cast h0
      rw [List.length_eq_zero.1 hl] at this
      simp at this
  · intro e
    subst e
    have : tab.entries = [] := by
      rw [List.eq_nil_iff_forall_not_mem]
      intro kv hkv
      have := (Find_some_iff tab hex.1 kv.key kv).2 ⟨hkv, rfl⟩
      rw [hfind] at this
      simp [firstWithHash] at this
    rw [this] at hlen
    simp only [List.length_nil] at hlen
    rw [← hlen]
    rfl

theorem TokTable_entry (tab : HashTable WordPositions) (toks : List (CString × Nat))
    (h : TokTable tab toks) (i : Nat) (kv : HTKeyValue_t WordPositions)
    (hkv : kv ∈ tab.chain i) :
    ∃ t ∈ toks, kv.key = FNVHash64 t.1 ∧ kv.value.word = t.1 ∧
      kv.value.positions = posOf toks t.1 := by
  obtain ⟨hex, _, hfind⟩ := h
  have hpl := hex.1.placed i kv hkv
  have hmem : kv ∈ tab.entries := (mem_entries tab hex.1 kv).2 (by rw [hpl]; exact hkv)
  have hf := (Find_some_iff tab hex.1 kv.key kv).2 ⟨hmem, rfl⟩
  rw [hfind] at hf
  cases hfw : firstWithHash toks kv.key with
  | none => rw [hfw] at hf; simp at hf
  | some t =>
    obtain ⟨ht1, ht2⟩ := firstWithHash_some _ _ _ hfw
    rw [hfw, Option.map_some', Option.some.injEq] at hf
    refine ⟨t, ht1, ht2.symm, ?_, ?_⟩
    · rw [← hf]
    · rw [← hf]

theorem beforeNul_self (c : List Nat) (h : ∀ b ∈ c, b ≠ 0) : beforeNul c = c :=
  takeWhile_ne_zero_self c h

theorem specPositions_props (c : List Nat) (w : CString) :
    (specPositions c w).Pairwise (fun a b => a < b) ∧
      ∀ p ∈ specPositions c w, p < c.length ∧ isalpha (c.getD p 0) = true := by
  constructor
  · exact List.Pairwise.sublist (List.filter_sublist _) (List.pairwise_lt_range _)
  · intro p hp
    simp only [specPositions, List.mem_filter, List.mem_range, Bool.and_eq_true, runStart] at hp
    exact ⟨hp.1, hp.2.1.1⟩

theorem Parse_table_of_some (c : List Nat) (fuel : Nat) (tab : HashTable WordPositions)
    (h : ParseIntoWordPositionsTable fuel c = some (some tab)) :
    (∀ b ∈ beforeNul c, b ≤ 0x7F) ∧ TokTable tab (specTokens (beforeNul c)) ∧
      specTokens (beforeNul c) ≠ [] := by
  rw [Parse_eq] at h
  split_ifs at h with h0 h1
  · simp at h
  · simp at h
  · cases ha : addTokens fuel (specTokens (beforeNul c)) (HashTable_Allocate 2) with
    | none => rw [ha] at h; simp at h
    | some tab2 =>
      rw [ha, Option.map_some'] at h
      have hinv := (addTokens_inv fuel _ [] _ tab2 TokTable_Allocate
        (by intro t ht; simp at ht) ha).1
      simp only [List.nil_append] at hinv
      split_ifs at h with hn
      · simp at h
      · simp only [Option.some.injEq] at h
        subst h
        refine ⟨?_, hinv, fun e => hn ((TokTable_numElements _ _ hinv).2 e)⟩
        intro b hb
        by_contra hgt
        exact h1 ⟨b, hb, by omega⟩

/-- On a content whose bytes before the first NUL are all ASCII and hold two
distinct words of equal `FNVHash64`, `ParseIntoWordPositionsTable` does not
return: `AddWordPosition` finds the first word under the hash of the second
and its assertion `strcmp(wp->word, word) == 0` fails. -/
theorem Parse_aborts_of_collision (c : List Nat) (fuel : Nat)
    (hascii : ∀ b ∈ beforeNul c, b ≤ 0x7F) (hcol : ¬ NoCollision (beforeNul c)) :
    ParseIntoWordPositionsTable fuel c = none := by
  rw [Parse_eq]
  have h0 : beforeNul c ≠ [] := by
    intro e
    apply hcol
    rw [e]
    intro t1 ht1
    exact absurd ht1 (List.not_mem_nil _)
  have h1 : ¬ ∃ b ∈ beforeNul c, b > 0x7F := by
    rintro ⟨b, hb, hgt⟩
    have := hascii b hb
    omega
  rw [if_neg h0, if_neg h1]
  cases ha : addTokens fuel (specTokens (beforeNul c)) (HashTable_Allocate 2) with
  | none => rfl
  | some tab =>
    exfalso
    have hinv := (addTokens_inv fuel _ [] _ tab TokTable_Allocate
      (by intro t ht; simp at ht) ha).2
    simp only [List.nil_append] at hinv
    exact hcol hinv

/-- C8 (amended): for every content of bytes in `0x01..0x7F`, shorter than
`2^32` bytes: if no two distinct words of the content have the same
`FNVHash64`, `ParseIntoWordPositionsTable` returns, and what it returns maps
every word `w` to the offsets, in increasing order, of exactly the maximal
runs of ASCII letters whose lowercased bytes are `w`; if two distinct words
of the content have the same `FNVHash64`, it aborts (it does not return,
whatever the bound on the resizes of the table). -/
theorem C8_tokenizer_positions (c : List Nat) (fuel : Nat) (hfuel : 2 ≤ fuel)
    (hascii : ∀ b ∈ c, 1 ≤ b ∧ b ≤ 0x7F) (hsize : c.length < 2 ^ 32) :
    (NoCollision c →
      ∃ r, ParseIntoWordPositionsTable fuel c = some r ∧
        ∀ w, wordPositions r w = specPositions c w) ∧
    (¬ NoCollision c → ∀ fuel2, ParseIntoWordPositionsTable fuel2 c = none) := by
  constructor
  · intro hnc
    obtain ⟨f, rfl⟩ : ∃ f, fuel = f + 2 := ⟨fuel - 2, by omega⟩
    exact Parse_spec c f hascii hsize hnc
  · intro hcol fuel2
    have hnul : ∀ b ∈ c, b ≠ 0 := fun b hb => by have := (hascii b hb).1; omega
    apply Parse_aborts_of_collision
    · rw [beforeNul_self c hnul]
      exact fun b hb => (hascii b hb).2
    · rw [beforeNul_self c hnul]
      exact hcol

theorem C8_witness :
    (specTokens contentS1 =
      [(bytes "the", 0), (bytes "fox", 4), (bytes "can", 8), (bytes "t", 12),
        (bytes "catch", 14), (bytes "the", 20), (bytes "chicken", 24)]) ∧
    specPositions contentS1 (bytes "the") = [0, 20] ∧
    specPositions contentS1 (bytes "fox") = [4] ∧
    specPositions contentS1 (bytes "can") = [8] ∧
    specPositions contentS1 (bytes "t") = [12] ∧
    specPositions contentS1 (bytes "catch") = [14] ∧
    specPositions contentS1 (bytes "chicken") = [24] ∧
    ∃ r, ParseIntoWordPositionsTable 3 contentS1 = some r ∧
      ∀ w, wordPositions r w = specPositions contentS1 w :=
  ⟨by decide, by decide, by decide, by decide, by decide, by decide, by decide,
    (C8_tokenizer_positions contentS1 3 (by decide) (by decide) (by decide)).1 (by decide)⟩

/-- C21, as stated (every content), fails even for contents without a NUL
byte: two distinct words of equal hash exist, and on the content made of
these two words, all of whose bytes are ASCII letters or the blank,
`ParseIntoWordPositionsTable` returns neither a table nor NULL: it aborts
on the assertion that compares the stored word. -/
theorem C21_counterexample :
    ¬ ∀ c : List Nat, (∀ b ∈ c, b ≠ 0) → c.length < 2 ^ 31 →
      ∃ fuel r, ParseIntoWordPositionsTable fuel c = some r ∧
        (r.isSome = true ↔
          (∀ b ∈ c, 1 ≤ b ∧ b ≤ 0x7F) ∧ ∃ b ∈ c, isalpha b = true) := by
  intro hclaim
  obtain ⟨g1, g2, hne, hh⟩ := exists_collision
  have h1 := letterWord_mem g1
  have h2 := letterWord_mem g2
  have hn1 : letterWord g1 ≠ [] := by
    intro e
    have := letterWord_length g1
    rw [e] at this
    simp at this
  have hn2 : letterWord g2 ≠ [] := by
    intro e
    have := letterWord_length g2
    rw [e] at this
    simp at this
  obtain ⟨fuel, r, hr, _⟩ := hclaim (letterWord g1 ++ 32 :: letterWord g2)
    (by
      intro b hb
      rcases List.mem_append.1 hb with hb | hb
      · have := h1 b hb; omega
      · rcases List.mem_cons.1 hb with rfl | hb
        · decide
        · have := h2 b hb; omega)
    (by simp [letterWord_length])
  rw [Parse_collision_aborts _ _ h1 h2 hn1 hn2 hne hh fuel] at hr
  simp at hr

/-- C21 (amended): for every content without a NUL byte, shorter than `2^31`
bytes. If some byte is above `0x7F`, or no two distinct words of the content
have the same `FNVHash64`, `ParseIntoWordPositionsTable` returns, and it
returns a table (not NULL) exactly when every byte is in `0x01..0x7F` and at
least one byte is an ASCII letter. If all the bytes are ASCII and two
distinct words of the content have the same `FNVHash64`, it aborts (it does
not return, whatever the bound on the resizes of the table). -/
theorem C21_indexable_iff (c : List Nat) (fuel : Nat) (hfuel : 2 ≤ fuel)
    (hnul : ∀ b ∈ c, b ≠ 0) (hsize : c.length < 2 ^ 31) :
    (((∀ b ∈ c, b ≤ 0x7F) → NoCollision c) →
      ∃ r, ParseIntoWordPositionsTable fuel c = some r ∧
        (r.isSome = true ↔ (∀ b ∈ c, 1 ≤ b ∧ b ≤ 0x7F) ∧ ∃ b ∈ c, isalpha b = true)) ∧
    ((∀ b ∈ c, b ≤ 0x7F) → ¬ NoCollision c →
      ∀ fuel2, ParseIntoWordPositionsTable fuel2 c = none) := by
  constructor
  · intro hnc
    obtain ⟨f, rfl⟩ : ∃ f, fuel = f + 2 := ⟨fuel - 2, by omega⟩
    rw [Parse_eq, beforeNul_self c hnul]
    by_cases h0 : c = []
    · subst h0
      exact ⟨none, by simp, by simp⟩
    · rw [if_neg h0]
      by_cases h1 : ∃ b ∈ c, b > 0x7F
      · rw [if_pos h1]
        refine ⟨none, rfl, ?_⟩
        obtain ⟨b, hb, hgt⟩ := h1
        constructor
        · intro h; simp at h
        · rintro ⟨ha, _⟩
          have := (ha b hb).2
          omega
      · rw [if_neg h1]
        have hascii : ∀ b ∈ c, b ≤ 0x7F := by
          intro b hb
          by_contra hgt
          exact h1 ⟨b, hb, by omega⟩
        obtain ⟨tab, ha, htt⟩ := addTokens_spec f (specTokens c) [] _ TokTable_Allocate
          (by simpa using hnc hascii)
        simp only [List.nil_append] at htt
        rw [ha, Option.map_some']
        refine ⟨_, rfl, ?_⟩
        have hne := TokTable_numElements tab _ htt
        have hal := specTokens_ne_nil_iff c
        have hall : ∀ b ∈ c, 1 ≤ b ∧ b ≤ 0x7F := fun b hb =>
          ⟨by have := hnul b hb; omega, hascii b hb⟩
        by_cases hn : HashTable_NumElements tab = 0
        · rw [if_pos hn]
          constructor
          · intro h; simp at h
          · rintro ⟨_, hex⟩
            exact absurd (hne.1 hn) (hal.2 hex)
        · rw [if_neg hn]
          constructor
          · intro _
            exact ⟨hall, hal.1 fun e => hn (hne.2 e)⟩
          · intro _; rfl
  · intro hascii hcol fuel2
    apply Parse_aborts_of_collision
    · rw [beforeNul_self c hnul]
      exact hascii
    · rw [beforeNul_self c hnul]
      exact hcol

/-- C21 on the content of scenario S1, all ASCII and without two words of
equal hash: the tokenizer returns a table. -/
theorem C21_witness :
    ∃ r, ParseIntoWordPositionsTable 3 contentS1 = some r ∧
      (r.isSome = true ↔
        (∀ b ∈ contentS1, 1 ≤ b ∧ b ≤ 0x7F) ∧ ∃ b ∈ contentS1, isalpha b = true) :=
  (C21_indexable_iff contentS1 3 (by decide) (by decide) (by decide)).1 (fun _ => by decide)

/-- C22: for every file content shorter than `2^31` bytes on which
`ParseIntoWordPositionsTable` returns a table, the table holds at least one
word, and for every pair stored in a chain of the table, the positions list
is not empty, is strictly increasing, and each of its positions is smaller
than the length of the content and is the offset of an ASCII letter of the
content as it was given. -/
theorem C22_positions_valid (c : List Nat) (fuel : Nat) (tab : HashTable WordPositions)
    (hsize : c.length < 2 ^ 31)
    (h : ParseIntoWordPositionsTable fuel c = some (some tab)) :
    tab.entries ≠ [] ∧
    ∀ i, ∀ kv ∈ tab.chain i,
      kv.value.positions ≠ [] ∧
      kv.value.positions.Pairwise (fun a b => a < b) ∧
      ∀ p ∈ kv.value.positions, p < c.length ∧ isalpha (c.getD p 0) = true := by
  obtain ⟨_, htt, hne⟩ := Parse_table_of_some c fuel tab h
  obtain ⟨tail, hc, _, _⟩ := split_at_nul c
  have hlen : (beforeNul c).length ≤ c.length := by
    have := congrArg List.length hc
    rw [List.length_append] at this
    omega
  constructor
  · intro e
    have h0 : HashTable_NumElements tab = 0 := by
      have := entries_length tab htt.1.1
      rw [e] at this
      simp only [HashTable_NumElements, htt.1.2, ← this]
      rfl
    exact hne ((TokTable_numElements tab _ htt).1 h0)
  · intro i kv hkv
    obtain ⟨t, ht, _, _, hpos⟩ := TokTable_entry tab _ htt i kv hkv
    rw [hpos, posOf_specTokens _ _ (by omega)]
    obtain ⟨hpw, hall⟩ := specPositions_props (beforeNul c) t.1
    refine ⟨?_, hpw, ?_⟩
    · intro e
      have hm : t.2 ∈ specPositions (beforeNul c) t.1 := by
        rw [specPositions_eq]
        exact List.mem_map.2 ⟨t, List.mem_filter.2 ⟨ht, by simp⟩, rfl⟩
      rw [e] at hm
      simp at hm
    · intro p hp
      obtain ⟨h1, h2⟩ := hall p hp
      rw [getD_beforeNul c p h1] at h2
      exact ⟨by omega, h2⟩

theorem C22_witness :
    tableABA.entries ≠ [] ∧
    ∀ i, ∀ kv ∈ tableABA.chain i,
      kv.value.positions ≠ [] ∧
      kv.value.positions.Pairwise (fun a b => a < b) ∧
      ∀ p ∈ kv.value.positions, p < (bytes "a b a").length ∧
        isalpha ((bytes "a b a").getD p 0) = true :=
  C22_positions_valid (bytes "a b a") 3 tableABA (by decide) (by decide)

/-! ## Theorems: the query processor -/

theorem AddFirstWordDocs_headers_eq (r : IndexReaders) (headers : List DocIDElementHeader)
    (acc : List QueryResult)
    (h : ∀ x ∈ headers, (r.LookupDocID x.doc_id).isSome = true) :
    AddFirstWordDocs_headers r headers acc =
      some (acc ++ (headers.filterMap fun x =>
        (r.LookupDocID x.doc_id).map fun n => (n, x.num_positions)).map hitResult) := by
  induction headers generalizing acc with
  | nil => simp [AddFirstWordDocs_headers]
  | cons x rest ih =>
    have hx := h x (List.mem_cons_self _ _)
    obtain ⟨n, hn⟩ := Option.isSome_iff_exists.1 hx
    simp only [AddFirstWordDocs_headers, hn, Option.some_bind, List.filterMap_cons,
      Option.map_some', List.map_cons]
    rw [ih _ fun y hy => h y (List.mem_cons_of_mem _ hy)]
    simp [hitResult]

theorem AddFirstWordDocs_eq (w : CString) (readers : List IndexReaders)
    (acc : List QueryResult) (h : Resolves readers) :
    AddFirstWordDocs w readers acc = some (acc ++ (allHits readers w).map hitResult) := by
  induction readers generalizing acc with
  | nil => simp [AddFirstWordDocs, allHits]
  | cons r rest ih =>
    have hrest : Resolves rest := fun r2 hr2 => h r2 (List.mem_cons_of_mem _ hr2)
    simp only [AddFirstWordDocs]
    cases hl : r.LookupWord w with
    | none =>
      simp only [allHits, List.map_cons, wordHits, hl, List.flatten_cons, List.nil_append]
      exact ih acc hrest
    | some headers =>
      simp only []
      rw [AddFirstWordDocs_headers_eq r headers acc (h r (List.mem_cons_self _ _) w headers hl)]
      simp only [Option.some_bind]
      rw [ih _ hrest]
      simp [allHits, wordHits, hl]

theorem UpdateDocsForWord_headers_eq (r : IndexReaders) (headers : List DocIDElementHeader)
    (st : UpdateState)
    (h : ∀ x ∈ headers, (r.LookupDocID x.doc_id).isSome = true) :
    UpdateDocsForWord_headers r headers st =
      some ((headers.filterMap fun x =>
        (r.LookupDocID x.doc_id).map fun n => (n, x.num_positions)).foldl bumpHit st) := by
  induction headers generalizing st with
  | nil => simp [UpdateDocsForWord_headers]
  | cons x rest ih =>
    have hx := h x (List.mem_cons_self _ _)
    obtain ⟨n, hn⟩ := Option.isSome_iff_exists.1 hx
    simp only [UpdateDocsForWord_headers, hn, Option.some_bind, List.filterMap_cons,
      Option.map_some', List.foldl_cons]
    rw [ih _ fun y hy => h y (List.mem_cons_of_mem _ hy)]
    rfl

theorem UpdateDocsForWord_files_eq (w : CString) (readers : List IndexReaders)
    (st : UpdateState) (h : Resolves readers) :
    UpdateDocsForWord_files w readers st = some ((allHits readers w).foldl bumpHit st) := by
  induction readers generalizing st with
  | nil => simp [UpdateDocsForWord_files, allHits]
  | cons r rest ih =>
    have hrest : Resolves rest := fun r2 hr2 => h r2 (List.mem_cons_of_mem _ hr2)
    simp only [UpdateDocsForWord_files]
    cases hl : r.LookupWord w with
    | none =>
      simp only [allHits, List.map_cons, wordHits, hl, List.flatten_cons, List.nil_append]
      exact ih st hrest
    | some headers =>
      simp only []
      rw [UpdateDocsForWord_headers_eq r headers st (h r (List.mem_cons_self _ _) w headers hl)]
      simp only [Option.some_bind]
      rw [ih _ hrest]
      simp [allHits, wordHits, hl]

theorem occIn_cons (t : CString × Nat) (H : List (CString × Nat)) (name : CString) :
    occIn (t :: H) name = (if t.1 = name then t.2 else 0) + occIn H name := by
  unfold occIn
  by_cases h : t.1 = name <;> simp [List.filter_cons, h]

theorem map_eq_self_of_forall {α : Type} (f : α → α) (l : List α) (h : ∀ x ∈ l, f x = x) :
    l.map f = l := by
  induction l with
  | nil => rfl
  | cons x l ih =>
    simp only [List.map_cons, h x (List.mem_cons_self _ _), List.cons.injEq, true_and]
    exact ih fun y hy => h y (List.mem_cons_of_mem _ hy)

theorem bump_eq (n : CString) (k : Nat) (R : List QueryResult)
    (hnd : (R.map fun r => r.document_name).Nodup) :
    UpdateDocsForWord_bump n k R =
      (R.map fun r => if r.document_name = n then addRank k r else r,
        decide (n ∈ R.map fun r => r.document_name)) := by
  induction R with
  | nil => simp [UpdateDocsForWord_bump]
  | cons r R ih =>
    simp only [List.map_cons, List.nodup_cons] at hnd
    unfold UpdateDocsForWord_bump
    by_cases hr : r.document_name = n
    · subst hr
      have hself : R.map (fun x => if x.document_name = r.document_name then addRank k x else x)
          = R := by
        apply map_eq_self_of_forall
        intro x hx
        have : x.document_name ≠ r.document_name := by
          intro e
          apply hnd.1
          rw [← e]
          exact List.mem_map_of_mem _ hx
        simp [this]
      simp only [if_true, List.map_cons, hself, List.mem_cons, true_or, decide_True]
      rfl
    · simp only [hr, if_false, ih hnd.2, List.map_cons, List.mem_cons, Prod.mk.injEq, true_and]
      have : ¬ n = r.document_name := fun e => hr e.symm
      simp [this]

theorem map_name_bump (n : CString) (k : Nat) (R : List QueryResult) :
    (R.map fun r => if r.document_name = n then addRank k r else r).map
      (fun r => r.document_name) = R.map fun r => r.document_name := by
  rw [List.map_map]
  apply List.map_congr_left
  intro r _
  simp only [Function.comp]
  split_ifs <;> rfl

theorem foldl_bumpHit (H : List (CString × Nat)) :
    ∀ (st : UpdateState), (st.final_result.map fun r => r.document_name).Nodup →
      ((H.foldl bumpHit st).final_result =
          st.final_result.map fun r => addRank (occIn H r.document_name) r) ∧
      ((H.foldl bumpHit st).found_ith_word =
          (st.found_ith_word ||
            H.any fun t => decide (t.1 ∈ st.final_result.map fun r => r.document_name))) ∧
      (∀ n, n ∈ (H.foldl bumpHit st).results_with_ith_word ↔
          n ∈ st.results_with_ith_word ∨
            (n ∈ H.map (fun t => t.1) ∧ n ∈ st.final_result.map fun r => r.document_name)) := by
  induction H with
  | nil =>
    intro st _
    refine ⟨?_, by simp, by simp⟩
    simp only [List.foldl_nil, occIn, List.filter_nil, List.map_nil, List.sum_nil, addRank,
      Nat.add_zero]
    exact (map_eq_self_of_forall _ _ fun _ _ => rfl).symm
  | cons t H ih =>
    intro st hnd
    simp only [List.foldl_cons]
    have hb := bump_eq t.1 t.2 st.final_result hnd
    by_cases hm : t.1 ∈ st.final_result.map fun r => r.document_name
    · have hst : bumpHit st t =
          { final_result := st.final_result.map fun r =>
              if r.document_name = t.1 then addRank t.2 r else r,
            found_ith_word := true,
            results_with_ith_word := t.1 :: st.results_with_ith_word } := by
        simp [bumpHit, hb, hm]
      rw [hst]
      have hnd2 : (List.map (fun r => r.document_name)
          (st.final_result.map fun r =>
            if r.document_name = t.1 then addRank t.2 r else r)).Nodup := by
        rw [map_name_bump]; exact hnd
      obtain ⟨i1, i2, i3⟩ := ih
        { final_result := st.final_result.map fun r =>
            if r.document_name = t.1 then addRank t.2 r else r,
          found_ith_word := true,
          results_with_ith_word := t.1 :: st.results_with_ith_word } hnd2
      simp only at i1 i2 i3
      refine ⟨?_, ?_, ?_⟩
      · rw [i1, List.map_map]
        apply List.map_congr_left
        intro r _
        simp only [Function.comp, occIn_cons]
        by_cases hr : r.document_name = t.1
        · rw [if_pos hr, if_pos hr.symm]
          simp only [addRank]
          congr 1
          omega
        · have hr2 : ¬ t.1 = r.document_name := fun e => hr e.symm
          rw [if_neg hr, if_neg hr2]
          simp only [addRank, Nat.zero_add]
      · rw [i2]
        simp only [List.any_cons, decide_eq_true hm, Bool.true_or, Bool.or_true]
      · intro n
        rw [i3, map_name_bump]
        simp only [List.mem_cons, List.map_cons]
        constructor
        · rintro ((rfl | h) | ⟨h1, h2⟩)
          · exact Or.inr ⟨Or.inl rfl, hm⟩
          · exact Or.inl h
          · exact Or.inr ⟨Or.inr h1, h2⟩
        · rintro (h | ⟨rfl | h1, h2⟩)
          · exact Or.inl (Or.inr h)
          · exact Or.inl (Or.inl rfl)
          · exact Or.inr ⟨h1, h2⟩
    · have hst : bumpHit st t = st := by
        simp [bumpHit, hb, hm]
      rw [hst]
      obtain ⟨i1, i2, i3⟩ := ih st hnd
      refine ⟨?_, ?_, ?_⟩
      · rw [i1]
        apply List.map_congr_left
        intro r hr
        have : ¬ t.1 = r.document_name := by
          intro e
          apply hm
          rw [e]
          exact List.mem_map_of_mem _ hr
        simp [occIn_cons, this]
      · rw [i2]
        simp only [List.any_cons, decide_eq_false hm, Bool.false_or]
      · intro n
        rw [i3]
        simp only [List.map_cons, List.mem_cons]
        constructor
        · rintro (h | ⟨h1, h2⟩)
          · exact Or.inl h
          · exact Or.inr ⟨Or.inr h1, h2⟩
        · rintro (h | ⟨rfl | h1, h2⟩)
          · exact Or.inl h
          · exact absurd h2 hm
          · exact Or.inr ⟨h1, h2⟩

theorem occurrences_eq (readers : List IndexReaders) (w name : CString) :
    occurrences readers w name = occIn (allHits readers w) name := rfl

theorem map_name_stepWord (readers : List IndexReaders) (w : CString) (R : List QueryResult) :
    (stepWord readers w R).map (fun r => r.document_name) =
      (R.filter fun r => decide (r.document_name ∈ (allHits readers w).map fun t => t.1)).map
        fun r => r.document_name := by
  unfold stepWord
  rw [List.map_map]
  rfl

theorem nodup_stepWord (readers : List IndexReaders) (w : CString) (R : List QueryResult)
    (hnd : (R.map fun r => r.document_name).Nodup) :
    ((stepWord readers w R).map fun r => r.document_name).Nodup := by
  rw [map_name_stepWord]
  exact hnd.sublist ((List.filter_sublist _).map _)

theorem mem_stepWord (readers : List IndexReaders) (w : CString) (R : List QueryResult)
    (q : QueryResult) :
    q ∈ stepWord readers w R ↔
      ∃ r ∈ R, containsWord readers w r.document_name ∧
        q = addRank (occurrences readers w r.document_name) r := by
  simp only [stepWord, List.mem_map, List.mem_filter, decide_eq_true_eq, containsWord]
  constructor
  · rintro ⟨r, ⟨hr, hc⟩, rfl⟩
    exact ⟨r, hr, hc, rfl⟩
  · rintro ⟨r, hr, hc, rfl⟩
    exact ⟨r, ⟨hr, hc⟩, rfl⟩

theorem UpdateDocsForWord_eq (w : CString) (readers : List IndexReaders)
    (R : List QueryResult) (h : Resolves readers)
    (hnd : (R.map fun r => r.document_name).Nodup) :
    UpdateDocsForWord w readers R = some (stepWord readers w R) := by
  unfold UpdateDocsForWord
  rw [UpdateDocsForWord_files_eq w readers _ h]
  obtain ⟨i1, i2, i3⟩ := foldl_bumpHit (allHits readers w)
    { final_result := R, found_ith_word := false, results_with_ith_word := [] } hnd
  simp only [Bool.false_or, List.not_mem_nil, false_or] at i1 i2 i3
  simp only [Option.map_some', Option.some.injEq]
  rw [i1, i2]
  unfold RemoveResultsWithoutWord stepWord
  cases hany : (allHits readers w).any fun t => decide (t.1 ∈ R.map fun r => r.document_name) with
  | false =>
    simp only [Bool.not_false, if_true, List.filter_nil]
    symm
    rw [List.map_eq_nil_iff, List.filter_eq_nil_iff]
    intro r hr
    simp only [decide_eq_true_eq]
    intro hc
    rw [List.any_eq_false] at hany
    obtain ⟨t, ht, hte⟩ := List.mem_map.1 hc
    apply hany t ht
    simp only [decide_eq_true_eq]
    rw [hte]
    exact List.mem_map_of_mem _ hr
  | true =>
    simp only [Bool.not_true, Bool.false_eq_true, if_false]
    rw [List.filter_map]
    congr 1
    apply List.filter_congr
    intro r hr
    simp only [Function.comp, addRank]
    apply decide_eq_decide.2
    rw [i3]
    constructor
    · exact fun hh => hh.1
    · exact fun hh => ⟨hh, List.mem_map_of_mem _ hr⟩

theorem foldl_stepWord_nil (readers : List IndexReaders) (ws : List CString) :
    ws.foldl (fun R w => stepWord readers w R) [] = [] := by
  induction ws with
  | nil => rfl
  | cons w ws ih => simpa [stepWord] using ih

theorem nodup_foldl_stepWord (readers : List IndexReaders) (ws : List CString) :
    ∀ R : List QueryResult, (R.map fun r => r.document_name).Nodup →
      ((ws.foldl (fun R w => stepWord readers w R) R).map fun r => r.document_name).Nodup := by
  induction ws with
  | nil => intro R h; exact h
  | cons w ws ih =>
    intro R h
    exact ih _ (nodup_stepWord readers w R h)

theorem ProcessQuery_rest_eq (readers : List IndexReaders) (h : Resolves readers)
    (ws : List CString) :
    ∀ R : List QueryResult, (R.map fun r => r.document_name).Nodup →
      ∃ flag, ProcessQuery_rest readers ws R =
        some (ws.foldl (fun R w => stepWord readers w R) R, flag) ∧
        (flag = true → ws.foldl (fun R w => stepWord readers w R) R = []) := by
  induction ws with
  | nil =>
    intro R _
    exact ⟨false, rfl, by simp⟩
  | cons w ws ih =>
    intro R hnd
    simp only [ProcessQuery_rest, UpdateDocsForWord_eq w readers R h hnd, Option.some_bind,
      List.foldl_cons]
    by_cases he : (stepWord readers w R).isEmpty = true
    · have : stepWord readers w R = [] := List.isEmpty_iff.1 he
      simp only [he, if_true, this, foldl_stepWord_nil]
      exact ⟨true, rfl, fun _ => trivial⟩
    · simp only [he, Bool.false_eq_true, if_false]
      exact ih _ (nodup_stepWord readers w R hnd)

theorem addRank_addRank (a b : Nat) (r : QueryResult) :
    addRank a (addRank b r) = addRank (b + a) r := by
  simp [addRank, Nat.add_assoc]

theorem mem_foldl_stepWord (readers : List IndexReaders) (ws : List CString) :
    ∀ (R : List QueryResult) (q : QueryResult),
      q ∈ ws.foldl (fun R w => stepWord readers w R) R ↔
        ∃ r ∈ R, (∀ w ∈ ws, containsWord readers w r.document_name) ∧
          q = addRank ((ws.map fun w => occurrences readers w r.document_name).sum) r := by
  induction ws with
  | nil =>
    intro R q
    simp only [List.foldl_nil, List.not_mem_nil, false_implies, implies_true, List.map_nil,
      List.sum_nil, true_and]
    constructor
    · intro hq
      exact ⟨q, hq, rfl⟩
    · rintro ⟨r, hr, rfl⟩
      exact hr
  | cons w ws ih =>
    intro R q
    simp only [List.foldl_cons, ih, mem_stepWord]
    constructor
    · rintro ⟨r1, ⟨r, hr, hc, rfl⟩, hall, rfl⟩
      refine ⟨r, hr, ?_, ?_⟩
      · intro w2 hw2
        rcases List.mem_cons.1 hw2 with rfl | hw2
        · exact hc
        · exact hall w2 hw2
      · rw [addRank_addRank]
        simp [addRank]
    · rintro ⟨r, hr, hall, rfl⟩
      refine ⟨addRank (occurrences readers w r.document_name) r,
        ⟨r, hr, hall w (List.mem_cons_self _ _), rfl⟩,
        fun w2 hw2 => hall w2 (List.mem_cons_of_mem _ hw2), ?_⟩
      rw [addRank_addRank]
      simp [addRank]

theorem occIn_of_mem_nodup (H : List (CString × Nat)) (hnd : (H.map fun t => t.1).Nodup)
    (t : CString × Nat) (ht : t ∈ H) : occIn H t.1 = t.2 := by
  induction H with
  | nil => simp at ht
  | cons x H ih =>
    simp only [List.map_cons, List.nodup_cons] at hnd
    rw [occIn_cons]
    rcases List.mem_cons.1 ht with rfl | ht
    · have : occIn H t.1 = 0 := by
        unfold occIn
        have : H.filter (fun y => decide (y.1 = t.1)) = [] := by
          rw [List.filter_eq_nil_iff]
          intro y hy
          simp only [decide_eq_true_eq]
          intro e
          apply hnd.1
          rw [← e]
          exact List.mem_map_of_mem _ hy
        rw [this]
        rfl
      simp [this]
    · have hne : ¬ x.1 = t.1 := by
        intro e
        apply hnd.1
        rw [e]
        exact List.mem_map_of_mem _ ht
      simp [hne, ih hnd.2 ht]

theorem ProcessQuery_spec (readers : List IndexReaders) (q0 : CString) (ws : List CString)
    (hres : Resolves readers)
    (hfirst : ((allHits readers q0).map fun t => t.1).Nodup) :
    ∃ res, ProcessQuery readers (q0 :: ws) = some res ∧
      (res.map fun r => r.document_name).Nodup ∧
      ∀ name rank, (⟨name, rank⟩ : QueryResult) ∈ res ↔
        (∀ w ∈ q0 :: ws, containsWord readers w name) ∧
          rank = ((q0 :: ws).map fun w => occurrences readers w name).sum := by
  have hnd0 : (((allHits readers q0).map hitResult).map fun r => r.document_name).Nodup := by
    rw [List.map_map]
    exact hfirst
  obtain ⟨flag, hrest, hflag⟩ := ProcessQuery_rest_eq readers hres ws _ hnd0
  have hmem := mem_foldl_stepWord readers ws ((allHits readers q0).map hitResult)
  have hndL := nodup_foldl_stepWord readers ws _ hnd0
  generalize hL : ws.foldl (fun R w => stepWord readers w R)
    ((allHits readers q0).map hitResult) = L at hrest hflag hmem hndL
  have hperm : (if flag = true then L else sortResults L).Perm L := by
    split_ifs
    · exact List.Perm.refl _
    · exact List.perm_insertionSort _ _
  refine ⟨if flag = true then L else sortResults L, ?_, ?_, ?_⟩
  · simp only [ProcessQuery, AddFirstWordDocs_eq q0 readers [] hres, List.nil_append,
      Option.some_bind, hrest, Option.map_some']
  · exact (hperm.map _).nodup_iff.2 hndL
  · intro name rank
    rw [hperm.mem_iff, hmem]
    constructor
    · rintro ⟨r, hr, hall, hq⟩
      obtain ⟨t, ht, rfl⟩ := List.mem_map.1 hr
      simp only [addRank, hitResult, QueryResult.mk.injEq] at hq
      obtain ⟨rfl, rfl⟩ := hq
      have hocc := occIn_of_mem_nodup _ hfirst t ht
      refine ⟨?_, ?_⟩
      · intro w hw
        rcases List.mem_cons.1 hw with rfl | hw
        · exact List.mem_map_of_mem _ ht
        · exact hall w hw
      · simp only [List.map_cons, List.sum_cons]
        rw [occurrences_eq, hocc]
    · rintro ⟨hall, rfl⟩
      obtain ⟨t, ht, hte⟩ := List.mem_map.1 (hall q0 (List.mem_cons_self _ _))
      subst hte
      have hocc := occIn_of_mem_nodup _ hfirst t ht
      refine ⟨hitResult t, List.mem_map_of_mem _ ht,
        fun w hw => hall w (List.mem_cons_of_mem _ hw), ?_⟩
      simp only [addRank, hitResult, List.map_cons, List.sum_cons, QueryResult.mk.injEq,
        true_and]
      rw [occurrences_eq, hocc]

theorem Resolves_readersF : Resolves [readersF, readersF] := by
  intro r hr w headers hl h hh
  simp only [List.mem_cons, List.mem_singleton, or_self, List.not_mem_nil, or_false] at hr
  subst hr
  simp only [readersF] at hl ⊢
  split_ifs at hl
  simp only [Option.some.injEq] at hl
  subst hl
  simp only [List.mem_singleton] at hh
  subst hh
  rfl

theorem Resolves_S6 : Resolves [readersI1, readersI2] := by
  intro r hr w headers hl h hh
  simp only [List.mem_cons, List.mem_singleton, List.not_mem_nil, or_false] at hr
  rcases hr with rfl | rfl
  · simp only [readersI1] at hl ⊢
    split_ifs at hl <;>
    · simp only [Option.some.injEq] at hl
      subst hl
      simp only [List.mem_singleton] at hh
      subst hh
      rfl
  · simp only [readersI2] at hl ⊢
    split_ifs at hl
    simp only [Option.some.injEq] at hl
    subst hl
    simp only [List.mem_singleton] at hh
    subst hh
    rfl

theorem ProcessQuery_rest_total (readers : List IndexReaders) (h : Resolves readers)
    (ws : List CString) :
    ∀ R : List QueryResult, ∃ r, ProcessQuery_rest readers ws R = some r ∧
      (r.2 = true → r.1 = []) := by
  induction ws with
  | nil =>
    intro R
    exact ⟨(R, false), rfl, fun h => absurd h (by simp)⟩
  | cons w ws ih =>
    intro R
    have hu : ∃ R2, UpdateDocsForWord w readers R = some R2 := by
      unfold UpdateDocsForWord
      rw [UpdateDocsForWord_files_eq w readers _ h]
      exact ⟨_, rfl⟩
    obtain ⟨R2, hR2⟩ := hu
    simp only [ProcessQuery_rest, hR2, Option.some_bind]
    by_cases he : R2.isEmpty = true
    · rw [if_pos he]
      exact ⟨(R2, true), rfl, fun _ => List.isEmpty_iff.1 he⟩
    · rw [if_neg he]
      exact ih R2

theorem ProcessQuery_sorted_perm (readers : List IndexReaders) (q0 : CString)
    (ws : List CString) (hres : Resolves readers) :
    ∃ first survivors flag res,
      AddFirstWordDocs q0 readers [] = some first ∧
      ProcessQuery_rest readers ws first = some (survivors, flag) ∧
      ProcessQuery readers (q0 :: ws) = some res ∧
      res.Perm survivors ∧ res.Pairwise (fun a b => a.rank ≥ b.rank) := by
  have hfirst := AddFirstWordDocs_eq q0 readers [] hres
  obtain ⟨⟨survivors, flag⟩, hrest, hflag⟩ := ProcessQuery_rest_total readers hres ws
    ([] ++ (allHits readers q0).map hitResult)
  refine ⟨_, survivors, flag, if flag = true then survivors else sortResults survivors,
    hfirst, hrest, ?_, ?_, ?_⟩
  · simp only [ProcessQuery, hfirst, Option.some_bind, hrest, Option.map_some']
  · split_ifs
    · exact List.Perm.refl _
    · exact List.perm_insertionSort _ _
  · split_ifs with hf
    · have he : survivors = [] := hflag hf
      rw [he]
      exact List.Pairwise.nil
    · haveI : IsTotal QueryResult (fun a b => a.rank ≥ b.rank) :=
        ⟨fun a b => Nat.le_total b.rank a.rank⟩
      haveI : IsTrans QueryResult (fun a b => a.rank ≥ b.rank) :=
        ⟨fun a b c hab hbc => Nat.le_trans hbc hab⟩
      exact List.sorted_insertionSort (fun a b : QueryResult => a.rank ≥ b.rank) survivors

/-- C16: for index files whose doc-ids all have names, and every non-empty
query, `ProcessQuery` returns; the vector it returns is a permutation of the
entries left by the first-word pass and the intersection loop over the other
words, and it is sorted by rank in non-increasing order. -/
theorem C16_sorted_permutation (readers : List IndexReaders) (q0 : CString)
    (ws : List CString) (hres : Resolves readers) :
    ∃ first survivors flag res,
      AddFirstWordDocs q0 readers [] = some first ∧
      ProcessQuery_rest readers ws first = some (survivors, flag) ∧
      ProcessQuery readers (q0 :: ws) = some res ∧
      res.Perm survivors ∧ res.Pairwise (fun a b => a.rank ≥ b.rank) :=
  ProcessQuery_sorted_perm readers q0 ws hres

theorem C16_witness :
    ProcessQuery [readersI1, readersI2] [bytes "cat"] =
      some [⟨bytes "F2", 2⟩, ⟨bytes "F1", 1⟩] ∧
    ∃ first survivors flag res,
      AddFirstWordDocs (bytes "cat") [readersI1, readersI2] [] = some first ∧
      ProcessQuery_rest [readersI1, readersI2] [] first = some (survivors, flag) ∧
      ProcessQuery [readersI1, readersI2] (bytes "cat" :: []) = some res ∧
      res.Perm survivors ∧ res.Pairwise (fun a b => a.rank ≥ b.rank) :=
  ⟨by decide, C16_sorted_permutation [readersI1, readersI2] (bytes "cat") [] Resolves_S6⟩

theorem wrapInt32_of_range (x : Int) (h1 : -2 ^ 31 ≤ x) (h2 : x < 2 ^ 31) :
    wrapInt32 x = x := by
  unfold wrapInt32
  omega

theorem wrapInt32_INT_MIN : wrapInt32 (wrapInt32 (-2 ^ 31) * (-1)) = -2 ^ 31 := by
  decide

/-- For a comparator result that is an `int` other than `INT_MIN`, the test
of the sort is the test on the exact integers. -/
theorem sortSwaps_of_range {α : Type} (asc : Bool) (cmp : α → α → Int) (a b : α)
    (h1 : -2 ^ 31 < cmp a b) (h2 : cmp a b < 2 ^ 31) :
    sortSwaps asc cmp a b = decide ((if asc then - cmp a b else cmp a b) < 0) := by
  have e1 : wrapInt32 (cmp a b) = cmp a b := wrapInt32_of_range _ (by omega) h2
  have e2 : wrapInt32 (cmp a b * (-1)) = - cmp a b := by
    rw [wrapInt32_of_range _ (by omega) (by omega)]
    omega
  simp only [sortSwaps, e1, e2]

theorem MI_comparator_range (a b : SearchResult) :
    -2 ^ 31 < MI_SearchResultComparator a b ∧ MI_SearchResultComparator a b < 2 ^ 31 := by
  simp only [MI_SearchResultComparator]
  split_ifs <;> decide

theorem sweep_cons_cons {α : Type} (asc : Bool) (cmp : α → α → Int) (a b : α) (rest : List α) :
    LinkedList_Sort_sweep asc cmp (a :: b :: rest) =
      if sortSwaps asc cmp a b then
        (b :: (LinkedList_Sort_sweep asc cmp (a :: rest)).1, true)
      else
        (a :: (LinkedList_Sort_sweep asc cmp (b :: rest)).1,
          (LinkedList_Sort_sweep asc cmp (b :: rest)).2) := by
  simp only [LinkedList_Sort_sweep, LinkedList_Sort_sweepFrom, sortSwaps, decide_eq_true_eq]

theorem sweep_spec {α : Type} (asc : Bool) (cmp : α → α → Int)
    (hasym : ∀ a b, sortSwaps asc cmp a b = true → sortSwaps asc cmp b a = false) :
    ∀ (n : Nat) (l : List α), l.length ≤ n →
      (LinkedList_Sort_sweep asc cmp l).1.Perm l ∧
      invCount (sortSwaps asc cmp) (LinkedList_Sort_sweep asc cmp l).1 +
          (if (LinkedList_Sort_sweep asc cmp l).2 then 1 else 0) ≤
        invCount (sortSwaps asc cmp) l := by
  intro n
  induction n with
  | zero =>
    intro l hl
    have : l = [] := List.length_eq_zero.1 (by omega)
    subst this
    simp [LinkedList_Sort_sweep, invCount]
  | succ n ih =>
    intro l hl
    match l with
    | [] => simp [LinkedList_Sort_sweep, invCount]
    | [a] => simp [LinkedList_Sort_sweep, LinkedList_Sort_sweepFrom, invCount]
    | a :: b :: rest =>
      simp only [List.length_cons] at hl
      rw [sweep_cons_cons]
      by_cases hs : sortSwaps asc cmp a b = true
      · obtain ⟨hp, hi⟩ := ih (a :: rest) (by simp only [List.length_cons]; omega)
        simp only [hs, if_true]
        refine ⟨?_, ?_⟩
        · exact (List.Perm.cons b hp).trans (List.Perm.swap a b rest)
        · have hc : (LinkedList_Sort_sweep asc cmp (a :: rest)).1.countP (sortSwaps asc cmp b) =
              (a :: rest).countP (sortSwaps asc cmp b) := hp.countP_eq _
          have hba := hasym a b hs
          simp only [invCount, hc, List.countP_cons, hs, hba, if_true, Bool.false_eq_true,
            if_false] at hi ⊢
          split_ifs at hi <;> omega
      · simp only [Bool.not_eq_true] at hs
        obtain ⟨hp, hi⟩ := ih (b :: rest) (by simp only [List.length_cons]; omega)
        simp only [hs, Bool.false_eq_true, if_false]
        refine ⟨List.Perm.cons a hp, ?_⟩
        have hc : (LinkedList_Sort_sweep asc cmp (b :: rest)).1.countP (sortSwaps asc cmp a) =
            (b :: rest).countP (sortSwaps asc cmp a) := hp.countP_eq _
        simp only [invCount, hc, List.countP_cons, hs, Bool.false_eq_true, if_false] at hi ⊢
        split_ifs at hi ⊢ <;> omega

theorem Sort_loop_spec {α : Type} (asc : Bool) (cmp : α → α → Int)
    (hasym : ∀ a b, sortSwaps asc cmp a b = true → sortSwaps asc cmp b a = false) :
    ∀ (fuel : Nat) (l : List α), invCount (sortSwaps asc cmp) l < fuel →
      ∃ l2, LinkedList_Sort_loop asc cmp fuel l = some l2 ∧ l2.Perm l := by
  intro fuel
  induction fuel with
  | zero => intro l h; omega
  | succ f ih =>
    intro l h
    obtain ⟨hp, hi⟩ := sweep_spec asc cmp hasym l.length l (le_refl _)
    simp only [LinkedList_Sort_loop]
    by_cases hf : (LinkedList_Sort_sweep asc cmp l).2 = true
    · simp only [hf, if_true] at hi ⊢
      obtain ⟨l2, h1, h2⟩ := ih (LinkedList_Sort_sweep asc cmp l).1 (by omega)
      exact ⟨l2, h1, h2.trans hp⟩
    · simp only [hf, Bool.false_eq_true, if_false]
      exact ⟨_, rfl, hp⟩

theorem Sort_spec {α : Type} (asc : Bool) (cmp : α → α → Int)
    (hasym : ∀ a b, sortSwaps asc cmp a b = true → sortSwaps asc cmp b a = false)
    (fuel : Nat) (l : List α) (h : invCount (sortSwaps asc cmp) l < fuel) :
    ∃ l2, LinkedList_Sort fuel l asc cmp = some l2 ∧ l2.Perm l := by
  unfold LinkedList_Sort
  split_ifs
  · exact ⟨l, rfl, List.Perm.refl _⟩
  · exact Sort_loop_spec asc cmp hasym fuel l h

theorem MI_comparator_asym (a b : SearchResult)
    (h : sortSwaps false MI_SearchResultComparator a b = true) :
    sortSwaps false MI_SearchResultComparator b a = false := by
  rw [sortSwaps_of_range _ _ _ _ (MI_comparator_range _ _).1 (MI_comparator_range _ _).2]
    at h ⊢
  simp only [MI_SearchResultComparator, Bool.false_eq_true, if_false,
    decide_eq_true_eq, decide_eq_false_iff_not] at h ⊢
  split_ifs at h ⊢ <;> omega

theorem Search_first_spec :
    ∀ (rem : List (HTKeyValue_t (LinkedList Nat))) (n : Nat) (it : HTIterator (LinkedList Nat))
      (ret : LinkedList SearchResult),
      it.Ok → it.remaining = rem → rem.length ≤ n → (rem ≠ [] → it.ht.num_elements ≠ 0) →
      MemIndex_Search_first n it ret = some ((rem.map firstResult).reverse ++ ret) := by
  intro rem
  induction rem with
  | nil =>
    intro n it ret hok hrem _ _
    have hv := HTIterator_done it hok hrem
    cases n <;> simp [MemIndex_Search_first, hv]
  | cons x r ih =>
    intro n it ret hok hrem hlen hne
    obtain ⟨hv, hget, it2, b, hnext, hok2, hrem2, hht⟩ := HTIterator_step it x r hok hrem
    have hn0 := hne (by simp)
    simp only [List.length_cons] at hlen
    cases n with
    | zero => omega
    | succ m =>
      simp only [MemIndex_Search_first, hv, if_true, hget hn0, Option.some_bind, hnext]
      rw [ih m it2 _ hok2 hrem2 (by omega) (fun _ => by rw [hht]; exact hn0)]
      simp [LinkedList_Push, firstResult]

theorem Search_filter_spec (T : HashTable (LinkedList Nat)) :
    ∀ (rest done : List SearchResult),
      ∃ it, MemIndex_Search_filter T rest.length ⟨done, rest⟩ = some it ∧
        it.list = done ++ rest.filterMap (filterResult T) := by
  intro rest
  induction rest with
  | nil =>
    intro done
    exact ⟨⟨done, []⟩, rfl, by simp [LLIterator.list]⟩
  | cons x rest ih =>
    intro done
    simp only [List.length_cons, MemIndex_Search_filter, LLIterator_Get, List.head?_cons,
      Option.some_bind]
    cases hf : HashTable_Find T x.doc_id with
    | some temp =>
      simp only [LLIterator_Next, List.tail_cons, Option.some_bind]
      obtain ⟨it, h1, h2⟩ := ih (done ++ [{ x with rank := x.rank + LinkedList_NumElements temp.value }])
      refine ⟨it, h1, ?_⟩
      rw [h2]
      simp [List.filterMap_cons, filterResult, hf]
    | none =>
      have hx : filterResult T x = none := by simp [filterResult, hf]
      simp only [List.filterMap_cons, hx]
      simp only [LLIterator_Remove, LLIterator.list, LinkedList_NumElements, List.length_append,
        List.length_cons]
      by_cases h1 : done.length + (rest.length + 1) = 1
      · have hd : done = [] := List.eq_nil_of_length_eq_zero (by omega)
        have hr : rest = [] := List.eq_nil_of_length_eq_zero (by omega)
        subst hd hr
        simp only [h1, if_true, Option.some_bind, List.length_nil, MemIndex_Search_filter]
        exact ⟨_, rfl, rfl⟩
      · simp only [h1, if_false]
        by_cases h2 : done.isEmpty = true
        · have hd : done = [] := List.isEmpty_iff.1 h2
          subst hd
          simp only [List.isEmpty_nil, if_true, Option.some_bind]
          exact ih []
        · simp only [h2, Bool.false_eq_true, if_false]
          by_cases h3 : rest.isEmpty = true
          · have hr : rest = [] := List.isEmpty_iff.1 h3
            subst hr
            simp only [List.isEmpty_nil, if_true, Option.some_bind, List.length_nil,
              MemIndex_Search_filter, List.filterMap_nil, List.append_nil]
            refine ⟨_, rfl, ?_⟩
            simp only [LLIterator.list]
            cases hl : done.getLast? with
            | none =>
              simp only [List.getLast?_eq_none_iff] at hl
              subst hl
              simp at h2
            | some a =>
              simp only [Option.toList_some]
              exact List.dropLast_append_getLast? a hl
          · simp only [h3, Bool.false_eq_true, if_false, Option.some_bind]
            exact ih done

theorem Insert_fresh_of_some {V : Type} (fuel : Nat) (t : HashTable V) (kv : HTKeyValue_t V)
    (r : HashTable V × Option (HTKeyValue_t V)) (he : t.Exact) (hpb : t.PB)
    (hf : HashTable_Find t kv.key = none) (h : HashTable_Insert fuel t kv = some r) :
    r.1.Exact ∧ r.1.PB ∧
      ∀ k, HashTable_Find r.1 k = if k = kv.key then some kv else HashTable_Find t k := by
  have h1 := HashTable_Insert_mono_add fuel 2 t kv r h
  obtain ⟨t3, g1, g2, g3, _, _, g6⟩ := Insert_exact_fresh fuel t kv he hpb hf
  rw [g1] at h1
  simp only [Option.some.injEq] at h1
  subst h1
  exact ⟨g2, g3, g6⟩

theorem firstAdd_append (l1 l2 : List Posting) (k : HTKey_t) :
    firstAdd (l1 ++ l2) k = (firstAdd l1 k).or (firstAdd l2 k) := by
  simp [firstAdd, List.find?_append]

theorem firstAdd_single (a : Posting) (k : HTKey_t) :
    firstAdd [a] k = if FNVHash64 a.1 = k then some a else none := by
  unfold firstAdd
  by_cases h : FNVHash64 a.1 = k <;> simp [h]

theorem firstAdd_some (adds : List Posting) (k : HTKey_t) (a : Posting)
    (h : firstAdd adds k = some a) : a ∈ adds ∧ FNVHash64 a.1 = k := by
  unfold firstAdd at h
  have h1 := List.find?_some h
  have h2 := List.mem_of_find?_eq_some h
  simp only [decide_eq_true_eq] at h1
  exact ⟨h2, h1⟩

theorem firstAdd_none (adds : List Posting) (k : HTKey_t)
    (h : firstAdd adds k = none) : ∀ a ∈ adds, FNVHash64 a.1 ≠ k := by
  unfold firstAdd at h
  intro a ha
  have := List.find?_eq_none.1 h a ha
  simpa using this

theorem postingOf_append (l1 l2 : List Posting) (w : CString) (d : DocID_t) :
    postingOf (l1 ++ l2) w d = (postingOf l1 w d).or (postingOf l2 w d) := by
  simp only [postingOf, List.find?_append]
  cases List.find? (fun a => decide (a.1 = w ∧ a.2.1 = d)) l1 <;> simp

theorem postingOf_single (a : Posting) (w : CString) (d : DocID_t) :
    postingOf [a] w d = if a.1 = w ∧ a.2.1 = d then some a.2.2 else none := by
  unfold postingOf
  by_cases h : a.1 = w ∧ a.2.1 = d <;> simp [h]

theorem postingOf_none_of_word (adds : List Posting) (w : CString) (d : DocID_t)
    (h : ∀ a ∈ adds, a.1 ≠ w) : postingOf adds w d = none := by
  unfold postingOf
  rw [Option.map_eq_none', List.find?_eq_none]
  intro a ha
  simp [h a ha]

theorem postingOf_some_mem (adds : List Posting) (w : CString) (d : DocID_t)
    (p : LinkedList Nat) (h : postingOf adds w d = some p) : (w, d, p) ∈ adds := by
  unfold postingOf at h
  rw [Option.map_eq_some'] at h
  obtain ⟨a, ha, rfl⟩ := h
  have h1 := List.find?_some ha
  have h2 := List.mem_of_find?_eq_some ha
  simp only [decide_eq_true_eq] at h1
  obtain ⟨rfl, rfl⟩ := h1
  exact h2

theorem postingOf_isSome_of_mem (adds : List Posting) (w : CString) (d : DocID_t)
    (p : LinkedList Nat) (h : (w, d, p) ∈ adds) : (postingOf adds w d).isSome = true := by
  unfold postingOf
  rw [Option.isSome_map', List.find?_isSome]
  exact ⟨_, h, by simp⟩

theorem PostInv_append_other (T : HashTable (LinkedList Nat)) (adds : List Posting)
    (w : CString) (a : Posting) (h : PostInv T adds w) (hne : a.1 ≠ w) :
    PostInv T (adds ++ [a]) w := by
  refine ⟨h.1, h.2.1, ?_⟩
  intro d
  rw [h.2.2, postingOf_append, postingOf_single]
  have : ¬ (a.1 = w ∧ a.2.1 = d) := fun hh => hne hh.1
  simp [this]

theorem PostInv_Allocate (adds : List Posting) (w : CString) (h : ∀ a ∈ adds, a.1 ≠ w) :
    PostInv (HashTable_Allocate 2) adds w := by
  refine ⟨Exact_Allocate 2 (by decide), by simp [HashTable.PB, HashTable_Allocate], ?_⟩
  intro d
  rw [Find_Allocate, postingOf_none_of_word adds w d h]
  rfl

theorem PostInv_insert (fuel : Nat) (T : HashTable (LinkedList Nat)) (adds : List Posting)
    (w : CString) (d : DocID_t) (p : LinkedList Nat)
    (r : HashTable (LinkedList Nat) × Option (HTKeyValue_t (LinkedList Nat)))
    (h : PostInv T adds w) (hf : HashTable_Find T d = none)
    (hi : HashTable_Insert fuel T ⟨d, p⟩ = some r) :
    PostInv r.1 (adds ++ [(w, d, p)]) w := by
  obtain ⟨g1, g2, g3⟩ := Insert_fresh_of_some fuel T ⟨d, p⟩ r h.1 h.2.1 hf hi
  refine ⟨g1, g2, ?_⟩
  intro d2
  rw [g3, postingOf_append, postingOf_single]
  by_cases hd : d2 = d
  · subst hd
    have hn : postingOf adds w d2 = none := by
      have := h.2.2 d2
      rw [hf] at this
      cases hp : postingOf adds w d2 with
      | none => rfl
      | some x => rw [hp] at this; simp at this
    simp [hn]
  · have hd2 : ¬ d = d2 := fun e => hd e.symm
    simp only [hd, if_false, h.2.2 d2, hd2, and_false]
    cases postingOf adds w d2 <;> rfl

theorem IndexInv_Allocate : IndexInv MemIndex_Allocate [] := by
  refine ⟨Exact_Allocate 2 (by decide), by simp [HashTable.PB, MemIndex_Allocate, HashTable_Allocate],
    by simp, ?_⟩
  intro k
  refine ⟨fun _ => Find_Allocate _ _, ?_⟩
  intro a h
  simp [firstAdd] at h

theorem IndexInv_other_keys (index index2 : MemIndex) (adds : List Posting) (a : Posting)
    (h : IndexInv index adds) (k : HTKey_t) (hk : k ≠ FNVHash64 a.1)
    (hfind : HashTable_Find index2 k = HashTable_Find index k) :
    (firstAdd (adds ++ [a]) k = none → HashTable_Find index2 k = none) ∧
    (∀ b, firstAdd (adds ++ [a]) k = some b →
      ∃ T, HashTable_Find index2 k = some ⟨k, ⟨b.1, T⟩⟩ ∧ PostInv T (adds ++ [a]) b.1) := by
  have hk2 : ¬ FNVHash64 a.1 = k := fun e => hk e.symm
  have hfa : firstAdd (adds ++ [a]) k = firstAdd adds k := by
    rw [firstAdd_append, firstAdd_single]
    simp only [hk2, if_false]
    cases firstAdd adds k <;> rfl
  rw [hfa, hfind]
  refine ⟨(h.2.2.2 k).1, ?_⟩
  intro b hb
  obtain ⟨T, h1, h2⟩ := (h.2.2.2 k).2 b hb
  refine ⟨T, h1, PostInv_append_other T adds b.1 a h2 ?_⟩
  intro e
  apply hk
  rw [← (firstAdd_some adds k b hb).2, e]

theorem AddPostingList_step (fuel : Nat) (index index2 : MemIndex) (adds : List Posting)
    (w : CString) (d : DocID_t) (p : LinkedList Nat) (h : IndexInv index adds)
    (hadd : MemIndex_AddPostingList fuel index w d p = some index2) :
    IndexInv index2 (adds ++ [(w, d, p)]) := by
  obtain ⟨hex, hpb, hnc, hkeys⟩ := h
  have hinv : IndexInv index adds := ⟨hex, hpb, hnc, hkeys⟩
  unfold MemIndex_AddPostingList at hadd
  simp only at hadd
  cases hfa : firstAdd adds (FNVHash64 w) with
  | none =>
    have hnone := (hkeys (FNVHash64 w)).1 hfa
    have hnot := firstAdd_none _ _ hfa
    rw [hnone] at hadd
    simp only at hadd
    cases hins : HashTable_Insert fuel index
        ⟨FNVHash64 w, { word := w, postings := HashTable_Allocate 2 }⟩ with
    | none => rw [hins] at hadd; simp at hadd
    | some r1 =>
      rw [hins] at hadd
      simp only [Option.map_some', Option.some_bind, Find_Allocate, Option.isSome_none,
        Bool.false_eq_true, if_false] at hadd
      cases hins2 : HashTable_Insert fuel (HashTable_Allocate 2 : HashTable (LinkedList Nat))
          ⟨d, p⟩ with
      | none => rw [hins2] at hadd; simp at hadd
      | some r2 =>
        rw [hins2] at hadd
        simp only [Option.map_some', Option.some.injEq] at hadd
        subst hadd
        obtain ⟨e1, e2, e3⟩ := Insert_fresh_of_some fuel index _ r1 hex hpb hnone hins
        have hnw : ∀ a ∈ adds, a.1 ≠ w := fun a ha e => hnot a ha (by rw [e])
        have hT := PostInv_insert fuel (HashTable_Allocate 2) adds w d p r2
          (PostInv_Allocate adds w hnw) (Find_Allocate _ _) hins2
        refine ⟨Exact_updateValue _ _ _ e1, e2, ?_, ?_⟩
        · intro a1 ha1 a2 ha2 hh
          rcases List.mem_append.1 ha1 with ha1 | ha1 <;>
            rcases List.mem_append.1 ha2 with ha2 | ha2
          · exact hnc a1 ha1 a2 ha2 hh
          · simp only [List.mem_singleton] at ha2
            subst ha2
            exact absurd hh (hnot a1 ha1)
          · simp only [List.mem_singleton] at ha1
            subst ha1
            exact absurd hh.symm (hnot a2 ha2)
          · simp only [List.mem_singleton] at ha1 ha2
            subst ha1 ha2
            rfl
        · intro k
          by_cases hk : k = FNVHash64 w
          · subst hk
            have hfa2 : firstAdd (adds ++ [(w, d, p)]) (FNVHash64 w) = some (w, d, p) := by
              rw [firstAdd_append, firstAdd_single, hfa]
              simp
            rw [hfa2]
            refine ⟨by simp, ?_⟩
            intro b hb
            simp only [Option.some.injEq] at hb
            subst hb
            refine ⟨r2.1, ?_, hT⟩
            rw [Find_updateValue _ _ _ e1.1, e3]
            simp
          · apply IndexInv_other_keys index _ adds (w, d, p) hinv k hk
            rw [Find_updateValue _ _ _ e1.1, e3]
            simp [hk]
  | some a0 =>
    obtain ⟨T, hfind, hT⟩ := (hkeys (FNVHash64 w)).2 a0 hfa
    obtain ⟨ha0, hh0⟩ := firstAdd_some _ _ _ hfa
    rw [hfind] at hadd
    simp only at hadd
    by_cases hw : a0.1 = w
    · simp only [hw, ne_eq, not_true_eq_false, if_false, Option.some_bind] at hadd
      cases hfd : HashTable_Find T d with
      | some x => rw [hfd] at hadd; simp at hadd
      | none =>
        rw [hfd] at hadd
        simp only [Option.isSome_none, Bool.false_eq_true, if_false] at hadd
        cases hins2 : HashTable_Insert fuel T ⟨d, p⟩ with
        | none => rw [hins2] at hadd; simp at hadd
        | some r2 =>
          rw [hins2] at hadd
          simp only [Option.map_some', Option.some.injEq] at hadd
          subst hadd
          rw [hw] at hT
          have hT2 := PostInv_insert fuel T adds w d p r2 hT hfd hins2
          refine ⟨Exact_updateValue _ _ _ hex, hpb, ?_, ?_⟩
          · intro a1 ha1 a2 ha2 hh
            have hmem : ∀ a ∈ adds ++ [(w, d, p)], a ∈ adds ∨ a.1 = w := by
              intro a ha
              rcases List.mem_append.1 ha with ha | ha
              · exact Or.inl ha
              · simp only [List.mem_singleton] at ha
                subst ha
                exact Or.inr rfl
            have hword : ∀ a ∈ adds ++ [(w, d, p)], ∃ b ∈ adds, b.1 = a.1 := by
              intro a ha
              rcases hmem a ha with ha | ha
              · exact ⟨a, ha, rfl⟩
              · exact ⟨a0, ha0, by rw [hw, ha]⟩
            obtain ⟨b1, hb1, e1⟩ := hword a1 ha1
            obtain ⟨b2, hb2, e2⟩ := hword a2 ha2
            rw [← e1, ← e2]
            apply hnc b1 hb1 b2 hb2
            rw [e1, e2]
            exact hh
          · intro k
            by_cases hk : k = FNVHash64 w
            · subst hk
              have hfa2 : firstAdd (adds ++ [(w, d, p)]) (FNVHash64 w) = some a0 := by
                rw [firstAdd_append, hfa]
                rfl
              rw [hfa2]
              refine ⟨by simp, ?_⟩
              intro b hb
              simp only [Option.some.injEq] at hb
              subst hb
              refine ⟨r2.1, ?_, by rw [hw]; exact hT2⟩
              rw [Find_updateValue _ _ _ hex.1, hfind]
              simp
            · apply IndexInv_other_keys index _ adds (w, d, p) hinv k hk
              rw [Find_updateValue _ _ _ hex.1]
              simp [hk]
    · simp only [ne_eq, hw, not_false_eq_true, if_true, Option.none_bind] at hadd
      simp at hadd

theorem buildIndex_inv (fuel : Nat) (adds : List Posting) :
    ∀ (seen : List Posting) (index index2 : MemIndex), IndexInv index seen →
      buildIndex fuel adds index = some index2 → IndexInv index2 (seen ++ adds) := by
  induction adds with
  | nil =>
    intro seen index index2 h hb
    simp only [buildIndex, Option.some.injEq] at hb
    subst hb
    simpa using h
  | cons a adds ih =>
    intro seen index index2 h hb
    simp only [buildIndex] at hb
    cases hadd : MemIndex_AddPostingList fuel index a.1 a.2.1 a.2.2 with
    | none => rw [hadd] at hb; simp at hb
    | some index1 =>
      rw [hadd] at hb
      simp only [Option.some_bind] at hb
      have h1 := AddPostingList_step fuel index index1 seen a.1 a.2.1 a.2.2 h hadd
      have := ih (seen ++ [(a.1, a.2.1, a.2.2)]) index1 index2 h1 hb
      simpa using this

theorem rankOf_append (adds : List Posting) (P : List CString) (w : CString) (d : DocID_t) :
    rankOf adds (P ++ [w]) d = rankOf adds P d + ((postingOf adds w d).getD []).length := by
  simp [rankOf]

theorem qualifies_append (adds : List Posting) (P : List CString) (w : CString) (d : DocID_t) :
    qualifies adds (P ++ [w]) d ↔ qualifies adds P d ∧ (postingOf adds w d).isSome = true := by
  simp only [qualifies, List.mem_append, List.mem_singleton]
  constructor
  · intro h
    exact ⟨fun x hx => h x (Or.inl hx), h w (Or.inr rfl)⟩
  · rintro ⟨h1, h2⟩ x (hx | rfl)
    · exact h1 x hx
    · exact h2

theorem Good_perm (adds : List Posting) (P : List CString) (R R2 : List SearchResult)
    (h : Good adds P R) (hp : R2.Perm R) : Good adds P R2 := by
  refine ⟨(hp.map _).nodup_iff.2 h.1, ?_⟩
  intro d r
  rw [hp.mem_iff]
  exact h.2 d r

theorem lookup_word (index : MemIndex) (adds : List Posting) (w : CString)
    (h : IndexInv index adds) (hw : ∀ a ∈ adds, FNVHash64 w = FNVHash64 a.1 → w = a.1) :
    ((∀ a ∈ adds, a.1 ≠ w) ∧ HashTable_Find index (FNVHash64 w) = none) ∨
    (∃ T, HashTable_Find index (FNVHash64 w) = some ⟨FNVHash64 w, ⟨w, T⟩⟩ ∧
      PostInv T adds w ∧ ∃ a ∈ adds, a.1 = w) := by
  cases hfa : firstAdd adds (FNVHash64 w) with
  | none =>
    left
    refine ⟨?_, (h.2.2.2 _).1 hfa⟩
    intro a ha e
    exact firstAdd_none _ _ hfa a ha (by rw [e])
  | some a =>
    right
    obtain ⟨T, h1, h2⟩ := (h.2.2.2 _).2 a hfa
    obtain ⟨ha, hh⟩ := firstAdd_some _ _ _ hfa
    have e : a.1 = w := (hw a ha hh.symm).symm
    rw [e] at h1 h2
    exact ⟨T, h1, h2, a, ha, e⟩

theorem PostInv_find_iff (T : HashTable (LinkedList Nat)) (adds : List Posting) (w : CString)
    (h : PostInv T adds w) (d : DocID_t) (kv : HTKeyValue_t (LinkedList Nat)) :
    HashTable_Find T d = some kv ↔ kv.key = d ∧ postingOf adds w d = some kv.value := by
  rw [h.2.2 d]
  cases hp : postingOf adds w d with
  | none => simp
  | some p =>
    simp only [Option.map_some', Option.some.injEq]
    constructor
    · rintro rfl
      exact ⟨rfl, rfl⟩
    · rintro ⟨rfl, h2⟩
      cases kv
      simp only at h2
      subst h2
      rfl

theorem Good_first (T : HashTable (LinkedList Nat)) (adds : List Posting) (w : CString)
    (h : PostInv T adds w) :
    Good adds [w] ((T.entries.map firstResult).reverse) := by
  refine ⟨?_, ?_⟩
  · rw [List.map_reverse, List.nodup_reverse, List.map_map]
    exact entries_keys_nodup T h.1.1
  · intro d r
    simp only [List.mem_reverse, List.mem_map, firstResult, SearchResult.mk.injEq, qualifies,
      List.mem_singleton, forall_eq, rankOf, List.map_cons, List.map_nil, List.sum_cons,
      List.sum_nil, Nat.add_zero, LinkedList_NumElements]
    constructor
    · rintro ⟨kv, hkv, rfl, rfl⟩
      have := (Find_some_iff T h.1.1 kv.key kv).2 ⟨hkv, rfl⟩
      have := ((PostInv_find_iff T adds w h kv.key kv).1 this).2
      rw [this]
      exact ⟨rfl, rfl⟩
    · rintro ⟨h1, rfl⟩
      obtain ⟨p, hp⟩ := Option.isSome_iff_exists.1 h1
      have hf := (PostInv_find_iff T adds w h d ⟨d, p⟩).2 ⟨rfl, hp⟩
      have := ((Find_some_iff T h.1.1 d ⟨d, p⟩).1 hf).1
      exact ⟨⟨d, p⟩, this, rfl, by rw [hp]; rfl⟩

theorem filterMap_doc_sublist (T : HashTable (LinkedList Nat)) (R : List SearchResult) :
    ((R.filterMap (filterResult T)).map fun r => r.doc_id).Sublist (R.map fun r => r.doc_id) := by
  induction R with
  | nil => simp
  | cons x R ih =>
    simp only [List.filterMap_cons, List.map_cons]
    cases hf : filterResult T x with
    | none => exact ih.cons _
    | some y =>
      have : y.doc_id = x.doc_id := by
        simp only [filterResult, Option.map_eq_some'] at hf
        obtain ⟨_, _, rfl⟩ := hf
        rfl
      simp only [List.map_cons, this]
      exact ih.cons₂ _

theorem Good_filter (T : HashTable (LinkedList Nat)) (adds : List Posting) (P : List CString)
    (w : CString) (R : List SearchResult) (hT : PostInv T adds w) (h : Good adds P R) :
    Good adds (P ++ [w]) (R.filterMap (filterResult T)) := by
  refine ⟨h.1.sublist (filterMap_doc_sublist T R), ?_⟩
  intro d r
  rw [qualifies_append, rankOf_append, List.mem_filterMap]
  constructor
  · rintro ⟨x, hx, hfx⟩
    simp only [filterResult, Option.map_eq_some', SearchResult.mk.injEq] at hfx
    obtain ⟨temp, hfind, hd, hr⟩ := hfx
    obtain ⟨htk, htp⟩ := (PostInv_find_iff T adds w hT x.doc_id temp).1 hfind
    have hxR : (⟨x.doc_id, x.rank⟩ : SearchResult) ∈ R := hx
    obtain ⟨g1, g2⟩ := (h.2 x.doc_id x.rank).1 hxR
    subst hd
    refine ⟨⟨g1, by rw [htp]; rfl⟩, ?_⟩
    rw [← hr, g2, htp]
    rfl
  · rintro ⟨⟨g1, g2⟩, rfl⟩
    obtain ⟨p, hp⟩ := Option.isSome_iff_exists.1 g2
    have hf := (PostInv_find_iff T adds w hT d ⟨d, p⟩).2 ⟨rfl, hp⟩
    refine ⟨⟨d, rankOf adds P d⟩, (h.2 d _).2 ⟨g1, rfl⟩, ?_⟩
    simp only [filterResult, hf, Option.map_some', hp, Option.getD_some, LinkedList_NumElements]

theorem Search_rest_spec (index : MemIndex) (adds : List Posting) (hinv : IndexInv index adds)
    (ws : List CString) :
    ∀ (P : List CString) (R : List SearchResult), Good adds P R → R ≠ [] →
      (∀ w ∈ ws, ∀ a ∈ adds, FNVHash64 w = FNVHash64 a.1 → w = a.1) →
      ∃ res, MemIndex_Search_rest index ws R = some res ∧
        (res = none → ∀ d, ¬ qualifies adds (P ++ ws) d) ∧
        (∀ l, res = some l → l ≠ [] ∧ Good adds (P ++ ws) l) := by
  induction ws with
  | nil =>
    intro P R hg hne _
    refine ⟨some R, rfl, by simp, ?_⟩
    intro l hl
    simp only [Option.some.injEq] at hl
    subst hl
    exact ⟨hne, by simpa using hg⟩
  | cons w ws ih =>
    intro P R hg hne hws
    have hw := hws w (List.mem_cons_self _ _)
    have hws2 : ∀ x ∈ ws, ∀ a ∈ adds, FNVHash64 x = FNVHash64 a.1 → x = a.1 :=
      fun x hx => hws x (List.mem_cons_of_mem _ hx)
    have happ : P ++ w :: ws = (P ++ [w]) ++ ws := by simp
    rcases lookup_word index adds w hinv hw with ⟨hno, hfind⟩ | ⟨T, hfind, hT, _⟩
    · refine ⟨none, by simp [MemIndex_Search_rest, hfind], ?_, by simp⟩
      intro _ d hq
      have := hq w (by simp)
      rw [postingOf_none_of_word adds w d hno] at this
      simp at this
    · obtain ⟨it, hit, hlist⟩ := Search_filter_spec T R []
      simp only [List.nil_append] at hlist
      have hg2 := Good_filter T adds P w R hT hg
      simp only [MemIndex_Search_rest, hfind, LinkedList_NumElements, LLIterator_Allocate, hit,
        Option.some_bind, hlist]
      by_cases hempty : (R.filterMap (filterResult T)).length = 0
      · simp only [hempty, if_true]
        refine ⟨none, rfl, ?_, by simp⟩
        intro _ d hq
        rw [happ] at hq
        have hq2 : qualifies adds (P ++ [w]) d := fun x hx => hq x (List.mem_append_left _ hx)
        have := (hg2.2 d (rankOf adds (P ++ [w]) d)).2 ⟨hq2, rfl⟩
        rw [List.length_eq_zero.1 hempty] at this
        simp at this
      · simp only [hempty, if_false]
        rw [happ]
        exact ih (P ++ [w]) _ hg2 (fun e => hempty (by rw [e]; rfl)) hws2

theorem Sort_loop_stable {α : Type} (asc : Bool) (cmp : α → α → Int)
    (hasym : ∀ a b, sortSwaps asc cmp a b = true → sortSwaps asc cmp b a = false) :
    ∀ (n : Nat) (l : List α), invCount (sortSwaps asc cmp) l ≤ n →
      ∃ l2, l2.Perm l ∧ ∀ fuel, n < fuel → LinkedList_Sort_loop asc cmp fuel l = some l2 := by
  intro n
  induction n with
  | zero =>
    intro l h
    obtain ⟨hp, hi⟩ := sweep_spec asc cmp hasym l.length l (le_refl _)
    have hf : (LinkedList_Sort_sweep asc cmp l).2 = false := by
      cases hb : (LinkedList_Sort_sweep asc cmp l).2 with
      | false => rfl
      | true => rw [hb] at hi; simp at hi; omega
    refine ⟨_, hp, ?_⟩
    intro fuel hfuel
    obtain ⟨f, rfl⟩ : ∃ f, fuel = f + 1 := ⟨fuel - 1, by omega⟩
    simp [LinkedList_Sort_loop, hf]
  | succ m ih =>
    intro l h
    obtain ⟨hp, hi⟩ := sweep_spec asc cmp hasym l.length l (le_refl _)
    cases hb : (LinkedList_Sort_sweep asc cmp l).2 with
    | false =>
      refine ⟨_, hp, ?_⟩
      intro fuel hfuel
      obtain ⟨f, rfl⟩ : ∃ f, fuel = f + 1 := ⟨fuel - 1, by omega⟩
      simp [LinkedList_Sort_loop, hb]
    | true =>
      rw [hb] at hi
      simp only [if_true] at hi
      obtain ⟨l2, h1, h2⟩ := ih (LinkedList_Sort_sweep asc cmp l).1 (by omega)
      refine ⟨l2, h1.trans hp, ?_⟩
      intro fuel hfuel
      obtain ⟨f, rfl⟩ : ∃ f, fuel = f + 1 := ⟨fuel - 1, by omega⟩
      simp only [LinkedList_Sort_loop, hb, if_true]
      exact h2 f (by omega)

theorem Sort_stable {α : Type} (asc : Bool) (cmp : α → α → Int)
    (hasym : ∀ a b, sortSwaps asc cmp a b = true → sortSwaps asc cmp b a = false)
    (l : List α) :
    ∃ l2, l2.Perm l ∧
      ∀ fuel, invCount (sortSwaps asc cmp) l < fuel → LinkedList_Sort fuel l asc cmp = some l2 := by
  by_cases hs : LinkedList_NumElements l < 2
  · exact ⟨l, List.Perm.refl _, fun fuel _ => by simp [LinkedList_Sort, hs]⟩
  · obtain ⟨l2, h1, h2⟩ := Sort_loop_stable asc cmp hasym _ l (le_refl _)
    exact ⟨l2, h1, fun fuel hf => by simp only [LinkedList_Sort, hs, if_false]; exact h2 fuel hf⟩

theorem HTIterator_Allocate_exact {V : Type} (t : HashTable V) (h : t.Exact) :
    ∃ it, HTIterator_Allocate t = some it ∧ it.Ok ∧ it.remaining = t.entries ∧ it.ht = t := by
  have hl := entries_length t h.1
  by_cases hn : t.num_elements = 0
  · obtain ⟨it, h1, h2, h3, h4⟩ := HTIterator_Allocate_zero t hn
    refine ⟨it, h1, h2, ?_, h4⟩
    rw [h3]
    have : t.numNodes = 0 := by have := h.2; omega
    rw [this] at hl
    exact (List.length_eq_zero.1 hl).symm
  · apply HTIterator_Allocate_spec t hn
    intro e
    rw [e] at hl
    have := h.2
    simp at hl
    omega

theorem Search_spec (index : MemIndex) (adds : List Posting) (hinv : IndexInv index adds)
    (q0 : CString) (qs : List CString)
    (hq : ∀ w ∈ q0 :: qs, ∀ a ∈ adds, FNVHash64 w = FNVHash64 a.1 → w = a.1) :
    ∃ N res, (∀ fuel, N ≤ fuel → MemIndex_Search fuel index (q0 :: qs) = some res) ∧
      (res = none → ∀ d, ¬ qualifies adds (q0 :: qs) d) ∧
      (∀ l, res = some l → l ≠ [] ∧ Good adds (q0 :: qs) l) := by
  have hq0 := hq q0 (List.mem_cons_self _ _)
  have hqs : ∀ w ∈ qs, ∀ a ∈ adds, FNVHash64 w = FNVHash64 a.1 → w = a.1 :=
    fun w hw => hq w (List.mem_cons_of_mem _ hw)
  rcases lookup_word index adds q0 hinv hq0 with ⟨hno, hfind⟩ | ⟨T, hfind, hT, a, ha, hae⟩
  · refine ⟨0, none, ?_, ?_, by simp⟩
    · intro fuel _
      simp [MemIndex_Search, GetPostingsIter, hfind]
    · intro _ d hd
      have := hd q0 (List.mem_cons_self _ _)
      rw [postingOf_none_of_word adds q0 d hno] at this
      simp at this
  · obtain ⟨it, hit, hok, hrem, hht⟩ := HTIterator_Allocate_exact T hT.1
    have hlen := entries_length T hT.1.1
    have hfirst := Search_first_spec T.entries T.numNodes it LinkedList_Allocate hok hrem
      (by omega) (by
        intro hne
        rw [hht]
        intro e
        have := hT.1.2
        have : T.entries.length = 0 := by omega
        exact hne (List.length_eq_zero.1 this))
    have hg0 := Good_first T adds q0 hT
    have hne0 : (T.entries.map firstResult).reverse ≠ [] := by
      intro e
      have hs : (postingOf adds q0 a.2.1).isSome = true :=
        postingOf_isSome_of_mem adds q0 a.2.1 a.2.2 (by rw [← hae]; exact ha)
      have := (hg0.2 a.2.1 (rankOf adds [q0] a.2.1)).2
        ⟨by simpa [qualifies] using hs, rfl⟩
      rw [e] at this
      simp at this
    have hpre : ∀ fuel, MemIndex_Search fuel index (q0 :: qs) =
        if (q0 :: qs).length = 1 then
          (LinkedList_Sort fuel ((T.entries.map firstResult).reverse) false
            MI_SearchResultComparator).map some
        else
          (MemIndex_Search_rest index qs ((T.entries.map firstResult).reverse)).bind fun r =>
            match r with
            | none => some none
            | some ret_list =>
              (LinkedList_Sort fuel ret_list false MI_SearchResultComparator).map some := by
      intro fuel
      simp only [LinkedList_Allocate, List.append_nil] at hfirst
      simp only [MemIndex_Search, GetPostingsIter, hfind, hit, Option.map_some',
        Option.some_bind, hht, LinkedList_Allocate, hfirst]
    by_cases hone : (q0 :: qs).length = 1
    · have hqs0 : qs = [] := by
        simp only [List.length_cons, Nat.add_left_eq_self] at hone
        exact List.length_eq_zero.1 hone
      subst hqs0
      obtain ⟨l2, hp, hs⟩ := Sort_stable false MI_SearchResultComparator MI_comparator_asym
        ((T.entries.map firstResult).reverse)
      refine ⟨invCount (sortSwaps false MI_SearchResultComparator)
        ((T.entries.map firstResult).reverse) + 1, some l2, ?_, by simp, ?_⟩
      · intro fuel hfuel
        rw [hpre fuel]
        simp only [hone, if_true]
        rw [hs fuel (by omega)]
        rfl
      · intro l hl
        simp only [Option.some.injEq] at hl
        subst hl
        refine ⟨?_, Good_perm adds _ _ _ hg0 hp⟩
        intro e
        rw [e] at hp
        exact hne0 (List.Perm.eq_nil hp.symm)
    · obtain ⟨res, hrest, hnone, hsome⟩ := Search_rest_spec index adds hinv qs [q0] _ hg0 hne0 hqs
      simp only [List.singleton_append] at hnone hsome
      cases res with
      | none =>
        refine ⟨0, none, ?_, hnone, by simp⟩
        intro fuel _
        rw [hpre fuel]
        simp only [hone, if_false, hrest, Option.some_bind]
      | some l =>
        obtain ⟨hlne, hgl⟩ := hsome l rfl
        obtain ⟨l2, hp, hs⟩ := Sort_stable false MI_SearchResultComparator MI_comparator_asym l
        refine ⟨invCount (sortSwaps false MI_SearchResultComparator) l + 1, some l2, ?_,
          by simp, ?_⟩
        · intro fuel hfuel
          rw [hpre fuel]
          simp only [hone, if_false, hrest, Option.some_bind]
          rw [hs fuel (by omega)]
          rfl
        · intro l3 hl
          simp only [Option.some.injEq] at hl
          subst hl
          refine ⟨?_, Good_perm adds _ _ _ hgl hp⟩
          intro e
          rw [e] at hp
          exact hlne (List.Perm.eq_nil hp.symm)

theorem AddPostingList_empty (w : CString) (d : DocID_t) (p : LinkedList Nat) :
    ∃ index, MemIndex_AddPostingList 3 MemIndex_Allocate w d p = some index := by
  obtain ⟨t2, h1, -⟩ := Insert_general 0 (MemIndex_Allocate)
    ⟨FNVHash64 w, { word := w, postings := HashTable_Allocate 2 }⟩
    (WF_Allocate 2 (by decide))
  obtain ⟨u2, h2, -⟩ := Insert_general 0 (HashTable_Allocate 2 : HashTable (LinkedList Nat))
    ⟨d, p⟩ (WF_Allocate 2 (by decide))
  simp only [Nat.zero_add] at h1 h2
  unfold MemIndex_AddPostingList
  simp only [MemIndex_Allocate] at h1 ⊢
  simp only [Find_Allocate, h1, Option.map_some', Option.some_bind, Option.isSome_none,
    Bool.false_eq_true, if_false, h2]
  exact ⟨_, rfl⟩

theorem Search_hash_congr (fuel : Nat) (index : MemIndex) (w1 w2 : CString)
    (h : FNVHash64 w1 = FNVHash64 w2) :
    MemIndex_Search fuel index [w1] = MemIndex_Search fuel index [w2] := by
  simp [MemIndex_Search, GetPostingsIter, h]

theorem sweepFrom_no_swap {α : Type} (asc : Bool) (cmp : α → α → Int) :
    ∀ (rest : List α) (a : α), (LinkedList_Sort_sweepFrom asc cmp a rest).2 = false →
      (LinkedList_Sort_sweepFrom asc cmp a rest).1 = a :: rest ∧
      List.Chain (fun x y => sortSwaps asc cmp x y = false) a rest := by
  intro rest
  induction rest with
  | nil =>
    intro a _
    exact ⟨rfl, List.Chain.nil⟩
  | cons b rest ih =>
    intro a h
    simp only [LinkedList_Sort_sweepFrom] at h ⊢
    by_cases hs : (if asc = true then wrapInt32 (wrapInt32 (cmp a b) * -1)
        else wrapInt32 (cmp a b)) < 0
    · rw [if_pos hs] at h
      simp at h
    · rw [if_neg hs] at h ⊢
      obtain ⟨h1, h2⟩ := ih b h
      refine ⟨by simp only [h1], List.Chain.cons ?_ h2⟩
      simp only [sortSwaps, decide_eq_false_iff_not]
      exact hs

theorem Sort_loop_chain {α : Type} (asc : Bool) (cmp : α → α → Int) :
    ∀ (fuel : Nat) (l l2 : List α), LinkedList_Sort_loop asc cmp fuel l = some l2 →
      List.Chain' (fun x y => sortSwaps asc cmp x y = false) l2 := by
  intro fuel
  induction fuel with
  | zero => intro l l2 h; simp [LinkedList_Sort_loop] at h
  | succ f ih =>
    intro l l2 h
    simp only [LinkedList_Sort_loop] at h
    by_cases hf : (LinkedList_Sort_sweep asc cmp l).2 = true
    · rw [if_pos hf] at h
      exact ih _ _ h
    · rw [if_neg hf] at h
      simp only [Option.some.injEq] at h
      simp only [Bool.not_eq_true] at hf
      cases l with
      | nil =>
        simp only [LinkedList_Sort_sweep] at h
        rw [← h]
        exact List.chain'_nil
      | cons a rest =>
        simp only [LinkedList_Sort_sweep] at h hf
        obtain ⟨h1, h2⟩ := sweepFrom_no_swap asc cmp rest a hf
        rw [← h, h1]
        exact h2

theorem Sort_chain {α : Type} (asc : Bool) (cmp : α → α → Int) (fuel : Nat) (l l2 : List α)
    (h : LinkedList_Sort fuel l asc cmp = some l2) :
    List.Chain' (fun x y => sortSwaps asc cmp x y = false) l2 := by
  unfold LinkedList_Sort at h
  split_ifs at h with hlen
  · simp only [Option.some.injEq] at h
    subst h
    simp only [LinkedList_NumElements] at hlen
    match l, hlen with
    | [], _ => exact List.chain'_nil
    | [a], _ => exact List.chain'_singleton a
    | a :: b :: rest, hl =>
      simp only [List.length_cons] at hl
      omega
  · exact Sort_loop_chain asc cmp fuel l l2 h

theorem Sort_descending (fuel : Nat) (l l2 : List SearchResult)
    (h : LinkedList_Sort fuel l false MI_SearchResultComparator = some l2) :
    l2.Pairwise (fun a b => a.rank ≥ b.rank) := by
  have hc := Sort_chain false MI_SearchResultComparator fuel l l2 h
  haveI : IsTrans SearchResult (fun a b => a.rank ≥ b.rank) :=
    ⟨fun a b c hab hbc => Nat.le_trans hbc hab⟩
  rw [← List.chain'_iff_pairwise]
  apply List.Chain'.imp _ hc
  intro a b hab
  rw [sortSwaps_of_range _ _ _ _ (MI_comparator_range _ _).1 (MI_comparator_range _ _).2]
    at hab
  simp only [MI_SearchResultComparator, Bool.false_eq_true, if_false,
    decide_eq_false_iff_not] at hab
  split_ifs at hab <;> omega

theorem Search_descending (fuel : Nat) (index : MemIndex) (query : List CString)
    (l : List SearchResult) (h : MemIndex_Search fuel index query = some (some l)) :
    l.Pairwise (fun a b => a.rank ≥ b.rank) := by
  unfold MemIndex_Search at h
  cases query with
  | nil => simp at h
  | cons q0 qs =>
    simp only at h
    cases hg : GetPostingsIter index q0 with
    | none => rw [hg] at h; simp at h
    | some it =>
      rw [hg] at h
      simp only [Option.some_bind] at h
      cases it with
      | none => simp at h
      | some postings_it =>
        simp only at h
        cases hf : MemIndex_Search_first postings_it.ht.numNodes postings_it
            LinkedList_Allocate with
        | none => rw [hf] at h; simp at h
        | some ret_list =>
          rw [hf] at h
          simp only [Option.some_bind] at h
          split_ifs at h
          · rw [Option.map_eq_some'] at h
            obtain ⟨l2, hl2, e⟩ := h
            rw [← Option.some.inj e]
            exact Sort_descending fuel _ _ hl2
          · cases hr : MemIndex_Search_rest index qs ret_list with
            | none => rw [hr] at h; simp at h
            | some r =>
              rw [hr] at h
              simp only [Option.some_bind] at h
              cases r with
              | none => simp at h
              | some ret2 =>
                simp only at h
                rw [Option.map_eq_some'] at h
                obtain ⟨l2, hl2, e⟩ := h
                rw [← Option.some.inj e]
                exact Sort_descending fuel _ _ hl2

/-- C17, as stated, fails: on the index of scenario S2 the search for `cat`
returns document 2 with rank 2 in front of document 1 with rank 1, which is
not in ascending order of rank. -/
theorem C17_counterexample :
    MemIndex_Search 2 indexS2 [bytes "cat"] = some (some [⟨2, 2⟩, ⟨1, 1⟩]) ∧
    ¬ List.Pairwise (fun a b : SearchResult => a.rank ≤ b.rank) [⟨2, 2⟩, ⟨1, 1⟩] := by
  constructor <;> decide

theorem Search_rest_hash_congr (index : MemIndex) :
    ∀ (ws ws2 : List CString) (ret : LinkedList SearchResult),
      ws.map FNVHash64 = ws2.map FNVHash64 →
      MemIndex_Search_rest index ws ret = MemIndex_Search_rest index ws2 ret := by
  intro ws
  induction ws with
  | nil =>
    intro ws2 ret h
    cases ws2 with
    | nil => rfl
    | cons w2 ws2 => simp at h
  | cons w ws ih =>
    intro ws2 ret h
    cases ws2 with
    | nil => simp at h
    | cons w2 ws2 =>
      simp only [List.map_cons, List.cons.injEq] at h
      obtain ⟨hw, hws⟩ := h
      simp only [MemIndex_Search_rest, hw]
      cases HashTable_Find index (FNVHash64 w2) with
      | none => rfl
      | some kv =>
        simp only
        congr 1
        funext ll_it
        rw [ih ws2 ll_it.list hws]

/-- `MemIndex_Search` sees the words of the query through their hashes
only. -/
theorem Search_hash_congr_all (fuel : Nat) (index : MemIndex) (q0 q1 : CString)
    (qs qs1 : List CString) (h0 : FNVHash64 q0 = FNVHash64 q1)
    (hs : qs.map FNVHash64 = qs1.map FNVHash64) :
    MemIndex_Search fuel index (q0 :: qs) = MemIndex_Search fuel index (q1 :: qs1) := by
  have hlen : qs.length = qs1.length := by
    have := congrArg List.length hs
    simpa using this
  simp only [MemIndex_Search, GetPostingsIter, h0, List.length_cons, hlen,
    Search_rest_hash_congr index qs qs1 _ hs]

/-- The search of an index built by `MemIndex_AddPostingList` calls returns
for every non-empty query, whatever the hashes of its words, once the bound
on the sweeps of the sort is large enough. -/
theorem Search_returns (index : MemIndex) (adds : List Posting) (hinv : IndexInv index adds)
    (q0 : CString) (qs : List CString) :
    ∃ N res, ∀ fuel, N ≤ fuel → MemIndex_Search fuel index (q0 :: qs) = some res := by
  let canon : CString → CString := fun w =>
    match firstAdd adds (FNVHash64 w) with
    | some a => a.1
    | none => w
  have hcanon : ∀ w, FNVHash64 (canon w) = FNVHash64 w := by
    intro w
    simp only [canon]
    cases hfa : firstAdd adds (FNVHash64 w) with
    | none => rfl
    | some a => exact (firstAdd_some adds _ a hfa).2
  have hq1 : ∀ w, ∀ a ∈ adds, FNVHash64 (canon w) = FNVHash64 a.1 → canon w = a.1 := by
    intro w a ha hh
    rw [hcanon w] at hh
    simp only [canon]
    cases hfa : firstAdd adds (FNVHash64 w) with
    | none => exact absurd hh.symm (firstAdd_none adds _ hfa a ha)
    | some a0 =>
      obtain ⟨ha0, hk⟩ := firstAdd_some adds _ a0 hfa
      exact hinv.2.2.1 a0 ha0 a ha (by rw [hk, hh])
  have hq : ∀ w ∈ canon q0 :: qs.map canon, ∀ a ∈ adds,
      FNVHash64 w = FNVHash64 a.1 → w = a.1 := by
    intro w hw
    rw [← List.map_cons, List.mem_map] at hw
    obtain ⟨v, _, rfl⟩ := hw
    exact hq1 v
  obtain ⟨N, res, h1, _, _⟩ := Search_spec index adds hinv (canon q0) (qs.map canon) hq
  refine ⟨N, res, ?_⟩
  intro fuel hf
  rw [← h1 fuel hf]
  apply Search_hash_congr_all
  · exact (hcanon q0).symm
  · rw [List.map_map]
    apply List.map_congr_left
    intro w _
    exact (hcanon w).symm

/-- C17 (amended): the in-memory search sorts descending. For every index
and every query, a list that `MemIndex_Search` returns is in non-increasing
order of rank from head to tail; and for an index built by
`MemIndex_AddPostingList` calls and a non-empty query the search returns,
whatever the bound on the sweeps of its sort, once it is large enough. -/
theorem C17_search_descending (index : MemIndex) (query : List CString) :
    (∀ fuel l, MemIndex_Search fuel index query = some (some l) →
      l.Pairwise (fun a b => a.rank ≥ b.rank)) ∧
    ∀ (adds : List Posting) (fuelB : Nat),
      buildIndex fuelB adds MemIndex_Allocate = some index → query ≠ [] →
      ∃ N res, (∀ fuel, N ≤ fuel → MemIndex_Search fuel index query = some res) ∧
        ∀ l, res = some l → l.Pairwise (fun a b => a.rank ≥ b.rank) := by
  refine ⟨fun fuel l h => Search_descending fuel index query l h, ?_⟩
  intro adds fuelB hbuild hne
  have hinv : IndexInv index adds := by
    have := buildIndex_inv fuelB adds [] MemIndex_Allocate index IndexInv_Allocate hbuild
    simpa using this
  cases query with
  | nil => exact absurd rfl hne
  | cons q0 qs =>
    obtain ⟨N, res, h1⟩ := Search_returns index adds hinv q0 qs
    refine ⟨N, res, h1, ?_⟩
    intro l hl
    have := h1 N (le_refl _)
    rw [hl] at this
    exact Search_descending N index (q0 :: qs) l this

/-- C17 on the index of scenario S2 and the query `cat`: the search returns,
and its list is in non-increasing order of rank. -/
theorem C17_witness :
    buildIndex 3 addsS2 MemIndex_Allocate = some indexS2 ∧
    ∃ N res, (∀ fuel, N ≤ fuel →
        MemIndex_Search fuel indexS2 [bytes "cat"] = some res) ∧
      ∀ l, res = some l → l.Pairwise (fun a b => a.rank ≥ b.rank) :=
  ⟨by decide, (C17_search_descending indexS2 [bytes "cat"]).2 addsS2 3 (by decide) (by decide)⟩

set_option maxRecDepth 100000 in
set_option maxHeartbeats 1000000 in
/-- C18: scenario S2. The files `F1 = "dog cat dog"` and `F2 = "cat cat"` are
tokenized and indexed, `F1` as document 1, `F2` as document 2. The search for
`cat` returns `[(F2, 2), (F1, 1)]` in that order, the search for `dog cat`
returns `[(F1, 3)]`, the search for `cat mouse` returns no results. -/
theorem C18_scenario_S2 :
    indexFiles 3 filesS2 (DocTable_Allocate, MemIndex_Allocate) = some builtS2 ∧
    DocTable_GetDocName builtS2.1 1 = some (some (bytes "F1")) ∧
    DocTable_GetDocName builtS2.1 2 = some (some (bytes "F2")) ∧
    MemIndex_Search 2 builtS2.2 [bytes "cat"] = some (some [⟨2, 2⟩, ⟨1, 1⟩]) ∧
    MemIndex_Search 2 builtS2.2 [bytes "dog", bytes "cat"] = some (some [⟨1, 3⟩]) ∧
    MemIndex_Search 2 builtS2.2 [bytes "cat", bytes "mouse"] = some none := by
  refine ⟨?_, ?_, ?_, ?_, ?_, ?_⟩ <;> decide

theorem posting_eq_postingOf (index : MemIndex) (adds : List Posting)
    (hinv : IndexInv index adds) (w : CString) (d : DocID_t) :
    MemIndex_posting index w d = postingOf adds w d := by
  unfold MemIndex_posting
  cases hfa : firstAdd adds (FNVHash64 w) with
  | none =>
    rw [(hinv.2.2.2 _).1 hfa]
    have := firstAdd_none _ _ hfa
    rw [postingOf_none_of_word adds w d (fun a ha e => this a ha (by rw [e]))]
  | some a0 =>
    obtain ⟨T, hT, hP⟩ := (hinv.2.2.2 _).2 a0 hfa
    obtain ⟨ha0, hk⟩ := firstAdd_some _ _ _ hfa
    rw [hT]
    simp only
    by_cases hw : a0.1 = w
    · rw [if_pos hw, hP.2.2 d, hw]
      cases postingOf adds w d <;> rfl
    · rw [if_neg hw]
      have : ∀ a ∈ adds, a.1 ≠ w := by
        intro a ha e
        apply hw
        have := hinv.2.2.1 a0 ha0 a ha (by rw [hk, e])
        rw [this, e]
      rw [postingOf_none_of_word adds w d this]

theorem AddPostingList_new (f : Nat) (index : MemIndex) (adds : List Posting)
    (hinv : IndexInv index adds) (w : CString) (d : DocID_t) (p : LinkedList Nat)
    (hf : HashTable_Find index (FNVHash64 w) = none) :
    ∃ index2, MemIndex_AddPostingList (f + 2) index w d p = some index2 ∧
      index2.num_elements = index.num_elements + 1 := by
  obtain ⟨t3, h1, h2, _, h4, _⟩ := Insert_exact_fresh f index
    ⟨FNVHash64 w, { word := w, postings := HashTable_Allocate 2 }⟩ hinv.1 hinv.2.1 hf
  obtain ⟨u3, k1, _⟩ := Insert_exact_fresh f (HashTable_Allocate 2 : HashTable (LinkedList Nat))
    ⟨d, p⟩ (Exact_Allocate 2 (by decide)) (by simp [HashTable.PB, HashTable_Allocate])
    (Find_Allocate _ _)
  refine ⟨t3.updateValue (FNVHash64 w) fun wp => { wp with postings := u3 }, ?_, ?_⟩
  · unfold MemIndex_AddPostingList
    simp only [hf, h1, Option.map_some', Option.some_bind, Find_Allocate, Option.isSome_none,
      Bool.false_eq_true, if_false, k1]
  · rw [num_elements_updateValue, h2.2, h4]
    have := hinv.1.2
    rw [this]
    push_cast
    rfl

theorem AddPostingList_old (f : Nat) (index : MemIndex) (w : CString) (d : DocID_t)
    (p : LinkedList Nat) (k : HTKey_t) (T : HashTable (LinkedList Nat)) (hT : T.Exact)
    (hpb : T.PB) (hf : HashTable_Find index (FNVHash64 w) = some ⟨k, ⟨w, T⟩⟩)
    (hd : HashTable_Find T d = none) :
    ∃ index2, MemIndex_AddPostingList (f + 2) index w d p = some index2 ∧
      index2.num_elements = index.num_elements := by
  obtain ⟨u3, k1, _⟩ := Insert_exact_fresh f T ⟨d, p⟩ hT hpb hd
  refine ⟨index.updateValue (FNVHash64 w) fun wp => { wp with postings := u3 }, ?_, ?_⟩
  · unfold MemIndex_AddPostingList
    simp only [hf, ne_eq, not_true_eq_false, if_false, Option.some_bind, hd,
      Option.isSome_none, Bool.false_eq_true, k1, Option.map_some']
  · rw [num_elements_updateValue]

theorem AddPostingList_abort (fuel : Nat) (index : MemIndex) (w : CString) (d : DocID_t)
    (p : LinkedList Nat) (h : MemIndex_posting index w d ≠ none) :
    MemIndex_AddPostingList fuel index w d p = none := by
  unfold MemIndex_posting at h
  cases hf : HashTable_Find index (FNVHash64 w) with
  | none => rw [hf] at h; exact absurd rfl h
  | some kv =>
    rw [hf] at h
    simp only at h
    by_cases hw : kv.value.word = w
    · rw [if_pos hw] at h
      cases hd : HashTable_Find kv.value.postings d with
      | none => rw [hd] at h; exact absurd rfl h
      | some x =>
        unfold MemIndex_AddPostingList
        simp only [hf, ne_eq, hw, not_true_eq_false, if_false, Option.some_bind, hd,
          Option.isSome_some, if_true]
    · rw [if_neg hw] at h
      exact absurd rfl h

theorem AddPostingList_collision (fuel : Nat) (index : MemIndex) (w : CString) (d : DocID_t)
    (p : LinkedList Nat) (kv : HTKeyValue_t WordPostings)
    (hf : HashTable_Find index (FNVHash64 w) = some kv) (hw : kv.value.word ≠ w) :
    MemIndex_AddPostingList fuel index w d p = none := by
  unfold MemIndex_AddPostingList
  simp only [hf, ne_eq, hw, not_false_eq_true, if_true, Option.none_bind]

theorem AddPostingList_spec (adds : List Posting) (index : MemIndex)
    (hinv : IndexInv index adds) (w : CString) (d : DocID_t) (p : LinkedList Nat)
    (hnc : ∀ kv ∈ HashTable_Find index (FNVHash64 w), kv.value.word = w) :
    (MemIndex_posting index w d = none → ∀ fuel, 2 ≤ fuel →
      ∃ index2, MemIndex_AddPostingList fuel index w d p = some index2 ∧
        (∃ T, HashTable_Find index2 (FNVHash64 w) = some ⟨FNVHash64 w, ⟨w, T⟩⟩ ∧
          HashTable_Find T d = some ⟨d, p⟩) ∧
        MemIndex_NumWords index2 = MemIndex_NumWords index +
          (if (HashTable_Find index (FNVHash64 w)).isSome then 0 else 1) ∧
        ∀ w2 d2, (w2, d2) ≠ (w, d) →
          MemIndex_posting index2 w2 d2 = MemIndex_posting index w2 d2) ∧
    (MemIndex_posting index w d ≠ none →
      ∀ fuel, MemIndex_AddPostingList fuel index w d p = none) := by
  refine ⟨?_, fun h fuel => AddPostingList_abort fuel index w d p h⟩
  intro hnone fuel hfuel
  obtain ⟨f, rfl⟩ : ∃ f, fuel = f + 2 := ⟨fuel - 2, by omega⟩
  have hpo : postingOf adds w d = none := by
    rw [← posting_eq_postingOf index adds hinv]; exact hnone
  have hmain : ∃ index2, MemIndex_AddPostingList (f + 2) index w d p = some index2 ∧
      index2.num_elements = index.num_elements +
        (if (HashTable_Find index (FNVHash64 w)).isSome then 0 else 1) ∧
      ∃ a0, firstAdd (adds ++ [(w, d, p)]) (FNVHash64 w) = some a0 ∧ a0.1 = w := by
    cases hfa : firstAdd adds (FNVHash64 w) with
    | none =>
      have hf := (hinv.2.2.2 _).1 hfa
      obtain ⟨index2, h1, h2⟩ := AddPostingList_new f index adds hinv w d p hf
      refine ⟨index2, h1, by rw [h2, hf]; rfl, (w, d, p), ?_, rfl⟩
      rw [firstAdd_append, firstAdd_single, hfa]
      simp
    | some a0 =>
      obtain ⟨T, hT, hP⟩ := (hinv.2.2.2 _).2 a0 hfa
      have hw : a0.1 = w := hnc _ hT
      rw [hw] at hT hP
      have hd : HashTable_Find T d = none := by
        rw [hP.2.2 d, hpo]; rfl
      obtain ⟨index2, h1, h2⟩ := AddPostingList_old f index w d p _ T hP.1 hP.2.1 hT hd
      refine ⟨index2, h1, by rw [h2, hT]; simp, a0, ?_, hw⟩
      rw [firstAdd_append, hfa]
      rfl
  obtain ⟨index2, h1, h2, a0, h3, h4⟩ := hmain
  have hinv2 := AddPostingList_step (f + 2) index index2 adds w d p hinv h1
  refine ⟨index2, h1, ?_, ?_, ?_⟩
  · obtain ⟨T, hT, hP⟩ := (hinv2.2.2.2 _).2 a0 h3
    rw [h4] at hT hP
    refine ⟨T, hT, ?_⟩
    rw [hP.2.2 d, postingOf_append, hpo, postingOf_single]
    simp
  · simp only [MemIndex_NumWords, HashTable_NumElements]
    exact h2
  · intro w2 d2 hne
    rw [posting_eq_postingOf index2 _ hinv2, posting_eq_postingOf index adds hinv,
      postingOf_append, postingOf_single]
    have : ¬ ((w, d, p).1 = w2 ∧ (w, d, p).2.1 = d2) := by
      rintro ⟨e1, e2⟩
      apply hne
      simp only at e1 e2
      rw [e1, e2]
    rw [if_neg this]
    cases postingOf adds w2 d2 <;> rfl

/-- C20, as stated (any state, any word), fails: two distinct words of equal
hash exist; in the index that holds the first of them, the second has no
posting for document 1, but the call that adds one aborts on the assertion
that compares the stored word. -/
theorem C20_counterexample :
    ¬ ∀ (adds : List Posting) (fuelB : Nat) (index : MemIndex),
      buildIndex fuelB adds MemIndex_Allocate = some index →
      ∀ (w : CString) (d : DocID_t) (p : LinkedList Nat),
        MemIndex_posting index w d = none →
        ∃ fuel index2, MemIndex_AddPostingList fuel index w d p = some index2 ∧
          ∃ T, HashTable_Find index2 (FNVHash64 w) = some ⟨FNVHash64 w, ⟨w, T⟩⟩ ∧
            HashTable_Find T d = some ⟨d, p⟩ := by
  intro H
  obtain ⟨g1, g2, hne, heq⟩ := exists_collision
  obtain ⟨index, hadd⟩ := AddPostingList_empty (letterWord g1) 1 [0]
  have hbuild : buildIndex 3 [(letterWord g1, 1, [0])] MemIndex_Allocate = some index := by
    simp [buildIndex, hadd]
  have hinv : IndexInv index [(letterWord g1, 1, [0])] := by
    have := buildIndex_inv 3 [(letterWord g1, 1, [0])] [] MemIndex_Allocate index
      IndexInv_Allocate hbuild
    simpa using this
  have hpo : MemIndex_posting index (letterWord g2) 1 = none := by
    rw [posting_eq_postingOf index _ hinv, postingOf_single]
    simp [hne]
  obtain ⟨fuel, index2, h2, -⟩ := H _ 3 index hbuild (letterWord g2) 1 [0] hpo
  have hfa : firstAdd [(letterWord g1, 1, [0])] (FNVHash64 (letterWord g2)) =
      some (letterWord g1, 1, [0]) := by
    rw [firstAdd_single]
    simp [heq]
  obtain ⟨T, hT, -⟩ := (hinv.2.2.2 _).2 _ hfa
  rw [AddPostingList_collision fuel index (letterWord g2) 1 [0] _ hT hne] at h2
  cases h2

/-- C20 (amended): in a state built by `MemIndex_AddPostingList` calls, for a
word `w` such that the entry under the key `FNVHash64 w`, if there is one,
stores the word `w`: when the doc-id `d` has no posting for `w`, the call
`MemIndex_AddPostingList(index, w, d, p)` returns; afterwards the entry under
`FNVHash64 w` stores the word `w` and its postings table maps `d` to `p`;
`MemIndex_NumWords` has grown by one if there was no entry for `w` and is
unchanged if there was one; and every other pair of a word and a doc-id has
the posting it had. When `d` has a posting for `w`, the call aborts. -/
theorem C20_add_posting_list (adds : List Posting) (fuelB : Nat) (index : MemIndex)
    (hbuild : buildIndex fuelB adds MemIndex_Allocate = some index)
    (w : CString) (d : DocID_t) (p : LinkedList Nat)
    (hnc : ∀ kv ∈ HashTable_Find index (FNVHash64 w), kv.value.word = w) :
    (MemIndex_posting index w d = none → ∀ fuel, 2 ≤ fuel →
      ∃ index2, MemIndex_AddPostingList fuel index w d p = some index2 ∧
        (∃ T, HashTable_Find index2 (FNVHash64 w) = some ⟨FNVHash64 w, ⟨w, T⟩⟩ ∧
          HashTable_Find T d = some ⟨d, p⟩) ∧
        MemIndex_NumWords index2 = MemIndex_NumWords index +
          (if (HashTable_Find index (FNVHash64 w)).isSome then 0 else 1) ∧
        ∀ w2 d2, (w2, d2) ≠ (w, d) →
          MemIndex_posting index2 w2 d2 = MemIndex_posting index w2 d2) ∧
    (MemIndex_posting index w d ≠ none →
      ∀ fuel, MemIndex_AddPostingList fuel index w d p = none) := by
  have hinv : IndexInv index adds := by
    have := buildIndex_inv fuelB adds [] MemIndex_Allocate index IndexInv_Allocate hbuild
    simpa using this
  exact AddPostingList_spec adds index hinv w d p hnc

theorem C20_witness :
    MemIndex_posting indexS2 (bytes "dog") 2 = none ∧
    MemIndex_posting indexS2 (bytes "cat") 2 = some [0, 4] ∧
    (MemIndex_posting indexS2 (bytes "dog") 2 = none → ∀ fuel, 2 ≤ fuel →
      ∃ index2, MemIndex_AddPostingList fuel indexS2 (bytes "dog") 2 [3] = some index2 ∧
        (∃ T, HashTable_Find index2 (FNVHash64 (bytes "dog")) =
            some ⟨FNVHash64 (bytes "dog"), ⟨bytes "dog", T⟩⟩ ∧
          HashTable_Find T 2 = some ⟨2, [3]⟩) ∧
        MemIndex_NumWords index2 = MemIndex_NumWords indexS2 +
          (if (HashTable_Find indexS2 (FNVHash64 (bytes "dog"))).isSome then 0 else 1) ∧
        ∀ w2 d2, (w2, d2) ≠ (bytes "dog", 2) →
          MemIndex_posting index2 w2 d2 = MemIndex_posting indexS2 w2 d2) ∧
    (MemIndex_posting indexS2 (bytes "dog") 2 ≠ none →
      ∀ fuel, MemIndex_AddPostingList fuel indexS2 (bytes "dog") 2 [3] = none) :=
  ⟨by decide, by decide,
    C20_add_posting_list addsS2 3 indexS2 (by decide) (bytes "dog") 2 [3] (by decide)⟩

/-- C26, as stated, fails for `MemIndex_Search`: with `query_len = 0` it does
not abort, it returns (the NULL result). -/
theorem C26_counterexample :
    ¬ (MemIndex_Search 0 MemIndex_Allocate [] = none ∧
        ProcessQuery [] [] = none) := by
  decide

/-- C26 (amended): `QueryProcessor::ProcessQuery` aborts on an empty query,
whatever the index files; `MemIndex_Search` with `query_len = 0` does not
abort: it returns NULL, whatever the index and the bound on its sort. -/
theorem C26_empty_query (fuel : Nat) (index : MemIndex) (readers : List IndexReaders) :
    MemIndex_Search fuel index [] = some none ∧ ProcessQuery readers [] = none :=
  ⟨rfl, rfl⟩
/-! ## The index file: what the writer writes, the readers read -/

theorem getD_append_replicate_zero (f : File) (n i : Nat) :
    (f ++ List.replicate n 0).getD i 0 = f.getD i 0 := by
  simp only [List.getD_eq_getElem?_getD]
  by_cases h : i < f.length
  · rw [List.getElem?_append_left h]
  · rw [List.getElem?_append_right (by omega), List.getElem?_eq_none (l := f) (by omega)]
    by_cases h2 : i - f.length < n
    · rw [List.getElem?_replicate_of_lt h2]; rfl
    · rw [List.getElem?_eq_none (by simpa using Nat.le_of_not_lt h2)]

theorem pwrite_length (f : File) (off : Nat) (d : List Nat) :
    (pwrite f off d).length = max f.length (off + d.length) := by
  simp only [pwrite, List.length_append, List.length_take, List.length_drop,
    List.length_replicate]
  omega

theorem pwrite_getD (f : File) (off : Nat) (d : List Nat) (i : Nat) :
    (pwrite f off d).getD i 0 =
      if off ≤ i ∧ i < off + d.length then d.getD (i - off) 0 else f.getD i 0 := by
  have hg : ∀ j, (f ++ List.replicate (off - f.length) 0).getD j 0 = f.getD j 0 :=
    getD_append_replicate_zero f _
  have hlen : (f ++ List.replicate (off - f.length) 0).length = max f.length off := by
    simp only [List.length_append, List.length_replicate]; omega
  simp only [pwrite]
  generalize f ++ List.replicate (off - f.length) 0 = g at hg hlen
  rw [← hg i]
  simp only [List.getD_eq_getElem?_getD]
  by_cases h1 : i < off
  · have : i < (List.take off g).length := by simp only [List.length_take]; omega
    rw [List.append_assoc, List.getElem?_append_left this, List.getElem?_take_of_lt h1]
    simp [show ¬ (off ≤ i) by omega]
  · have hto : (List.take off g).length = off := by simp only [List.length_take]; omega
    by_cases h2 : i < off + d.length
    · rw [List.append_assoc, List.getElem?_append_right (by omega), hto,
        List.getElem?_append_left (by omega)]
      simp [show off ≤ i by omega, h2]
    · rw [List.getElem?_append_right (by simp only [List.length_append, hto]; omega)]
      simp only [List.length_append, hto, List.getElem?_drop]
      rw [show off + d.length + (i - (off + d.length)) = i by omega]
      simp [h2]

theorem readBytes_of_getD (g : File) (off : Nat) (d : List Nat)
    (hlen : off + d.length ≤ g.length)
    (h : ∀ j, j < d.length → g.getD (off + j) 0 = d.getD j 0) : Holds g off d := by
  unfold Holds readBytes
  rw [if_pos hlen]
  congr 1
  apply List.ext_getElem
  · simp only [List.length_take, List.length_drop]; omega
  · intro j h1 h2
    have := h j h2
    simp only [List.getD_eq_getElem?_getD] at this
    rw [List.getElem?_eq_getElem (by omega), List.getElem?_eq_getElem h2] at this
    simp only [Option.getD_some] at this
    simp only [List.getElem_take, List.getElem_drop]
    exact this

theorem Holds_getD (g : File) (off : Nat) (d : List Nat) (h : Holds g off d) :
    off + d.length ≤ g.length ∧ ∀ j, j < d.length → g.getD (off + j) 0 = d.getD j 0 := by
  unfold Holds readBytes at h
  by_cases hlen : off + d.length ≤ g.length
  · rw [if_pos hlen] at h
    refine ⟨hlen, fun j hj => ?_⟩
    have e : d = List.take d.length (List.drop off g) := (Option.some.inj h).symm
    have e2 := congrArg (fun l : List Nat => l[j]?) e
    simp only [List.getElem?_take_of_lt hj, List.getElem?_drop] at e2
    simp only [List.getD_eq_getElem?_getD, e2]
  · rw [if_neg hlen] at h
    exact absurd h (by simp)

theorem Holds_of_Agree_pwrite (f g : File) (off : Nat) (d : List Nat)
    (h : Agree (pwrite f off d) g off (off + d.length)) : Holds g off d := by
  apply readBytes_of_getD g off d h.1
  intro j hj
  rw [h.2 (off + j) (by omega) (by omega), pwrite_getD]
  simp [hj]

theorem Holds_append (g : File) (off : Nat) (a b : List Nat) :
    Holds g off (a ++ b) ↔ Holds g off a ∧ Holds g (off + a.length) b := by
  constructor
  · intro h
    obtain ⟨hl, hh⟩ := Holds_getD g off _ h
    simp only [List.length_append] at hl hh
    constructor
    · apply readBytes_of_getD g off a (by omega)
      intro j hj
      rw [hh j (by omega)]
      simp only [List.getD_eq_getElem?_getD]
      rw [List.getElem?_append_left hj]
    · apply readBytes_of_getD g _ b (by omega)
      intro j hj
      rw [Nat.add_assoc, hh (a.length + j) (by omega)]
      simp only [List.getD_eq_getElem?_getD]
      rw [List.getElem?_append_right (by omega)]
      simp
  · rintro ⟨h1, h2⟩
    obtain ⟨hl1, hh1⟩ := Holds_getD g off _ h1
    obtain ⟨hl2, hh2⟩ := Holds_getD g _ _ h2
    apply readBytes_of_getD g off (a ++ b) (by simp only [List.length_append]; omega)
    intro j hj
    simp only [List.length_append] at hj
    simp only [List.getD_eq_getElem?_getD]
    by_cases hja : j < a.length
    · rw [List.getElem?_append_left hja]
      simpa only [List.getD_eq_getElem?_getD] using hh1 j hja
    · rw [List.getElem?_append_right (by omega)]
      have := hh2 (j - a.length) (by omega)
      rw [show off + a.length + (j - a.length) = off + j by omega] at this
      simpa only [List.getD_eq_getElem?_getD] using this

theorem be32_length (n : Nat) : (be32 n).length = 4 := rfl
theorem be16_length (n : Nat) : (be16 n).length = 2 := rfl
theorem be64_length (n : Nat) : (be64 n).length = 8 := rfl

theorem fromBE_be16 (n : Nat) : fromBE (be16 n) = n % 2 ^ 16 := by
  simp only [fromBE, be16, List.foldl]
  omega

theorem fromBE_be32 (n : Nat) : fromBE (be32 n) = n % 2 ^ 32 := by
  simp only [fromBE, be32, List.foldl]
  omega

theorem fromBE_be64 (n : Nat) : fromBE (be64 n) = n % 2 ^ 64 := by
  simp only [fromBE, be64, be32, List.foldl, List.cons_append, List.nil_append]
  omega

theorem readInt_of_Holds32 (g : File) (off n : Nat) (h : Holds g off (be32 n))
    (hn : n < 2 ^ 32) : readInt g off 4 = some n := by
  unfold Holds at h
  rw [be32_length] at h
  rw [readInt, h, Option.map_some', fromBE_be32, Nat.mod_eq_of_lt hn]

theorem readInt_of_Holds16 (g : File) (off n : Nat) (h : Holds g off (be16 n))
    (hn : n < 2 ^ 16) : readInt g off 2 = some n := by
  unfold Holds at h
  rw [be16_length] at h
  rw [readInt, h, Option.map_some', fromBE_be16, Nat.mod_eq_of_lt hn]

theorem readInt_of_Holds64 (g : File) (off n : Nat) (h : Holds g off (be64 n))
    (hn : n < 2 ^ 64) : readInt g off 8 = some n := by
  unfold Holds at h
  rw [be64_length] at h
  rw [readInt, h, Option.map_some', fromBE_be64, Nat.mod_eq_of_lt hn]

theorem Agree_mono (f g : File) (lo hi lo2 hi2 : Nat) (h : Agree f g lo hi)
    (h1 : lo ≤ lo2) (h2 : hi2 ≤ hi) : Agree f g lo2 hi2 :=
  ⟨by have := h.1; omega, fun i hi1 hi3 => h.2 i (by omega) (by omega)⟩

theorem WriteHTBucket_loop_spec {V : Type} (fn : WriteElementFn V) (Q : HTKeyValue_t V → Prop)
    (Dec : File → Nat → HTKeyValue_t V → Prop) (hfn : ElemSpec fn Q Dec) :
    ∀ (li : List (HTKeyValue_t V)) (f : File) (rp ep : Nat) (f2 : File) (e : Nat),
      (∀ kv ∈ li, Q kv) → WriteHTBucket_loop fn li f rp ep = some (f2, e) →
      rp + 4 * li.length ≤ ep → e < 2 ^ 32 →
      ep ≤ e ∧ f.length ≤ f2.length ∧ (li ≠ [] → e ≤ f2.length) ∧
      (∀ i, ¬ (rp ≤ i ∧ i < rp + 4 * li.length) → ¬ (ep ≤ i ∧ i < e) →
        f2.getD i 0 = f.getD i 0) ∧
      ∀ g : File, e ≤ g.length →
        (∀ i, (rp ≤ i ∧ i < rp + 4 * li.length) ∨ (ep ≤ i ∧ i < e) →
          g.getD i 0 = f2.getD i 0) →
        ∃ ps, readInts g rp li.length = some ps ∧ List.Forall₂ (Dec g) ps li := by
  intro li
  induction li with
  | nil =>
    intro f rp ep f2 e _ h _ _
    simp only [WriteHTBucket_loop, Option.some.injEq, Prod.mk.injEq] at h
    obtain ⟨rfl, rfl⟩ := h
    refine ⟨le_refl _, le_refl _, fun h => absurd rfl h, fun _ _ _ => rfl, ?_⟩
    intro g _ _
    exact ⟨[], rfl, List.Forall₂.nil⟩
  | cons kv rest ih =>
    intro f rp ep f2 e hQ h hrp he
    simp only [WriteHTBucket_loop, sizeof_ElementPositionRecord] at h
    simp only [List.length_cons] at hrp
    cases hfn1 : fn (pwrite f rp (be32 ep)) ep kv with
    | none => rw [hfn1] at h; simp at h
    | some r =>
      obtain ⟨f1, n1⟩ := r
      rw [hfn1] at h
      simp only [Option.some_bind] at h
      obtain ⟨i1, i2, i3, i4, i5⟩ := ih f1 (rp + 4) (ep + n1) f2 e
        (fun x hx => hQ x (List.mem_cons_of_mem _ hx)) h (by omega) he
      obtain ⟨e1, e2, e3, e4⟩ := hfn (pwrite f rp (be32 ep)) ep kv f1 n1
        (hQ kv (List.mem_cons_self _ _)) hfn1 (by omega)
      have hpl := pwrite_length f rp (be32 ep)
      have hef2 : e ≤ f2.length := by
        by_cases hr : rest = []
        · subst hr
          simp only [WriteHTBucket_loop, Option.some.injEq, Prod.mk.injEq] at h
          omega
        · have := i3 hr
          omega
      simp only [List.length_cons]
      refine ⟨by omega, by omega, fun _ => hef2, ?_, ?_⟩
      · intro i hi1 hi2
        rw [i4 i (by omega) (by omega), e3 i (by omega), pwrite_getD, be32_length]
        rw [if_neg (by omega)]
      · intro g hg hgi
        have hrec : Holds g rp (be32 ep) := by
          apply readBytes_of_getD g rp _ (by rw [be32_length]; omega)
          intro j hj
          rw [be32_length] at hj
          rw [hgi (rp + j) (Or.inl (by omega)), i4 (rp + j) (by omega) (by omega),
            e3 (rp + j) (by omega), pwrite_getD, be32_length, if_pos (by omega)]
          congr 1
          omega
        have hdec : Dec g ep kv := by
          apply e4 g
          refine ⟨by omega, fun i hi1 hi2 => ?_⟩
          rw [hgi i (Or.inr (by omega)), i4 i (by omega) (by omega)]
        obtain ⟨ps, hps, hall⟩ := i5 g hg (fun i hi => hgi i (by omega))
        refine ⟨ep :: ps, ?_, List.Forall₂.cons hdec hall⟩
        simp only [readInts, readInt_of_Holds32 g rp ep hrec (by omega), Option.some_bind, hps,
          Option.map_some']

theorem WriteHTBucket_loop_le {V : Type} (fn : WriteElementFn V) :
    ∀ (li : List (HTKeyValue_t V)) (f : File) (rp ep : Nat) (f2 : File) (e : Nat),
      WriteHTBucket_loop fn li f rp ep = some (f2, e) → ep ≤ e := by
  intro li
  induction li with
  | nil =>
    intro f rp ep f2 e h
    simp only [WriteHTBucket_loop, Option.some.injEq, Prod.mk.injEq] at h
    omega
  | cons kv rest ih =>
    intro f rp ep f2 e h
    simp only [WriteHTBucket_loop] at h
    cases hfn1 : fn (pwrite f rp (be32 ep)) ep kv with
    | none => rw [hfn1] at h; simp at h
    | some r =>
      rw [hfn1] at h
      simp only [Option.some_bind] at h
      have := ih _ _ _ _ _ h
      omega

theorem WriteHTBucket_spec {V : Type} (fn : WriteElementFn V) (Q : HTKeyValue_t V → Prop)
    (Dec : File → Nat → HTKeyValue_t V → Prop) (hfn : ElemSpec fn Q Dec)
    (li : List (HTKeyValue_t V)) (f : File) (off : Nat) (f2 : File) (n : Nat)
    (hne : li ≠ []) (hQ : ∀ kv ∈ li, Q kv) (h : WriteHTBucket fn f off li = some (f2, n))
    (hb : off + n < 2 ^ 32) :
    4 * li.length ≤ n ∧ f.length ≤ f2.length ∧ off + n ≤ f2.length ∧
    (∀ i, (i < off ∨ off + n ≤ i) → f2.getD i 0 = f.getD i 0) ∧
    ∀ g : File, Agree f2 g off (off + n) →
      ∃ ps, readInts g off li.length = some ps ∧ List.Forall₂ (Dec g) ps li := by
  have hlen : li.length ≠ 0 := by
    intro h0
    exact hne (List.length_eq_zero.1 h0)
  simp only [WriteHTBucket, LinkedList_NumElements, hlen, if_false,
    sizeof_ElementPositionRecord] at h
  cases hl : WriteHTBucket_loop fn li f off (off + 4 * li.length) with
  | none => rw [hl] at h; simp at h
  | some r =>
    obtain ⟨f3, e⟩ := r
    rw [hl] at h
    simp only [Option.map_some', Option.some.injEq, Prod.mk.injEq] at h
    obtain ⟨rfl, rfl⟩ := h
    have hle := WriteHTBucket_loop_le fn li f off _ f3 e hl
    have hoe : off + (e - off) = e := by omega
    rw [hoe] at hb ⊢
    obtain ⟨_, i2, i3, i4, i5⟩ := WriteHTBucket_loop_spec fn Q Dec hfn li f off _ f3 e hQ hl
      (le_refl _) hb
    refine ⟨by omega, i2, i3 hne, fun i hi => i4 i (by omega) (by omega), ?_⟩
    intro g hg
    exact i5 g hg.1 (fun i hi => hg.2 i (by omega) (by omega))

theorem WriteHashTable_loop_le {V : Type} (fn : WriteElementFn V) (ht : HashTable V) :
    ∀ (n i : Nat) (f : File) (rp bp : Nat) (f2 : File) (e : Nat),
      WriteHashTable_loop fn ht n i f rp bp = some (f2, e) → bp ≤ e := by
  intro n
  induction n with
  | zero =>
    intro i f rp bp f2 e h
    simp only [WriteHashTable_loop, Option.some.injEq, Prod.mk.injEq] at h
    omega
  | succ n ih =>
    intro i f rp bp f2 e h
    simp only [WriteHashTable_loop] at h
    split at h
    · cases hb : WriteHTBucket fn (WriteHTBucketRecord f rp
          (LinkedList_NumElements (ht.chain i)) bp).1 bp (ht.chain i) with
      | none => rw [hb] at h; simp at h
      | some r =>
        rw [hb] at h
        simp only [Option.some_bind] at h
        have := ih _ _ _ _ _ _ h
        omega
    · exact ih _ _ _ _ _ _ h

theorem WriteHashTable_loop_spec {V : Type} (fn : WriteElementFn V)
    (Q : HTKeyValue_t V → Prop) (Dec : File → Nat → HTKeyValue_t V → Prop)
    (hfn : ElemSpec fn Q Dec) (ht : HashTable V) (hQ : ∀ j, ∀ kv ∈ ht.chain j, Q kv) :
    ∀ (n i : Nat) (f : File) (rp bp : Nat) (f2 : File) (e : Nat),
      WriteHashTable_loop fn ht n i f rp bp = some (f2, e) →
      rp + 8 * n ≤ bp → e < 2 ^ 32 →
      f.length ≤ f2.length ∧ (0 < n → rp + 8 * n ≤ f2.length) ∧ (bp < e → e ≤ f2.length) ∧
      (∀ j, ¬ (rp ≤ j ∧ j < rp + 8 * n) → ¬ (bp ≤ j ∧ j < e) → f2.getD j 0 = f.getD j 0) ∧
      ∀ g : File, e ≤ g.length →
        (∀ j, (rp ≤ j ∧ j < rp + 8 * n) ∨ (bp ≤ j ∧ j < e) → g.getD j 0 = f2.getD j 0) →
        ∀ k, k < n → ∃ bo ps,
          readInt g (rp + 8 * k) 4 = some (ht.chain (i + k)).length ∧
          readInt g (rp + 8 * k + 4) 4 = some bo ∧
          readInts g bo (ht.chain (i + k)).length = some ps ∧
          List.Forall₂ (Dec g) ps (ht.chain (i + k)) := by
  intro n
  induction n with
  | zero =>
    intro i f rp bp f2 e h _ _
    simp only [WriteHashTable_loop, Option.some.injEq, Prod.mk.injEq] at h
    obtain ⟨rfl, rfl⟩ := h
    refine ⟨le_refl _, fun h => absurd h (by omega), fun h => absurd h (by omega),
      fun _ _ _ => rfl, ?_⟩
    intro g _ _ k hk
    omega
  | succ n ih =>
    intro i f rp bp f2 e h hrp he
    have hle := WriteHashTable_loop_le fn ht _ _ _ _ _ _ _ h
    simp only [WriteHashTable_loop, WriteHTBucketRecord, LinkedList_NumElements,
      sizeof_BucketRecord] at h
    have hpl := pwrite_length f rp (be32 (ht.chain i).length ++ be32 bp)
    have hdl : (be32 (ht.chain i).length ++ be32 bp).length = 8 := rfl
    rw [hdl] at hpl
    have hrecw : ∀ (g : File), rp + 8 ≤ g.length →
        (∀ j, rp ≤ j → j < rp + 8 → g.getD j 0 =
          (pwrite f rp (be32 (ht.chain i).length ++ be32 bp)).getD j 0) →
        Holds g rp (be32 (ht.chain i).length) ∧ Holds g (rp + 4) (be32 bp) := by
      intro g hg hgj
      have : Holds g rp (be32 (ht.chain i).length ++ be32 bp) := by
        apply readBytes_of_getD g rp _ (by rw [hdl]; omega)
        intro j hj
        rw [hdl] at hj
        rw [hgj (rp + j) (by omega) (by omega), pwrite_getD, hdl, if_pos (by omega)]
        congr 1
        omega
      exact (Holds_append g rp _ _).1 this
    by_cases hne : (ht.chain i).length > 0
    · rw [if_pos hne] at h
      cases hb : WriteHTBucket fn (pwrite f rp (be32 (ht.chain i).length ++ be32 bp)) bp
          (ht.chain i) with
      | none => rw [hb] at h; simp at h
      | some r =>
        obtain ⟨f1, n1⟩ := r
        rw [hb] at h
        simp only [Option.some_bind] at h
        have hle2 := WriteHashTable_loop_le fn ht _ _ _ _ _ _ _ h
        obtain ⟨i1, i2, i3, i4, i5⟩ := ih (i + 1) f1 (rp + 8) (bp + n1) f2 e h (by omega) he
        have hne2 : ht.chain i ≠ [] := by
          intro h0
          rw [h0] at hne
          simp at hne
        obtain ⟨b1, b2, b3, b4, b5⟩ := WriteHTBucket_spec fn Q Dec hfn (ht.chain i) _ bp f1 n1
          hne2 (hQ i) hb (by omega)
        have hef2 : e ≤ f2.length := by
          by_cases hlt : bp + n1 < e
          · exact i3 hlt
          · omega
        refine ⟨by omega, fun _ => ?_, fun _ => hef2, ?_, ?_⟩
        · omega
        · intro j hj1 hj2
          rw [i4 j (by omega) (by omega), b4 j (by omega), pwrite_getD, hdl, if_neg (by omega)]
        · intro g hg hgj k hk
          cases k with
          | zero =>
            obtain ⟨r1, r2⟩ := hrecw g (by omega) (fun j hj1 hj2 => by
              rw [hgj j (Or.inl (by omega)), i4 j (by omega) (by omega), b4 j (by omega)])
            obtain ⟨ps, hps, hall⟩ := b5 g ⟨by omega, fun j hj1 hj2 => by
              rw [hgj j (Or.inr (by omega)), i4 j (by omega) (by omega)]⟩
            simp only [Nat.add_zero, Nat.mul_zero]
            refine ⟨bp, ps, ?_, ?_, ?_, ?_⟩
            · exact readInt_of_Holds32 g _ _ r1 (by omega)
            · exact readInt_of_Holds32 g _ _ r2 (by omega)
            · exact hps
            · exact hall
          | succ k =>
            obtain ⟨bo, ps, q1, q2, q3, q4⟩ := i5 g hg (fun j hj => hgj j (by omega)) k
              (by omega)
            rw [show i + 1 + k = i + (k + 1) by omega] at q1 q3 q4
            rw [show rp + 8 + 8 * k = rp + 8 * (k + 1) by omega] at q1 q2
            exact ⟨bo, ps, q1, q2, q3, q4⟩
    · rw [if_neg hne] at h
      have hnil : ht.chain i = [] := List.length_eq_zero.1 (by omega)
      obtain ⟨i1, i2, i3, i4, i5⟩ := ih (i + 1) _ (rp + 8) bp f2 e h (by omega) he
      refine ⟨by omega, fun _ => ?_, i3, ?_, ?_⟩
      · by_cases hn : 0 < n
        · have := i2 hn
          omega
        · omega
      · intro j hj1 hj2
        rw [i4 j (by omega) (by omega), pwrite_getD, hdl, if_neg (by omega)]
      · intro g hg hgj k hk
        cases k with
        | zero =>
          obtain ⟨r1, r2⟩ := hrecw g (by omega) (fun j hj1 hj2 => by
            rw [hgj j (Or.inl (by omega)), i4 j (by omega) (by omega)])
          simp only [Nat.add_zero, Nat.mul_zero]
          refine ⟨bp, [], ?_, ?_, ?_, ?_⟩
          · exact readInt_of_Holds32 g _ _ r1 (by rw [hnil]; simp)
          · exact readInt_of_Holds32 g _ _ r2 (by omega)
          · simp only [hnil, List.length_nil, readInts]
          · simp only [hnil]
            exact List.Forall₂.nil
        | succ k =>
          obtain ⟨bo, ps, q1, q2, q3, q4⟩ := i5 g hg (fun j hj => hgj j (by omega)) k
            (by omega)
          rw [show i + 1 + k = i + (k + 1) by omega] at q1 q3 q4
          rw [show rp + 8 + 8 * k = rp + 8 * (k + 1) by omega] at q1 q2
          exact ⟨bo, ps, q1, q2, q3, q4⟩

theorem WriteHashTable_spec {V : Type} (fn : WriteElementFn V) (Q : HTKeyValue_t V → Prop)
    (Dec : File → Nat → HTKeyValue_t V → Prop) (hfn : ElemSpec fn Q Dec) (ht : HashTable V)
    (hQ : ∀ j, ∀ kv ∈ ht.chain j, Q kv) (f : File) (off : Nat) (f2 : File) (n : Nat)
    (h : WriteHashTable fn f off ht = some (f2, n)) (hb : off + n < 2 ^ 32) :
    4 + 8 * ht.num_buckets ≤ n ∧ f.length ≤ f2.length ∧ off + n ≤ f2.length ∧
    (∀ i, (i < off ∨ off + n ≤ i) → f2.getD i 0 = f.getD i 0) ∧
    ∀ g : File, Agree f2 g off (off + n) → TableDec Dec g off ht := by
  simp only [WriteHashTable, sizeof_BucketListHeader, sizeof_BucketRecord] at h
  cases hl : WriteHashTable_loop fn ht ht.num_buckets 0 (pwrite f off (be32 ht.num_buckets))
      (off + 4) (off + 4 + ht.num_buckets * 8) with
  | none => rw [hl] at h; simp at h
  | some r =>
    obtain ⟨f3, e⟩ := r
    rw [hl] at h
    simp only [Option.map_some', Option.some.injEq, Prod.mk.injEq] at h
    obtain ⟨rfl, rfl⟩ := h
    have hle := WriteHashTable_loop_le fn ht _ _ _ _ _ _ _ hl
    have hoe : off + (e - off) = e := by omega
    rw [hoe] at hb ⊢
    obtain ⟨i1, i2, i3, i4, i5⟩ := WriteHashTable_loop_spec fn Q Dec hfn ht hQ _ _ _ _ _ _ _ hl
      (by omega) hb
    have hpl := pwrite_length f off (be32 ht.num_buckets)
    rw [be32_length] at hpl
    have hlen : e ≤ f3.length := by
      by_cases hlt : off + 4 + ht.num_buckets * 8 < e
      · exact i3 hlt
      · by_cases hn : 0 < ht.num_buckets
        · have := i2 hn
          omega
        · omega
    refine ⟨by omega, by omega, hlen, ?_, ?_⟩
    · intro i hi
      rw [i4 i (by omega) (by omega), pwrite_getD, be32_length, if_neg (by omega)]
    · intro g hg
      refine ⟨?_, ?_⟩
      · apply readInt_of_Holds32 g off _ _ (by omega)
        apply readBytes_of_getD g off _ (by rw [be32_length]; have := hg.1; omega)
        intro j hj
        rw [be32_length] at hj
        rw [hg.2 (off + j) (by omega) (by omega), i4 (off + j) (by omega) (by omega),
          pwrite_getD, be32_length, if_pos (by omega)]
        congr 1
        omega
      · intro i hi
        have := i5 g hg.1 (fun j hj => hg.2 j (by omega) (by omega)) i hi
        simpa only [Nat.zero_add] using this

theorem WriteHTBucket_loop_total {V : Type} (fn : WriteElementFn V) (Q : HTKeyValue_t V → Prop)
    (hfn : ElemTotal fn Q) :
    ∀ (li : List (HTKeyValue_t V)) (f : File) (rp ep : Nat), (∀ kv ∈ li, Q kv) →
      ∃ r, WriteHTBucket_loop fn li f rp ep = some r := by
  intro li
  induction li with
  | nil => intro f rp ep _; exact ⟨_, rfl⟩
  | cons kv rest ih =>
    intro f rp ep hQ
    obtain ⟨r, hr⟩ := hfn (pwrite f rp (be32 ep)) ep kv (hQ kv (List.mem_cons_self _ _))
    simp only [WriteHTBucket_loop, hr, Option.some_bind]
    exact ih _ _ _ (fun x hx => hQ x (List.mem_cons_of_mem _ hx))

theorem WriteHashTable_loop_total {V : Type} (fn : WriteElementFn V)
    (Q : HTKeyValue_t V → Prop) (hfn : ElemTotal fn Q) (ht : HashTable V)
    (hQ : ∀ j, ∀ kv ∈ ht.chain j, Q kv) :
    ∀ (n i : Nat) (f : File) (rp bp : Nat),
      ∃ r, WriteHashTable_loop fn ht n i f rp bp = some r := by
  intro n
  induction n with
  | zero => intro i f rp bp; exact ⟨_, rfl⟩
  | succ n ih =>
    intro i f rp bp
    simp only [WriteHashTable_loop]
    split
    · obtain ⟨r, hr⟩ := WriteHTBucket_loop_total fn Q hfn (ht.chain i)
        (WriteHTBucketRecord f rp (LinkedList_NumElements (ht.chain i)) bp).1 bp
        (bp + sizeof_ElementPositionRecord * LinkedList_NumElements (ht.chain i)) (hQ i)
      have hne : ¬ LinkedList_NumElements (ht.chain i) = 0 := by omega
      simp only [WriteHTBucket, hne, if_false, hr, Option.map_some', Option.some_bind]
      exact ih _ _ _ _
    · exact ih _ _ _ _

theorem WriteHashTable_total {V : Type} (fn : WriteElementFn V) (Q : HTKeyValue_t V → Prop)
    (hfn : ElemTotal fn Q) (ht : HashTable V) (hQ : ∀ j, ∀ kv ∈ ht.chain j, Q kv) (f : File)
    (off : Nat) : ∃ r, WriteHashTable fn f off ht = some r := by
  obtain ⟨r, hr⟩ := WriteHashTable_loop_total fn Q hfn ht hQ ht.num_buckets 0
    (pwrite f off (be32 ht.num_buckets)) (off + sizeof_BucketListHeader)
    (off + sizeof_BucketListHeader + ht.num_buckets * sizeof_BucketRecord)
  simp only [WriteHashTable, hr, Option.map_some']
  exact ⟨_, rfl⟩

theorem Holds_of_getD_pwrite (f g : File) (off : Nat) (d : List Nat)
    (hlen : off + d.length ≤ g.length)
    (h : ∀ i, off ≤ i → i < off + d.length → g.getD i 0 = (pwrite f off d).getD i 0) :
    Holds g off d := by
  apply readBytes_of_getD g off d hlen
  intro j hj
  rw [h (off + j) (by omega) (by omega), pwrite_getD, if_pos (by omega)]
  congr 1
  omega

theorem int16_size_eq (len : Nat) (h0 : 0 < len) (h1 : len < 2 ^ 15) :
    int16_size len = some len := by
  unfold int16_size
  have : len % 2 ^ 16 = len := Nat.mod_eq_of_lt (by omega)
  rw [this, if_neg (by omega)]

theorem WriteDocidToDocnameFn_spec : ElemSpec WriteDocidToDocnameFn DocQ DocDec := by
  intro f p kv f2 n hQ h hb
  obtain ⟨hk, h0, h1⟩ := hQ
  simp only [WriteDocidToDocnameFn, int16_size_eq _ h0 h1, sizeof_DoctableElementHeader,
    List.take_length, Option.some.injEq, Prod.mk.injEq] at h
  obtain ⟨rfl, rfl⟩ := h
  have hdl : (be64 kv.key ++ be16 kv.value.length).length = 10 := rfl
  have l1 := pwrite_length f p (be64 kv.key ++ be16 kv.value.length)
  have l2 := pwrite_length (pwrite f p (be64 kv.key ++ be16 kv.value.length)) (p + 10) kv.value
  rw [hdl] at l1
  refine ⟨by omega, by omega, ?_, ?_⟩
  · intro i hi
    rw [pwrite_getD, if_neg (by omega), pwrite_getD, hdl, if_neg (by omega)]
  · intro g hg
    have hh : Holds g p (be64 kv.key ++ be16 kv.value.length) := by
      apply Holds_of_getD_pwrite f g p _ (by rw [hdl]; have := hg.1; omega)
      intro i hi1 hi2
      rw [hdl] at hi2
      rw [hg.2 i (by omega) (by omega), pwrite_getD, if_neg (by omega)]
    obtain ⟨hh1, hh2⟩ := (Holds_append g p _ _).1 hh
    have hn : Holds g (p + 10) kv.value := by
      apply Holds_of_getD_pwrite _ g (p + 10) _ (by have := hg.1; omega)
      intro i hi1 hi2
      rw [hg.2 i (by omega) (by omega)]
    exact ⟨readInt_of_Holds64 g p _ hh1 hk,
      readInt_of_Holds16 g _ _ hh2 (by omega), hn, h1⟩

theorem WriteDocidToDocnameFn_total : ElemTotal WriteDocidToDocnameFn DocQ := by
  intro f p kv hQ
  simp only [WriteDocidToDocnameFn, int16_size_eq _ hQ.2.1 hQ.2.2]
  exact ⟨_, rfl⟩

theorem PositionList_loop_spec :
    ∀ (ps : List Nat) (f : File) (off : Nat),
      f.length ≤ (WriteDocIDToPositionListFn_loop ps f off).length ∧
      (ps ≠ [] → off + 4 * ps.length ≤ (WriteDocIDToPositionListFn_loop ps f off).length) ∧
      (∀ i, (i < off ∨ off + 4 * ps.length ≤ i) →
        (WriteDocIDToPositionListFn_loop ps f off).getD i 0 = f.getD i 0) ∧
      ∀ g : File, off + 4 * ps.length ≤ g.length →
        (∀ i, off ≤ i → i < off + 4 * ps.length →
          g.getD i 0 = (WriteDocIDToPositionListFn_loop ps f off).getD i 0) →
        (∀ x ∈ ps, x < 2 ^ 32) → readInts g off ps.length = some ps := by
  intro ps
  induction ps with
  | nil =>
    intro f off
    refine ⟨le_refl _, fun h => absurd rfl h, fun _ _ => rfl, fun _ _ _ _ => rfl⟩
  | cons x rest ih =>
    intro f off
    obtain ⟨i1, i2, i3, i4⟩ := ih (pwrite f off (be32 x)) (off + 4)
    have l1 := pwrite_length f off (be32 x)
    rw [be32_length] at l1
    simp only [WriteDocIDToPositionListFn_loop, List.length_cons]
    refine ⟨by omega, fun _ => ?_, ?_, ?_⟩
    · by_cases hr : rest = []
      · subst hr
        simp only [WriteDocIDToPositionListFn_loop, List.length_nil]
        omega
      · have := i2 hr
        omega
    · intro i hi
      rw [i3 i (by omega), pwrite_getD, be32_length, if_neg (by omega)]
    · intro g hg hgi hx
      have hh : Holds g off (be32 x) := by
        apply Holds_of_getD_pwrite f g off _ (by rw [be32_length]; omega)
        intro i hi1 hi2
        rw [be32_length] at hi2
        rw [hgi i (by omega) (by omega), i3 i (by omega)]
      have hr := i4 g (by omega) (fun i hi1 hi2 => hgi i (by omega) (by omega))
        (fun y hy => hx y (List.mem_cons_of_mem _ hy))
      simp only [readInts, readInt_of_Holds32 g off x hh (hx x (List.mem_cons_self _ _)),
        Option.some_bind, hr, Option.map_some']

theorem WriteDocIDToPositionListFn_spec :
    ElemSpec WriteDocIDToPositionListFn PostQ PostDec := by
  intro f p kv f2 n hQ h hb
  obtain ⟨hk, hx⟩ := hQ
  simp only [WriteDocIDToPositionListFn, sizeof_DocIDElementHeader, LinkedList_NumElements,
    Option.some.injEq, Prod.mk.injEq] at h
  obtain ⟨rfl, rfl⟩ := h
  have hdl : (be64 kv.key ++ be32 kv.value.length).length = 12 := rfl
  have l1 := pwrite_length f p (be64 kv.key ++ be32 kv.value.length)
  rw [hdl] at l1
  obtain ⟨i1, i2, i3, i4⟩ := PositionList_loop_spec kv.value
    (pwrite f p (be64 kv.key ++ be32 kv.value.length)) (p + 12)
  refine ⟨by omega, ?_, ?_, ?_⟩
  · by_cases hr : kv.value = []
    · rw [hr] at i1 l1 ⊢
      simp only [List.length_nil] at i1 l1 ⊢
      omega
    · have := i2 hr
      omega
  · intro i hi
    rw [i3 i (by omega), pwrite_getD, hdl, if_neg (by omega)]
  · intro g hg
    have hh : Holds g p (be64 kv.key ++ be32 kv.value.length) := by
      apply Holds_of_getD_pwrite f g p _ (by rw [hdl]; have := hg.1; omega)
      intro i hi1 hi2
      rw [hdl] at hi2
      rw [hg.2 i (by omega) (by omega), i3 i (by omega)]
    obtain ⟨hh1, hh2⟩ := (Holds_append g p _ _).1 hh
    refine ⟨readInt_of_Holds64 g p _ hh1 hk, readInt_of_Holds32 g _ _ hh2 (by omega), ?_⟩
    exact i4 g (by have := hg.1; omega) (fun i hi1 hi2 => hg.2 i (by omega) (by omega)) hx

theorem WriteDocIDToPositionListFn_total :
    ElemTotal WriteDocIDToPositionListFn PostQ := by
  intro f p kv _
  exact ⟨_, rfl⟩

theorem WriteWordToPostingsFn_spec : ElemSpec WriteWordToPostingsFn WordQ WordDec := by
  intro f p kv f2 n hQ h hb
  obtain ⟨h0, h1, hP⟩ := hQ
  simp only [WriteWordToPostingsFn, int16_size_eq _ h0 h1, sizeof_WordPostingsHeader,
    List.take_length] at h
  cases hw : WriteHashTable WriteDocIDToPositionListFn f (p + 6 + kv.value.word.length)
      kv.value.postings with
  | none => rw [hw] at h; simp at h
  | some r =>
    obtain ⟨f1, m⟩ := r
    rw [hw] at h
    simp only [Option.some_bind, Option.some.injEq, Prod.mk.injEq] at h
    obtain ⟨rfl, rfl⟩ := h
    obtain ⟨t1, t2, t3, t4, t5⟩ := WriteHashTable_spec WriteDocIDToPositionListFn PostQ PostDec
      WriteDocIDToPositionListFn_spec kv.value.postings hP f _ f1 m hw (by omega)
    have hdl : (be16 kv.value.word.length ++ be32 m).length = 6 := rfl
    have l1 := pwrite_length f1 p (be16 kv.value.word.length ++ be32 m)
    have l2 := pwrite_length (pwrite f1 p (be16 kv.value.word.length ++ be32 m)) (p + 6)
      kv.value.word
    rw [hdl] at l1
    refine ⟨by omega, by omega, ?_, ?_⟩
    · intro i hi
      rw [pwrite_getD, if_neg (by omega), pwrite_getD, hdl, if_neg (by omega), t4 i (by omega)]
    · intro g hg
      have hh : Holds g p (be16 kv.value.word.length ++ be32 m) := by
        apply Holds_of_getD_pwrite f1 g p _ (by rw [hdl]; have := hg.1; omega)
        intro i hi1 hi2
        rw [hdl] at hi2
        rw [hg.2 i (by omega) (by omega), pwrite_getD, if_neg (by omega)]
      obtain ⟨hh1, hh2⟩ := (Holds_append g p _ _).1 hh
      have hn : Holds g (p + 6) kv.value.word := by
        apply Holds_of_getD_pwrite _ g (p + 6) _ (by have := hg.1; omega)
        intro i hi1 hi2
        rw [hg.2 i (by omega) (by omega)]
      refine ⟨readInt_of_Holds16 g p _ hh1 (by omega),
        ⟨m, readInt_of_Holds32 g _ _ hh2 (by omega)⟩, hn, ?_, h1⟩
      apply t5 g
      refine ⟨by have := hg.1; omega, fun i hi1 hi2 => ?_⟩
      rw [hg.2 i (by omega) (by omega), pwrite_getD, if_neg (by omega), pwrite_getD, hdl,
        if_neg (by omega)]

theorem WriteWordToPostingsFn_total : ElemTotal WriteWordToPostingsFn WordQ := by
  intro f p kv hQ
  obtain ⟨r, hr⟩ := WriteHashTable_total WriteDocIDToPositionListFn PostQ
    WriteDocIDToPositionListFn_total kv.value.postings hQ.2.2 f
    (p + sizeof_WordPostingsHeader + kv.value.word.length)
  simp only [WriteWordToPostingsFn, int16_size_eq _ hQ.1 hQ.2.1, hr, Option.some_bind]
  exact ⟨_, rfl⟩

theorem lookupFirst_spec {α V : Type} (parse : Nat → Option (Option α))
    (m : HTKeyValue_t V → Bool) (R : α → HTKeyValue_t V → Prop)
    (Dec : Nat → HTKeyValue_t V → Prop)
    (hparse : ∀ p kv, Dec p kv →
      ∃ v, parse p = some (if m kv = true then some v else none) ∧ R v kv) :
    ∀ (ps : List Nat) (li : List (HTKeyValue_t V)), List.Forall₂ Dec ps li →
      ∀ kv, li.find? m = some kv → ∃ v, lookupFirst parse ps = some v ∧ R v kv := by
  intro ps
  induction ps with
  | nil =>
    intro li h kv hkv
    cases h
    simp at hkv
  | cons p ps ih =>
    intro li h kv hkv
    cases li with
    | nil => cases h
    | cons x li =>
      rw [List.forall₂_cons] at h
      obtain ⟨hd, tl⟩ := h
      obtain ⟨v, hv, hR⟩ := hparse p x hd
      by_cases hm : m x = true
      · simp only [List.find?_cons, hm, Option.some.injEq] at hkv
        subst hkv
        refine ⟨v, ?_, hR⟩
        simp only [lookupFirst, hv, hm, if_true]
      · simp only [List.find?_cons, hm] at hkv
        obtain ⟨v2, hv2, hR2⟩ := ih li tl kv hkv
        refine ⟨v2, ?_, hR2⟩
        simp only [lookupFirst, hv, hm, if_false]
        exact hv2

theorem HashTableReader_lookup_spec {α V : Type} (g : File) (off : Nat) (ht : HashTable V)
    (Dec : File → Nat → HTKeyValue_t V → Prop) (hdec : TableDec Dec g off ht)
    (hpos : 0 < ht.num_buckets) (parse : Nat → Option (Option α))
    (m : HTKeyValue_t V → Bool) (R : α → HTKeyValue_t V → Prop)
    (hparse : ∀ p kv, Dec g p kv →
      ∃ v, parse p = some (if m kv = true then some v else none) ∧ R v kv)
    (key : Nat) (kv : HTKeyValue_t V)
    (hfind : (ht.chain (key % ht.num_buckets)).find? m = some kv) :
    ∃ v, HashTableReader_lookup g off parse key = some v ∧ R v kv := by
  obtain ⟨hnb, hb⟩ := hdec
  obtain ⟨bo, ps, h1, h2, h3, h4⟩ := hb (key % ht.num_buckets) (Nat.mod_lt _ hpos)
  obtain ⟨v, hv, hR⟩ := lookupFirst_spec parse m R (Dec g) hparse ps _ h4 kv hfind
  have hne : (ht.chain (key % ht.num_buckets)).length ≠ 0 := by
    intro h0
    rw [List.length_eq_zero.1 h0] at hfind
    simp at hfind
  refine ⟨v, ?_, hR⟩
  simp only [HashTableReader_lookup, hnb, Option.some_bind, Nat.ne_of_gt hpos, if_false,
    sizeof_BucketListHeader, sizeof_BucketRecord, h1, h2, hne, h3, hv]

theorem DocTableReader_lookup_spec (g : File) (off : Nat) (t : HashTable CString)
    (hdec : TableDec DocDec g off t) (hpos : 0 < t.num_buckets) (d : DocID_t)
    (kv : HTKeyValue_t CString) (hfind : HashTable_Find t d = some kv) :
    DocTableReader_LookupDocID g off d = some kv.value := by
  rw [HashTable_Find_eq] at hfind
  obtain ⟨v, hv, hR⟩ := HashTableReader_lookup_spec g off t DocDec hdec hpos
    (DocTableReader_parse g d) (keyIs d) (fun v x => v = x.value) (by
      intro p x hx
      obtain ⟨x1, x2, x3, x4⟩ := hx
      refine ⟨x.value, ?_, rfl⟩
      simp only [DocTableReader_parse, x1, x2, x3, Option.some_bind, Option.map_some',
        if_neg (Nat.not_le.2 x4), keyIs, decide_eq_true_eq]) d kv hfind
  rw [DocTableReader_LookupDocID, hv, hR]

theorem DocIDTableReader_lookup_spec (g : File) (off : Nat) (t : HashTable (LinkedList Nat))
    (hdec : TableDec PostDec g off t) (hpos : 0 < t.num_buckets) (d : DocID_t)
    (kv : HTKeyValue_t (LinkedList Nat)) (hfind : HashTable_Find t d = some kv) :
    DocIDTableReader_LookupDocID g off d = some kv.value := by
  rw [HashTable_Find_eq] at hfind
  obtain ⟨v, hv, hR⟩ := HashTableReader_lookup_spec g off t PostDec hdec hpos
    (DocIDTableReader_parse g d) (keyIs d) (fun v x => v = x.value) (by
      intro p x hx
      obtain ⟨x1, x2, x3⟩ := hx
      refine ⟨x.value, ?_, rfl⟩
      simp only [DocIDTableReader_parse, x1, x2, x3, Option.some_bind, Option.map_some',
        keyIs, decide_eq_true_eq]) d kv hfind
  rw [DocIDTableReader_LookupDocID, hv, hR]

theorem IndexTableReader_lookup_spec (g : File) (off : Nat) (t : MemIndex)
    (hdec : TableDec WordDec g off t) (hpos : 0 < t.num_buckets) (w : CString)
    (kv : HTKeyValue_t WordPostings)
    (hfind : (t.chain (FNVHash64 w % t.num_buckets)).find?
      (fun x => decide (x.value.word = w)) = some kv) :
    ∃ inner, IndexTableReader_LookupWord g off w = some inner ∧
      TableDec PostDec g inner kv.value.postings := by
  obtain ⟨v, hv, hR⟩ := HashTableReader_lookup_spec g off t WordDec hdec hpos
    (IndexTableReader_parse g w) (fun x => decide (x.value.word = w))
    (fun v x => TableDec PostDec g v x.value.postings) (by
      intro p x hx
      obtain ⟨x1, ⟨y, x2⟩, x3, x4, x5⟩ := hx
      refine ⟨p + 6 + x.value.word.length, ?_, x4⟩
      simp only [IndexTableReader_parse, x1, x2, x3, Option.some_bind, Option.map_some',
        if_neg (Nat.not_le.2 x5), decide_eq_true_eq]) (FNVHash64 w) kv hfind
  exact ⟨v, by rw [IndexTableReader_LookupWord, hv], hR⟩

theorem chain_mem_find {V : Type} (t : HashTable V) (h : t.WF) (j : Nat)
    (x : HTKeyValue_t V) (hx : x ∈ t.chain j) : HashTable_Find t x.key = some x := by
  have hj := h.placed j x hx
  rw [Find_some_iff t h, mem_entries t h, hj]
  exact ⟨hx, rfl⟩

theorem Find_of_Insert {V : Type} (fuel : Nat) (t t2 : HashTable V) (kv : HTKeyValue_t V)
    (old : Option (HTKeyValue_t V)) (hwf : t.WF)
    (h : HashTable_Insert fuel t kv = some (t2, old)) (k : HTKey_t) :
    HashTable_Find t2 k = if k = kv.key then some kv else HashTable_Find t k := by
  have h1 := HashTable_Insert_mono_add fuel 3 t kv _ h
  obtain ⟨t3, h2, h3, h4, _⟩ := Insert_general fuel t kv hwf
  rw [h2] at h1
  simp only [Option.some.injEq, Prod.mk.injEq] at h1
  rw [← h1.1, Find_insertPure t3 kv h3 k, h4 k]

theorem IndexInv_chain (M : MemIndex) (adds : List Posting) (hinv : IndexInv M adds) (j : Nat)
    (x : HTKeyValue_t WordPostings) (hx : x ∈ M.chain j) :
    ∃ a ∈ adds, FNVHash64 a.1 = x.key ∧ x.value.word = a.1 ∧
      PostInv x.value.postings adds a.1 := by
  have hf := chain_mem_find M hinv.1.1 j x hx
  cases hfa : firstAdd adds x.key with
  | none =>
    rw [(hinv.2.2.2 x.key).1 hfa] at hf
    simp at hf
  | some a =>
    obtain ⟨T, hT, hP⟩ := (hinv.2.2.2 x.key).2 a hfa
    rw [hT] at hf
    have e := Option.some.inj hf
    obtain ⟨ha, hk⟩ := firstAdd_some adds x.key a hfa
    refine ⟨a, ha, hk, ?_, ?_⟩
    · rw [← e]
    · rw [← e]; exact hP

theorem PostInv_chain (T : HashTable (LinkedList Nat)) (adds : List Posting) (w : CString)
    (h : PostInv T adds w) (j : Nat) (e : HTKeyValue_t (LinkedList Nat))
    (he : e ∈ T.chain j) : (w, e.key, e.value) ∈ adds := by
  have hf := chain_mem_find T h.1.1 j e he
  rw [h.2.2 e.key] at hf
  cases hp : postingOf adds w e.key with
  | none => rw [hp] at hf; simp at hf
  | some p =>
    rw [hp] at hf
    simp only [Option.map_some', Option.some.injEq] at hf
    have := postingOf_some_mem adds w e.key p hp
    rw [← hf]
    exact this

theorem find_congr_mem {α : Type} (p q : α → Bool) :
    ∀ l : List α, (∀ x ∈ l, p x = q x) → l.find? p = l.find? q := by
  intro l
  induction l with
  | nil => intro _; rfl
  | cons a l ih =>
    intro h
    simp only [List.find?_cons, h a (List.mem_cons_self _ _)]
    rw [ih (fun x hx => h x (List.mem_cons_of_mem _ hx))]

theorem IndexInv_find_word (M : MemIndex) (adds : List Posting) (hinv : IndexInv M adds)
    (w : CString) (hw : ∃ a ∈ adds, a.1 = w) :
    (M.chain (FNVHash64 w % M.num_buckets)).find? (fun x => decide (x.value.word = w)) =
      HashTable_Find M (FNVHash64 w) := by
  rw [HashTable_Find_eq]
  apply find_congr_mem
  intro x hx
  obtain ⟨a, ha, hk, hword, _⟩ := IndexInv_chain M adds hinv _ x hx
  obtain ⟨b, hb, hbw⟩ := hw
  simp only [keyIs]
  by_cases h1 : x.value.word = w
  · have : x.key = FNVHash64 w := by rw [← hk, ← hword, h1]
    simp [h1, this]
  · have : x.key ≠ FNVHash64 w := by
      intro e
      apply h1
      rw [hword, ← hbw]
      apply hinv.2.2.1 a ha b hb
      rw [hk, e, hbw]
    simp [h1, this]

theorem IndexInv_WordQ (M : MemIndex) (adds : List Posting) (hinv : IndexInv M adds)
    (hadds : ∀ a ∈ adds, 0 < a.1.length ∧ a.1.length < 2 ^ 15 ∧ a.2.1 < 2 ^ 64 ∧
      ∀ p ∈ a.2.2, p < 2 ^ 32) :
    ∀ j, ∀ kv ∈ M.chain j, WordQ kv := by
  intro j kv hkv
  obtain ⟨a, ha, _, hword, hP⟩ := IndexInv_chain M adds hinv j kv hkv
  obtain ⟨a1, a2, _, _⟩ := hadds a ha
  refine ⟨by rw [hword]; exact a1, by rw [hword]; exact a2, ?_⟩
  intro j2 e he
  have := PostInv_chain _ adds a.1 hP j2 e he
  obtain ⟨_, _, b3, b4⟩ := hadds _ this
  exact ⟨b3, b4⟩

theorem DocInv_Allocate : DocInv DocTable_Allocate [] := by
  refine ⟨WF_Allocate 2 (by decide), WF_Allocate 2 (by decide), by decide, ?_⟩
  intro k kv h
  simp only [DocTable_Allocate] at h
  rw [Find_Allocate] at h
  simp at h

theorem DocTable_Add_inv (fuel : Nat) (D D2 : DocTable) (seen : List CString)
    (doc_name : CString) (id : DocID_t) (h : DocInv D seen)
    (hadd : DocTable_Add fuel D doc_name = some (D2, id)) :
    DocInv D2 (seen ++ [doc_name]) := by
  obtain ⟨h1, h2, h3, h4⟩ := h
  unfold DocTable_Add at hadd
  simp only at hadd
  split at hadd
  · simp only [Option.some.injEq, Prod.mk.injEq] at hadd
    rw [← hadd.1]
    exact ⟨h1, h2, h3, fun k kv hk => ⟨(h4 k kv hk).1, List.mem_append_left _ (h4 k kv hk).2⟩⟩
  · cases hi1 : HashTable_Insert fuel D.id_to_name ⟨D.max_id, doc_name⟩ with
    | none => rw [hi1] at hadd; simp at hadd
    | some r1 =>
      rw [hi1] at hadd
      simp only [Option.some_bind] at hadd
      cases hi2 : HashTable_Insert fuel D.name_to_id
          ⟨DocTable_GetDocID D doc_name, D.max_id⟩ with
      | none => rw [hi2] at hadd; simp at hadd
      | some r2 =>
        rw [hi2] at hadd
        simp only [Option.some_bind, Option.some.injEq, Prod.mk.injEq] at hadd
        rw [← hadd.1]
        refine ⟨WF_of_Insert fuel _ r1.1 _ r1.2 h1 hi1, WF_of_Insert fuel _ r2.1 _ r2.2 h2 hi2,
          Nat.mod_lt _ (by decide), ?_⟩
        intro k kv hk
        simp only at hk
        rw [Find_of_Insert fuel _ r1.1 _ r1.2 h1 hi1 k] at hk
        split at hk
        · simp only [Option.some.injEq] at hk
          rw [← hk]
          exact ⟨h3, by simp⟩
        · exact ⟨(h4 k kv hk).1, List.mem_append_left _ (h4 k kv hk).2⟩

theorem buildDocTable_inv (fuel : Nat) (names : List CString) :
    ∀ (seen : List CString) (D D2 : DocTable), DocInv D seen →
      buildDocTable fuel names D = some D2 → DocInv D2 (seen ++ names) := by
  induction names with
  | nil =>
    intro seen D D2 h hb
    simp only [buildDocTable, Option.some.injEq] at hb
    subst hb
    simpa using h
  | cons a names ih =>
    intro seen D D2 h hb
    simp only [buildDocTable] at hb
    cases hadd : DocTable_Add fuel D a with
    | none => rw [hadd] at hb; simp at hb
    | some r =>
      rw [hadd] at hb
      simp only [Option.some_bind] at hb
      have h1 := DocTable_Add_inv fuel D r.1 seen a r.2 h hadd
      have := ih (seen ++ [a]) r.1 D2 h1 hb
      simpa using this

theorem DocInv_DocQ (D : DocTable) (names : List CString) (h : DocInv D names)
    (hnames : ∀ n ∈ names, 0 < n.length ∧ n.length < 2 ^ 15) :
    ∀ j, ∀ kv ∈ D.id_to_name.chain j, DocQ kv := by
  intro j kv hkv
  have hf := chain_mem_find _ h.1 j kv hkv
  obtain ⟨a, b⟩ := h.2.2.2 _ _ hf
  exact ⟨a, (hnames _ b).1, (hnames _ b).2⟩

theorem pwrite_zero_drop (f : File) (d : List Nat) :
    (pwrite f 0 d).drop d.length = f.drop d.length := by
  simp [pwrite]

theorem WriteHTBucket_loop_fail {V : Type} (fn : WriteElementFn V) (kv : HTKeyValue_t V)
    (hfail : ∀ f p, fn f p kv = none) :
    ∀ (li : List (HTKeyValue_t V)) (f : File) (rp ep : Nat), kv ∈ li →
      WriteHTBucket_loop fn li f rp ep = none := by
  intro li
  induction li with
  | nil => intro f rp ep h; simp at h
  | cons x rest ih =>
    intro f rp ep h
    simp only [WriteHTBucket_loop]
    cases hx : fn (pwrite f rp (be32 ep)) ep x with
    | none => rfl
    | some r =>
      simp only [Option.some_bind]
      rcases List.mem_cons.1 h with e | e
      · rw [← e, hfail] at hx
        simp at hx
      · exact ih _ _ _ e

theorem WriteHashTable_loop_fail {V : Type} (fn : WriteElementFn V) (ht : HashTable V)
    (kv : HTKeyValue_t V) (hfail : ∀ f p, fn f p kv = none) (j : Nat)
    (hkv : kv ∈ ht.chain j) :
    ∀ (n i : Nat) (f : File) (rp bp : Nat), i ≤ j → j < i + n →
      WriteHashTable_loop fn ht n i f rp bp = none := by
  intro n
  induction n with
  | zero => intro i f rp bp h1 h2; omega
  | succ n ih =>
    intro i f rp bp h1 h2
    simp only [WriteHashTable_loop]
    by_cases hij : i = j
    · subst hij
      have hlen : LinkedList_NumElements (ht.chain i) > 0 := by
        simp only [LinkedList_NumElements]
        exact List.length_pos_of_mem hkv
      have hne : ¬ LinkedList_NumElements (ht.chain i) = 0 := by omega
      rw [if_pos hlen]
      simp only [WriteHTBucket, hne, if_false,
        WriteHTBucket_loop_fail fn kv hfail _ _ _ _ hkv, Option.map_none', Option.none_bind]
    · split
      · cases hb : WriteHTBucket fn (WriteHTBucketRecord f rp
            (LinkedList_NumElements (ht.chain i)) bp).1 bp (ht.chain i) with
        | none => rfl
        | some r =>
          simp only [Option.some_bind]
          exact ih _ _ _ _ (by omega) (by omega)
      · exact ih _ _ _ _ (by omega) (by omega)

theorem WriteHashTable_fail {V : Type} (fn : WriteElementFn V) (ht : HashTable V)
    (kv : HTKeyValue_t V) (hfail : ∀ f p, fn f p kv = none) (j : Nat)
    (hj : j < ht.num_buckets) (hkv : kv ∈ ht.chain j) (f : File) (off : Nat) :
    WriteHashTable fn f off ht = none := by
  simp only [WriteHashTable,
    WriteHashTable_loop_fail fn ht kv hfail j hkv ht.num_buckets 0 _ _ _ (Nat.zero_le _)
      (by omega), Option.map_none']

theorem WriteIndex_fail_of_name (kMagicNumber : Nat) (crc : List Nat → Nat) (M : MemIndex)
    (D : DocTable) (fuel : Nat) (doc_name : CString) (hlen : int16_size doc_name.length = none)
    (hD : buildDocTable fuel [doc_name] DocTable_Allocate = some D) :
    WriteIndex kMagicNumber crc M D = none := by
  have hinv : DocInv D [doc_name] := by
    have := buildDocTable_inv fuel [doc_name] [] DocTable_Allocate D DocInv_Allocate hD
    simpa using this
  have hfind : HashTable_Find D.id_to_name 1 = some ⟨1, doc_name⟩ := by
    simp only [buildDocTable, DocTable_Add, DocTable_GetDocID, DocTable_Allocate, Find_Allocate,
      INVALID_DOCID, ne_eq, not_true_eq_false, if_false] at hD
    cases hi1 : HashTable_Insert fuel (HashTable_Allocate 2 : HashTable CString)
        ⟨1, doc_name⟩ with
    | none => rw [hi1] at hD; simp at hD
    | some r1 =>
      rw [hi1] at hD
      simp only [Option.some_bind] at hD
      cases hi2 : HashTable_Insert fuel (HashTable_Allocate 2 : HashTable DocID_t) ⟨0, 1⟩ with
      | none => rw [hi2] at hD; simp at hD
      | some r2 =>
        rw [hi2] at hD
        simp only [Option.some_bind, Option.some.injEq] at hD
        rw [← hD]
        simp only
        rw [Find_of_Insert fuel _ r1.1 _ r1.2 (WF_Allocate 2 (by decide)) hi1 1]
        simp
  have hmem : (⟨1, doc_name⟩ : HTKeyValue_t CString) ∈
      D.id_to_name.chain (1 % D.id_to_name.num_buckets) := by
    rw [HashTable_Find_eq] at hfind
    exact List.mem_of_find?_eq_some hfind
  have hfail : ∀ f p, WriteDocidToDocnameFn f p ⟨1, doc_name⟩ = none := by
    intro f p
    simp only [WriteDocidToDocnameFn, hlen]
  simp only [WriteIndex, WriteDocTable, DT_GetIDToNameTable,
    WriteHashTable_fail WriteDocidToDocnameFn D.id_to_name _ hfail _
      (Nat.mod_lt _ hinv.1.pos) hmem, Option.none_bind]

theorem buildDocTable_single (doc_name : CString) :
    ∃ D, buildDocTable 3 [doc_name] DocTable_Allocate = some D := by
  obtain ⟨t2, h1, -⟩ := Insert_general 0 (HashTable_Allocate 2 : HashTable CString)
    ⟨1, doc_name⟩ (WF_Allocate 2 (by decide))
  obtain ⟨u2, h2, -⟩ := Insert_general 0 (HashTable_Allocate 2 : HashTable DocID_t)
    ⟨0, 1⟩ (WF_Allocate 2 (by decide))
  simp only [Nat.zero_add] at h1 h2
  simp only [buildDocTable, DocTable_Add, DocTable_GetDocID, DocTable_Allocate, Find_Allocate,
    INVALID_DOCID, ne_eq, not_true_eq_false, if_false, h1, h2, Option.some_bind]
  exact ⟨_, rfl⟩

/-- C2, as written (every index and doc table built in memory): refuted, even
when no word and no name is empty. A doc table with one name of 65536 bytes
is built by `DocTable_Add`; the `int16_t` length of the name is 0, the
`fwrite` of the name returns 0 and `WriteIndex` fails, so there is no file to
read back. -/
theorem C2_counterexample :
    ¬ ∀ (kMagicNumber : Nat) (crc : List Nat → Nat) (validate : Bool) (adds : List Posting)
        (fuelM : Nat) (M : MemIndex) (names : List CString) (fuelD : Nat) (D : DocTable),
      kMagicNumber < 2 ^ 32 →
      buildIndex fuelM adds MemIndex_Allocate = some M →
      buildDocTable fuelD names DocTable_Allocate = some D →
      (∀ a ∈ adds, 0 < a.1.length) → (∀ n ∈ names, 0 < n.length) →
      ∃ file n, WriteIndex kMagicNumber crc M D = some (file, n) ∧
        (∀ w mkv, HashTable_Find M (FNVHash64 w) = some mkv → mkv.value.word = w →
          ∀ d pkv, HashTable_Find mkv.value.postings d = some pkv →
            Reader_LookupPositions kMagicNumber crc file validate w d = some pkv.value) ∧
        (∀ d name, DocTable_GetDocName D d = some (some name) →
          Reader_LookupDocName kMagicNumber crc file validate d = some name) := by
  intro H
  obtain ⟨D, hD⟩ := buildDocTable_single (List.replicate 65536 97)
  obtain ⟨file, n, hw, -⟩ := H 0 (fun _ => 0) true [] 0 MemIndex_Allocate
    [List.replicate 65536 97] 3 D (by decide) rfl hD (by simp) (by
      intro n hn
      rw [List.mem_singleton] at hn
      rw [hn, List.length_replicate]
      decide)
  rw [WriteIndex_fail_of_name 0 (fun _ => 0) MemIndex_Allocate D 3 (List.replicate 65536 97)
    (by rw [List.length_replicate]; decide) hD] at hw
  cases hw

/-- C2 (amended): for an index built by `MemIndex_AddPostingList` calls and a
doc table built by `DocTable_Add` calls, with words and names of 1 to
`2^15 - 1` bytes, 64-bit doc-ids and 32-bit positions, `WriteIndex` succeeds;
and when the file stays below `2^31` bytes, the readers of the specification
give back, for every word `w` of the index and every doc-id `d` of its
postings table, exactly the positions list the index holds for `(w, d)`, and
for every doc-id of the doc table exactly the name it stores. -/
theorem C2_round_trip (kMagicNumber : Nat) (crc : List Nat → Nat) (validate : Bool)
    (hmagic : kMagicNumber < 2 ^ 32)
    (adds : List Posting) (fuelM : Nat) (M : MemIndex)
    (hM : buildIndex fuelM adds MemIndex_Allocate = some M)
    (names : List CString) (fuelD : Nat) (D : DocTable)
    (hD : buildDocTable fuelD names DocTable_Allocate = some D)
    (hadds : ∀ a ∈ adds, 0 < a.1.length ∧ a.1.length < 2 ^ 15 ∧ a.2.1 < 2 ^ 64 ∧
      ∀ p ∈ a.2.2, p < 2 ^ 32)
    (hnames : ∀ n ∈ names, 0 < n.length ∧ n.length < 2 ^ 15) :
    ∃ file n, WriteIndex kMagicNumber crc M D = some (file, n) ∧
      (n < 2 ^ 31 →
        (∀ w mkv, HashTable_Find M (FNVHash64 w) = some mkv → mkv.value.word = w →
          ∀ d pkv, HashTable_Find mkv.value.postings d = some pkv →
            Reader_LookupPositions kMagicNumber crc file validate w d = some pkv.value) ∧
        (∀ d name, DocTable_GetDocName D d = some (some name) →
          Reader_LookupDocName kMagicNumber crc file validate d = some name)) := by
  have hinvM : IndexInv M adds := by
    have := buildIndex_inv fuelM adds [] MemIndex_Allocate M IndexInv_Allocate hM
    simpa using this
  have hinvD : DocInv D names := by
    have := buildDocTable_inv fuelD names [] DocTable_Allocate D DocInv_Allocate hD
    simpa using this
  have hQD := DocInv_DocQ D names hinvD hnames
  have hQM := IndexInv_WordQ M adds hinvM hadds
  obtain ⟨⟨f1, dtb⟩, hw1⟩ := WriteHashTable_total WriteDocidToDocnameFn DocQ
    WriteDocidToDocnameFn_total D.id_to_name hQD [] 16
  obtain ⟨⟨f2, mib⟩, hw2⟩ := WriteHashTable_total WriteWordToPostingsFn WordQ
    WriteWordToPostingsFn_total M hQM f1 (16 + dtb)
  refine ⟨WriteHeader kMagicNumber crc f2 dtb mib, 16 + dtb + mib, ?_, ?_⟩
  · simp only [WriteIndex, WriteDocTable, WriteMemIndex, DT_GetIDToNameTable,
      sizeof_IndexFileHeader, hw1, hw2, Option.some_bind]
  · intro hn
    obtain ⟨a1, a2, a3, a4, a5⟩ := WriteHashTable_spec WriteDocidToDocnameFn DocQ DocDec
      WriteDocidToDocnameFn_spec D.id_to_name hQD [] 16 f1 dtb hw1 (by omega)
    obtain ⟨b1, b2, b3, b4, b5⟩ := WriteHashTable_spec WriteWordToPostingsFn WordQ WordDec
      WriteWordToPostingsFn_spec M hQM f1 (16 + dtb) f2 mib hw2 (by omega)
    generalize hfin : WriteHeader kMagicNumber crc f2 dtb mib = final
    have hfin2 := hfin
    simp only [WriteHeader] at hfin2
    generalize hck : CalcChecksumOver crc f2 dtb mib = checksum at hfin2
    have hdl : (be32 kMagicNumber ++ be32 checksum ++ be32 dtb ++ be32 mib).length = 16 := rfl
    have hfl : final.length = f2.length := by
      rw [← hfin2, pwrite_length, hdl]
      omega
    have hfg : ∀ i, 16 ≤ i → final.getD i 0 = f2.getD i 0 := by
      intro i hi
      rw [← hfin2, pwrite_getD, hdl, if_neg (by omega)]
    have hdecD : TableDec DocDec final 16 D.id_to_name := by
      apply a5 final
      refine ⟨by omega, fun i h1 h2 => ?_⟩
      rw [hfg i h1, b4 i (Or.inl (by omega))]
    have hdecM : TableDec WordDec final (16 + dtb) M := by
      apply b5 final
      exact ⟨by omega, fun i h1 h2 => hfg i (by omega)⟩
    have hckv : checksum = crc ((f2.drop 16).take (dtb + mib)) % 2 ^ 32 := by
      rw [← hck]
      simp only [CalcChecksumOver, sizeof_IndexFileHeader]
      rw [if_pos (by omega)]
    have hopen : FileIndexReader_open kMagicNumber crc final validate =
        some (16, 16 + dtb) := by
      have hh : Holds final 0 (be32 kMagicNumber ++ be32 checksum ++ be32 dtb ++ be32 mib) := by
        apply Holds_of_getD_pwrite f2 final 0 _ (by rw [hdl]; omega)
        intro i _ _
        rw [hfin2]
      obtain ⟨hh3, hmi⟩ := (Holds_append final 0 _ _).1 hh
      obtain ⟨hh2, hdt⟩ := (Holds_append final 0 _ _).1 hh3
      obtain ⟨hmg, hcs⟩ := (Holds_append final 0 _ _).1 hh2
      have r1 := readInt_of_Holds32 final _ _ hmg hmagic
      have r2 := readInt_of_Holds32 final _ _ hcs (by
        rw [hckv]; exact Nat.mod_lt _ (by decide))
      have r3 := readInt_of_Holds32 final _ _ hdt (by omega)
      have r4 := readInt_of_Holds32 final _ _ hmi (by omega)
      simp only [Nat.zero_add, be32_length, List.length_append] at r1 r2 r3 r4
      have r5 : readBytes final 16 (dtb + mib) = some ((f2.drop 16).take (dtb + mib)) := by
        unfold readBytes
        rw [if_pos (by omega)]
        have := pwrite_zero_drop f2 (be32 kMagicNumber ++ be32 checksum ++ be32 dtb ++ be32 mib)
        rw [hdl, hfin2] at this
        rw [this]
      simp only [FileIndexReader_open, r1, r2, r3, r4, Option.some_bind, ne_eq,
        not_true_eq_false, if_false, sizeof_IndexFileHeader, r5, ← hckv, and_false]
    refine ⟨?_, ?_⟩
    · intro w mkv hfind hword d pkv hpf
      have hmem : mkv ∈ M.chain (FNVHash64 w % M.num_buckets) := by
        rw [HashTable_Find_eq] at hfind
        exact List.mem_of_find?_eq_some hfind
      obtain ⟨a, ha, _, hwa, hP⟩ := IndexInv_chain M adds hinvM _ mkv hmem
      have hfw := IndexInv_find_word M adds hinvM w ⟨a, ha, by rw [← hwa, hword]⟩
      rw [hfind] at hfw
      obtain ⟨inner, hi1, hi2⟩ := IndexTableReader_lookup_spec final (16 + dtb) M hdecM
        hinvM.1.1.pos w mkv hfw
      have := DocIDTableReader_lookup_spec final inner mkv.value.postings hi2 hP.1.1.pos d pkv
        hpf
      simp only [Reader_LookupPositions, hopen, Option.some_bind, hi1, this]
    · intro d name hname
      unfold DocTable_GetDocName at hname
      split at hname
      · simp at hname
      · simp only [Option.some.injEq, Option.map_eq_some'] at hname
        obtain ⟨kv, hkv, rfl⟩ := hname
        have := DocTableReader_lookup_spec final 16 D.id_to_name hdecD hinvD.1.pos d kv hkv
        simp only [Reader_LookupDocName, hopen, Option.some_bind, this]

set_option maxRecDepth 100000 in
theorem C2_witness :
    Reader_LookupPositions 0xcafef00d crcS3 fileS3 true (bytes "a") 1 = some [0, 2] ∧
    Reader_LookupDocName 0xcafef00d crcS3 fileS3 true 1 = some (bytes "x.txt") ∧
    ∃ file n, WriteIndex 0xcafef00d crcS3 indexS3 docTableS3 = some (file, n) ∧
      (n < 2 ^ 31 →
        (∀ w mkv, HashTable_Find indexS3 (FNVHash64 w) = some mkv → mkv.value.word = w →
          ∀ d pkv, HashTable_Find mkv.value.postings d = some pkv →
            Reader_LookupPositions 0xcafef00d crcS3 file true w d = some pkv.value) ∧
        (∀ d name, DocTable_GetDocName docTableS3 d = some (some name) →
          Reader_LookupDocName 0xcafef00d crcS3 file true d = some name)) :=
  ⟨by decide, by decide,
    C2_round_trip 0xcafef00d crcS3 true (by decide) addsS3 3 indexS3 (by decide)
      [bytes "x.txt"] 3 docTableS3 (by decide) (by decide) (by decide)⟩

theorem Holds_frame (f f2 : File) (p : Nat) (d : List Nat) (h : Holds f p d)
    (hlen : f.length ≤ f2.length)
    (hsame : ∀ i, p ≤ i → i < p + d.length → f2.getD i 0 = f.getD i 0) : Holds f2 p d := by
  obtain ⟨h1, h2⟩ := Holds_getD f p d h
  apply readBytes_of_getD f2 p d (by omega)
  intro j hj
  rw [hsame (p + j) (by omega) (by omega), h2 j hj]

theorem Holds_pwrite (f : File) (p : Nat) (d : List Nat) : Holds (pwrite f p d) p d := by
  apply Holds_of_getD_pwrite f _ p d
  · rw [pwrite_length]; omega
  · intro i _ _; rfl

theorem specBucketsBytes_succ {V : Type} (sz : HTKeyValue_t V → Nat) (ht : HashTable V) :
    ∀ (n i : Nat), specBucketsBytes sz ht i (n + 1) =
      specBucketsBytes sz ht i n + specBucketBytes sz (ht.chain (i + n)) := by
  intro n
  induction n with
  | zero => intro i; simp [specBucketsBytes]
  | succ n ih =>
    intro i
    rw [specBucketsBytes, ih (i + 1), specBucketsBytes]
    rw [show i + 1 + n = i + (n + 1) by omega]
    omega

theorem WriteHTBucket_loop_layout {V : Type} (fn : WriteElementFn V)
    (sz : HTKeyValue_t V → Nat) (hfn : ElemLayout fn sz) :
    ∀ (li : List (HTKeyValue_t V)) (f : File) (rp ep : Nat) (f2 : File) (e : Nat),
      WriteHTBucket_loop fn li f rp ep = some (f2, e) → rp + 4 * li.length ≤ ep →
      e = ep + (li.map sz).sum ∧ f.length ≤ f2.length ∧ (li ≠ [] → e ≤ f2.length) ∧
      (∀ i, ¬ (rp ≤ i ∧ i < rp + 4 * li.length) → ¬ (ep ≤ i ∧ i < e) →
        f2.getD i 0 = f.getD i 0) ∧
      ∀ j kv, li[j]? = some kv →
        Holds f2 (rp + 4 * j) (be32 (ep + ((li.take j).map sz).sum)) ∧
        ElemAt fn sz f2 (ep + ((li.take j).map sz).sum) kv := by
  intro li
  induction li with
  | nil =>
    intro f rp ep f2 e h _
    simp only [WriteHTBucket_loop, Option.some.injEq, Prod.mk.injEq] at h
    obtain ⟨rfl, rfl⟩ := h
    refine ⟨by simp, le_refl _, fun h => absurd rfl h, fun _ _ _ => rfl, ?_⟩
    intro j kv hj
    simp at hj
  | cons x rest ih =>
    intro f rp ep f2 e h hrp
    simp only [WriteHTBucket_loop, sizeof_ElementPositionRecord] at h
    simp only [List.length_cons] at hrp
    cases hfn1 : fn (pwrite f rp (be32 ep)) ep x with
    | none => rw [hfn1] at h; simp at h
    | some r =>
      obtain ⟨f1, n1⟩ := r
      rw [hfn1] at h
      simp only [Option.some_bind] at h
      obtain ⟨e0, e1, e2, e3⟩ := hfn _ _ _ _ _ hfn1
      subst e0
      obtain ⟨i1, i2, i3, i4, i5⟩ := ih f1 (rp + 4) (ep + sz x) f2 e h (by omega)
      have hpl := pwrite_length f rp (be32 ep)
      rw [be32_length] at hpl
      have hsum : ((x :: rest).map sz).sum = sz x + (rest.map sz).sum := by simp
      have hef2 : e ≤ f2.length := by
        by_cases hr : rest = []
        · subst hr
          simp only [List.map_nil, List.sum_nil] at i1
          omega
        · exact i3 hr
      simp only [List.length_cons]
      refine ⟨by rw [hsum]; omega, by omega, fun _ => hef2, ?_, ?_⟩
      · intro i hi1 hi2
        rw [i4 i (by omega) (by omega), e3 i (by omega), pwrite_getD, be32_length,
          if_neg (by omega)]
      · intro j kv hj
        cases j with
        | zero =>
          simp only [List.getElem?_cons_zero, Option.some.injEq] at hj
          subst hj
          simp only [List.take_zero, List.map_nil, List.sum_nil, Nat.add_zero, Nat.mul_zero]
          constructor
          · apply Holds_frame (pwrite f rp (be32 ep)) f2 rp _ (Holds_pwrite f rp _) (by omega)
            intro i hi1 hi2
            rw [be32_length] at hi2
            rw [i4 i (by omega) (by omega), e3 i (by omega)]
          · refine ⟨_, f1, hfn1, by omega, ?_⟩
            intro y hy1 hy2
            rw [i4 y (by omega) (by omega)]
        | succ j =>
          simp only [List.getElem?_cons_succ] at hj
          obtain ⟨q1, q2⟩ := i5 j kv hj
          simp only [List.take_succ_cons, List.map_cons, List.sum_cons]
          rw [show rp + 4 * (j + 1) = rp + 4 + 4 * j by omega,
            show ep + (sz x + ((rest.take j).map sz).sum) =
              ep + sz x + ((rest.take j).map sz).sum by omega]
          exact ⟨q1, q2⟩

theorem ElemAt_frame {V : Type} (fn : WriteElementFn V) (sz : HTKeyValue_t V → Nat)
    (f f2 : File) (p : Nat) (kv : HTKeyValue_t V) (h : ElemAt fn sz f p kv)
    (hlen : f.length ≤ f2.length)
    (hsame : ∀ i, p ≤ i → i < p + sz kv → f2.getD i 0 = f.getD i 0) :
    ElemAt fn sz f2 p kv := by
  obtain ⟨fa, fb, h1, h2, h3⟩ := h
  refine ⟨fa, fb, h1, by omega, ?_⟩
  intro x hx1 hx2
  rw [hsame x hx1 hx2, h3 x hx1 hx2]

theorem sum_take_le {V : Type} (sz : HTKeyValue_t V → Nat) :
    ∀ (li : List (HTKeyValue_t V)) (j : Nat) (kv : HTKeyValue_t V), li[j]? = some kv →
      j < li.length ∧ ((li.take j).map sz).sum + sz kv ≤ (li.map sz).sum := by
  intro li
  induction li with
  | nil => intro j kv h; simp at h
  | cons x rest ih =>
    intro j kv h
    cases j with
    | zero =>
      simp only [List.getElem?_cons_zero, Option.some.injEq] at h
      subst h
      simp
    | succ j =>
      simp only [List.getElem?_cons_succ] at h
      obtain ⟨h1, h2⟩ := ih j kv h
      simp only [List.length_cons, List.take_succ_cons, List.map_cons, List.sum_cons]
      omega

theorem WriteHTBucket_layout {V : Type} (fn : WriteElementFn V) (sz : HTKeyValue_t V → Nat)
    (hfn : ElemLayout fn sz) (li : List (HTKeyValue_t V)) (f : File) (off : Nat) (f2 : File)
    (n : Nat) (hne : li ≠ []) (h : WriteHTBucket fn f off li = some (f2, n)) :
    n = specBucketBytes sz li ∧ f.length ≤ f2.length ∧ off + n ≤ f2.length ∧
    (∀ i, (i < off ∨ off + n ≤ i) → f2.getD i 0 = f.getD i 0) ∧
    ∀ j kv, li[j]? = some kv →
      Holds f2 (off + 4 * j) (be32 (specElementOffset sz off li j)) ∧
      ElemAt fn sz f2 (specElementOffset sz off li j) kv := by
  have hlen : li.length ≠ 0 := by
    intro h0
    exact hne (List.length_eq_zero.1 h0)
  simp only [WriteHTBucket, LinkedList_NumElements, hlen, if_false,
    sizeof_ElementPositionRecord] at h
  cases hl : WriteHTBucket_loop fn li f off (off + 4 * li.length) with
  | none => rw [hl] at h; simp at h
  | some r =>
    obtain ⟨f3, e⟩ := r
    rw [hl] at h
    simp only [Option.map_some', Option.some.injEq, Prod.mk.injEq] at h
    obtain ⟨rfl, rfl⟩ := h
    obtain ⟨i1, i2, i3, i4, i5⟩ := WriteHTBucket_loop_layout fn sz hfn li f off _ f3 e hl
      (le_refl _)
    have hoe : off + (e - off) = e := by omega
    rw [hoe]
    refine ⟨by rw [specBucketBytes]; omega, i2, i3 hne,
      fun i hi => i4 i (by omega) (by omega), ?_⟩
    intro j kv hj
    exact i5 j kv hj

theorem WriteHashTable_loop_layout {V : Type} (fn : WriteElementFn V)
    (sz : HTKeyValue_t V → Nat) (hfn : ElemLayout fn sz) (ht : HashTable V) :
    ∀ (n i : Nat) (f : File) (rp bp : Nat) (f2 : File) (e : Nat),
      WriteHashTable_loop fn ht n i f rp bp = some (f2, e) → rp + 8 * n ≤ bp →
      e = bp + specBucketsBytes sz ht i n ∧
      f.length ≤ f2.length ∧ (0 < n → rp + 8 * n ≤ f2.length) ∧ (bp < e → e ≤ f2.length) ∧
      (∀ j, ¬ (rp ≤ j ∧ j < rp + 8 * n) → ¬ (bp ≤ j ∧ j < e) → f2.getD j 0 = f.getD j 0) ∧
      ∀ k, k < n →
        Holds f2 (rp + 8 * k)
          (be32 (ht.chain (i + k)).length ++ be32 (bp + specBucketsBytes sz ht i k)) ∧
        ∀ j kv, (ht.chain (i + k))[j]? = some kv →
          Holds f2 (bp + specBucketsBytes sz ht i k + 4 * j)
            (be32 (specElementOffset sz (bp + specBucketsBytes sz ht i k)
              (ht.chain (i + k)) j)) ∧
          ElemAt fn sz f2 (specElementOffset sz (bp + specBucketsBytes sz ht i k)
            (ht.chain (i + k)) j) kv := by
  intro n
  induction n with
  | zero =>
    intro i f rp bp f2 e h _
    simp only [WriteHashTable_loop, Option.some.injEq, Prod.mk.injEq] at h
    obtain ⟨rfl, rfl⟩ := h
    refine ⟨by simp [specBucketsBytes], le_refl _, fun h => absurd h (by omega),
      fun h => absurd h (by omega), fun _ _ _ => rfl, ?_⟩
    intro k hk
    omega
  | succ n ih =>
    intro i f rp bp f2 e h hrp
    simp only [WriteHashTable_loop, WriteHTBucketRecord, LinkedList_NumElements,
      sizeof_BucketRecord] at h
    have hpl := pwrite_length f rp (be32 (ht.chain i).length ++ be32 bp)
    have hdl : (be32 (ht.chain i).length ++ be32 bp).length = 8 := rfl
    rw [hdl] at hpl
    have hrec := Holds_pwrite f rp (be32 (ht.chain i).length ++ be32 bp)
    by_cases hne : (ht.chain i).length > 0
    · rw [if_pos hne] at h
      cases hb : WriteHTBucket fn (pwrite f rp (be32 (ht.chain i).length ++ be32 bp)) bp
          (ht.chain i) with
      | none => rw [hb] at h; simp at h
      | some r =>
        obtain ⟨f1, n1⟩ := r
        rw [hb] at h
        simp only [Option.some_bind] at h
        have hne2 : ht.chain i ≠ [] := by
          intro h0
          rw [h0] at hne
          simp at hne
        obtain ⟨b0, b2, b3, b4, b5⟩ := WriteHTBucket_layout fn sz hfn (ht.chain i) _ bp f1 n1
          hne2 hb
        subst b0
        obtain ⟨i0, i1, i2, i3, i4, i5⟩ := ih (i + 1) f1 (rp + 8)
          (bp + specBucketBytes sz (ht.chain i)) f2 e h (by omega)
        have hsb : specBucketsBytes sz ht i (n + 1) =
            specBucketBytes sz (ht.chain i) + specBucketsBytes sz ht (i + 1) n := rfl
        have hle : bp + specBucketBytes sz (ht.chain i) ≤ e := by omega
        have hef2 : e ≤ f2.length := by
          by_cases hlt : bp + specBucketBytes sz (ht.chain i) < e
          · exact i3 hlt
          · omega
        refine ⟨by omega, by omega, fun _ => ?_, fun _ => hef2, ?_, ?_⟩
        · omega
        · intro j hj1 hj2
          rw [i4 j (by omega) (by omega), b4 j (by omega), pwrite_getD, hdl, if_neg (by omega)]
        · intro k hk
          cases k with
          | zero =>
            simp only [Nat.add_zero, Nat.mul_zero, specBucketsBytes]
            constructor
            · apply Holds_frame _ f2 rp _ hrec (by omega)
              intro x hx1 hx2
              rw [hdl] at hx2
              rw [i4 x (by omega) (by omega), b4 x (by omega)]
            · intro j kv hj
              obtain ⟨q1, q2⟩ := b5 j kv hj
              obtain ⟨s1, s2⟩ := sum_take_le sz (ht.chain i) j kv hj
              have hsp : specElementOffset sz bp (ht.chain i) j =
                  bp + 4 * (ht.chain i).length + (((ht.chain i).take j).map sz).sum := rfl
              have hbb : specBucketBytes sz (ht.chain i) =
                  4 * (ht.chain i).length + ((ht.chain i).map sz).sum := rfl
              constructor
              · apply Holds_frame f1 f2 _ _ q1 i1
                intro x hx1 hx2
                rw [be32_length] at hx2
                rw [i4 x (by omega) (by omega)]
              · apply ElemAt_frame fn sz f1 f2 _ kv q2 i1
                intro x hx1 hx2
                rw [i4 x (by omega) (by omega)]
          | succ k =>
            obtain ⟨q1, q2⟩ := i5 k (by omega)
            rw [show i + 1 + k = i + (k + 1) by omega,
              show rp + 8 + 8 * k = rp + 8 * (k + 1) by omega,
              show bp + specBucketBytes sz (ht.chain i) + specBucketsBytes sz ht (i + 1) k =
                bp + specBucketsBytes sz ht i (k + 1) by
                  rw [show specBucketsBytes sz ht i (k + 1) =
                    specBucketBytes sz (ht.chain i) + specBucketsBytes sz ht (i + 1) k from rfl]
                  omega] at q1
            refine ⟨q1, ?_⟩
            intro j kv hj
            have := q2 j kv (by rw [show i + 1 + k = i + (k + 1) by omega]; exact hj)
            rw [show i + 1 + k = i + (k + 1) by omega,
              show bp + specBucketBytes sz (ht.chain i) + specBucketsBytes sz ht (i + 1) k =
                bp + specBucketsBytes sz ht i (k + 1) by
                  rw [show specBucketsBytes sz ht i (k + 1) =
                    specBucketBytes sz (ht.chain i) + specBucketsBytes sz ht (i + 1) k from rfl]
                  omega] at this
            exact this
    · rw [if_neg hne] at h
      have hnil : ht.chain i = [] := List.length_eq_zero.1 (by omega)
      obtain ⟨i0, i1, i2, i3, i4, i5⟩ := ih (i + 1) _ (rp + 8) bp f2 e h (by omega)
      have hsb : specBucketsBytes sz ht i (n + 1) = specBucketsBytes sz ht (i + 1) n := by
        rw [specBucketsBytes, hnil]
        simp [specBucketBytes]
      refine ⟨by omega, by omega, fun _ => ?_, i3, ?_, ?_⟩
      · by_cases hn : 0 < n
        · have := i2 hn
          omega
        · omega
      · intro j hj1 hj2
        rw [i4 j (by omega) (by omega), pwrite_getD, hdl, if_neg (by omega)]
      · intro k hk
        cases k with
        | zero =>
          simp only [Nat.add_zero, Nat.mul_zero, specBucketsBytes]
          constructor
          · apply Holds_frame _ f2 rp _ hrec (by omega)
            intro x hx1 hx2
            rw [hdl] at hx2
            rw [i4 x (by omega) (by omega)]
          · intro j kv hj
            rw [hnil] at hj
            simp at hj
        | succ k =>
          have hk1 : specBucketsBytes sz ht i (k + 1) = specBucketsBytes sz ht (i + 1) k := by
            rw [specBucketsBytes, hnil]
            simp [specBucketBytes]
          obtain ⟨q1, q2⟩ := i5 k (by omega)
          rw [show i + 1 + k = i + (k + 1) by omega,
            show rp + 8 + 8 * k = rp + 8 * (k + 1) by omega, ← hk1] at q1
          refine ⟨q1, ?_⟩
          intro j kv hj
          have := q2 j kv (by rw [show i + 1 + k = i + (k + 1) by omega]; exact hj)
          rw [show i + 1 + k = i + (k + 1) by omega, ← hk1] at this
          exact this

theorem specBucketsBytes_mono {V : Type} (sz : HTKeyValue_t V → Nat) (ht : HashTable V)
    (i k : Nat) : ∀ n, k ≤ n → specBucketsBytes sz ht i k ≤ specBucketsBytes sz ht i n := by
  intro n
  induction n with
  | zero =>
    intro h
    rw [Nat.le_zero.1 h]
  | succ n ih =>
    intro h
    by_cases hk : k = n + 1
    · rw [hk]
    · have := ih (by omega)
      rw [specBucketsBytes_succ]
      omega

theorem WriteDocIDToPositionListFn_layout :
    ElemLayout WriteDocIDToPositionListFn sizeDocIDElement := by
  intro f p kv f2 n h
  simp only [WriteDocIDToPositionListFn, sizeof_DocIDElementHeader, LinkedList_NumElements,
    Option.some.injEq, Prod.mk.injEq] at h
  obtain ⟨rfl, rfl⟩ := h
  have hdl : (be64 kv.key ++ be32 kv.value.length).length = 12 := rfl
  have l1 := pwrite_length f p (be64 kv.key ++ be32 kv.value.length)
  rw [hdl] at l1
  obtain ⟨i1, i2, i3, _⟩ := PositionList_loop_spec kv.value
    (pwrite f p (be64 kv.key ++ be32 kv.value.length)) (p + 12)
  refine ⟨rfl, by omega, ?_, ?_⟩
  · by_cases hr : kv.value = []
    · rw [hr] at i1 l1 ⊢
      simp only [List.length_nil] at i1 l1 ⊢
      omega
    · have := i2 hr
      omega
  · intro i hi
    rw [i3 i (by omega), pwrite_getD, hdl, if_neg (by omega)]

/-- C13: when `WriteHashTable(f, offset, ht, fn)` succeeds with a result
below `2^31` bytes, for an `fn` that serializes an element `kv` into `sz kv`
bytes at the offset it is given, the file holds at `offset` the 4-byte
big-endian `num_buckets`; the record of bucket `i`, at
`offset + 4 + 8 * i`, holds the length of chain `i` and the offset of the
bucket's data, which for bucket `i` is behind the records and the buckets in
front of it; the `j`-th element position record of the bucket holds the
offset of the `j`-th element of the chain, which is behind the bucket's
records and the elements in front of it, and the element as `fn` serializes
it stands there. The size returned is the sum of all these, and the file is
unchanged outside them. -/
theorem C13_hash_table_layout {V : Type} (fn : WriteElementFn V) (sz : HTKeyValue_t V → Nat)
    (hfn : ElemLayout fn sz) (f : File) (offset : Nat) (ht : HashTable V) (f2 : File)
    (n : Nat) (h : WriteHashTable fn f offset ht = some (f2, n)) (hb : offset + n < 2 ^ 31) :
    n = 4 + 8 * ht.num_buckets + specBucketsBytes sz ht 0 ht.num_buckets ∧
    (∀ x, (x < offset ∨ offset + n ≤ x) → f2.getD x 0 = f.getD x 0) ∧
    readInt f2 offset 4 = some ht.num_buckets ∧
    ∀ i, i < ht.num_buckets →
      readInt f2 (offset + 4 + 8 * i) 4 = some (ht.chain i).length ∧
      readInt f2 (offset + 4 + 8 * i + 4) 4 = some (specBucketOffset sz offset ht i) ∧
      ∀ j kv, (ht.chain i)[j]? = some kv →
        readInt f2 (specBucketOffset sz offset ht i + 4 * j) 4 =
          some (specElementOffset sz (specBucketOffset sz offset ht i) (ht.chain i) j) ∧
        ElemAt fn sz f2
          (specElementOffset sz (specBucketOffset sz offset ht i) (ht.chain i) j) kv := by
  simp only [WriteHashTable, sizeof_BucketListHeader, sizeof_BucketRecord] at h
  cases hl : WriteHashTable_loop fn ht ht.num_buckets 0 (pwrite f offset (be32 ht.num_buckets))
      (offset + 4) (offset + 4 + ht.num_buckets * 8) with
  | none => rw [hl] at h; simp at h
  | some r =>
    obtain ⟨f3, e⟩ := r
    rw [hl] at h
    simp only [Option.map_some', Option.some.injEq, Prod.mk.injEq] at h
    obtain ⟨rfl, rfl⟩ := h
    obtain ⟨i0, i1, i2, i3, i4, i5⟩ := WriteHashTable_loop_layout fn sz hfn ht _ _ _ _ _ _ _ hl
      (by omega)
    have hpl := pwrite_length f offset (be32 ht.num_buckets)
    rw [be32_length] at hpl
    have hoe : offset + (e - offset) = e := by omega
    rw [hoe] at hb
    refine ⟨by omega, ?_, ?_, ?_⟩
    · intro x hx
      rw [i4 x (by omega) (by omega), pwrite_getD, be32_length, if_neg (by omega)]
    · apply readInt_of_Holds32 f3 offset _ _ (by omega)
      apply Holds_frame _ f3 offset _ (Holds_pwrite f offset _) i1
      intro x hx1 hx2
      rw [be32_length] at hx2
      rw [i4 x (by omega) (by omega)]
    · intro i hi
      obtain ⟨q1, q2⟩ := i5 i hi
      simp only [Nat.zero_add] at q1 q2
      obtain ⟨r1, r2⟩ := (Holds_append f3 _ _ _).1 q1
      rw [be32_length] at r2
      have hm1 := specBucketsBytes_mono sz ht 0 (i + 1) ht.num_buckets (by omega)
      rw [specBucketsBytes_succ, Nat.zero_add] at hm1
      have hbb : specBucketBytes sz (ht.chain i) =
          4 * (ht.chain i).length + ((ht.chain i).map sz).sum := rfl
      have hbo : specBucketOffset sz offset ht i =
          offset + 4 + ht.num_buckets * 8 + specBucketsBytes sz ht 0 i := by
        rw [specBucketOffset]; omega
      rw [hbo]
      refine ⟨readInt_of_Holds32 f3 _ _ r1 (by omega),
        readInt_of_Holds32 f3 _ _ r2 (by omega), ?_⟩
      intro j kv hj
      obtain ⟨s1, s2⟩ := q2 j kv hj
      obtain ⟨t1, t2⟩ := sum_take_le sz (ht.chain i) j kv hj
      have hsp : specElementOffset sz
          (offset + 4 + ht.num_buckets * 8 + specBucketsBytes sz ht 0 i) (ht.chain i) j =
          offset + 4 + ht.num_buckets * 8 + specBucketsBytes sz ht 0 i +
            4 * (ht.chain i).length + (((ht.chain i).take j).map sz).sum := rfl
      exact ⟨readInt_of_Holds32 f3 _ _ s1 (by omega), s2⟩

set_option maxRecDepth 100000 in
theorem C13_witness :
    64 = 4 + 8 * tableS13.num_buckets +
      specBucketsBytes sizeDocIDElement tableS13 0 tableS13.num_buckets ∧
    (∀ x, (x < 0 ∨ 0 + 64 ≤ x) → fileS13.getD x 0 = ([] : File).getD x 0) ∧
    readInt fileS13 0 4 = some tableS13.num_buckets ∧
    ∀ i, i < tableS13.num_buckets →
      readInt fileS13 (0 + 4 + 8 * i) 4 = some (tableS13.chain i).length ∧
      readInt fileS13 (0 + 4 + 8 * i + 4) 4 =
        some (specBucketOffset sizeDocIDElement 0 tableS13 i) ∧
      ∀ j kv, (tableS13.chain i)[j]? = some kv →
        readInt fileS13 (specBucketOffset sizeDocIDElement 0 tableS13 i + 4 * j) 4 =
          some (specElementOffset sizeDocIDElement
            (specBucketOffset sizeDocIDElement 0 tableS13 i) (tableS13.chain i) j) ∧
        ElemAt WriteDocIDToPositionListFn sizeDocIDElement fileS13
          (specElementOffset sizeDocIDElement
            (specBucketOffset sizeDocIDElement 0 tableS13 i) (tableS13.chain i) j) kv :=
  C13_hash_table_layout WriteDocIDToPositionListFn sizeDocIDElement
    WriteDocIDToPositionListFn_layout [] 0 tableS13 fileS13 64 (by decide) (by decide)

theorem WriteHashTable_size {V : Type} (fn : WriteElementFn V) (sz : HTKeyValue_t V → Nat)
    (hfn : ElemLayout fn sz) (f : File) (offset : Nat) (ht : HashTable V) (f2 : File)
    (n : Nat) (h : WriteHashTable fn f offset ht = some (f2, n)) :
    n = 4 + 8 * ht.num_buckets + specBucketsBytes sz ht 0 ht.num_buckets ∧
    f.length ≤ f2.length ∧ offset + n ≤ f2.length ∧
    ∀ x, (x < offset ∨ offset + n ≤ x) → f2.getD x 0 = f.getD x 0 := by
  simp only [WriteHashTable, sizeof_BucketListHeader, sizeof_BucketRecord] at h
  cases hl : WriteHashTable_loop fn ht ht.num_buckets 0 (pwrite f offset (be32 ht.num_buckets))
      (offset + 4) (offset + 4 + ht.num_buckets * 8) with
  | none => rw [hl] at h; simp at h
  | some r =>
    obtain ⟨f3, e⟩ := r
    rw [hl] at h
    simp only [Option.map_some', Option.some.injEq, Prod.mk.injEq] at h
    obtain ⟨rfl, rfl⟩ := h
    obtain ⟨i0, i1, i2, i3, i4, _⟩ := WriteHashTable_loop_layout fn sz hfn ht _ _ _ _ _ _ _ hl
      (by omega)
    have hpl := pwrite_length f offset (be32 ht.num_buckets)
    rw [be32_length] at hpl
    have hlen : e ≤ f3.length := by
      by_cases hlt : offset + 4 + ht.num_buckets * 8 < e
      · exact i3 hlt
      · by_cases hn : 0 < ht.num_buckets
        · have := i2 hn
          omega
        · omega
    refine ⟨by omega, by omega, by omega, ?_⟩
    intro x hx
    rw [i4 x (by omega) (by omega), pwrite_getD, be32_length, if_neg (by omega)]

theorem int16_size_some (len wb : Nat) (h : int16_size len = some wb) :
    wb = len % 2 ^ 16 ∧ 0 < wb ∧ wb < 2 ^ 15 ∧ wb ≤ len := by
  unfold int16_size at h
  split at h
  · simp at h
  · rename_i hc
    simp only [Option.some.injEq] at h
    have := Nat.mod_le len (2 ^ 16)
    omega

theorem WriteDocidToDocnameFn_layout : ElemLayout WriteDocidToDocnameFn sizeDocElement := by
  intro f p kv f2 n h
  simp only [WriteDocidToDocnameFn] at h
  cases hs : int16_size kv.value.length with
  | none => rw [hs] at h; simp at h
  | some wb =>
    rw [hs] at h
    obtain ⟨w1, w2, w3, w4⟩ := int16_size_some _ _ hs
    simp only [sizeof_DoctableElementHeader, Option.some.injEq, Prod.mk.injEq] at h
    obtain ⟨rfl, rfl⟩ := h
    have hdl : (be64 kv.key ++ be16 wb).length = 10 := rfl
    have htl : (kv.value.take wb).length = wb := by
      rw [List.length_take]; omega
    have l1 := pwrite_length f p (be64 kv.key ++ be16 wb)
    have l2 := pwrite_length (pwrite f p (be64 kv.key ++ be16 wb)) (p + 10) (kv.value.take wb)
    rw [hdl] at l1
    rw [htl] at l2
    refine ⟨by rw [sizeDocElement, sizeof_DoctableElementHeader, w1], by omega, by omega, ?_⟩
    intro i hi
    rw [pwrite_getD, htl, if_neg (by omega), pwrite_getD, hdl, if_neg (by omega)]

theorem WriteWordToPostingsFn_layout : ElemLayout WriteWordToPostingsFn sizeWordElement := by
  intro f p kv f2 n h
  simp only [WriteWordToPostingsFn] at h
  cases hs : int16_size kv.value.word.length with
  | none => rw [hs] at h; simp at h
  | some wb =>
    rw [hs] at h
    obtain ⟨w1, w2, w3, w4⟩ := int16_size_some _ _ hs
    simp only [sizeof_WordPostingsHeader] at h
    cases hw : WriteHashTable WriteDocIDToPositionListFn f (p + 6 + wb) kv.value.postings with
    | none => rw [hw] at h; simp at h
    | some r =>
      obtain ⟨f1, m⟩ := r
      rw [hw] at h
      simp only [Option.some_bind, Option.some.injEq, Prod.mk.injEq] at h
      obtain ⟨rfl, rfl⟩ := h
      obtain ⟨t0, t1, t2, t3⟩ := WriteHashTable_size WriteDocIDToPositionListFn
        sizeDocIDElement WriteDocIDToPositionListFn_layout f _ kv.value.postings f1 m hw
      have hdl : (be16 wb ++ be32 m).length = 6 := rfl
      have htl : (kv.value.word.take wb).length = wb := by
        rw [List.length_take]; omega
      have l1 := pwrite_length f1 p (be16 wb ++ be32 m)
      have l2 := pwrite_length (pwrite f1 p (be16 wb ++ be32 m)) (p + 6)
        (kv.value.word.take wb)
      rw [hdl] at l1
      rw [htl] at l2
      refine ⟨by rw [sizeWordElement, sizeof_WordPostingsHeader, ← w1, ← t0], by omega,
        by omega, ?_⟩
      intro i hi
      rw [pwrite_getD, htl, if_neg (by omega), pwrite_getD, hdl, if_neg (by omega),
        t3 i (by omega)]

theorem be32_mod (n : Nat) : be32 (n % 2 ^ 32) = be32 n := by
  simp only [be32]
  congr 1
  · omega
  · congr 1
    · omega
    · congr 1
      · omega
      · congr 1
        omega

theorem pwrite_zero_eq (f : File) (d : List Nat) :
    pwrite f 0 d = d ++ f.drop d.length := by
  simp [pwrite]

/-- C14: when `WriteIndex` succeeds, the doc table was written at offset 16
and returned `doctable_bytes`, the index was written right behind it and
returned `memindex_bytes`, the total returned is 16 plus the two, and the
first 16 bytes of the file are the four big-endian 32-bit fields: the magic
number, the checksum of exactly the `doctable_bytes + memindex_bytes` bytes
of the file from offset 16 on, `doctable_bytes`, and `memindex_bytes`. The
bytes behind the header are those the two table writers left. -/
theorem C14_header_fields (kMagicNumber : Nat) (crc : List Nat → Nat) (mi : MemIndex)
    (dt : DocTable) (file : File) (n : Nat)
    (h : WriteIndex kMagicNumber crc mi dt = some (file, n)) :
    ∃ f1 doctable_bytes f2 memindex_bytes,
      WriteDocTable [] dt sizeof_IndexFileHeader = some (f1, doctable_bytes) ∧
      WriteMemIndex f1 mi (sizeof_IndexFileHeader + doctable_bytes) =
        some (f2, memindex_bytes) ∧
      n = sizeof_IndexFileHeader + doctable_bytes + memindex_bytes ∧
      n ≤ file.length ∧
      file.drop 16 = f2.drop 16 ∧
      file.take 16 = be32 kMagicNumber ++
        be32 (crc ((file.drop 16).take (doctable_bytes + memindex_bytes))) ++
        be32 doctable_bytes ++ be32 memindex_bytes := by
  simp only [WriteIndex] at h
  cases h1 : WriteDocTable [] dt sizeof_IndexFileHeader with
  | none => rw [h1] at h; simp at h
  | some r1 =>
    obtain ⟨f1, dtb⟩ := r1
    rw [h1] at h
    simp only [Option.some_bind] at h
    cases h2 : WriteMemIndex f1 mi (sizeof_IndexFileHeader + dtb) with
    | none => rw [h2] at h; simp at h
    | some r2 =>
      obtain ⟨f2, mib⟩ := r2
      rw [h2] at h
      simp only [Option.some_bind, Option.some.injEq, Prod.mk.injEq] at h
      obtain ⟨hfile, hn⟩ := h
      refine ⟨f1, dtb, f2, mib, rfl, h2, hn.symm, ?_⟩
      have a := WriteHashTable_size WriteDocidToDocnameFn sizeDocElement
        WriteDocidToDocnameFn_layout [] _ _ f1 dtb h1
      have b := WriteHashTable_size WriteWordToPostingsFn sizeWordElement
        WriteWordToPostingsFn_layout f1 _ _ f2 mib h2
      simp only [sizeof_IndexFileHeader] at a b hn
      have hck : CalcChecksumOver crc f2 dtb mib =
          crc ((f2.drop 16).take (dtb + mib)) % 2 ^ 32 := by
        simp only [CalcChecksumOver, sizeof_IndexFileHeader]
        rw [if_pos (by omega)]
      have hdl : (be32 kMagicNumber ++ be32 (CalcChecksumOver crc f2 dtb mib) ++ be32 dtb ++
          be32 mib).length = 16 := rfl
      have hf : file = (be32 kMagicNumber ++ be32 (CalcChecksumOver crc f2 dtb mib) ++
          be32 dtb ++ be32 mib) ++ f2.drop 16 := by
        rw [← hfile, WriteHeader, pwrite_zero_eq, hdl]
      have hdrop : file.drop 16 = f2.drop 16 := by
        rw [hf]
        exact List.drop_left' hdl
      have htake : file.take 16 = be32 kMagicNumber ++
          be32 (CalcChecksumOver crc f2 dtb mib) ++ be32 dtb ++ be32 mib := by
        rw [hf]
        exact List.take_left' hdl
      refine ⟨?_, hdrop, ?_⟩
      · rw [hf, List.length_append, hdl, List.length_drop]
        omega
      · rw [htake, hdrop, hck, be32_mod]

set_option maxRecDepth 100000 in
theorem C14_witness :
    (fileS3.take 16 = be32 0xcafef00d ++ be32 (crcS3 ((fileS3.drop 16).take 114)) ++
      be32 39 ++ be32 75) ∧
    ∃ f1 doctable_bytes f2 memindex_bytes,
      WriteDocTable [] docTableS3 sizeof_IndexFileHeader = some (f1, doctable_bytes) ∧
      WriteMemIndex f1 indexS3 (sizeof_IndexFileHeader + doctable_bytes) =
        some (f2, memindex_bytes) ∧
      130 = sizeof_IndexFileHeader + doctable_bytes + memindex_bytes ∧
      130 ≤ fileS3.length ∧
      fileS3.drop 16 = f2.drop 16 ∧
      fileS3.take 16 = be32 0xcafef00d ++
        be32 (crcS3 ((fileS3.drop 16).take (doctable_bytes + memindex_bytes))) ++
        be32 doctable_bytes ++ be32 memindex_bytes :=
  ⟨by decide, C14_header_fields 0xcafef00d crcS3 indexS3 docTableS3 fileS3 130 (by decide)⟩

theorem WriteDocidToDocnameFn_none (f : File) (offset : Nat) (kv : HTKeyValue_t CString)
    (h : int16_size kv.value.length = none) : WriteDocidToDocnameFn f offset kv = none := by
  simp only [WriteDocidToDocnameFn, h]

/-- C27, as stated (every name, of any length), fails: `WriteDocidToDocnameFn`
returns `kFailedWrite` for the empty name, for a name of 32768 bytes (its
`int16_t` length is negative) and for a name of 65536 bytes (its `int16_t`
length is 0), instead of `10 + L`. -/
theorem C27_counterexample :
    WriteDocidToDocnameFn [] 16 ⟨1, []⟩ = none ∧
    WriteDocidToDocnameFn [] 16 ⟨1, List.replicate 32768 97⟩ = none ∧
    WriteDocidToDocnameFn [] 16 ⟨1, List.replicate 65536 97⟩ = none := by
  refine ⟨rfl, ?_, ?_⟩
  · exact WriteDocidToDocnameFn_none _ _ _ (by
      show int16_size (List.replicate 32768 97).length = none
      rw [List.length_replicate]; decide)
  · exact WriteDocidToDocnameFn_none _ _ _ (by
      show int16_size (List.replicate 65536 97).length = none
      rw [List.length_replicate]; decide)

/-- C27 (amended): for every name of length `L` with `1 <= L <= 32767`, every
file and offset, `WriteDocidToDocnameFn` returns `10 + L`; the `10 + L` bytes
of the file at the offset are then the doc-id as a big-endian `u64`, the
length `L` as a big-endian 16-bit field and the `L` bytes of the name, with
no terminator; the file reaches the end of these bytes at least, and no byte
outside them has changed. When the `int16_t` that receives the length is zero
or negative (`L = 0`, or the low 16 bits of `L` are 0 or at least 32768) the
function returns `kFailedWrite`. -/
theorem C27_docname_element (f : File) (offset : Nat) (kv : HTKeyValue_t CString) :
    (0 < kv.value.length → kv.value.length < 2 ^ 15 →
      ∃ f2, WriteDocidToDocnameFn f offset kv = some (f2, 10 + kv.value.length) ∧
        readBytes f2 offset (10 + kv.value.length) =
          some (be64 kv.key ++ be16 kv.value.length ++ kv.value) ∧
        fromBE (be64 kv.key) = kv.key % 2 ^ 64 ∧
        fromBE (be16 kv.value.length) = kv.value.length ∧
        f2.length = max f.length (offset + (10 + kv.value.length)) ∧
        ∀ i, (i < offset ∨ offset + (10 + kv.value.length) ≤ i) → f2.getD i 0 = f.getD i 0) ∧
    (kv.value.length % 2 ^ 16 = 0 ∨ 2 ^ 15 ≤ kv.value.length % 2 ^ 16 →
      WriteDocidToDocnameFn f offset kv = none) := by
  constructor
  · intro h0 h1
    have hdl : (be64 kv.key ++ be16 kv.value.length).length = 10 := rfl
    have l1 := pwrite_length f offset (be64 kv.key ++ be16 kv.value.length)
    have l2 := pwrite_length (pwrite f offset (be64 kv.key ++ be16 kv.value.length))
      (offset + 10) kv.value
    rw [hdl] at l1
    refine ⟨pwrite (pwrite f offset (be64 kv.key ++ be16 kv.value.length)) (offset + 10)
      kv.value, ?_, ?_, fromBE_be64 _, ?_, by omega, ?_⟩
    · simp only [WriteDocidToDocnameFn, int16_size_eq _ h0 h1, sizeof_DoctableElementHeader,
        List.take_length]
    · have hh : Holds (pwrite (pwrite f offset (be64 kv.key ++ be16 kv.value.length))
          (offset + 10) kv.value) offset (be64 kv.key ++ be16 kv.value.length ++ kv.value) := by
        rw [Holds_append, hdl]
        refine ⟨Holds_frame _ _ _ _ (Holds_pwrite f offset _) (by omega) ?_, Holds_pwrite _ _ _⟩
        intro i _ hi
        rw [hdl] at hi
        rw [pwrite_getD, if_neg (by omega)]
      unfold Holds at hh
      rw [List.length_append, hdl] at hh
      exact hh
    · rw [fromBE_be16]
      exact Nat.mod_eq_of_lt (by omega)
    · intro i hi
      rw [pwrite_getD, if_neg (by omega), pwrite_getD, hdl, if_neg (by omega)]
  · intro h
    apply WriteDocidToDocnameFn_none
    unfold int16_size
    rw [if_pos h]

theorem C27_witness :
    ∃ f2, WriteDocidToDocnameFn [] 16 ⟨1, bytes "x.txt"⟩ =
        some (f2, 10 + (bytes "x.txt").length) ∧
      readBytes f2 16 (10 + (bytes "x.txt").length) =
        some (be64 1 ++ be16 (bytes "x.txt").length ++ bytes "x.txt") ∧
      fromBE (be64 1) = 1 % 2 ^ 64 ∧
      fromBE (be16 (bytes "x.txt").length) = (bytes "x.txt").length ∧
      f2.length = max ([] : File).length (16 + (10 + (bytes "x.txt").length)) ∧
      ∀ i, (i < 16 ∨ 16 + (10 + (bytes "x.txt").length) ≤ i) →
        f2.getD i 0 = ([] : File).getD i 0 :=
  (C27_docname_element [] 16 ⟨1, bytes "x.txt"⟩).1 (by decide) (by decide)
/-! ## The index file: failures of file operations -/

set_option maxRecDepth 100000 in
/-- C15 (the code breaks the claim): on the index and doc table of scenario
S3, when the `fwrite` of the header fails, `WriteHeader` returns
`kFailedWrite` but `WriteIndex` returns 130, a non-negative byte count, and
does not unlink the file; when the `fread` of the checksum computation
fails, `WriteIndex` returns 130 as well. A failed write inside the doc table
does make it unlink the file and return `kFailedWrite`. -/
theorem C15_header_failure_not_reported :
    (∃ f2, WriteMemIndex_io opsHeaderWriteFails
        ((WriteDocTable_io opsHeaderWriteFails [] docTableS3 16).getD ([], 0)).1 indexS3 55 =
          some (f2, 75) ∧
      (WriteHeader_io opsHeaderWriteFails 0xcafef00d crcS3 f2 39 75).2 = kFailedWrite) ∧
    WriteIndex_io opsHeaderWriteFails 0xcafef00d crcS3 indexS3 docTableS3 =
      { ret := 130, closed := true, unlinked := false } ∧
    WriteIndex_io opsReadFails 0xcafef00d crcS3 indexS3 docTableS3 =
      { ret := 130, closed := true, unlinked := false } ∧
    WriteIndex_io opsTableWriteFails 0xcafef00d crcS3 indexS3 docTableS3 =
      { ret := kFailedWrite, closed := true, unlinked := true } := by
  refine ⟨⟨(fileS3.take 16).map (fun _ => 0) ++ fileS3.drop 16, ?_, ?_⟩, ?_, ?_, ?_⟩ <;> decide

/-! ## Theorems: the order of the file operations of WriteIndex (claim C28) -/

theorem runOps_append (a b : List FileOp) (s : FileState) :
    runOps (a ++ b) s = runOps b (runOps a s) := by
  simp [runOps, List.foldl_append]

theorem runOps_cons (op : FileOp) (l : List FileOp) (s : FileState) :
    runOps (op :: l) s = runOps l (op.run s) := rfl

theorem runOps_nil (s : FileState) : runOps [] s = s := rfl

theorem runOps_seek_write (o : Nat) (d : List Nat) (l : List FileOp) (s : FileState) :
    runOps (FileOp.fseek o :: FileOp.fwrite d :: l) s =
      runOps l ⟨pwrite s.content o d, o + d.length⟩ := rfl

theorem WriteHTBucket_loop_link {V : Type} (fn : WriteElementFn V) (fn_ops : WriteElementOps V)
    (hl : ElemLink fn fn_ops) :
    ∀ (li : List (HTKeyValue_t V)) (f : File) (pos record_pos element_pos : Nat),
      (WriteHTBucket_loop_ops fn_ops li record_pos element_pos).map
          (fun r => ((runOps r.1 ⟨f, pos⟩).content, r.2)) =
        WriteHTBucket_loop fn li f record_pos element_pos := by
  intro li
  induction li with
  | nil => intro f pos rp ep; rfl
  | cons payload rest ih =>
    intro f pos rp ep
    simp only [WriteHTBucket_loop_ops, WriteHTBucket_loop]
    have h1 := hl (pwrite f rp (be32 ep)) (rp + (be32 ep).length) ep payload
    cases h2 : fn_ops ep payload with
    | none =>
      rw [h2] at h1
      simp only [Option.map_none'] at h1
      rw [← h1]
      rfl
    | some r =>
      rw [h2] at h1
      simp only [Option.map_some'] at h1
      rw [← h1]
      simp only [Option.some_bind]
      have h3 := ih (runOps r.1 ⟨pwrite f rp (be32 ep), rp + (be32 ep).length⟩).content
        (runOps r.1 ⟨pwrite f rp (be32 ep), rp + (be32 ep).length⟩).pos
        (rp + sizeof_ElementPositionRecord) (ep + r.2)
      rw [← h3]
      cases WriteHTBucket_loop_ops fn_ops rest (rp + sizeof_ElementPositionRecord) (ep + r.2) with
      | none => rfl
      | some r2 =>
        simp only [Option.map_some', List.cons_append, List.nil_append, List.append_assoc,
          runOps_seek_write, runOps_append]

theorem WriteHTBucket_link {V : Type} (fn : WriteElementFn V) (fn_ops : WriteElementOps V)
    (hl : ElemLink fn fn_ops) (li : List (HTKeyValue_t V)) (f : File) (pos offset : Nat) :
    (WriteHTBucket_ops fn_ops offset li).map (fun r => ((runOps r.1 ⟨f, pos⟩).content, r.2)) =
      WriteHTBucket fn f offset li := by
  simp only [WriteHTBucket_ops, WriteHTBucket]
  split_ifs with h0
  · rfl
  · rw [← WriteHTBucket_loop_link fn fn_ops hl li f pos]
    cases WriteHTBucket_loop_ops fn_ops li offset
        (offset + sizeof_ElementPositionRecord * LinkedList_NumElements li) <;> rfl

theorem WriteHashTable_loop_link {V : Type} (fn : WriteElementFn V)
    (fn_ops : WriteElementOps V) (hl : ElemLink fn fn_ops) (ht : HashTable V) :
    ∀ (n i : Nat) (f : File) (pos record_pos bucket_pos : Nat),
      (WriteHashTable_loop_ops fn_ops ht n i record_pos bucket_pos).map
          (fun r => ((runOps r.1 ⟨f, pos⟩).content, r.2)) =
        WriteHashTable_loop fn ht n i f record_pos bucket_pos := by
  intro n
  induction n with
  | zero => intro i f pos rp bp; rfl
  | succ n ih =>
    intro i f pos rp bp
    simp only [WriteHashTable_loop_ops, WriteHashTable_loop, WriteHTBucketRecord_ops,
      WriteHTBucketRecord]
    split_ifs with h0
    · have h1 := WriteHTBucket_link fn fn_ops hl (ht.chain i)
        (pwrite f rp (be32 (LinkedList_NumElements (ht.chain i)) ++ be32 bp))
        (rp + (be32 (LinkedList_NumElements (ht.chain i)) ++ be32 bp).length) bp
      rw [← h1]
      cases h2 : WriteHTBucket_ops fn_ops bp (ht.chain i) with
      | none => rfl
      | some r =>
        simp only [Option.map_some', Option.some_bind]
        rw [← ih (i + 1) _ (runOps r.1 ⟨pwrite f rp
          (be32 (LinkedList_NumElements (ht.chain i)) ++ be32 bp),
          rp + (be32 (LinkedList_NumElements (ht.chain i)) ++ be32 bp).length⟩).pos]
        cases WriteHashTable_loop_ops fn_ops ht n (i + 1) (rp + sizeof_BucketRecord)
            (bp + r.2) with
        | none => rfl
        | some r2 =>
          simp only [Option.map_some', List.cons_append, List.nil_append, List.append_assoc,
            runOps_seek_write, runOps_append]
    · rw [← ih (i + 1) _ (rp + (be32 (LinkedList_NumElements (ht.chain i)) ++ be32 bp).length)]
      cases WriteHashTable_loop_ops fn_ops ht n (i + 1) (rp + sizeof_BucketRecord) bp with
      | none => rfl
      | some r2 =>
        simp only [Option.map_some', List.cons_append, List.nil_append,
          runOps_seek_write]

theorem WriteHashTable_link {V : Type} (fn : WriteElementFn V) (fn_ops : WriteElementOps V)
    (hl : ElemLink fn fn_ops) (ht : HashTable V) (f : File) (pos offset : Nat) :
    (WriteHashTable_ops fn_ops offset ht).map (fun r => ((runOps r.1 ⟨f, pos⟩).content, r.2)) =
      WriteHashTable fn f offset ht := by
  simp only [WriteHashTable_ops, WriteHashTable]
  rw [← WriteHashTable_loop_link fn fn_ops hl ht ht.num_buckets 0 _
    (offset + (be32 ht.num_buckets).length)]
  cases WriteHashTable_loop_ops fn_ops ht ht.num_buckets 0 (offset + sizeof_BucketListHeader)
      (offset + sizeof_BucketListHeader + ht.num_buckets * sizeof_BucketRecord) with
  | none => rfl
  | some r =>
    simp only [Option.map_some', List.cons_append, List.nil_append, runOps_seek_write]

theorem WriteDocidToDocnameFn_link : ElemLink WriteDocidToDocnameFn WriteDocidToDocnameFn_ops := by
  intro f pos p kv
  simp only [WriteDocidToDocnameFn_ops, WriteDocidToDocnameFn]
  cases int16_size kv.value.length with
  | none => rfl
  | some n => rfl

theorem WriteDocIDToPositionListFn_loop_link :
    ∀ (ps : List Nat) (f : File) (pos offset : Nat),
      (runOps (WriteDocIDToPositionListFn_loop_ops ps offset) ⟨f, pos⟩).content =
        WriteDocIDToPositionListFn_loop ps f offset := by
  intro ps
  induction ps with
  | nil => intro f pos offset; rfl
  | cons x rest ih =>
    intro f pos offset
    simp only [WriteDocIDToPositionListFn_loop_ops, WriteDocIDToPositionListFn_loop,
      List.cons_append, List.nil_append, runOps_seek_write]
    exact ih _ _ _

theorem WriteDocIDToPositionListFn_link :
    ElemLink WriteDocIDToPositionListFn WriteDocIDToPositionListFn_ops := by
  intro f pos p kv
  simp only [WriteDocIDToPositionListFn_ops, WriteDocIDToPositionListFn, Option.map_some',
    List.cons_append, List.nil_append, runOps_seek_write,
    WriteDocIDToPositionListFn_loop_link]

theorem WriteWordToPostingsFn_link :
    ElemLink WriteWordToPostingsFn WriteWordToPostingsFn_ops := by
  intro f pos p kv
  simp only [WriteWordToPostingsFn_ops, WriteWordToPostingsFn]
  cases h0 : int16_size kv.value.word.length with
  | none => rfl
  | some wb =>
    simp only []
    rw [← WriteHashTable_link WriteDocIDToPositionListFn WriteDocIDToPositionListFn_ops
      WriteDocIDToPositionListFn_link kv.value.postings f pos]
    cases WriteHashTable_ops WriteDocIDToPositionListFn_ops
        (p + sizeof_WordPostingsHeader + wb) kv.value.postings with
    | none => rfl
    | some r =>
      simp only [Option.map_some', Option.some_bind, runOps_append, runOps_seek_write]
      rfl

theorem tableOp_run (lo : Nat) (op : FileOp) (s : FileState) (h : op.tableOp lo = true)
    (hp : lo ≤ s.pos) (hz : LowZero lo s.content) :
    lo ≤ (op.run s).pos ∧ LowZero lo (op.run s).content := by
  cases op with
  | fseek o =>
    simp only [FileOp.tableOp, decide_eq_true_eq] at h
    exact ⟨h, hz⟩
  | fwrite d =>
    refine ⟨by simp only [FileOp.run]; omega, ?_⟩
    intro i hi
    simp only [FileOp.run]
    rw [pwrite_getD, if_neg (by omega)]
    exact hz i hi
  | fopen => simp [FileOp.tableOp] at h
  | fread c => simp [FileOp.tableOp] at h
  | fsync => simp [FileOp.tableOp] at h
  | fclose => simp [FileOp.tableOp] at h

theorem tableOps_run (lo : Nat) (l : List FileOp) :
    ∀ (s : FileState), (∀ op ∈ l, FileOp.tableOp lo op = true) → lo ≤ s.pos →
      LowZero lo s.content → lo ≤ (runOps l s).pos ∧ LowZero lo (runOps l s).content := by
  induction l with
  | nil => intro s _ hp hz; exact ⟨hp, hz⟩
  | cons op l ih =>
    intro s h hp hz
    obtain ⟨h1, h2⟩ := tableOp_run lo op s (h op (List.mem_cons_self _ _)) hp hz
    exact ih (op.run s) (fun x hx => h x (List.mem_cons_of_mem _ hx)) h1 h2

theorem tableOps_run_seek (lo o : Nat) (l : List FileOp) (k : Nat) (s : FileState)
    (h : ∀ op ∈ FileOp.fseek o :: l, FileOp.tableOp lo op = true)
    (hz : LowZero lo s.content) :
    LowZero lo (runOps ((FileOp.fseek o :: l).take k) s).content := by
  cases k with
  | zero => exact hz
  | succ k =>
    rw [List.take_succ_cons, runOps_cons]
    have ho : lo ≤ o := by
      have := h _ (List.mem_cons_self _ _)
      simpa [FileOp.tableOp] using this
    exact (tableOps_run lo (l.take k) ((FileOp.fseek o).run s)
      (fun x hx => h x (List.mem_cons_of_mem _ (List.mem_of_mem_take hx))) ho hz).2

theorem readOnly_run (l : List FileOp) :
    ∀ (s : FileState), (∀ op ∈ l, FileOp.readOnly op = true) →
      (runOps l s).content = s.content := by
  induction l with
  | nil => intro s _; rfl
  | cons op l ih =>
    intro s h
    rw [runOps_cons, ih _ (fun x hx => h x (List.mem_cons_of_mem _ hx))]
    have := h op (List.mem_cons_self _ _)
    cases op <;> simp [FileOp.readOnly] at this <;> rfl

theorem WriteHTBucket_loop_ops_above {V : Type} (fn_ops : WriteElementOps V) (lo : Nat)
    (hfn : ElemAbove fn_ops lo) :
    ∀ (li : List (HTKeyValue_t V)) (rp ep : Nat) (ops : List FileOp) (n : Nat),
      lo ≤ rp → lo ≤ ep → WriteHTBucket_loop_ops fn_ops li rp ep = some (ops, n) →
      ∀ op ∈ ops, FileOp.tableOp lo op = true := by
  intro li
  induction li with
  | nil =>
    intro rp ep ops n _ _ h
    simp only [WriteHTBucket_loop_ops, Option.some.injEq, Prod.mk.injEq] at h
    rw [← h.1]
    simp
  | cons payload rest ih =>
    intro rp ep ops n h1 h2 h
    simp only [WriteHTBucket_loop_ops] at h
    cases hf : fn_ops ep payload with
    | none => rw [hf] at h; simp at h
    | some r =>
      rw [hf, Option.some_bind] at h
      cases hr : WriteHTBucket_loop_ops fn_ops rest (rp + sizeof_ElementPositionRecord)
          (ep + r.2) with
      | none => rw [hr] at h; simp at h
      | some r2 =>
        rw [hr] at h
        simp only [Option.map_some', Option.some.injEq, Prod.mk.injEq] at h
        rw [← h.1]
        intro op hop
        simp only [List.cons_append, List.nil_append, List.mem_cons, List.mem_append] at hop
        rcases hop with rfl | rfl | hop | hop
        · simpa [FileOp.tableOp] using h1
        · rfl
        · exact hfn ep payload r.1 r.2 h2 hf op hop
        · exact ih _ _ r2.1 r2.2 (by omega) (by omega) hr op hop

theorem WriteHTBucket_ops_above {V : Type} (fn_ops : WriteElementOps V) (lo : Nat)
    (hfn : ElemAbove fn_ops lo) (li : List (HTKeyValue_t V)) (offset : Nat)
    (ops : List FileOp) (n : Nat) (ho : lo ≤ offset)
    (h : WriteHTBucket_ops fn_ops offset li = some (ops, n)) :
    ∀ op ∈ ops, FileOp.tableOp lo op = true := by
  simp only [WriteHTBucket_ops] at h
  split_ifs at h with h0
  · simp only [Option.some.injEq, Prod.mk.injEq] at h
    rw [← h.1]
    simp
  · cases hr : WriteHTBucket_loop_ops fn_ops li offset
        (offset + sizeof_ElementPositionRecord * LinkedList_NumElements li) with
    | none => rw [hr] at h; simp at h
    | some r =>
      rw [hr] at h
      simp only [Option.map_some', Option.some.injEq, Prod.mk.injEq] at h
      rw [← h.1]
      exact WriteHTBucket_loop_ops_above fn_ops lo hfn li _ _ r.1 r.2 ho (by omega) hr

theorem WriteHashTable_loop_ops_above {V : Type} (fn_ops : WriteElementOps V) (lo : Nat)
    (hfn : ElemAbove fn_ops lo) (ht : HashTable V) :
    ∀ (m i rp bp : Nat) (ops : List FileOp) (n : Nat),
      lo ≤ rp → lo ≤ bp → WriteHashTable_loop_ops fn_ops ht m i rp bp = some (ops, n) →
      ∀ op ∈ ops, FileOp.tableOp lo op = true := by
  intro m
  induction m with
  | zero =>
    intro i rp bp ops n _ _ h
    simp only [WriteHashTable_loop_ops, Option.some.injEq, Prod.mk.injEq] at h
    rw [← h.1]
    simp
  | succ m ih =>
    intro i rp bp ops n h1 h2 h
    simp only [WriteHashTable_loop_ops, WriteHTBucketRecord_ops] at h
    split_ifs at h with h0
    · cases hb : WriteHTBucket_ops fn_ops bp (ht.chain i) with
      | none => rw [hb] at h; simp at h
      | some r =>
        rw [hb, Option.some_bind] at h
        cases hr : WriteHashTable_loop_ops fn_ops ht m (i + 1) (rp + sizeof_BucketRecord)
            (bp + r.2) with
        | none => rw [hr] at h; simp at h
        | some r2 =>
          rw [hr] at h
          simp only [Option.map_some', Option.some.injEq, Prod.mk.injEq] at h
          rw [← h.1]
          intro op hop
          simp only [List.cons_append, List.nil_append, List.mem_cons, List.mem_append] at hop
          rcases hop with rfl | rfl | hop | hop
          · simpa [FileOp.tableOp] using h1
          · rfl
          · exact WriteHTBucket_ops_above fn_ops lo hfn _ bp r.1 r.2 h2 hb op hop
          · exact ih _ _ _ r2.1 r2.2 (by omega) (by omega) hr op hop
    · cases hr : WriteHashTable_loop_ops fn_ops ht m (i + 1) (rp + sizeof_BucketRecord) bp with
      | none => rw [hr] at h; simp at h
      | some r2 =>
        rw [hr] at h
        simp only [Option.map_some', Option.some.injEq, Prod.mk.injEq] at h
        rw [← h.1]
        intro op hop
        simp only [List.cons_append, List.nil_append, List.mem_cons] at hop
        rcases hop with rfl | rfl | hop
        · simpa [FileOp.tableOp] using h1
        · rfl
        · exact ih _ _ _ r2.1 r2.2 (by omega) h2 hr op hop

theorem WriteHashTable_ops_above {V : Type} (fn_ops : WriteElementOps V) (lo : Nat)
    (hfn : ElemAbove fn_ops lo) (ht : HashTable V) (offset : Nat) (ops : List FileOp) (n : Nat)
    (ho : lo ≤ offset) (h : WriteHashTable_ops fn_ops offset ht = some (ops, n)) :
    ∃ rest, ops = FileOp.fseek offset :: rest ∧ ∀ op ∈ ops, FileOp.tableOp lo op = true := by
  simp only [WriteHashTable_ops] at h
  cases hr : WriteHashTable_loop_ops fn_ops ht ht.num_buckets 0
      (offset + sizeof_BucketListHeader)
      (offset + sizeof_BucketListHeader + ht.num_buckets * sizeof_BucketRecord) with
  | none => rw [hr] at h; simp at h
  | some r =>
    rw [hr] at h
    simp only [Option.map_some', Option.some.injEq, Prod.mk.injEq] at h
    rw [← h.1]
    refine ⟨_, rfl, ?_⟩
    intro op hop
    simp only [List.cons_append, List.nil_append, List.mem_cons] at hop
    rcases hop with rfl | rfl | hop
    · simpa [FileOp.tableOp] using ho
    · rfl
    · exact WriteHashTable_loop_ops_above fn_ops lo hfn ht _ _ _ _ r.1 r.2 (by omega)
        (by omega) hr op hop

theorem WriteDocidToDocnameFn_above (lo : Nat) : ElemAbove WriteDocidToDocnameFn_ops lo := by
  intro p kv ops n hp h
  simp only [WriteDocidToDocnameFn_ops] at h
  cases hs : int16_size kv.value.length with
  | none => rw [hs] at h; simp at h
  | some wb =>
    rw [hs] at h
    simp only [Option.some.injEq, Prod.mk.injEq] at h
    rw [← h.1]
    intro op hop
    simp only [List.mem_cons, List.mem_singleton] at hop
    rcases hop with rfl | rfl | rfl | hop
    · simpa [FileOp.tableOp] using hp
    · rfl
    · rfl
    · simp at hop

theorem WriteDocIDToPositionListFn_loop_above (lo : Nat) :
    ∀ (ps : List Nat) (offset : Nat), lo ≤ offset →
      ∀ op ∈ WriteDocIDToPositionListFn_loop_ops ps offset, FileOp.tableOp lo op = true := by
  intro ps
  induction ps with
  | nil => intro offset _ op hop; simp [WriteDocIDToPositionListFn_loop_ops] at hop
  | cons x rest ih =>
    intro offset ho op hop
    simp only [WriteDocIDToPositionListFn_loop_ops, List.cons_append, List.nil_append,
      List.mem_cons] at hop
    rcases hop with rfl | rfl | hop
    · simpa [FileOp.tableOp] using ho
    · rfl
    · exact ih (offset + 4) (by omega) op hop

theorem WriteDocIDToPositionListFn_above (lo : Nat) :
    ElemAbove WriteDocIDToPositionListFn_ops lo := by
  intro p kv ops n hp h
  simp only [WriteDocIDToPositionListFn_ops, Option.some.injEq, Prod.mk.injEq] at h
  rw [← h.1]
  intro op hop
  simp only [List.cons_append, List.nil_append, List.mem_cons] at hop
  rcases hop with rfl | rfl | hop
  · simpa [FileOp.tableOp] using hp
  · rfl
  · exact WriteDocIDToPositionListFn_loop_above lo _ _ (by omega) op hop

theorem WriteWordToPostingsFn_above (lo : Nat) : ElemAbove WriteWordToPostingsFn_ops lo := by
  intro p kv ops n hp h
  simp only [WriteWordToPostingsFn_ops] at h
  cases hs : int16_size kv.value.word.length with
  | none => rw [hs] at h; simp at h
  | some wb =>
    rw [hs] at h
    simp only [] at h
    cases hr : WriteHashTable_ops WriteDocIDToPositionListFn_ops
        (p + sizeof_WordPostingsHeader + wb) kv.value.postings with
    | none => rw [hr] at h; simp at h
    | some r =>
      rw [hr] at h
      simp only [Option.some_bind, Option.some.injEq, Prod.mk.injEq] at h
      rw [← h.1]
      obtain ⟨_, _, hall⟩ := WriteHashTable_ops_above WriteDocIDToPositionListFn_ops lo
        (WriteDocIDToPositionListFn_above lo) kv.value.postings _ r.1 r.2 (by omega) hr
      intro op hop
      simp only [List.mem_append, List.mem_cons, List.mem_singleton] at hop
      rcases hop with hop | rfl | rfl | rfl | hop
      · exact hall op hop
      · simpa [FileOp.tableOp] using hp
      · rfl
      · rfl
      · simp at hop

theorem seekRead_readOnly (op : FileOp) (h : op.seekRead = true) :
    op.readOnly = true ∧ op ≠ FileOp.fsync := by
  cases op <;> simp [FileOp.seekRead] at h <;> exact ⟨rfl, by simp⟩

theorem CalcChecksumOver_reads_seekRead :
    ∀ (n r : Nat), ∀ op ∈ CalcChecksumOver_reads n r, FileOp.seekRead op = true := by
  intro n
  induction n with
  | zero => intro r op hop; simp [CalcChecksumOver_reads] at hop
  | succ n ih =>
    intro r op hop
    simp only [CalcChecksumOver_reads] at hop
    split_ifs at hop with h0 h1
    · rcases List.mem_cons.1 hop with rfl | hop
      · rfl
      · exact ih _ op hop
    · rcases List.mem_cons.1 hop with rfl | hop
      · rfl
      · exact ih _ op hop
    · simp at hop

theorem CalcChecksumOver_ops_seekRead (a b : Nat) :
    ∀ op ∈ CalcChecksumOver_ops a b, FileOp.seekRead op = true := by
  intro op hop
  simp only [CalcChecksumOver_ops, List.mem_cons] at hop
  rcases hop with rfl | hop
  · rfl
  · exact CalcChecksumOver_reads_seekRead _ _ op hop

theorem tableOp_ne_fsync (lo : Nat) (op : FileOp) (h : op.tableOp lo = true) :
    op ≠ FileOp.fsync := by
  cases op <;> simp [FileOp.tableOp] at h ⊢

theorem mem_after_first {α : Type} [DecidableEq α] (x y : α) (r : List α) :
    ∀ (p1 : List α), y ∈ r → y ∈ ((p1 ++ x :: r).dropWhile (fun z => z != x)).tail := by
  intro p1
  induction p1 with
  | nil =>
    intro hy
    simpa [List.dropWhile_cons] using hy
  | cons a p1 ih =>
    intro hy
    by_cases ha : a = x
    · subst ha
      simp only [List.cons_append, List.dropWhile_cons, bne_self_eq_false, Bool.false_eq_true,
        if_false, List.tail_cons, List.mem_append, List.mem_cons]
      exact Or.inr (Or.inr hy)
    · have : (a != x) = true := by simpa using ha
      simp only [List.cons_append, List.dropWhile_cons, this, if_true]
      exact ih hy

theorem readInt_of_LowZero (f : File) (h : LowZero 4 f) (magic : Nat) (hm : magic ≠ 0) :
    readInt f 0 4 ≠ some magic := by
  unfold readInt readBytes
  split_ifs with hl
  · rcases f with _ | ⟨a, _ | ⟨b, _ | ⟨c, _ | ⟨d, rest⟩⟩⟩⟩
    · simp at hl
    · simp at hl
    · simp at hl
    · simp at hl
    · have ha := h 0 (by omega)
      have hb := h 1 (by omega)
      have hc := h 2 (by omega)
      have hd := h 3 (by omega)
      simp only [List.getD_cons_zero, List.getD_cons_succ] at ha hb hc hd
      subst ha hb hc hd
      simp only [List.drop_zero, List.take_succ_cons, List.take_zero, Option.map_some',
        fromBE, List.foldl, ne_eq, Option.some.injEq]
      omega
  · simp

theorem WriteIndex_ops_spec (kMagicNumber : Nat) (crc : List Nat → Nat) (mi : MemIndex)
    (dt : DocTable) (ops : List FileOp) (n : Nat)
    (h : WriteIndex_ops kMagicNumber crc mi dt = some (ops, n)) (s : FileState) :
    ∃ t1 t2 doctable_bytes memidx_bytes f2,
      WriteDocTable_ops dt 16 = some (t1, doctable_bytes) ∧
      WriteMemIndex_ops mi (16 + doctable_bytes) = some (t2, memidx_bytes) ∧
      f2 = (runOps (FileOp.fopen :: (t1 ++ t2)) s).content ∧
      ops = FileOp.fopen :: ((t1 ++ t2) ++
        (CalcChecksumOver_ops doctable_bytes memidx_bytes ++ [.fseek 0, .fseek 0])) ++
        [.fwrite (be32 kMagicNumber ++ be32 (CalcChecksumOver crc f2 doctable_bytes memidx_bytes)
          ++ be32 doctable_bytes ++ be32 memidx_bytes), .fsync, .fclose] ∧
      WriteIndex kMagicNumber crc mi dt =
        some (WriteHeader kMagicNumber crc f2 doctable_bytes memidx_bytes, n) := by
  simp only [WriteIndex_ops, sizeof_IndexFileHeader] at h
  cases h1 : WriteDocTable_ops dt 16 with
  | none => rw [h1] at h; simp at h
  | some r1 =>
    rw [h1, Option.some_bind] at h
    cases h2 : WriteMemIndex_ops mi (16 + r1.2) with
    | none => rw [h2] at h; simp at h
    | some r2 =>
      rw [h2, Option.some_bind] at h
      simp only [Option.some.injEq, Prod.mk.injEq] at h
      obtain ⟨hops, hn⟩ := h
      have l1 := WriteHashTable_link WriteDocidToDocnameFn WriteDocidToDocnameFn_ops
        WriteDocidToDocnameFn_link (DT_GetIDToNameTable dt) [] 0 16
      have h1b : WriteHashTable_ops WriteDocidToDocnameFn_ops 16 (DT_GetIDToNameTable dt) =
          some r1 := h1
      rw [h1b, Option.map_some'] at l1
      have l2 := WriteHashTable_link WriteWordToPostingsFn WriteWordToPostingsFn_ops
        WriteWordToPostingsFn_link mi (runOps r1.1 ⟨[], 0⟩).content (runOps r1.1 ⟨[], 0⟩).pos
        (16 + r1.2)
      have h2b : WriteHashTable_ops WriteWordToPostingsFn_ops (16 + r1.2) mi = some r2 := h2
      rw [h2b, Option.map_some'] at l2
      have hf2 : (runOps (FileOp.fopen :: (r1.1 ++ r2.1)) s).content =
          (runOps r2.1 (runOps r1.1 ⟨[], 0⟩)).content := by
        rw [runOps_cons, runOps_append]
        rfl
      have hf0 : (runOps (FileOp.fopen :: (r1.1 ++ r2.1)) ⟨[], 0⟩).content =
          (runOps r2.1 (runOps r1.1 ⟨[], 0⟩)).content := by
        rw [runOps_cons, runOps_append]
        rfl
      refine ⟨r1.1, r2.1, r1.2, r2.2, _, rfl, h2, rfl, ?_, ?_⟩
      · rw [← hops, hf2, hf0]
        simp only [WriteHeader_ops, List.cons_append, List.append_assoc, List.nil_append]
      · simp only [WriteIndex, WriteDocTable, WriteMemIndex, sizeof_IndexFileHeader, ← l1,
          Option.some_bind, ← l2, hf2, hn]

set_option maxRecDepth 100000 in
/-- C28, as stated, fails: in the operations of `WriteIndex` on the index and
doc table of scenario S3, no write that stores the magic number (a write
whose first four bytes are the magic number) has an `fsync` in front of it.
The one write that does store it is the write of the whole 16-byte header,
the last write of the run, and the only `fsync` follows it. -/
theorem C28_counterexample :
    WriteIndex_ops 0xcafef00d crcS3 indexS3 docTableS3 = some (opsS3, 130) ∧
    ¬ ∃ pre d post, opsS3 = pre ++ FileOp.fwrite d :: post ∧
        d.take 4 = be32 0xcafef00d ∧ FileOp.fsync ∈ pre := by
  refine ⟨by decide, ?_⟩
  rintro ⟨pre, d, post, he, _, hs⟩
  obtain ⟨p1, p2, rfl⟩ := List.append_of_mem hs
  have hm : FileOp.fwrite d ∈ p2 ++ FileOp.fwrite d :: post := by simp
  have := mem_after_first FileOp.fsync (FileOp.fwrite d) _ p1 hm
  have he2 : opsS3 = p1 ++ FileOp.fsync :: (p2 ++ FileOp.fwrite d :: post) := by
    rw [he]
    simp
  rw [← he2] at this
  have e : (opsS3.dropWhile fun z => z != FileOp.fsync).tail = [FileOp.fclose] := by decide
  rw [e] at this
  simp at this

/-- C28 (amended): in the sequence of file operations of a run of
`WriteIndex` that succeeds, the magic number is stored by the last write of
the run: the one write of the 16-byte header at offset 0, which stores the
magic number together with the checksum and the two sizes, followed only by
the `fsync` and the `fclose`. Every byte of the two table regions is written
before that write (the bytes of the file from offset 16 on are final by
then), and no `fsync` precedes it. The sequence writes the file that
`WriteIndex` returns, and after every prefix of the operations in front of
the header write (the `fopen` included) the file has no valid magic number in
its bytes 0..3: they are absent or zero. -/
theorem C28_magic_in_last_write (kMagicNumber : Nat) (crc : List Nat → Nat) (mi : MemIndex)
    (dt : DocTable) (ops : List FileOp) (n : Nat)
    (h : WriteIndex_ops kMagicNumber crc mi dt = some (ops, n)) (hm : kMagicNumber ≠ 0)
    (s : FileState) :
    ∃ rest checksum doctable_bytes memidx_bytes file,
      ops = FileOp.fopen :: rest ++
        [FileOp.fwrite (be32 kMagicNumber ++ be32 checksum ++ be32 doctable_bytes ++
          be32 memidx_bytes), FileOp.fsync, FileOp.fclose] ∧
      WriteIndex kMagicNumber crc mi dt = some (file, n) ∧
      (runOps ops s).content = file ∧
      (∀ op ∈ rest, op ≠ FileOp.fsync) ∧
      (runOps (FileOp.fopen :: rest) s).content.drop 16 = file.drop 16 ∧
      ∀ k, readInt (runOps (FileOp.fopen :: rest.take k) s).content 0 4 ≠
        some kMagicNumber := by
  obtain ⟨t1, t2, dtb, mib, f2, h1, h2, hf2, hops, hw⟩ :=
    WriteIndex_ops_spec kMagicNumber crc mi dt ops n h s
  obtain ⟨r1, e1, a1⟩ := WriteHashTable_ops_above WriteDocidToDocnameFn_ops 16
    (WriteDocidToDocnameFn_above 16) (DT_GetIDToNameTable dt) 16 t1 dtb (le_refl _) h1
  obtain ⟨_, _, a2⟩ := WriteHashTable_ops_above WriteWordToPostingsFn_ops 16
    (WriteWordToPostingsFn_above 16) mi (16 + dtb) t2 mib (by omega) h2
  have hA : ∀ op ∈ t1 ++ t2, FileOp.tableOp 16 op = true := by
    intro op hop
    rcases List.mem_append.1 hop with hop | hop
    · exact a1 op hop
    · exact a2 op hop
  have hB : ∀ op ∈ CalcChecksumOver_ops dtb mib ++ [FileOp.fseek 0, FileOp.fseek 0],
      FileOp.seekRead op = true := by
    intro op hop
    rcases List.mem_append.1 hop with hop | hop
    · exact CalcChecksumOver_ops_seekRead _ _ op hop
    · simp only [List.mem_cons, List.mem_singleton] at hop
      rcases hop with rfl | rfl | hop
      · rfl
      · rfl
      · simp at hop
  have hrest : (runOps (FileOp.fopen :: ((t1 ++ t2) ++
      (CalcChecksumOver_ops dtb mib ++ [FileOp.fseek 0, FileOp.fseek 0]))) s) =
      ⟨f2, 0⟩ := by
    have hc : (runOps (FileOp.fopen :: ((t1 ++ t2) ++
        (CalcChecksumOver_ops dtb mib ++ [FileOp.fseek 0, FileOp.fseek 0]))) s).content =
        f2 := by
      rw [hf2, runOps_cons, runOps_cons, runOps_append,
        readOnly_run _ _ (fun op hop => (seekRead_readOnly op (hB op hop)).1)]
    have hp : (runOps (FileOp.fopen :: ((t1 ++ t2) ++
        (CalcChecksumOver_ops dtb mib ++ [FileOp.fseek 0, FileOp.fseek 0]))) s).pos = 0 := by
      rw [runOps_cons, runOps_append, runOps_append]
      rfl
    generalize runOps (FileOp.fopen :: ((t1 ++ t2) ++
      (CalcChecksumOver_ops dtb mib ++ [FileOp.fseek 0, FileOp.fseek 0]))) s = st at hc hp
    cases st
    simp only at hc hp
    rw [hc, hp]
  refine ⟨(t1 ++ t2) ++ (CalcChecksumOver_ops dtb mib ++ [.fseek 0, .fseek 0]),
    CalcChecksumOver crc f2 dtb mib, dtb, mib, WriteHeader kMagicNumber crc f2 dtb mib,
    hops, hw, ?_, ?_, ?_, ?_⟩
  · rw [hops, runOps_append, hrest]
    rfl
  · intro op hop
    rcases List.mem_append.1 hop with hop | hop
    · exact tableOp_ne_fsync 16 op (hA op hop)
    · exact (seekRead_readOnly op (hB op hop)).2
  · rw [hrest]
    simp only [WriteHeader]
    exact (pwrite_zero_drop f2 (be32 kMagicNumber ++ be32 (CalcChecksumOver crc f2 dtb mib) ++
      be32 dtb ++ be32 mib)).symm
  · intro k
    apply readInt_of_LowZero _ _ _ hm
    rw [runOps_cons, List.take_append_eq_append_take, runOps_append,
      readOnly_run _ _ (fun op hop =>
        (seekRead_readOnly op (hB op (List.mem_of_mem_take hop))).1)]
    have hz : LowZero 16 (FileOp.fopen.run s).content := by
      intro i _
      rfl
    have hA2 : ∀ op ∈ FileOp.fseek 16 :: (r1 ++ t2), FileOp.tableOp 16 op = true := by
      rw [← List.cons_append, ← e1]
      exact hA
    have := tableOps_run_seek 16 16 (r1 ++ t2) k (FileOp.fopen.run s) hA2 hz
    rw [← List.cons_append, ← e1] at this
    intro i hi
    exact this i (by omega)

set_option maxRecDepth 100000 in
theorem C28_witness :
    ∃ rest checksum doctable_bytes memidx_bytes file,
      opsS3 = FileOp.fopen :: rest ++
        [FileOp.fwrite (be32 0xcafef00d ++ be32 checksum ++ be32 doctable_bytes ++
          be32 memidx_bytes), FileOp.fsync, FileOp.fclose] ∧
      WriteIndex 0xcafef00d crcS3 indexS3 docTableS3 = some (file, 130) ∧
      (runOps opsS3 ⟨[], 0⟩).content = file ∧
      (∀ op ∈ rest, op ≠ FileOp.fsync) ∧
      (runOps (FileOp.fopen :: rest) ⟨[], 0⟩).content.drop 16 = file.drop 16 ∧
      ∀ k, readInt (runOps (FileOp.fopen :: rest.take k) ⟨[], 0⟩).content 0 4 ≠
        some 0xcafef00d :=
  C28_magic_in_last_write 0xcafef00d crcS3 indexS3 docTableS3 opsS3 130 (by decide)
    (by decide) ⟨[], 0⟩
/-! ## The doc table: consistency of its two tables -/

/-- C11 (the code breaks the claim): after `DocTable_Add` of the name `a` on
a fresh `DocTable`, `id_to_name` holds `(1, a)`, but `name_to_id` holds no
pair under the key `FNVHash64(a)`: its only pair sits under the key 0, which
is not the hash of the name, and `DocTable_GetDocID(a)` returns
`INVALID_DOCID` instead of 1. -/
theorem C11_tables_inconsistent :
    ∃ dt, DocTable_Add 3 DocTable_Allocate (bytes "a") = some (dt, 1) ∧
      HashTable_Find dt.id_to_name 1 = some ⟨1, bytes "a"⟩ ∧
      HashTable_Find dt.name_to_id (FNVHash64 (bytes "a")) = none ∧
      dt.name_to_id.entries = [⟨0, 1⟩] ∧ FNVHash64 (bytes "a") ≠ 0 ∧
      DocTable_GetDocID dt (bytes "a") = INVALID_DOCID := by
  refine ⟨{ id_to_name := { num_buckets := 2, num_elements := 1, buckets := [[], [⟨1, [97]⟩]] },
            name_to_id := { num_buckets := 2, num_elements := 1, buckets := [[⟨0, 1⟩], []] },
            max_id := 2 }, ?_, ?_, ?_, ?_, ?_, ?_⟩ <;> decide

/-- C12 (the code breaks the claim): on a fresh `DocTable`, `DocTable_Add` of
the name `a` returns 1, and `DocTable_Add` of a different name, whose
`FNVHash64` is 0, returns 1 again: the pair of `name_to_id` sits under the
key 0, where the lookup of the second name finds it. -/
theorem C12_distinct_names_same_id :
    FNVHash64 zeroHashName = 0 ∧ bytes "a" ≠ zeroHashName ∧
    ∃ dt1 dt2, DocTable_Add 3 DocTable_Allocate (bytes "a") = some (dt1, 1) ∧
      DocTable_Add 3 dt1 zeroHashName = some (dt2, 1) := by
  refine ⟨by decide, by decide,
    { id_to_name := { num_buckets := 2, num_elements := 1, buckets := [[], [⟨1, [97]⟩]] },
      name_to_id := { num_buckets := 2, num_elements := 1, buckets := [[⟨0, 1⟩], []] },
      max_id := 2 },
    { id_to_name := { num_buckets := 2, num_elements := 1, buckets := [[], [⟨1, [97]⟩]] },
      name_to_id := { num_buckets := 2, num_elements := 1, buckets := [[⟨0, 1⟩], []] },
      max_id := 2 }, ?_, ?_⟩ <;> decide

/-- C23 (the code breaks the claim): on a fresh `DocTable`, `DocTable_Add` of
the name `a` returns 1; then `DocTable_Add` of the name `zeroHashName`, whose
`FNVHash64` is 0, returns 1 as well and adds nothing, and
`DocTable_GetDocName(1)` is `a`, not the name that was just added. For an id
that was never allocated (2 here) `DocTable_GetDocName` returns NULL. -/
theorem C23_returned_id_names_other_document :
    ∃ dt1 dt2, DocTable_Add 3 DocTable_Allocate (bytes "a") = some (dt1, 1) ∧
      DocTable_Add 3 dt1 zeroHashName = some (dt2, 1) ∧
      DocTable_GetDocName dt2 1 = some (some (bytes "a")) ∧
      bytes "a" ≠ zeroHashName ∧
      DocTable_GetDocName dt2 2 = some none := by
  refine ⟨
    { id_to_name := { num_buckets := 2, num_elements := 1, buckets := [[], [⟨1, [97]⟩]] },
      name_to_id := { num_buckets := 2, num_elements := 1, buckets := [[⟨0, 1⟩], []] },
      max_id := 2 },
    { id_to_name := { num_buckets := 2, num_elements := 1, buckets := [[], [⟨1, [97]⟩]] },
      name_to_id := { num_buckets := 2, num_elements := 1, buckets := [[⟨0, 1⟩], []] },
      max_id := 2 }, ?_, ?_, ?_, ?_, ?_⟩ <;> decide

theorem DocIds_Allocate : DocIds DocTable_Allocate := by
  refine ⟨WF_Allocate 2 (by decide), WF_Allocate 2 (by decide), by decide, ?_, ?_⟩
  · intro k _
    exact Find_Allocate 2 k
  · intro k _
    exact Find_Allocate 2 k

theorem DocTable_Add_keeps (fuel : Nat) (D D2 : DocTable) (doc_name : CString) (id : DocID_t)
    (h : DocIds D) (hmax : D.max_id + 1 < 2 ^ 64)
    (hadd : DocTable_Add fuel D doc_name = some (D2, id)) :
    DocIds D2 ∧ D.max_id ≤ D2.max_id ∧ D2.max_id ≤ D.max_id + 1 ∧
      ∀ k x, DocTable_GetDocName D k = some (some x) →
        DocTable_GetDocName D2 k = some (some x) := by
  obtain ⟨h1, h2, h3, h4, h5⟩ := h
  unfold DocTable_Add at hadd
  simp only at hadd
  by_cases hres : DocTable_GetDocID D doc_name ≠ INVALID_DOCID
  · rw [if_pos hres] at hadd
    simp only [Option.some.injEq, Prod.mk.injEq] at hadd
    rw [← hadd.1]
    exact ⟨⟨h1, h2, h3, h4, h5⟩, le_refl _, Nat.le_succ _, fun k x hk => hk⟩
  · rw [if_neg hres] at hadd
    cases hi1 : HashTable_Insert fuel D.id_to_name ⟨D.max_id, doc_name⟩ with
    | none => rw [hi1] at hadd; simp at hadd
    | some r1 =>
      rw [hi1, Option.some_bind] at hadd
      cases hi2 : HashTable_Insert fuel D.name_to_id
          ⟨DocTable_GetDocID D doc_name, D.max_id⟩ with
      | none => rw [hi2] at hadd; simp at hadd
      | some r2 =>
        rw [hi2, Option.some_bind] at hadd
        simp only [Option.some.injEq, Prod.mk.injEq] at hadd
        obtain ⟨hD, _⟩ := hadd
        have hres0 : DocTable_GetDocID D doc_name = 0 := by
          simpa [INVALID_DOCID] using hres
        have f1 := Find_of_Insert fuel D.id_to_name r1.1 _ r1.2 h1 hi1
        have f2 := Find_of_Insert fuel D.name_to_id r2.1 _ r2.2 h2 hi2
        have w1 := WF_of_Insert fuel D.id_to_name r1.1 _ r1.2 h1 hi1
        have w2 := WF_of_Insert fuel D.name_to_id r2.1 _ r2.2 h2 hi2
        have hm : (D.max_id + 1) % 2 ^ 64 = D.max_id + 1 := Nat.mod_eq_of_lt hmax
        rw [← hD]
        simp only [hm]
        refine ⟨⟨w1, w2, Nat.le_add_left 1 _, ?_, ?_⟩, Nat.le_succ _, le_refl _, ?_⟩
        · intro k hk
          rw [f1 k, if_neg (Nat.ne_of_gt (Nat.lt_of_succ_le hk))]
          exact h4 k (Nat.le_of_succ_le hk)
        · intro k hk
          rw [f2 k, if_neg (by simp only [hres0]; exact hk)]
          exact h5 k hk
        · intro k x hk
          unfold DocTable_GetDocName at hk ⊢
          split_ifs at hk ⊢ with h0
          simp only [Option.some.injEq] at hk ⊢
          rw [f1 k]
          by_cases hkm : k = D.max_id
          · rw [h4 k (le_of_eq hkm.symm)] at hk
            simp at hk
          · rw [if_neg hkm]
            exact hk

theorem DocTable_Add_fresh (f : Nat) (D : DocTable) (doc_name : CString) (h : DocIds D)
    (hn : FNVHash64 doc_name ≠ 0) :
    ∃ D2, DocTable_Add (f + 3) D doc_name = some (D2, D.max_id) ∧
      DocTable_GetDocName D2 D.max_id = some (some doc_name) := by
  obtain ⟨h1, h2, h3, h4, h5⟩ := h
  have hres : DocTable_GetDocID D doc_name = INVALID_DOCID := by
    simp only [DocTable_GetDocID, h5 _ hn]
  obtain ⟨t1, i1, _⟩ := Insert_general f D.id_to_name ⟨D.max_id, doc_name⟩ h1
  obtain ⟨t2, i2, _⟩ := Insert_general f D.name_to_id ⟨INVALID_DOCID, D.max_id⟩ h2
  have f1 := Find_of_Insert (f + 3) D.id_to_name _ _ _ h1 i1 D.max_id
  have hne : D.max_id ≠ INVALID_DOCID := by
    simp only [INVALID_DOCID, DocID_t] at *
    omega
  refine ⟨{ id_to_name := insertPure t1 ⟨D.max_id, doc_name⟩,
            name_to_id := insertPure t2 ⟨INVALID_DOCID, D.max_id⟩,
            max_id := (D.max_id + 1) % 2 ^ 64 }, ?_, ?_⟩
  · simp only [DocTable_Add, hres, ne_eq, not_true_eq_false, if_false, i1, i2,
      Option.some_bind]
  · simp only [DocTable_GetDocName]
    rw [if_neg hne, f1]
    simp

theorem buildDocTable_keeps (fuel : Nat) (names : List CString) :
    ∀ (D D2 : DocTable), DocIds D → D.max_id + names.length < 2 ^ 64 →
      buildDocTable fuel names D = some D2 →
      DocIds D2 ∧ ∀ k x, DocTable_GetDocName D k = some (some x) →
        DocTable_GetDocName D2 k = some (some x) := by
  induction names with
  | nil =>
    intro D D2 h _ hb
    simp only [buildDocTable, Option.some.injEq] at hb
    subst hb
    exact ⟨h, fun k x hk => hk⟩
  | cons n rest ih =>
    intro D D2 h hlen hb
    simp only [List.length_cons] at hlen
    simp only [buildDocTable] at hb
    cases ha : DocTable_Add fuel D n with
    | none => rw [ha] at hb; simp at hb
    | some r =>
      rw [ha, Option.some_bind] at hb
      have hlen2 : D.max_id + 1 < 2 ^ 64 := by
        simp only [DocID_t] at *
        omega
      obtain ⟨g1, g2, g3, g4⟩ := DocTable_Add_keeps fuel D r.1 n r.2 h hlen2 ha
      have hlen3 : r.1.max_id + rest.length < 2 ^ 64 := by
        simp only [DocID_t] at *
        omega
      obtain ⟨e1, e2⟩ := ih r.1 D2 g1 hlen3 hb
      exact ⟨e1, fun k x hk => e2 k x (g4 k x hk)⟩

theorem GetDocName_unallocated (D : DocTable) (h : DocIds D) (k : DocID_t)
    (hk : D.max_id ≤ k) : DocTable_GetDocName D k = some none := by
  obtain ⟨_, _, h3, h4, _⟩ := h
  have hne : k ≠ INVALID_DOCID := by
    simp only [INVALID_DOCID, DocID_t] at *
    omega
  simp only [DocTable_GetDocName]
  rw [if_neg hne, h4 k hk]
  rfl

/-! ## Theorems: the command line of the server (claim C29) -/

/-- C29 (the code breaks the claim): `GetPort("66560", &port)` returns true
and sets `port = 1024`, although 66560 is not in `1024 .. 65535`; so does
`GetPort("-64512", &port)`. The value is cast to `uint16_t` before the test
against the bounds, so that the test `port_num > 65535` cannot fire. Values
that fit in 16 bits are treated as the claim says: `"8080"` and `"65535"` are
accepted, `"80"`, `"1023"`, `"65536"`, `"8080x"` and the empty string are
rejected and leave `port` as it was. -/
theorem C29_port_wraps_modulo_65536 :
    GetPort (bytes "66560") 0 = (true, 1024) ∧
    GetPort (bytes "-64512") 0 = (true, 1024) ∧
    GetPort (bytes "8080") 0 = (true, 8080) ∧
    GetPort (bytes "65535") 0 = (true, 65535) ∧
    GetPort (bytes "1024") 0 = (true, 1024) ∧
    GetPort (bytes "80") 0 = (false, 0) ∧
    GetPort (bytes "1023") 0 = (false, 0) ∧
    GetPort (bytes "65536") 0 = (false, 0) ∧
    GetPort (bytes "8080x") 0 = (false, 0) ∧
    GetPort (bytes "") 0 = (false, 0) := by
  refine ⟨?_, ?_, ?_, ?_, ?_, ?_, ?_, ?_, ?_, ?_⟩ <;> decide

/-! ## Iteration, frame, filter loop, sort, shell, file reading -/

theorem HTIterator_collect_spec {V : Type} :
    ∀ (rem : List (HTKeyValue_t V)) (n : Nat) (it : HTIterator V),
      it.Ok → it.remaining = rem → rem.length ≤ n → (rem ≠ [] → it.ht.num_elements ≠ 0) →
      HTIterator_collect n it = some rem := by
  intro rem
  induction rem with
  | nil =>
    intro n it hok hrem _ _
    have hv := HTIterator_done it hok hrem
    cases n <;> simp [HTIterator_collect, hv]
  | cons x r ih =>
    intro n it hok hrem hlen hne
    obtain ⟨hv, hget, it2, b, hnext, hok2, hrem2, hht⟩ := HTIterator_step it x r hok hrem
    have hn0 := hne (by simp)
    simp only [List.length_cons] at hlen
    cases n with
    | zero => omega
    | succ m =>
      simp only [HTIterator_collect, hv, if_true, hget hn0, hnext, Option.some_bind]
      rw [ih m it2 hok2 hrem2 (by omega) (fun _ => by rw [hht]; exact hn0)]
      rfl

theorem HashTable_iterate_spec {V : Type} (t : HashTable V) (hwf : t.WF)
    (hn : t.num_elements = 0 ↔ t.numNodes = 0) (fuel : Nat) (hfuel : t.numNodes ≤ fuel) :
    HashTable_iterate fuel t = some t.entries := by
  have hlen := entries_length t hwf
  by_cases h0 : t.num_elements = 0
  · have he : t.entries = [] := List.length_eq_zero.1 (by rw [hlen, hn.1 h0])
    obtain ⟨it, h1, h2, h3, h4⟩ := HTIterator_Allocate_zero t h0
    simp only [HashTable_iterate, h1, Option.some_bind, he]
    exact HTIterator_collect_spec [] fuel it h2 h3 (by simp) (by simp)
  · have he : t.entries ≠ [] := by
      intro he
      apply h0
      apply hn.2
      rw [← hlen, he]
      rfl
    obtain ⟨it, h1, h2, h3, h4⟩ := HTIterator_Allocate_spec t h0 he
    simp only [HashTable_iterate, h1, Option.some_bind]
    exact HTIterator_collect_spec t.entries fuel it h2 h3 (by rw [hlen]; exact hfuel)
      (fun _ => by rw [h4]; exact h0)

theorem HashTable_iterate_zero {V : Type} (t : HashTable V) (h0 : t.num_elements = 0)
    (fuel : Nat) : HashTable_iterate fuel t = some [] := by
  cases fuel <;> simp [HashTable_iterate, HTIterator_Allocate, h0, HTIterator_collect,
    HTIterator_IsValid]

/-- C31 (the code breaks the claim): the table after `HashTable_Allocate(2)`,
`HashTable_Insert` of `(1, 10)` and then of `(1, 11)` is reachable and stores
the pair `(1, 11)`, which `HashTable_Find` returns; its `num_elements` is `0`,
so `HTIterator_Allocate` hands out an iterator that is invalid from the start
and the iteration yields no pair at all. -/
theorem C31_iteration_skips_stored_pair :
    Reachable replacedTable ∧
      insertMany 3 [⟨1, 10⟩, ⟨1, 11⟩] (HashTable_Allocate 2) = some replacedTable ∧
      replacedTable.entries = [⟨1, 11⟩] ∧
      HashTable_Find replacedTable 1 = some ⟨1, 11⟩ ∧
      (HTIterator_Allocate replacedTable).map HTIterator_IsValid = some false ∧
      ∀ fuel, HashTable_iterate fuel replacedTable = some [] := by
  refine ⟨?_, by decide, by decide, by decide, by decide,
    fun fuel => HashTable_iterate_zero _ rfl fuel⟩
  exact Reachable_insertMany 3 [⟨1, 10⟩, ⟨1, 11⟩] (HashTable_Allocate 2) _
    (Reachable.alloc 2 (by decide)) (by decide)

theorem Search_filter_take (T : HashTable (LinkedList Nat)) :
    ∀ (j : Nat) (rest done : List SearchResult), j < rest.length →
      MemIndex_Search_filter T j ⟨done, rest⟩ =
        some ⟨done ++ (rest.take j).filterMap (filterResult T), rest.drop j⟩ := by
  intro j
  induction j with
  | zero => intro rest done _; simp [MemIndex_Search_filter]
  | succ j ih =>
    intro rest done hj
    match rest, hj with
    | x :: y :: rest, hj =>
      simp only [List.length_cons] at hj
      simp only [MemIndex_Search_filter, LLIterator_Get, List.head?_cons, Option.some_bind,
        List.take_succ_cons, List.drop_succ_cons, List.filterMap_cons]
      cases hf : HashTable_Find T x.doc_id with
      | some temp =>
        simp only [LLIterator_Next, List.tail_cons, Option.some_bind]
        rw [ih (y :: rest) _ (by simp only [List.length_cons]; omega)]
        simp [filterResult, hf]
      | none =>
        have hx : filterResult T x = none := by simp [filterResult, hf]
        simp only [hx]
        simp only [LLIterator_Remove, LLIterator.list, LinkedList_NumElements,
          List.length_append, List.length_cons]
        have h1 : ¬ done.length + (rest.length + 1 + 1) = 1 := by omega
        simp only [h1, if_false]
        by_cases h2 : done.isEmpty = true
        · have hd : done = [] := List.isEmpty_iff.1 h2
          subst hd
          simp only [List.isEmpty_nil, if_true, Option.some_bind]
          rw [ih (y :: rest) [] (by simp only [List.length_cons]; omega)]
        · simp only [h2, Bool.false_eq_true, if_false, List.isEmpty_cons, Option.some_bind]
          rw [ih (y :: rest) done (by simp only [List.length_cons]; omega)]

/-- C37: in the filtering loop of `MemIndex_Search` over a result list `l`,
for every postings table: after `j < num_docs` turns the loop has not aborted
and the iterator is valid and stands on the `j`-th node of the original list,
so each turn examines the next original result; the `num_docs` turns together
end without an abort and leave the list of the survivors, each original
result dropped or kept (with its rank raised) once, in the original order. -/
theorem C37_filter_loop_iterator_valid (T : HashTable (LinkedList Nat))
    (l : LinkedList SearchResult) :
    (∀ j, ∀ hj : j < LinkedList_NumElements l,
      ∃ it, MemIndex_Search_filter T j (LLIterator_Allocate l) = some it ∧
        LLIterator_IsValid it = true ∧ LLIterator_Get it = some (l.get ⟨j, hj⟩) ∧
        it.node = l.drop j) ∧
    (∃ it, MemIndex_Search_filter T (LinkedList_NumElements l) (LLIterator_Allocate l) = some it ∧
      it.list = l.filterMap (filterResult T)) ∧
    ((l.filterMap (filterResult T)).map fun r => r.doc_id).Sublist (l.map fun r => r.doc_id) := by
  refine ⟨?_, ?_, filterMap_doc_sublist T l⟩
  · intro j hj
    simp only [LinkedList_NumElements] at hj
    refine ⟨_, Search_filter_take T j l [] hj, ?_, ?_, rfl⟩
    · simp only [LLIterator_IsValid, Bool.not_eq_true', List.isEmpty_eq_false_iff_exists_mem]
      exact ⟨l.get ⟨j, hj⟩, by rw [List.drop_eq_getElem_cons hj]; exact List.mem_cons_self _ _⟩
    · simp only [LLIterator_Get]
      rw [List.drop_eq_getElem_cons hj]
      rfl
  · obtain ⟨it, h1, h2⟩ := Search_filter_spec T l []
    exact ⟨it, h1, by rw [h2]; rfl⟩

/-- C37 at the postings table of document `1` and the result list of the
documents `2`, `1`, `3`: after one turn (the head was removed) the iterator
stands on the second original node. -/
theorem C37_witness :
    ∃ it, MemIndex_Search_filter postingsOne 1 (LLIterator_Allocate [⟨2, 3⟩, ⟨1, 1⟩, ⟨3, 2⟩]) =
        some it ∧
      LLIterator_IsValid it = true ∧ LLIterator_Get it = some ⟨1, 1⟩ ∧
      it.node = [⟨1, 1⟩, ⟨3, 2⟩] :=
  (C37_filter_loop_iterator_valid postingsOne [⟨2, 3⟩, ⟨1, 1⟩, ⟨3, 2⟩]).1 1 (by decide)

theorem sweepFrom_filter {α : Type} (asc : Bool) (cmp : α → α → Int) (p : α → Bool)
    (hp : ∀ a b, sortSwaps asc cmp a b = true → p a = true → p b = true → False) :
    ∀ (rest : List α) (a : α),
      (LinkedList_Sort_sweepFrom asc cmp a rest).1.filter p = (a :: rest).filter p := by
  intro rest
  induction rest with
  | nil => intro a; rfl
  | cons b rest ih =>
    intro a
    simp only [LinkedList_Sort_sweepFrom]
    by_cases hs : (if asc = true then wrapInt32 (wrapInt32 (cmp a b) * -1)
        else wrapInt32 (cmp a b)) < 0
    · simp only [hs, if_true]
      have hsw : sortSwaps asc cmp a b = true := by
        simp only [sortSwaps, decide_eq_true_eq]
        exact hs
      simp only [List.filter_cons, ih a]
      by_cases hb : p b = true
      · have ha : ¬ p a = true := fun ha => hp a b hsw ha hb
        simp [hb, ha]
      · simp [hb]
    · simp only [hs, if_false]
      simp only [List.filter_cons, ih b]

theorem sweep_filter {α : Type} (asc : Bool) (cmp : α → α → Int) (p : α → Bool)
    (hp : ∀ a b, sortSwaps asc cmp a b = true → p a = true → p b = true → False)
    (l : List α) : (LinkedList_Sort_sweep asc cmp l).1.filter p = l.filter p := by
  cases l with
  | nil => rfl
  | cons a rest => exact sweepFrom_filter asc cmp p hp rest a

theorem Sort_loop_filter {α : Type} (asc : Bool) (cmp : α → α → Int) (p : α → Bool)
    (hp : ∀ a b, sortSwaps asc cmp a b = true → p a = true → p b = true → False) :
    ∀ (fuel : Nat) (l l2 : List α), LinkedList_Sort_loop asc cmp fuel l = some l2 →
      l2.filter p = l.filter p := by
  intro fuel
  induction fuel with
  | zero => intro l l2 h; simp [LinkedList_Sort_loop] at h
  | succ f ih =>
    intro l l2 h
    simp only [LinkedList_Sort_loop] at h
    by_cases hf : (LinkedList_Sort_sweep asc cmp l).2 = true
    · rw [if_pos hf] at h
      rw [ih _ _ h, sweep_filter asc cmp p hp]
    · rw [if_neg hf] at h
      simp only [Option.some.injEq] at h
      rw [← h, sweep_filter asc cmp p hp]

theorem Sort_filter {α : Type} (asc : Bool) (cmp : α → α → Int) (p : α → Bool)
    (hp : ∀ a b, sortSwaps asc cmp a b = true → p a = true → p b = true → False)
    (fuel : Nat) (l l2 : List α) (h : LinkedList_Sort fuel l asc cmp = some l2) :
    l2.filter p = l.filter p := by
  unfold LinkedList_Sort at h
  split_ifs at h
  · simp only [Option.some.injEq] at h
    rw [h]
  · exact Sort_loop_filter asc cmp p hp fuel l l2 h

theorem sortSwaps_true_iff {α : Type} (cmp : α → α → Int) (a b : α)
    (h1 : -2 ^ 31 < cmp a b) (h2 : cmp a b < 2 ^ 31) :
    sortSwaps true cmp a b = true ↔ 0 < cmp a b := by
  rw [sortSwaps_of_range true cmp a b h1 h2]
  simp only [if_true, decide_eq_true_eq]
  omega

theorem sortSwaps_false_iff {α : Type} (cmp : α → α → Int) (a b : α)
    (h1 : -2 ^ 31 < cmp a b) (h2 : cmp a b < 2 ^ 31) :
    sortSwaps false cmp a b = true ↔ cmp a b < 0 := by
  rw [sortSwaps_of_range false cmp a b h1 h2]
  simp only [Bool.false_eq_true, if_false, decide_eq_true_eq]

theorem Sort_loop_cmpIntMin : ∀ fuel : Nat,
    LinkedList_Sort_loop true cmpIntMin fuel [1, 2] = none ∧
      LinkedList_Sort_loop true cmpIntMin fuel [2, 1] = none := by
  have h12 : LinkedList_Sort_sweep true cmpIntMin [1, 2] = ([2, 1], true) := by decide
  have h21 : LinkedList_Sort_sweep true cmpIntMin [2, 1] = ([1, 2], true) := by decide
  intro fuel
  induction fuel with
  | zero => exact ⟨rfl, rfl⟩
  | succ n ih =>
    constructor
    · simp only [LinkedList_Sort_loop, h12, if_true]
      exact ih.2
    · simp only [LinkedList_Sort_loop, h21, if_true]
      exact ih.1

/-- C38, counterexample: `cmpIntMin` is a three-way comparator and a total
preorder (the sign of `cmp a b` is the opposite of the sign of `cmp b a`,
`cmp a b <= 0` is transitive) whose results are all `int` values, and the
ascending `LinkedList_Sort` of the sorted list `1, 2` does not return with any
bound on the number of sweeps: `compare_result` is `INT_MIN`, its 32-bit
product with `-1` is `INT_MIN` again, the sorted pair is swapped, the next
sweep swaps it back, and `swapped` is set after every sweep. -/
theorem C38_counterexample :
    (∀ a b, cmpIntMin a b < 0 ↔ 0 < cmpIntMin b a) ∧
      (∀ a b c, cmpIntMin a b ≤ 0 → cmpIntMin b c ≤ 0 → cmpIntMin a c ≤ 0) ∧
      (∀ a b, -2 ^ 31 ≤ cmpIntMin a b ∧ cmpIntMin a b < 2 ^ 31) ∧
      (LinkedList_Sort_sweep true cmpIntMin [1, 2] = ([2, 1], true)) ∧
      (LinkedList_Sort_sweep true cmpIntMin [2, 1] = ([1, 2], true)) ∧
      ∀ fuel, LinkedList_Sort fuel [1, 2] true cmpIntMin = none := by
  refine ⟨?_, ?_, ?_, by decide, by decide, ?_⟩
  · intro a b
    simp only [cmpIntMin]
    split_ifs <;> omega
  · intro a b c
    simp only [cmpIntMin]
    split_ifs <;> omega
  · intro a b
    simp only [cmpIntMin]
    split_ifs <;> decide
  · intro fuel
    have h := (Sort_loop_cmpIntMin fuel).1
    simp only [LinkedList_Sort, LinkedList_NumElements]
    exact h

/-- C38: for a three-way comparator that is a total preorder (the sign of
`cmp a b` is the opposite of the sign of `cmp b a`, and `cmp a b <= 0` is
transitive) whose results are `int` values other than `INT_MIN`, and every
list, `LinkedList_Sort` returns with every bound on the number of sweeps
above the number of inversions, always the same list; that list is a
permutation of the original, in non-decreasing order when `ascending` is true
and in non-increasing order when it is false, and for every payload `x` the
payloads that compare equal to `x` stand in it in their original order. -/
theorem C38_sort_total_preorder {α : Type} (cmp : α → α → Int)
    (hanti : ∀ a b, cmp a b < 0 ↔ 0 < cmp b a)
    (htrans : ∀ a b c, cmp a b ≤ 0 → cmp b c ≤ 0 → cmp a c ≤ 0)
    (hrange : ∀ a b, -2 ^ 31 < cmp a b ∧ cmp a b < 2 ^ 31)
    (ascending : Bool) (l : LinkedList α) :
    ∃ l2, (∀ fuel, invCount (sortSwaps ascending cmp) l < fuel →
        LinkedList_Sort fuel l ascending cmp = some l2) ∧
      l2.Perm l ∧
      (ascending = true → l2.Pairwise fun x y => cmp x y ≤ 0) ∧
      (ascending = false → l2.Pairwise fun x y => 0 ≤ cmp x y) ∧
      ∀ x, (l2.filter fun y => decide (cmp x y = 0)) = l.filter fun y => decide (cmp x y = 0) := by
  have hT : ∀ a b, sortSwaps true cmp a b = true ↔ 0 < cmp a b :=
    fun a b => sortSwaps_true_iff cmp a b (hrange a b).1 (hrange a b).2
  have hF : ∀ a b, sortSwaps false cmp a b = true ↔ cmp a b < 0 :=
    fun a b => sortSwaps_false_iff cmp a b (hrange a b).1 (hrange a b).2
  have hge : ∀ a b, 0 ≤ cmp a b ↔ cmp b a ≤ 0 := by
    intro a b
    have h1 := hanti a b
    have h2 := hanti b a
    constructor <;> intro h <;> omega
  have hasym : ∀ a b, sortSwaps ascending cmp a b = true → sortSwaps ascending cmp b a = false := by
    intro a b h
    have h1 := hanti a b
    have h2 := hanti b a
    cases ascending
    · have h3 := (hF a b).1 h
      have h4 : ¬ sortSwaps false cmp b a = true := fun h5 => by
        have := (hF b a).1 h5
        omega
      simpa using h4
    · have h3 := (hT a b).1 h
      have h4 : ¬ sortSwaps true cmp b a = true := fun h5 => by
        have := (hT b a).1 h5
        omega
      simpa using h4
  obtain ⟨l2, hperm, hfuel⟩ := Sort_stable ascending cmp hasym l
  have hrun := hfuel _ (Nat.lt_succ_self _)
  have hc := Sort_chain ascending cmp _ l l2 hrun
  refine ⟨l2, hfuel, hperm, ?_, ?_, ?_⟩
  · intro hasc
    subst hasc
    haveI : IsTrans α (fun x y => cmp x y ≤ 0) := ⟨htrans⟩
    rw [← List.chain'_iff_pairwise]
    apply List.Chain'.imp _ hc
    intro a b hab
    have h3 : ¬ 0 < cmp a b := fun h => by
      rw [(hT a b).2 h] at hab
      exact Bool.noConfusion hab
    omega
  · intro hasc
    subst hasc
    haveI : IsTrans α (fun x y => 0 ≤ cmp x y) :=
      ⟨fun a b c hab hbc => (hge a c).2 (htrans c b a ((hge b c).1 hbc) ((hge a b).1 hab))⟩
    rw [← List.chain'_iff_pairwise]
    apply List.Chain'.imp _ hc
    intro a b hab
    have h3 : ¬ cmp a b < 0 := fun h => by
      rw [(hF a b).2 h] at hab
      exact Bool.noConfusion hab
    omega
  · intro x
    apply Sort_filter ascending cmp _ _ _ l l2 hrun
    intro a b hsw ha hb
    simp only [decide_eq_true_eq] at ha hb
    have hxa : cmp a x ≤ 0 := (hge x a).1 (le_of_eq ha.symm)
    have hbx : cmp b x ≤ 0 := (hge x b).1 (le_of_eq hb.symm)
    have hab : cmp a b ≤ 0 := htrans a x b hxa (le_of_eq hb)
    have hba : cmp b a ≤ 0 := htrans b x a hbx (le_of_eq ha)
    have h1 := hanti a b
    have h2 := hanti b a
    cases ascending
    · have := (hF a b).1 hsw
      omega
    · have := (hT a b).1 hsw
      omega

/-- C38 at the comparison of first components, descending, on a list with two
pairs that compare equal: seven sweeps are enough, the result is in
non-increasing order and the two pairs with first component `1` keep their
order. -/
theorem C38_witness :
    ∃ l2, LinkedList_Sort 7 [(1, 0), (2, 1), (1, 2), (3, 3)] false cmpFst = some l2 ∧
      l2.Perm [(1, 0), (2, 1), (1, 2), (3, 3)] ∧
      (l2.Pairwise fun x y => 0 ≤ cmpFst x y) ∧
      (l2.filter fun y => decide (cmpFst (1, 0) y = 0)) = [(1, 0), (1, 2)] :=
  match C38_sort_total_preorder cmpFst
    (fun a b => by simp only [cmpFst]; split_ifs <;> omega)
    (fun a b c => by simp only [cmpFst]; split_ifs <;> omega)
    (fun a b => by simp only [cmpFst]; split_ifs <;> decide)
    false [(1, 0), (2, 1), (1, 2), (3, 3)] with
  | ⟨l2, h1, h2, _, h4, h5⟩ => ⟨l2, h1 7 (by decide), h2, h4 rfl, h5 (1, 0)⟩

theorem SplitQuery_loop_blank : ∀ (n : Nat) (ss : List Nat),
    (∀ b ∈ ss, isspace b = true) → SplitQuery_loop n ss = [] := by
  intro n ss h
  cases n with
  | zero => rfl
  | succ n =>
    have : ss.dropWhile isspace = [] := List.dropWhile_eq_nil_iff.2 h
    simp [SplitQuery_loop, this]

theorem SplitQuery_loop_word (n : Nat) (ss : List Nat) (b : Nat) (hb : b ∈ ss)
    (hs : isspace b = false) : SplitQuery_loop (n + 1) ss ≠ [] := by
  have : ss.dropWhile isspace ≠ [] := by
    intro h
    have := List.dropWhile_eq_nil_iff.1 h b hb
    rw [hs] at this
    exact Bool.false_ne_true this
  simp [SplitQuery_loop, this]

theorem SplitQuery_eq_nil_iff (query : List Nat) :
    SplitQuery query = [] ↔ ∀ b ∈ query, isspace b = true := by
  constructor
  · intro h b hb
    by_contra hs
    have hs2 : isspace b = false := by simpa using hs
    cases query with
    | nil => simp at hb
    | cons x rest =>
      exact SplitQuery_loop_word rest.length (x :: rest) b hb hs2 h
  · exact SplitQuery_loop_blank _ _

/-- C33 (the code breaks the claim): for the empty line and for a line of
blanks and a tab `SplitQuery` leaves the vector empty, and the shell passes it
on, so `ProcessQuery` aborts on its assertion, whatever the index files;
`SplitQuery` gives an empty vector exactly for the lines without a byte that
is not whitespace. -/
theorem C33_empty_line_aborts :
    SplitQuery (bytes "") = [] ∧ SplitQuery [32, 32, 9, 32] = [] ∧
      (∀ readers, shellQuery readers (bytes "") = none) ∧
      (∀ readers, shellQuery readers [32, 32, 9, 32] = none) ∧
      SplitQuery (bytes "The  FOX") = [bytes "the", bytes "fox"] ∧
      ∀ query, SplitQuery query = [] ↔ ∀ b ∈ query, isspace b = true := by
  refine ⟨by decide, by decide, fun _ => rfl, fun _ => ?_, by decide, SplitQuery_eq_nil_iff⟩
  have h : SplitQuery [32, 32, 9, 32] = [] := by decide
  simp only [shellQuery, h, ProcessQuery]

theorem ReadFileToStrWork_ok : ∀ (outcomes : List ReadOutcome) (left : Nat),
    left < 2 ^ 64 → ReadsOk outcomes left = true → ∀ r, ReadFileToStrWork outcomes left = some r →
      r = 0 ∧ bytesRead outcomes left = left := by
  intro outcomes
  induction outcomes with
  | nil =>
    intro left _ _ r h
    unfold ReadFileToStrWork at h
    unfold bytesRead
    by_cases h0 : left = 0
    · simp only [h0, if_true, Option.some.injEq] at h ⊢
      exact ⟨h.symm, trivial⟩
    · simp [h0] at h
  | cons o rest ih =>
    intro left hl hok r h
    unfold ReadFileToStrWork at h
    unfold bytesRead
    by_cases h0 : left = 0
    · simp only [h0, if_true, Option.some.injEq] at h ⊢
      exact ⟨h.symm, trivial⟩
    · simp only [h0, if_false] at h ⊢
      cases o with
      | error => simp only [ReadsOk, beq_iff_eq] at hok; exact absurd hok h0
      | eintr => exact ih left hl hok r h
      | eagain => exact ih left hl hok r h
      | bytes n =>
        simp only [ReadsOk, Bool.or_eq_true, beq_iff_eq, Bool.and_eq_true,
          decide_eq_true_eq] at hok
        rcases hok with hok | ⟨hn, hok⟩
        · exact absurd hok h0
        · have he : (left + 2 ^ 64 - n) % 2 ^ 64 = left - n := by omega
          simp only [he] at h ⊢
          obtain ⟨h1, h2⟩ := ih (left - n) (by omega) hok r h
          exact ⟨h1, by omega⟩

theorem ReadFileToString_ok (st_size : Nat) (hs : st_size < 2 ^ 31) (outcomes : List ReadOutcome)
    (hok : ReadsOk outcomes st_size = true) (r : ReadFileResult)
    (h : ReadFileToString st_size outcomes = some r) :
    r.size = st_size ∧ r.size = bytesRead outcomes st_size ∧ r.size < r.buf_len := by
  have hm : st_size % 2 ^ 64 = st_size := Nat.mod_eq_of_lt (by omega)
  simp only [ReadFileToString, hm, Option.map_eq_some'] at h
  obtain ⟨left, h1, h2⟩ := h
  obtain ⟨h3, h4⟩ := ReadFileToStrWork_ok outcomes st_size (by omega) hok left h1
  subst h3
  rw [← h2]
  have h5 : (st_size + 2 ^ 64 - 0) % 2 ^ 64 = st_size := by omega
  have h6 : st_size % 2 ^ 32 = st_size := Nat.mod_eq_of_lt (by omega)
  simp only [h5, toInt32, h6, hs, if_true, h4, true_and]
  omega

/-- C39 (the code breaks the claim): for a file of five bytes whose first
`read` fails hard, and for one whose first `read` stores two bytes and whose
second fails hard, `ReadFileToStrWork` returns `(size_t) -1`, so
`ReadFileToString` stores `6` through `size`, more than the size of the file
and than the bytes read (none, two), and writes the terminator at index `6`
of its buffer of six bytes. -/
theorem C39_hard_error_overruns_buffer :
    ReadFileToStrWork [ReadOutcome.error] 5 = some (2 ^ 64 - 1) ∧
      ReadFileToString 5 [ReadOutcome.error] = some { buf_len := 6, size := 6 } ∧
      bytesRead [ReadOutcome.error] 5 = 0 ∧
      ReadFileToString 5 [ReadOutcome.bytes 2, ReadOutcome.error] =
        some { buf_len := 6, size := 6 } ∧
      bytesRead [ReadOutcome.bytes 2, ReadOutcome.error] 5 = 2 ∧
      ReadFileToString 5 [ReadOutcome.bytes 2, ReadOutcome.eintr, ReadOutcome.bytes 3] =
        some { buf_len := 6, size := 5 } := by
  refine ⟨by decide, by decide, by decide, by decide, by decide, by decide⟩

theorem WriteHashTable_records {V : Type} (fn : WriteElementFn V) (sz : HTKeyValue_t V → Nat)
    (hfn : ElemLayout fn sz) (f : File) (offset : Nat) (ht : HashTable V) (f2 : File)
    (n : Nat) (h : WriteHashTable fn f offset ht = some (f2, n)) (hb : offset + n < 2 ^ 31) :
    ∀ i, i < ht.num_buckets →
      readInt f2 (offset + 4 + 8 * i) 4 = some (ht.chain i).length ∧
      readInt f2 (offset + 4 + 8 * i + 4) 4 = some (specBucketOffset sz offset ht i) := by
  simp only [WriteHashTable, sizeof_BucketListHeader, sizeof_BucketRecord] at h
  cases hl : WriteHashTable_loop fn ht ht.num_buckets 0 (pwrite f offset (be32 ht.num_buckets))
      (offset + 4) (offset + 4 + ht.num_buckets * 8) with
  | none => rw [hl] at h; simp at h
  | some r =>
    obtain ⟨f3, e⟩ := r
    rw [hl] at h
    simp only [Option.map_some', Option.some.injEq, Prod.mk.injEq] at h
    obtain ⟨rfl, rfl⟩ := h
    obtain ⟨i0, i1, i2, i3, i4, i5⟩ := WriteHashTable_loop_layout fn sz hfn ht _ _ _ _ _ _ _ hl
      (by omega)
    have hoe : offset + (e - offset) = e := by omega
    rw [hoe] at hb
    intro i hi
    obtain ⟨q1, q2⟩ := i5 i hi
    simp only [Nat.zero_add] at q1 q2
    obtain ⟨r1, r2⟩ := (Holds_append f3 _ _ _).1 q1
    rw [be32_length] at r2
    have hm1 := specBucketsBytes_mono sz ht 0 (i + 1) ht.num_buckets (by omega)
    rw [specBucketsBytes_succ, Nat.zero_add] at hm1
    have hbb : specBucketBytes sz (ht.chain i) =
        4 * (ht.chain i).length + ((ht.chain i).map sz).sum := rfl
    have hbo : specBucketOffset sz offset ht i =
        offset + 4 + ht.num_buckets * 8 + specBucketsBytes sz ht 0 i := by
      rw [specBucketOffset]; omega
    rw [hbo]
    exact ⟨readInt_of_Holds32 f3 _ _ r1 (by omega), readInt_of_Holds32 f3 _ _ r2 (by omega)⟩

theorem specBucketsBytes_empty {V : Type} (sz : HTKeyValue_t V → Nat) (ht : HashTable V)
    (i : Nat) : ∀ k, i ≤ k → (∀ m, i ≤ m → m < k → ht.chain m = []) →
      specBucketsBytes sz ht 0 k = specBucketsBytes sz ht 0 i := by
  intro k
  induction k with
  | zero =>
    intro h _
    rw [Nat.le_zero.1 h]
  | succ k ih =>
    intro h he
    by_cases hk : i = k + 1
    · rw [hk]
    · rw [specBucketsBytes_succ, Nat.zero_add, he k (by omega) (by omega),
        ih (by omega) (fun m h1 h2 => he m h1 (by omega))]
      simp [specBucketBytes]

/-- C32 (amended): when `WriteHashTable(f, offset, ht, fn)` succeeds with a
result `n` and the table ends below `2^31`, the file reaches the end of the
table, and the bucket record of every bucket holds a `bucket_offset` that is
at most `offset + n`, the end of the table, so at most the length of the
file; it is strictly below the end of the table for a non-empty bucket. The
record of an empty bucket holds `chain_len = 0`, its `bucket_offset` is the
one recorded for every later bucket that only empty buckets separate from it,
so the offset at which the data of the next non-empty bucket begins, and it
is the end of the table when no non-empty bucket follows. -/
theorem C32_empty_bucket_offset {V : Type} (fn : WriteElementFn V) (sz : HTKeyValue_t V → Nat)
    (hfn : ElemLayout fn sz) (f : File) (offset : Nat) (ht : HashTable V) (f2 : File)
    (n : Nat) (h : WriteHashTable fn f offset ht = some (f2, n)) (hb : offset + n < 2 ^ 31) :
    offset + n ≤ f2.length ∧
    ∀ i, i < ht.num_buckets →
      ∃ b, readInt f2 (offset + 4 + 8 * i + 4) 4 = some b ∧
        b = specBucketOffset sz offset ht i ∧ b ≤ offset + n ∧
        (ht.chain i ≠ [] → b < offset + n) ∧
        (ht.chain i = [] →
          readInt f2 (offset + 4 + 8 * i) 4 = some 0 ∧
          (∀ k, i < k → k < ht.num_buckets → (∀ m, i ≤ m → m < k → ht.chain m = []) →
            readInt f2 (offset + 4 + 8 * k + 4) 4 = some b ∧
              b = specBucketOffset sz offset ht k) ∧
          ((∀ m, i ≤ m → m < ht.num_buckets → ht.chain m = []) → b = offset + n)) := by
  obtain ⟨hn, _, hlen, _⟩ := WriteHashTable_size fn sz hfn f offset ht f2 n h
  have hrec := WriteHashTable_records fn sz hfn f offset ht f2 n h hb
  refine ⟨hlen, ?_⟩
  intro i hi
  obtain ⟨r1, r2⟩ := hrec i hi
  have hm1 := specBucketsBytes_mono sz ht 0 (i + 1) ht.num_buckets (by omega)
  rw [specBucketsBytes_succ, Nat.zero_add] at hm1
  refine ⟨_, r2, rfl, ?_, ?_, ?_⟩
  · rw [specBucketOffset, hn]; omega
  · intro hne
    have hpos : 0 < (ht.chain i).length := List.length_pos.2 hne
    have : 4 * (ht.chain i).length ≤ specBucketBytes sz (ht.chain i) := by
      simp [specBucketBytes]
    rw [specBucketOffset, hn]
    omega
  · intro he
    refine ⟨by rw [r1, he]; rfl, ?_, ?_⟩
    · intro k hik hk hem
      have hkk := (hrec k hk).2
      have : specBucketOffset sz offset ht k = specBucketOffset sz offset ht i := by
        rw [specBucketOffset, specBucketOffset,
          specBucketsBytes_empty sz ht i k (by omega) hem]
      rw [this] at hkk
      exact ⟨hkk, this.symm⟩
    · intro hem
      rw [specBucketOffset, hn,
        specBucketsBytes_empty sz ht i ht.num_buckets (by omega) hem]
      omega

set_option maxRecDepth 100000 in
/-- C32, the part that fails: the table `tableS32` written at offset 0 of an
empty file gives a file of 40 bytes in which the record of the empty bucket 1
holds the `bucket_offset` 40, the length of the file; and in the index file
of scenario S3, 130 bytes long, the record at offset 67 (the empty bucket 1
of the word table) holds the `bucket_offset` 130. -/
theorem C32_counterexample :
    WriteHashTable WriteDocIDToPositionListFn [] 0 tableS32 = some (fileS32, 40) ∧
      fileS32.length = 40 ∧ tableS32.chain 1 = [] ∧
      readInt fileS32 (0 + 4 + 8 * 1) 4 = some 0 ∧
      readInt fileS32 (0 + 4 + 8 * 1 + 4) 4 = some 40 ∧
      WriteIndex 0xcafef00d crcS3 indexS3 docTableS3 = some (fileS3, 130) ∧
      fileS3.length = 130 ∧ readInt fileS3 67 4 = some 0 ∧ readInt fileS3 71 4 = some 130 := by
  refine ⟨by decide, by decide, by decide, by decide, by decide, by decide, by decide, by decide,
    by decide⟩

set_option maxRecDepth 100000 in
/-- C32 at `tableS32`, written at offset 0 of an empty file, for its empty
bucket 1, which no bucket follows: the record holds `chain_len = 0` and the
end of the table, which is at most the length of the file. -/
theorem C32_witness :
    ∃ b, readInt fileS32 (0 + 4 + 8 * 1 + 4) 4 = some b ∧ b ≤ 0 + 40 ∧
      readInt fileS32 (0 + 4 + 8 * 1) 4 = some 0 ∧ b = 0 + 40 :=
  match (C32_empty_bucket_offset WriteDocIDToPositionListFn sizeDocIDElement
    WriteDocIDToPositionListFn_layout [] 0 tableS32 fileS32 40 (by decide) (by decide)).2 1
    (by decide) with
  | ⟨b, h1, _, h3, _, h5⟩ =>
    ⟨b, h1, h3, (h5 rfl).1, (h5 rfl).2.2 (fun m hm1 hm2 => by
      have hm : m = 1 := Nat.le_antisymm (Nat.le_of_lt_succ hm2) hm1
      rw [hm]
      rfl)⟩

theorem run_posAfter (op : FileOp) (s : FileState) : (op.run s).pos = op.posAfter s.pos := by
  cases op <;> rfl

theorem writtenOffsets_append (a b : List FileOp) :
    ∀ s : FileState, writtenOffsets (a ++ b) s.pos =
      writtenOffsets a s.pos ++ writtenOffsets b (runOps a s).pos := by
  induction a with
  | nil => intro s; rfl
  | cons op a ih =>
    intro s
    simp only [List.cons_append, writtenOffsets, runOps_cons, List.append_assoc]
    have := ih (op.run s)
    rw [run_posAfter] at this
    exact congrArg (fun l => op.written s.pos ++ l) this

theorem OpsCover_nil (B : Nat) : OpsCover [] [] B := by
  intro s
  exact ⟨List.Perm.refl _, le_max_left _ _⟩

theorem OpsCover_append (a b : List FileOp) (L1 L2 : List Nat) (B1 B2 : Nat)
    (ha : OpsCover a L1 B1) (hb : OpsCover b L2 B2) :
    OpsCover (a ++ b) (L1 ++ L2) (max B1 B2) := by
  intro s
  rw [writtenOffsets_append, runOps_append]
  refine ⟨List.Perm.append (ha s).1 (hb (runOps a s)).1, ?_⟩
  have h1 := (ha s).2
  have h2 := (hb (runOps a s)).2
  omega

theorem OpsCover_mono (ops : List FileOp) (L L2 : List Nat) (B B2 : Nat)
    (h : OpsCover ops L B) (hp : L.Perm L2) (hb : B ≤ B2) : OpsCover ops L2 B2 := by
  intro s
  refine ⟨(h s).1.trans hp, ?_⟩
  have := (h s).2
  omega

theorem range_add (s m n : Nat) :
    List.range' s (m + n) = List.range' s m ++ List.range' (s + m) n := by
  rw [List.range'_append_1, Nat.add_comm]

theorem OpsCover_seek_write (o : Nat) (d : List Nat) :
    OpsCover [.fseek o, .fwrite d] (List.range' o d.length) (o + d.length) := by
  intro s
  refine ⟨by simp [writtenOffsets, FileOp.written, FileOp.posAfter], ?_⟩
  rw [runOps_seek_write, runOps_nil]
  simp only [pwrite_length]
  omega

theorem OpsCover_seek_write_write (o : Nat) (d1 d2 : List Nat) :
    OpsCover [.fseek o, .fwrite d1, .fwrite d2] (List.range' o (d1.length + d2.length))
      (o + (d1.length + d2.length)) := by
  intro s
  refine ⟨?_, ?_⟩
  · simp only [writtenOffsets, FileOp.written, FileOp.posAfter, List.nil_append,
      List.append_nil]
    rw [range_add]
  rw [runOps_seek_write]
  simp only [runOps, List.foldl, FileOp.run, pwrite_length]
  omega

theorem perm_swap_middle (A B C D : List Nat) :
    ((A ++ B) ++ (C ++ D)).Perm ((A ++ C) ++ (B ++ D)) := by
  simp only [List.append_assoc]
  apply List.Perm.append_left
  rw [← List.append_assoc, ← List.append_assoc]
  apply List.Perm.append_right
  exact List.perm_append_comm

theorem WriteHTBucket_loop_cover {V : Type} (fn_ops : WriteElementOps V)
    (hc : ElemCover fn_ops) :
    ∀ (li : List (HTKeyValue_t V)) (rp ep : Nat) (ops : List FileOp) (e : Nat),
      WriteHTBucket_loop_ops fn_ops li rp ep = some (ops, e) →
      ep ≤ e ∧
      OpsCover ops (List.range' rp (4 * li.length) ++ List.range' ep (e - ep))
        (max (rp + 4 * li.length) e) := by
  intro li
  induction li with
  | nil =>
    intro rp ep ops e h
    simp only [WriteHTBucket_loop_ops, Option.some.injEq, Prod.mk.injEq] at h
    obtain ⟨rfl, rfl⟩ := h
    refine ⟨le_refl _, ?_⟩
    simpa using OpsCover_nil (max rp ep)
  | cons payload rest ih =>
    intro rp ep ops e h
    simp only [WriteHTBucket_loop_ops, sizeof_ElementPositionRecord] at h
    cases h1 : fn_ops ep payload with
    | none => rw [h1] at h; simp at h
    | some r =>
      rw [h1] at h
      simp only [Option.some_bind] at h
      cases h2 : WriteHTBucket_loop_ops fn_ops rest (rp + 4) (ep + r.2) with
      | none => rw [h2] at h; simp at h
      | some r2 =>
        rw [h2] at h
        simp only [Option.map_some', Option.some.injEq, Prod.mk.injEq] at h
        obtain ⟨rfl, rfl⟩ := h
        obtain ⟨hle, hrest⟩ := ih (rp + 4) (ep + r.2) r2.1 r2.2 h2
        have helem := hc ep payload r.1 r.2 h1
        have hrec := OpsCover_seek_write rp (be32 ep)
        rw [be32_length] at hrec
        refine ⟨by omega, ?_⟩
        have hall := OpsCover_append _ _ _ _ _ _ (OpsCover_append _ _ _ _ _ _ hrec helem) hrest
        apply OpsCover_mono _ _ _ _ _ hall
        · simp only [List.length_cons]
          rw [show 4 * (rest.length + 1) = 4 + 4 * rest.length by omega, range_add,
            show r2.2 - ep = r.2 + (r2.2 - (ep + r.2)) by omega, range_add]
          exact perm_swap_middle _ _ _ _
        · simp only [List.length_cons]
          omega

theorem WriteHTBucket_cover {V : Type} (fn_ops : WriteElementOps V) (hc : ElemCover fn_ops)
    (li : List (HTKeyValue_t V)) (offset : Nat) (ops : List FileOp) (n : Nat)
    (h : WriteHTBucket_ops fn_ops offset li = some (ops, n)) :
    OpsCover ops (List.range' offset n) (offset + n) := by
  simp only [WriteHTBucket_ops, LinkedList_NumElements, sizeof_ElementPositionRecord] at h
  split_ifs at h with h0
  · simp only [Option.some.injEq, Prod.mk.injEq] at h
    obtain ⟨rfl, rfl⟩ := h
    simpa using OpsCover_nil (offset + 0)
  · cases h1 : WriteHTBucket_loop_ops fn_ops li offset (offset + 4 * li.length) with
    | none => rw [h1] at h; simp at h
    | some r =>
      rw [h1] at h
      simp only [Option.map_some', Option.some.injEq, Prod.mk.injEq] at h
      obtain ⟨rfl, rfl⟩ := h
      obtain ⟨hle, hcov⟩ := WriteHTBucket_loop_cover fn_ops hc li _ _ _ _ h1
      apply OpsCover_mono _ _ _ _ _ hcov
      · rw [show r.2 - offset = 4 * li.length + (r.2 - (offset + 4 * li.length)) by omega,
          range_add]
      · omega

theorem WriteHashTable_loop_cover {V : Type} (fn_ops : WriteElementOps V)
    (hc : ElemCover fn_ops) (ht : HashTable V) :
    ∀ (n i rp bp : Nat) (ops : List FileOp) (e : Nat),
      WriteHashTable_loop_ops fn_ops ht n i rp bp = some (ops, e) →
      bp ≤ e ∧
      OpsCover ops (List.range' rp (8 * n) ++ List.range' bp (e - bp)) (max (rp + 8 * n) e) := by
  intro n
  induction n with
  | zero =>
    intro i rp bp ops e h
    simp only [WriteHashTable_loop_ops, Option.some.injEq, Prod.mk.injEq] at h
    obtain ⟨rfl, rfl⟩ := h
    refine ⟨le_refl _, ?_⟩
    simpa using OpsCover_nil (max rp bp)
  | succ n ih =>
    intro i rp bp ops e h
    simp only [WriteHashTable_loop_ops, WriteHTBucketRecord_ops, sizeof_BucketRecord] at h
    have hrec := OpsCover_seek_write rp
      (be32 (LinkedList_NumElements (ht.chain i)) ++ be32 bp)
    have hlen : (be32 (LinkedList_NumElements (ht.chain i)) ++ be32 bp).length = 8 := rfl
    rw [hlen] at hrec
    split_ifs at h with h0
    · cases h1 : WriteHTBucket_ops fn_ops bp (ht.chain i) with
      | none => rw [h1] at h; simp at h
      | some r =>
        rw [h1] at h
        simp only [Option.some_bind] at h
        cases h2 : WriteHashTable_loop_ops fn_ops ht n (i + 1) (rp + 8) (bp + r.2) with
        | none => rw [h2] at h; simp at h
        | some r2 =>
          rw [h2] at h
          simp only [Option.map_some', Option.some.injEq, Prod.mk.injEq] at h
          obtain ⟨rfl, rfl⟩ := h
          obtain ⟨hle, hrest⟩ := ih (i + 1) (rp + 8) (bp + r.2) r2.1 r2.2 h2
          have hb := WriteHTBucket_cover fn_ops hc (ht.chain i) bp r.1 r.2 h1
          refine ⟨by omega, ?_⟩
          have hall := OpsCover_append _ _ _ _ _ _ (OpsCover_append _ _ _ _ _ _ hrec hb) hrest
          apply OpsCover_mono _ _ _ _ _ hall
          · rw [show 8 * (n + 1) = 8 + 8 * n by omega, range_add,
              show r2.2 - bp = r.2 + (r2.2 - (bp + r.2)) by omega, range_add]
            exact perm_swap_middle _ _ _ _
          · omega
    · cases h2 : WriteHashTable_loop_ops fn_ops ht n (i + 1) (rp + 8) bp with
      | none => rw [h2] at h; simp at h
      | some r2 =>
        rw [h2] at h
        simp only [Option.map_some', Option.some.injEq, Prod.mk.injEq] at h
        obtain ⟨rfl, rfl⟩ := h
        obtain ⟨hle, hrest⟩ := ih (i + 1) (rp + 8) bp r2.1 r2.2 h2
        refine ⟨hle, ?_⟩
        have hall := OpsCover_append _ _ _ _ _ _ hrec hrest
        apply OpsCover_mono _ _ _ _ _ hall
        · rw [show 8 * (n + 1) = 8 + 8 * n by omega, range_add, List.append_assoc]
        · omega

theorem WriteHashTable_cover {V : Type} (fn_ops : WriteElementOps V) (hc : ElemCover fn_ops)
    (ht : HashTable V) (offset : Nat) (ops : List FileOp) (n : Nat)
    (h : WriteHashTable_ops fn_ops offset ht = some (ops, n)) :
    OpsCover ops (List.range' offset n) (offset + n) := by
  simp only [WriteHashTable_ops, sizeof_BucketListHeader, sizeof_BucketRecord] at h
  cases h1 : WriteHashTable_loop_ops fn_ops ht ht.num_buckets 0 (offset + 4)
      (offset + 4 + ht.num_buckets * 8) with
  | none => rw [h1] at h; simp at h
  | some r =>
    rw [h1] at h
    simp only [Option.map_some', Option.some.injEq, Prod.mk.injEq] at h
    obtain ⟨rfl, rfl⟩ := h
    obtain ⟨hle, hcov⟩ := WriteHashTable_loop_cover fn_ops hc ht _ _ _ _ _ _ h1
    have hrec := OpsCover_seek_write offset (be32 ht.num_buckets)
    rw [be32_length] at hrec
    have hall := OpsCover_append _ _ _ _ _ _ hrec hcov
    apply OpsCover_mono _ _ _ _ _ hall
    · rw [show r.2 - offset = 4 + (8 * ht.num_buckets +
          (r.2 - (offset + 4 + ht.num_buckets * 8))) by omega, range_add, range_add,
        show offset + 4 + 8 * ht.num_buckets = offset + 4 + ht.num_buckets * 8 by omega]
    · omega

theorem WriteDocidToDocnameFn_cover : ElemCover WriteDocidToDocnameFn_ops := by
  intro p kv ops n h
  simp only [WriteDocidToDocnameFn_ops, sizeof_DoctableElementHeader] at h
  cases hs : int16_size kv.value.length with
  | none => rw [hs] at h; simp at h
  | some wb =>
    rw [hs] at h
    simp only [Option.some.injEq, Prod.mk.injEq] at h
    obtain ⟨rfl, rfl⟩ := h
    obtain ⟨_, _, _, hle⟩ := int16_size_some _ _ hs
    have h1 := OpsCover_seek_write_write p (be64 kv.key ++ be16 wb) (kv.value.take wb)
    have h2 : (be64 kv.key ++ be16 wb).length = 10 := rfl
    have h3 : (kv.value.take wb).length = wb := by
      rw [List.length_take]; omega
    rw [h2, h3] at h1
    exact h1

theorem WriteDocIDToPositionListFn_loop_cover :
    ∀ (ps : List Nat) (offset : Nat),
      OpsCover (WriteDocIDToPositionListFn_loop_ops ps offset)
        (List.range' offset (4 * ps.length)) (offset + 4 * ps.length) := by
  intro ps
  induction ps with
  | nil =>
    intro offset
    simpa [WriteDocIDToPositionListFn_loop_ops] using OpsCover_nil (offset + 0)
  | cons x rest ih =>
    intro offset
    simp only [WriteDocIDToPositionListFn_loop_ops]
    have h1 := OpsCover_seek_write offset (be32 x)
    rw [be32_length] at h1
    have hall := OpsCover_append _ _ _ _ _ _ h1 (ih (offset + 4))
    apply OpsCover_mono _ _ _ _ _ hall
    · simp only [List.length_cons]
      rw [show 4 * (rest.length + 1) = 4 + 4 * rest.length by omega, range_add]
    · simp only [List.length_cons]
      omega

theorem WriteDocIDToPositionListFn_cover : ElemCover WriteDocIDToPositionListFn_ops := by
  intro p kv ops n h
  simp only [WriteDocIDToPositionListFn_ops, sizeof_DocIDElementHeader, LinkedList_NumElements,
    Option.some.injEq, Prod.mk.injEq] at h
  obtain ⟨rfl, rfl⟩ := h
  have h1 := OpsCover_seek_write p (be64 kv.key ++ be32 kv.value.length)
  have h2 : (be64 kv.key ++ be32 kv.value.length).length = 12 := rfl
  rw [h2] at h1
  have hall := OpsCover_append _ _ _ _ _ _ h1
    (WriteDocIDToPositionListFn_loop_cover kv.value (p + 12))
  apply OpsCover_mono _ _ _ _ _ hall
  · rw [show 12 + kv.value.length * 4 = 12 + 4 * kv.value.length by omega, range_add]
  · omega

theorem WriteWordToPostingsFn_cover : ElemCover WriteWordToPostingsFn_ops := by
  intro p kv ops n h
  simp only [WriteWordToPostingsFn_ops, sizeof_WordPostingsHeader] at h
  cases hs : int16_size kv.value.word.length with
  | none => rw [hs] at h; simp at h
  | some wb =>
    rw [hs] at h
    simp only [] at h
    cases h1 : WriteHashTable_ops WriteDocIDToPositionListFn_ops (p + 6 + wb)
        kv.value.postings with
    | none => rw [h1] at h; simp at h
    | some r =>
      rw [h1] at h
      simp only [Option.some_bind, Option.some.injEq, Prod.mk.injEq] at h
      obtain ⟨rfl, rfl⟩ := h
      obtain ⟨_, _, _, hle⟩ := int16_size_some _ _ hs
      have ht := WriteHashTable_cover WriteDocIDToPositionListFn_ops
        WriteDocIDToPositionListFn_cover kv.value.postings (p + 6 + wb) r.1 r.2 h1
      have hw := OpsCover_seek_write_write p (be16 wb ++ be32 r.2) (kv.value.word.take wb)
      have h2 : (be16 wb ++ be32 r.2).length = 6 := rfl
      have h3 : (kv.value.word.take wb).length = wb := by
        rw [List.length_take]; omega
      rw [h2, h3] at hw
      have hall := OpsCover_append _ _ _ _ _ _ ht hw
      apply OpsCover_mono _ _ _ _ _ hall
      · have hr : List.range' p (6 + wb + r.2) =
            List.range' p (6 + wb) ++ List.range' (p + 6 + wb) r.2 := by
          rw [range_add p (6 + wb) r.2, show p + (6 + wb) = p + 6 + wb by omega]
        rw [hr]
        exact List.perm_append_comm
      · omega

theorem specBucketBytes_eq_sum {V : Type} (sz : HTKeyValue_t V → Nat)
    (li : List (HTKeyValue_t V)) :
    specBucketBytes sz li = (li.map fun kv => 4 + sz kv).sum := by
  induction li with
  | nil => rfl
  | cons x rest ih =>
    simp only [specBucketBytes, List.length_cons, List.map_cons, List.sum_cons] at ih ⊢
    omega

theorem specBucketsBytes_eq_sum {V : Type} (sz : HTKeyValue_t V → Nat) (ht : HashTable V) :
    ∀ (n i : Nat), specBucketsBytes sz ht i n =
      ((((ht.buckets.drop i).take n).flatten).map fun kv => 4 + sz kv).sum := by
  intro n
  induction n with
  | zero => intro i; simp [specBucketsBytes]
  | succ n ih =>
    intro i
    rw [specBucketsBytes, ih (i + 1), specBucketBytes_eq_sum]
    by_cases hi : i < ht.buckets.length
    · rw [List.drop_eq_getElem_cons hi]
      simp only [List.take_succ_cons, List.flatten_cons, List.map_append, List.sum_append]
      rw [chain_eq_getElem ht i hi]
    · have h1 : ht.buckets.drop i = [] := List.drop_eq_nil_of_le (by omega)
      have h2 : ht.buckets.drop (i + 1) = [] := List.drop_eq_nil_of_le (by omega)
      have h3 : ht.chain i = [] := by
        simp [HashTable.chain, List.getD_eq_getElem?_getD, List.getElem?_eq_none (by omega : ht.buckets.length ≤ i)]
      simp [h1, h2, h3]

theorem specBucketsBytes_entries {V : Type} (sz : HTKeyValue_t V → Nat) (ht : HashTable V) :
    specBucketsBytes sz ht 0 ht.num_buckets = (ht.entries.map fun kv => 4 + sz kv).sum := by
  rw [specBucketsBytes_eq_sum]
  simp [HashTable.entries, HashTable.bucketsFrom]

theorem WriteHashTable_tiled {V : Type} (fn : WriteElementFn V) (fn_ops : WriteElementOps V)
    (sz : HTKeyValue_t V → Nat) (hl : ElemLink fn fn_ops) (hfn : ElemLayout fn sz)
    (hc : ElemCover fn_ops) (f : File) (offset : Nat) (ht : HashTable V) (f2 : File) (n : Nat)
    (h : WriteHashTable fn f offset ht = some (f2, n)) :
    TableTiled fn_ops sz f offset ht f2 n := by
  have hlink := fun pos => WriteHashTable_link fn fn_ops hl ht f pos offset
  cases ho : WriteHashTable_ops fn_ops offset ht with
  | none =>
    have := hlink 0
    rw [ho, h] at this
    simp at this
  | some r =>
    have hn : r.2 = n := by
      have := hlink 0
      rw [ho, h] at this
      simp only [Option.map_some', Option.some.injEq, Prod.mk.injEq] at this
      exact this.2
    obtain ⟨ops, m⟩ := r
    simp only at hn
    subst hn
    refine ⟨ops, ho, ?_, ?_⟩
    · intro pos
      have := hlink pos
      rw [ho, h] at this
      simp only [Option.map_some', Option.some.injEq, Prod.mk.injEq] at this
      exact ⟨this.1, (WriteHashTable_cover fn_ops hc ht offset ops m ho ⟨f, pos⟩).1⟩
    · rw [(WriteHashTable_size fn sz hfn f offset ht f2 m h).1, specBucketsBytes_entries]

theorem WriteHashTable_length_le {V : Type} (fn : WriteElementFn V) (fn_ops : WriteElementOps V)
    (hl : ElemLink fn fn_ops) (hc : ElemCover fn_ops) (f : File) (offset : Nat)
    (ht : HashTable V) (f2 : File) (n : Nat)
    (h : WriteHashTable fn f offset ht = some (f2, n)) :
    f2.length ≤ max f.length (offset + n) := by
  have hlink := WriteHashTable_link fn fn_ops hl ht f 0 offset
  cases ho : WriteHashTable_ops fn_ops offset ht with
  | none =>
    rw [ho, h] at hlink
    simp at hlink
  | some r =>
    rw [ho, h] at hlink
    simp only [Option.map_some', Option.some.injEq, Prod.mk.injEq] at hlink
    obtain ⟨h1, h2⟩ := hlink
    have := (WriteHashTable_cover fn_ops hc ht offset r.1 r.2 ho ⟨f, 0⟩).2
    rw [h1, h2] at this
    exact this

theorem WriteIndex_length (kMagicNumber : Nat) (crc : List Nat → Nat) (mi : MemIndex)
    (dt : DocTable) (f : File) (n : Nat)
    (h : WriteIndex kMagicNumber crc mi dt = some (f, n)) :
    f.length = n ∧
      ∃ f1 d f2 m, WriteDocTable [] dt 16 = some (f1, d) ∧
        WriteMemIndex f1 mi (16 + d) = some (f2, m) ∧ n = 16 + d + m := by
  simp only [WriteIndex, sizeof_IndexFileHeader] at h
  cases h1 : WriteDocTable [] dt 16 with
  | none => rw [h1] at h; simp at h
  | some r1 =>
    rw [h1] at h
    simp only [Option.some_bind] at h
    cases h2 : WriteMemIndex r1.1 mi (16 + r1.2) with
    | none => rw [h2] at h; simp at h
    | some r2 =>
      rw [h2] at h
      simp only [Option.some_bind, Option.some.injEq, Prod.mk.injEq] at h
      obtain ⟨rfl, rfl⟩ := h
      refine ⟨?_, r1.1, r1.2, r2.1, r2.2, rfl, h2, rfl⟩
      have a1 := WriteHashTable_length_le WriteDocidToDocnameFn WriteDocidToDocnameFn_ops
        WriteDocidToDocnameFn_link WriteDocidToDocnameFn_cover [] 16 _ r1.1 r1.2 h1
      have a2 := WriteHashTable_length_le WriteWordToPostingsFn WriteWordToPostingsFn_ops
        WriteWordToPostingsFn_link WriteWordToPostingsFn_cover r1.1 (16 + r1.2) _ r2.1 r2.2 h2
      have a3 := (WriteHashTable_size WriteWordToPostingsFn sizeWordElement
        WriteWordToPostingsFn_layout r1.1 (16 + r1.2) _ r2.1 r2.2 h2).2.2.1
      simp only [WriteHeader, pwrite_length, List.length_append, be32_length,
        List.length_nil] at a1 ⊢
      omega

/-- C35: for each of the three kinds of table of the index file, when
`WriteHashTable(f, offset, ht, fn)` returns `n` and the table ends below
`2^31`: the writes performed lead from `f` to the file returned, they write
each byte of `[offset, offset + n)` exactly once and no byte outside, and
`n = 4 + 8 * num_buckets` plus, for every stored element, `4` and the size of
the element as serialized. And when `WriteIndex` returns `n < 2^31`, `n` is
`16 + doctable_bytes + memindex_bytes` and it is the length of the file. -/
theorem C35_writes_tile_region :
    (∀ (f : File) (offset : Nat) (ht : HashTable CString) (f2 : File) (n : Nat),
      WriteHashTable WriteDocidToDocnameFn f offset ht = some (f2, n) → offset + n < 2 ^ 31 →
        TableTiled WriteDocidToDocnameFn_ops sizeDocElement f offset ht f2 n) ∧
    (∀ (f : File) (offset : Nat) (ht : HashTable (LinkedList Nat)) (f2 : File) (n : Nat),
      WriteHashTable WriteDocIDToPositionListFn f offset ht = some (f2, n) →
        offset + n < 2 ^ 31 →
        TableTiled WriteDocIDToPositionListFn_ops sizeDocIDElement f offset ht f2 n) ∧
    (∀ (f : File) (offset : Nat) (ht : HashTable WordPostings) (f2 : File) (n : Nat),
      WriteHashTable WriteWordToPostingsFn f offset ht = some (f2, n) → offset + n < 2 ^ 31 →
        TableTiled WriteWordToPostingsFn_ops sizeWordElement f offset ht f2 n) ∧
    ∀ (kMagicNumber : Nat) (crc : List Nat → Nat) (mi : MemIndex) (dt : DocTable) (f : File)
      (n : Nat), WriteIndex kMagicNumber crc mi dt = some (f, n) → n < 2 ^ 31 →
      f.length = n ∧
        ∃ f1 doctable_bytes f2 memindex_bytes,
          WriteDocTable [] dt 16 = some (f1, doctable_bytes) ∧
          WriteMemIndex f1 mi (16 + doctable_bytes) = some (f2, memindex_bytes) ∧
          n = 16 + doctable_bytes + memindex_bytes :=
  ⟨fun f offset ht f2 n h _ =>
      WriteHashTable_tiled WriteDocidToDocnameFn WriteDocidToDocnameFn_ops sizeDocElement
        WriteDocidToDocnameFn_link WriteDocidToDocnameFn_layout WriteDocidToDocnameFn_cover
        f offset ht f2 n h,
    fun f offset ht f2 n h _ =>
      WriteHashTable_tiled WriteDocIDToPositionListFn WriteDocIDToPositionListFn_ops
        sizeDocIDElement WriteDocIDToPositionListFn_link WriteDocIDToPositionListFn_layout
        WriteDocIDToPositionListFn_cover f offset ht f2 n h,
    fun f offset ht f2 n h _ =>
      WriteHashTable_tiled WriteWordToPostingsFn WriteWordToPostingsFn_ops sizeWordElement
        WriteWordToPostingsFn_link WriteWordToPostingsFn_layout WriteWordToPostingsFn_cover
        f offset ht f2 n h,
    fun kMagicNumber crc mi dt f n h _ => WriteIndex_length kMagicNumber crc mi dt f n h⟩

set_option maxRecDepth 100000 in
/-- C35 at the postings table `tableS32`, written at offset 0 of an empty
file, and at the index file of scenario S3. -/
theorem C35_witness :
    TableTiled WriteDocIDToPositionListFn_ops sizeDocIDElement [] 0 tableS32 fileS32 40 ∧
      fileS3.length = 130 :=
  ⟨C35_writes_tile_region.2.1 [] 0 tableS32 fileS32 40 (by decide) (by decide),
    (C35_writes_tile_region.2.2.2 0xcafef00d crcS3 indexS3 docTableS3 fileS3 130 (by decide)
      (by decide)).1⟩

theorem DocIDTableReader_headers_spec (g : File) :
    ∀ (ps : List Nat) (li : List (HTKeyValue_t (LinkedList Nat))),
      List.Forall₂ (PostDec g) ps li →
      DocIDTableReader_headers g ps = some (li.map headerOf) := by
  intro ps
  induction ps with
  | nil =>
    intro li h
    cases h
    rfl
  | cons p ps ih =>
    intro li h
    cases li with
    | nil => cases h
    | cons x li =>
      rw [List.forall₂_cons] at h
      obtain ⟨⟨x1, x2, _⟩, tl⟩ := h
      simp only [DocIDTableReader_headers, x1, x2, Option.some_bind, ih li tl, Option.map_some',
        List.map_cons, headerOf, LinkedList_NumElements]

theorem bucketsFrom_cons {V : Type} (t : HashTable V) (hlen : t.buckets.length = t.num_buckets)
    (i : Nat) (hi : i < t.num_buckets) :
    t.bucketsFrom i = t.chain i :: t.bucketsFrom (i + 1) := by
  have hi2 : i < (t.buckets.take t.num_buckets).length := by
    rw [List.length_take, hlen]; omega
  simp only [HashTable.bucketsFrom]
  rw [List.drop_eq_getElem_cons hi2]
  congr 1
  rw [List.getElem_take]
  exact (chain_eq_getElem t i (by omega)).symm

theorem bucketsFrom_end {V : Type} (t : HashTable V) (i : Nat) (hi : t.num_buckets ≤ i) :
    t.bucketsFrom i = [] := by
  simp only [HashTable.bucketsFrom]
  apply List.drop_eq_nil_of_le
  rw [List.length_take]
  omega

theorem DocIDTableReader_buckets_spec (g : File) (off : Nat) (T : HashTable (LinkedList Nat))
    (hdec : TableDec PostDec g off T) (hlen : T.buckets.length = T.num_buckets) :
    ∀ (n i : Nat), i + n = T.num_buckets →
      DocIDTableReader_buckets g off n i = some ((T.bucketsFrom i).flatten.map headerOf) := by
  intro n
  induction n with
  | zero =>
    intro i hi
    rw [bucketsFrom_end T i (by omega)]
    rfl
  | succ n ih =>
    intro i hi
    obtain ⟨bo, ps, h1, h2, h3, h4⟩ := hdec.2 i (by omega)
    have e1 : off + sizeof_BucketListHeader + sizeof_BucketRecord * i = off + 4 + 8 * i := rfl
    simp only [DocIDTableReader_buckets, e1, h1, h2, h3, Option.some_bind,
      DocIDTableReader_headers_spec g ps _ h4, ih (i + 1) (by omega), Option.map_some']
    rw [bucketsFrom_cons T hlen i (by omega)]
    simp

theorem GetDocIDList_spec (g : File) (off : Nat) (T : HashTable (LinkedList Nat))
    (hdec : TableDec PostDec g off T) (hlen : T.buckets.length = T.num_buckets) :
    DocIDTableReader_GetDocIDList g off = some (T.entries.map headerOf) := by
  simp only [DocIDTableReader_GetDocIDList, hdec.1, Option.some_bind]
  exact DocIDTableReader_buckets_spec g off T hdec hlen T.num_buckets 0 (by omega)

theorem lookupFirst_none {α V : Type} (parse : Nat → Option (Option α))
    (m : HTKeyValue_t V → Bool) (Dec : Nat → HTKeyValue_t V → Prop)
    (hparse : ∀ p kv, Dec p kv → ∃ v, parse p = some (if m kv = true then some v else none)) :
    ∀ (ps : List Nat) (li : List (HTKeyValue_t V)), List.Forall₂ Dec ps li →
      li.find? m = none → lookupFirst parse ps = none := by
  intro ps
  induction ps with
  | nil => intro li _ _; rfl
  | cons p ps ih =>
    intro li h hf
    cases li with
    | nil => cases h
    | cons x li =>
      rw [List.forall₂_cons] at h
      obtain ⟨hd, tl⟩ := h
      obtain ⟨v, hv⟩ := hparse p x hd
      have hm : m x = false := by
        cases hx : m x with
        | false => rfl
        | true => simp [List.find?_cons, hx] at hf
      have hf2 : li.find? m = none := by
        simpa [List.find?_cons, hm] using hf
      simp only [lookupFirst, hv, hm, Bool.false_eq_true, if_false]
      exact ih li tl hf2

theorem HashTableReader_lookup_none {α V : Type} (g : File) (off : Nat) (ht : HashTable V)
    (Dec : File → Nat → HTKeyValue_t V → Prop) (hdec : TableDec Dec g off ht)
    (hpos : 0 < ht.num_buckets) (parse : Nat → Option (Option α))
    (m : HTKeyValue_t V → Bool)
    (hparse : ∀ p kv, Dec g p kv → ∃ v, parse p = some (if m kv = true then some v else none))
    (key : Nat) (hfind : (ht.chain (key % ht.num_buckets)).find? m = none) :
    HashTableReader_lookup g off parse key = none := by
  obtain ⟨hnb, hb⟩ := hdec
  obtain ⟨bo, ps, h1, h2, h3, h4⟩ := hb (key % ht.num_buckets) (Nat.mod_lt _ hpos)
  have hl := lookupFirst_none parse m (Dec g) hparse ps _ h4 hfind
  simp only [HashTableReader_lookup, hnb, Option.some_bind, Nat.ne_of_gt hpos, if_false,
    sizeof_BucketListHeader, sizeof_BucketRecord, h1, h2, h3, hl]
  split_ifs <;> rfl

theorem IndexTableReader_lookup_none (g : File) (off : Nat) (t : MemIndex)
    (hdec : TableDec WordDec g off t) (hpos : 0 < t.num_buckets) (w : CString)
    (hfind : (t.chain (FNVHash64 w % t.num_buckets)).find?
      (fun x => decide (x.value.word = w)) = none) :
    IndexTableReader_LookupWord g off w = none := by
  rw [IndexTableReader_LookupWord]
  apply HashTableReader_lookup_none g off t WordDec hdec hpos
    (IndexTableReader_parse g w) (fun x => decide (x.value.word = w)) _ (FNVHash64 w) hfind
  intro p x hx
  obtain ⟨x1, ⟨y, x2⟩, x3, x4, x5⟩ := hx
  refine ⟨p + 6 + x.value.word.length, ?_⟩
  simp only [IndexTableReader_parse, x1, x2, x3, Option.some_bind, Option.map_some',
    if_neg (Nat.not_le.2 x5), decide_eq_true_eq]

theorem WriteIndex_decodes (kMagicNumber : Nat) (crc : List Nat → Nat) (validate : Bool)
    (hmagic : kMagicNumber < 2 ^ 32) (M : MemIndex) (D : DocTable)
    (hQD : ∀ j, ∀ kv ∈ D.id_to_name.chain j, DocQ kv)
    (hQM : ∀ j, ∀ kv ∈ M.chain j, WordQ kv)
    (final : File) (n : Nat) (hw : WriteIndex kMagicNumber crc M D = some (final, n))
    (hn : n < 2 ^ 31) :
    ∃ dtb, FileIndexReader_open kMagicNumber crc final validate = some (16, 16 + dtb) ∧
      TableDec DocDec final 16 D.id_to_name ∧ TableDec WordDec final (16 + dtb) M := by
  simp only [WriteIndex, WriteDocTable, WriteMemIndex, DT_GetIDToNameTable,
    sizeof_IndexFileHeader] at hw
  cases hw1 : WriteHashTable WriteDocidToDocnameFn [] 16 D.id_to_name with
  | none => rw [hw1] at hw; simp at hw
  | some r1 =>
    obtain ⟨f1, dtb⟩ := r1
    rw [hw1] at hw
    simp only [Option.some_bind] at hw
    cases hw2 : WriteHashTable WriteWordToPostingsFn f1 (16 + dtb) M with
    | none => rw [hw2] at hw; simp at hw
    | some r2 =>
      obtain ⟨f2, mib⟩ := r2
      rw [hw2] at hw
      simp only [Option.some_bind, Option.some.injEq, Prod.mk.injEq] at hw
      obtain ⟨hfin, hnn⟩ := hw
      subst hnn
      refine ⟨dtb, ?_⟩
      obtain ⟨a1, a2, a3, a4, a5⟩ := WriteHashTable_spec WriteDocidToDocnameFn DocQ DocDec
        WriteDocidToDocnameFn_spec D.id_to_name hQD [] 16 f1 dtb hw1 (by omega)
      obtain ⟨b1, b2, b3, b4, b5⟩ := WriteHashTable_spec WriteWordToPostingsFn WordQ WordDec
        WriteWordToPostingsFn_spec M hQM f1 (16 + dtb) f2 mib hw2 (by omega)
      have hfin2 := hfin
      simp only [WriteHeader] at hfin2
      generalize hck : CalcChecksumOver crc f2 dtb mib = checksum at hfin2
      have hdl : (be32 kMagicNumber ++ be32 checksum ++ be32 dtb ++ be32 mib).length = 16 := rfl
      have hfl : final.length = f2.length := by
        rw [← hfin2, pwrite_length, hdl]
        omega
      have hfg : ∀ i, 16 ≤ i → final.getD i 0 = f2.getD i 0 := by
        intro i hi
        rw [← hfin2, pwrite_getD, hdl, if_neg (by omega)]
      have hdecD : TableDec DocDec final 16 D.id_to_name := by
        apply a5 final
        refine ⟨by omega, fun i h1 h2 => ?_⟩
        rw [hfg i h1, b4 i (Or.inl (by omega))]
      have hdecM : TableDec WordDec final (16 + dtb) M := by
        apply b5 final
        exact ⟨by omega, fun i h1 h2 => hfg i (by omega)⟩
      have hckv : checksum = crc ((f2.drop 16).take (dtb + mib)) % 2 ^ 32 := by
        rw [← hck]
        simp only [CalcChecksumOver, sizeof_IndexFileHeader]
        rw [if_pos (by omega)]
      refine ⟨?_, hdecD, hdecM⟩
      have hh : Holds final 0 (be32 kMagicNumber ++ be32 checksum ++ be32 dtb ++ be32 mib) := by
        apply Holds_of_getD_pwrite f2 final 0 _ (by rw [hdl]; omega)
        intro i _ _
        rw [hfin2]
      obtain ⟨hh3, hmi⟩ := (Holds_append final 0 _ _).1 hh
      obtain ⟨hh2, hdt⟩ := (Holds_append final 0 _ _).1 hh3
      obtain ⟨hmg, hcs⟩ := (Holds_append final 0 _ _).1 hh2
      have r1 := readInt_of_Holds32 final _ _ hmg hmagic
      have r2 := readInt_of_Holds32 final _ _ hcs (by
        rw [hckv]; exact Nat.mod_lt _ (by decide))
      have r3 := readInt_of_Holds32 final _ _ hdt (by omega)
      have r4 := readInt_of_Holds32 final _ _ hmi (by omega)
      simp only [Nat.zero_add, be32_length, List.length_append] at r1 r2 r3 r4
      have r5 : readBytes final 16 (dtb + mib) = some ((f2.drop 16).take (dtb + mib)) := by
        unfold readBytes
        rw [if_pos (by omega)]
        have := pwrite_zero_drop f2 (be32 kMagicNumber ++ be32 checksum ++ be32 dtb ++ be32 mib)
        rw [hdl, hfin2] at this
        rw [this]
      simp only [FileIndexReader_open, r1, r2, r3, r4, Option.some_bind, ne_eq,
        not_true_eq_false, if_false, sizeof_IndexFileHeader, r5, ← hckv, and_false]

theorem readers_word_found (g : File) (off : Nat) (M : MemIndex) (adds : List Posting)
    (hdecM : TableDec WordDec g off M) (hinvM : IndexInv M adds) (w : CString)
    (hw : ∃ a ∈ adds, a.1 = w) :
    ∃ T, PostInv T adds w ∧
      (IndexTableReader_LookupWord g off w).bind
        (fun inner => DocIDTableReader_GetDocIDList g inner) = some (T.entries.map headerOf) := by
  obtain ⟨b, hb, hbw⟩ := hw
  have hcoll : ∀ a ∈ adds, FNVHash64 w = FNVHash64 a.1 → w = a.1 := by
    intro a ha h
    rw [← hbw] at h ⊢
    exact hinvM.2.2.1 b hb a ha h
  rcases lookup_word M adds w hinvM hcoll with ⟨hno, _⟩ | ⟨T, hfind, hT, _⟩
  · exact absurd hbw (hno b hb)
  · have hfw := IndexInv_find_word M adds hinvM w ⟨b, hb, hbw⟩
    rw [hfind] at hfw
    obtain ⟨inner, hi1, hi2⟩ := IndexTableReader_lookup_spec g off M hdecM hinvM.1.1.pos w _ hfw
    have := GetDocIDList_spec g inner T hi2 hT.1.1.len
    exact ⟨T, hT, by rw [hi1]; exact this⟩

theorem readers_word_absent (g : File) (off : Nat) (M : MemIndex) (adds : List Posting)
    (hdecM : TableDec WordDec g off M) (hinvM : IndexInv M adds) (w : CString)
    (hw : ∀ a ∈ adds, a.1 ≠ w) :
    IndexTableReader_LookupWord g off w = none := by
  apply IndexTableReader_lookup_none g off M hdecM hinvM.1.1.pos
  rw [List.find?_eq_none]
  intro x hx
  obtain ⟨a, ha, _, hword, _⟩ := IndexInv_chain M adds hinvM _ x hx
  simp only [decide_eq_true_eq]
  rw [hword]
  exact hw a ha

theorem filterMap_eq_map_of {α β : Type} (f : α → Option β) (g : α → β) :
    ∀ l : List α, (∀ x ∈ l, f x = some (g x)) → l.filterMap f = l.map g := by
  intro l
  induction l with
  | nil => intro _; rfl
  | cons x l ih =>
    intro h
    rw [List.filterMap_cons, h x (List.mem_cons_self _ _), List.map_cons,
      ih (fun y hy => h y (List.mem_cons_of_mem _ hy))]

theorem LookupDocID_named (g : File) (D : DocTable) (hdecD : TableDec DocDec g 16 D.id_to_name)
    (hpos : 0 < D.id_to_name.num_buckets) (d : DocID_t) (nm : CString)
    (h : docName D d = some nm) : DocTableReader_LookupDocID g 16 d = some nm := by
  simp only [docName, Option.map_eq_some'] at h
  obtain ⟨kv, hkv, rfl⟩ := h
  exact DocTableReader_lookup_spec g 16 D.id_to_name hdecD hpos d kv hkv

theorem wordHits_found (g : File) (off : Nat) (adds : List Posting)
    (D : DocTable) (hdecD : TableDec DocDec g 16 D.id_to_name)
    (hpos : 0 < D.id_to_name.num_buckets)
    (hnamed : ∀ a ∈ adds, (docName D a.2.1).isSome = true)
    (w : CString) (T : HashTable (LinkedList Nat)) (hT : PostInv T adds w)
    (hl : (readersAt g 16 off).LookupWord w = some (T.entries.map headerOf)) :
    wordHits (readersAt g 16 off) w = T.entries.map (hitOf D) := by
  unfold wordHits
  rw [hl]
  simp only [List.filterMap_map]
  apply filterMap_eq_map_of
  intro kv hkv
  have hmem : kv ∈ T.chain (kv.key % T.num_buckets) := (mem_entries T hT.1.1 kv).1 hkv
  have hadd := PostInv_chain T adds w hT _ kv hmem
  have hn := hnamed _ hadd
  obtain ⟨nm, hnm⟩ := Option.isSome_iff_exists.1 hn
  simp only at hnm
  simp only [Function.comp, headerOf, readersAt,
    LookupDocID_named g D hdecD hpos kv.key nm hnm, Option.map_some', hitOf, hnm,
    Option.getD_some]

theorem mem_hits (adds : List Posting) (D : DocTable)
    (hnamed : ∀ a ∈ adds, (docName D a.2.1).isSome = true)
    (w : CString) (T : HashTable (LinkedList Nat)) (hT : PostInv T adds w)
    (nm : CString) (c : Nat) :
    (nm, c) ∈ T.entries.map (hitOf D) ↔
      ∃ d p, postingOf adds w d = some p ∧ docName D d = some nm ∧ c = p.length := by
  constructor
  · intro h
    obtain ⟨kv, hkv, he⟩ := List.mem_map.1 h
    have hmem : kv ∈ T.chain (kv.key % T.num_buckets) := (mem_entries T hT.1.1 kv).1 hkv
    have hadd := PostInv_chain T adds w hT _ kv hmem
    have hf := chain_mem_find T hT.1.1 _ kv hmem
    rw [hT.2.2 kv.key] at hf
    obtain ⟨nm2, hnm⟩ := Option.isSome_iff_exists.1 (hnamed _ hadd)
    simp only at hnm
    simp only [hitOf, hnm, Option.getD_some, Prod.mk.injEq, LinkedList_NumElements] at he
    cases hp : postingOf adds w kv.key with
    | none => rw [hp] at hf; simp at hf
    | some p =>
      rw [hp] at hf
      simp only [Option.map_some', Option.some.injEq] at hf
      refine ⟨kv.key, p, hp, by rw [hnm, he.1], ?_⟩
      rw [← he.2, ← hf]
  · rintro ⟨d, p, hp, hnm, rfl⟩
    have hf := hT.2.2 d
    rw [hp] at hf
    simp only [Option.map_some'] at hf
    have hmem := ((Find_some_iff T hT.1.1 d _).1 hf).1
    refine List.mem_map.2 ⟨⟨d, p⟩, hmem, ?_⟩
    simp only [hitOf, hnm, Option.getD_some, LinkedList_NumElements]

theorem nodup_hits (adds : List Posting) (D : DocTable)
    (hnamed : ∀ a ∈ adds, (docName D a.2.1).isSome = true)
    (hinj : ∀ a1 ∈ adds, ∀ a2 ∈ adds, docName D a1.2.1 = docName D a2.2.1 → a1.2.1 = a2.2.1)
    (w : CString) (T : HashTable (LinkedList Nat)) (hT : PostInv T adds w) :
    ((T.entries.map (hitOf D)).map fun t => t.1).Nodup := by
  rw [List.map_map]
  have hk := entries_keys_nodup T hT.1.1
  have hnd : T.entries.Nodup := List.Nodup.of_map _ hk
  apply List.Nodup.map_on _ hnd
  intro x hx y hy hxy
  have hmx : x ∈ T.chain (x.key % T.num_buckets) := (mem_entries T hT.1.1 x).1 hx
  have hmy : y ∈ T.chain (y.key % T.num_buckets) := (mem_entries T hT.1.1 y).1 hy
  have hax := PostInv_chain T adds w hT _ x hmx
  have hay := PostInv_chain T adds w hT _ y hmy
  obtain ⟨n1, hn1⟩ := Option.isSome_iff_exists.1 (hnamed _ hax)
  obtain ⟨n2, hn2⟩ := Option.isSome_iff_exists.1 (hnamed _ hay)
  simp only at hn1 hn2
  simp only [Function.comp, hitOf, hn1, hn2, Option.getD_some] at hxy
  have hkey : x.key = y.key := hinj _ hax _ hay (by simp only; rw [hn1, hn2, hxy])
  have hfx := chain_mem_find T hT.1.1 _ x hmx
  have hfy := chain_mem_find T hT.1.1 _ y hmy
  rw [hkey, hfy] at hfx
  exact (Option.some.inj hfx).symm

theorem readers_hits (g : File) (off : Nat) (M : MemIndex) (adds : List Posting)
    (D : DocTable) (hdecD : TableDec DocDec g 16 D.id_to_name)
    (hpos : 0 < D.id_to_name.num_buckets) (hdecM : TableDec WordDec g off M)
    (hinvM : IndexInv M adds) (hnamed : ∀ a ∈ adds, (docName D a.2.1).isSome = true)
    (w : CString) :
    (∃ T, PostInv T adds w ∧
      (readersAt g 16 off).LookupWord w = some (T.entries.map headerOf) ∧
      wordHits (readersAt g 16 off) w = T.entries.map (hitOf D)) ∨
    ((∀ a ∈ adds, a.1 ≠ w) ∧ (readersAt g 16 off).LookupWord w = none ∧
      wordHits (readersAt g 16 off) w = []) := by
  by_cases hw : ∃ a ∈ adds, a.1 = w
  · left
    obtain ⟨T, hT, hl⟩ := readers_word_found g off M adds hdecM hinvM w hw
    have hl2 : (readersAt g 16 off).LookupWord w = some (T.entries.map headerOf) := hl
    exact ⟨T, hT, hl2, wordHits_found g off adds D hdecD hpos hnamed w T hT hl2⟩
  · right
    have hw2 : ∀ a ∈ adds, a.1 ≠ w := fun a ha e => hw ⟨a, ha, e⟩
    have hl := readers_word_absent g off M adds hdecM hinvM w hw2
    have hl2 : (readersAt g 16 off).LookupWord w = none := by
      simp only [readersAt, hl, Option.none_bind]
    refine ⟨hw2, hl2, ?_⟩
    unfold wordHits
    rw [hl2]

theorem mem_wordHits (g : File) (off : Nat) (M : MemIndex) (adds : List Posting)
    (D : DocTable) (hdecD : TableDec DocDec g 16 D.id_to_name)
    (hpos : 0 < D.id_to_name.num_buckets) (hdecM : TableDec WordDec g off M)
    (hinvM : IndexInv M adds) (hnamed : ∀ a ∈ adds, (docName D a.2.1).isSome = true)
    (w : CString) (nm : CString) (c : Nat) :
    (nm, c) ∈ wordHits (readersAt g 16 off) w ↔
      ∃ d p, postingOf adds w d = some p ∧ docName D d = some nm ∧ c = p.length := by
  rcases readers_hits g off M adds D hdecD hpos hdecM hinvM hnamed w with
    ⟨T, hT, _, hh⟩ | ⟨hno, _, hh⟩
  · rw [hh]
    exact mem_hits adds D hnamed w T hT nm c
  · rw [hh]
    constructor
    · intro h
      simp at h
    · rintro ⟨d, p, hp, _⟩
      rw [postingOf_none_of_word adds w d hno] at hp
      simp at hp

theorem nodup_wordHits (g : File) (off : Nat) (M : MemIndex) (adds : List Posting)
    (D : DocTable) (hdecD : TableDec DocDec g 16 D.id_to_name)
    (hpos : 0 < D.id_to_name.num_buckets) (hdecM : TableDec WordDec g off M)
    (hinvM : IndexInv M adds) (hnamed : ∀ a ∈ adds, (docName D a.2.1).isSome = true)
    (hinj : ∀ a1 ∈ adds, ∀ a2 ∈ adds, docName D a1.2.1 = docName D a2.2.1 → a1.2.1 = a2.2.1)
    (w : CString) : ((wordHits (readersAt g 16 off) w).map fun t => t.1).Nodup := by
  rcases readers_hits g off M adds D hdecD hpos hdecM hinvM hnamed w with
    ⟨T, hT, _, hh⟩ | ⟨_, _, hh⟩
  · rw [hh]
    exact nodup_hits adds D hnamed hinj w T hT
  · rw [hh]
    exact List.nodup_nil

theorem readers_resolve (g : File) (off : Nat) (M : MemIndex) (adds : List Posting)
    (D : DocTable) (hdecD : TableDec DocDec g 16 D.id_to_name)
    (hpos : 0 < D.id_to_name.num_buckets) (hdecM : TableDec WordDec g off M)
    (hinvM : IndexInv M adds) (hnamed : ∀ a ∈ adds, (docName D a.2.1).isSome = true) :
    Resolves [readersAt g 16 off] := by
  intro r hr w headers hl h hh
  rw [List.mem_singleton] at hr
  subst hr
  rcases readers_hits g off M adds D hdecD hpos hdecM hinvM hnamed w with
    ⟨T, hT, hl2, _⟩ | ⟨_, hl2, _⟩
  · rw [hl2] at hl
    rw [← Option.some.inj hl] at hh
    obtain ⟨kv, hkv, rfl⟩ := List.mem_map.1 hh
    have hmem : kv ∈ T.chain (kv.key % T.num_buckets) := (mem_entries T hT.1.1 kv).1 hkv
    have hadd := PostInv_chain T adds w hT _ kv hmem
    obtain ⟨nm, hnm⟩ := Option.isSome_iff_exists.1 (hnamed _ hadd)
    simp only at hnm
    simp only [headerOf, readersAt, LookupDocID_named g D hdecD hpos kv.key nm hnm,
      Option.isSome_some]
  · rw [hl2] at hl
    cases hl

theorem occIn_not_mem (H : List (CString × Nat)) (nm : CString)
    (h : nm ∉ H.map fun t => t.1) : occIn H nm = 0 := by
  unfold occIn
  have : H.filter (fun t => decide (t.1 = nm)) = [] := by
    rw [List.filter_eq_nil_iff]
    intro t ht
    simp only [decide_eq_true_eq]
    intro e
    exact h (List.mem_map.2 ⟨t, ht, e⟩)
  rw [this]
  rfl

theorem disk_refines_memory (kMagicNumber : Nat) (crc : List Nat → Nat) (validate : Bool)
    (hmagic : kMagicNumber < 2 ^ 32)
    (adds : List Posting) (M : MemIndex) (hinvM : IndexInv M adds)
    (D : DocTable) (hposD : 0 < D.id_to_name.num_buckets)
    (hQD : ∀ j, ∀ kv ∈ D.id_to_name.chain j, DocQ kv)
    (hQM : ∀ j, ∀ kv ∈ M.chain j, WordQ kv)
    (hnamed : ∀ a ∈ adds, (docName D a.2.1).isSome = true)
    (hinj : ∀ a1 ∈ adds, ∀ a2 ∈ adds, docName D a1.2.1 = docName D a2.2.1 → a1.2.1 = a2.2.1)
    (file : File) (n : Nat) (hw : WriteIndex kMagicNumber crc M D = some (file, n))
    (hn : n < 2 ^ 31) (q0 : CString) (qs : List CString)
    (hq : ∀ w ∈ q0 :: qs, ∀ a ∈ adds, FNVHash64 w = FNVHash64 a.1 → w = a.1) :
    ∃ readers res N sr,
      fileReaders kMagicNumber crc file validate = some readers ∧
      ProcessQuery [readers] (q0 :: qs) = some res ∧
      (∀ fuel, N ≤ fuel → MemIndex_Search fuel M (q0 :: qs) = some sr) ∧
      (res.map fun r => (r.document_name, r.rank)).Perm
        ((sr.getD []).filterMap (namedResult D)) ∧
      ((sr.getD []).filterMap (namedResult D)).length = (sr.getD []).length ∧
      res.Pairwise (fun a b => a.rank ≥ b.rank) ∧
      (sr.getD []).Pairwise (fun a b => a.rank ≥ b.rank) := by
  obtain ⟨dtb, hopen, hdecD, hdecM⟩ := WriteIndex_decodes kMagicNumber crc validate hmagic M D
    hQD hQM file n hw hn
  have hfr : fileReaders kMagicNumber crc file validate =
      some (readersAt file 16 (16 + dtb)) := by
    simp only [fileReaders, hopen, Option.map_some']
  have hmemH := mem_wordHits file (16 + dtb) M adds D hdecD hposD hdecM hinvM hnamed
  have hndH := nodup_wordHits file (16 + dtb) M adds D hdecD hposD hdecM hinvM hnamed hinj
  have hres := readers_resolve file (16 + dtb) M adds D hdecD hposD hdecM hinvM hnamed
  have hall : ∀ w, allHits [readersAt file 16 (16 + dtb)] w =
      wordHits (readersAt file 16 (16 + dtb)) w := by
    intro w
    simp [allHits]
  obtain ⟨res, hpq, hnd, hmem⟩ := ProcessQuery_spec [readersAt file 16 (16 + dtb)] q0 qs hres
    (by rw [hall]; exact hndH q0)
  obtain ⟨_, _, _, res2, _, _, k3, _, k5⟩ :=
    ProcessQuery_sorted_perm [readersAt file 16 (16 + dtb)] q0 qs hres
  rw [hpq] at k3
  rw [← Option.some.inj k3] at k5
  obtain ⟨N, sr, hs1, hs2, hs3⟩ := Search_spec M adds hinvM q0 qs hq
  -- the result list of the search, NULL read as the empty list
  have hL : ((sr.getD []).map fun r => r.doc_id).Nodup ∧
      ∀ d rk, (⟨d, rk⟩ : SearchResult) ∈ sr.getD [] ↔
        qualifies adds (q0 :: qs) d ∧ rk = rankOf adds (q0 :: qs) d := by
    cases hsr : sr with
    | none =>
      refine ⟨List.nodup_nil, fun d rk => ?_⟩
      simp only [Option.getD_none, List.not_mem_nil, false_iff]
      intro h
      exact hs2 hsr d h.1
    | some l =>
      exact (hs3 l hsr).2
  have hsorted : (sr.getD []).Pairwise (fun a b => a.rank ≥ b.rank) := by
    cases hsr : sr with
    | none => exact List.Pairwise.nil
    | some l =>
      have := hs1 N (le_refl _)
      rw [hsr] at this
      exact Search_descending N M (q0 :: qs) l this
  refine ⟨readersAt file 16 (16 + dtb), res, N, sr, hfr, hpq, hs1, ?_⟩
  generalize sr.getD [] = L at hL hsorted ⊢
  -- every document of the list is a document of the postings
  have hinAdds : ∀ d, qualifies adds (q0 :: qs) d → ∃ a ∈ adds, a.2.1 = d := by
    intro d hd
    have := hd q0 (List.mem_cons_self _ _)
    obtain ⟨p, hp⟩ := Option.isSome_iff_exists.1 this
    exact ⟨_, postingOf_some_mem adds q0 d p hp, rfl⟩
  have hnameOf : ∀ d, (∃ a ∈ adds, a.2.1 = d) → ∃ nm, docName D d = some nm := by
    rintro d ⟨a, ha, rfl⟩
    exact Option.isSome_iff_exists.1 (hnamed a ha)
  have hinj2 : ∀ d1 d2 nm, (∃ a ∈ adds, a.2.1 = d1) → (∃ a ∈ adds, a.2.1 = d2) →
      docName D d1 = some nm → docName D d2 = some nm → d1 = d2 := by
    rintro d1 d2 nm ⟨a1, h1, rfl⟩ ⟨a2, h2, rfl⟩ e1 e2
    exact hinj a1 h1 a2 h2 (by rw [e1, e2])
  have hcw : ∀ w nm, containsWord [readersAt file 16 (16 + dtb)] w nm ↔
      ∃ d p, postingOf adds w d = some p ∧ docName D d = some nm := by
    intro w nm
    unfold containsWord
    rw [hall, List.mem_map]
    constructor
    · rintro ⟨⟨nm2, c⟩, ht, rfl⟩
      obtain ⟨d, p, h1, h2, _⟩ := (hmemH w nm2 c).1 ht
      exact ⟨d, p, h1, h2⟩
    · rintro ⟨d, p, h1, h2⟩
      exact ⟨(nm, p.length), (hmemH w nm p.length).2 ⟨d, p, h1, h2, rfl⟩, rfl⟩
  have hocc : ∀ w nm d, (∃ a ∈ adds, a.2.1 = d) → docName D d = some nm →
      occurrences [readersAt file 16 (16 + dtb)] w nm =
        ((postingOf adds w d).getD []).length := by
    intro w nm d hd hnm
    have e0 : occurrences [readersAt file 16 (16 + dtb)] w nm =
        occIn (wordHits (readersAt file 16 (16 + dtb)) w) nm := by
      unfold occurrences occIn
      rw [hall]
    rw [e0]
    cases hp : postingOf adds w d with
    | some p =>
      have ht := (hmemH w nm p.length).2 ⟨d, p, hp, hnm, rfl⟩
      have := occIn_of_mem_nodup _ (hndH w) (nm, p.length) ht
      simpa using this
    | none =>
      simp only [Option.getD_none, List.length_nil]
      apply occIn_not_mem
      intro hm
      obtain ⟨⟨nm2, c⟩, ht, e⟩ := List.mem_map.1 hm
      simp only at e
      subst e
      obtain ⟨d2, p2, h1, h2, _⟩ := (hmemH w nm2 c).1 ht
      have hd2 : ∃ a ∈ adds, a.2.1 = d2 := ⟨_, postingOf_some_mem adds w d2 p2 h1, rfl⟩
      have := hinj2 d2 d nm2 hd2 hd h2 hnm
      rw [this, hp] at h1
      cases h1
  -- the named results of the search
  have hnamedL : ∀ s ∈ L, ∃ nm, docName D s.doc_id = some nm ∧
      namedResult D s = some (nm, s.rank) := by
    intro s hs
    have hq2 := ((hL.2 s.doc_id s.rank).1 hs).1
    obtain ⟨nm, hnm⟩ := hnameOf _ (hinAdds _ hq2)
    exact ⟨nm, hnm, by simp only [namedResult, hnm, Option.map_some']⟩
  have hmapL : L.filterMap (namedResult D) =
      L.map fun s => ((docName D s.doc_id).getD [], s.rank) := by
    apply filterMap_eq_map_of
    intro s hs
    obtain ⟨nm, hnm, hr⟩ := hnamedL s hs
    rw [hr, hnm]
    rfl
  have hndL : (L.filterMap (namedResult D)).Nodup := by
    rw [hmapL]
    apply List.Nodup.map_on _ (List.Nodup.of_map _ hL.1)
    intro s1 h1 s2 h2 e
    obtain ⟨n1, hn1, _⟩ := hnamedL s1 h1
    obtain ⟨n2, hn2, _⟩ := hnamedL s2 h2
    simp only [hn1, hn2, Option.getD_some, Prod.mk.injEq] at e
    have hq1 := ((hL.2 s1.doc_id s1.rank).1 h1).1
    have hq2 := ((hL.2 s2.doc_id s2.rank).1 h2).1
    have hd := hinj2 s1.doc_id s2.doc_id n1 (hinAdds _ hq1) (hinAdds _ hq2) hn1
      (by rw [hn2, e.1])
    cases s1
    cases s2
    simp only at hd e
    rw [hd, e.2]
  have hndR : (res.map fun r => (r.document_name, r.rank)).Nodup := by
    apply List.Nodup.of_map (fun t : CString × Nat => t.1)
    rw [List.map_map]
    exact hnd
  refine ⟨?_, ?_, k5, hsorted⟩
  · rw [List.perm_ext_iff_of_nodup hndR hndL]
    rintro ⟨nm, rk⟩
    rw [List.mem_map, List.mem_filterMap]
    constructor
    · rintro ⟨r, hr, e⟩
      simp only [Prod.mk.injEq] at e
      obtain ⟨rfl, rfl⟩ := e
      obtain ⟨hc, hrk⟩ := (hmem r.document_name r.rank).1 hr
      obtain ⟨d0, p0, hp0, hn0⟩ := (hcw q0 r.document_name).1 (hc q0 (List.mem_cons_self _ _))
      have hd0 : ∃ a ∈ adds, a.2.1 = d0 := ⟨_, postingOf_some_mem adds q0 d0 p0 hp0, rfl⟩
      have hqual : qualifies adds (q0 :: qs) d0 := by
        intro w hw
        obtain ⟨d, p, hp, hnm⟩ := (hcw w r.document_name).1 (hc w hw)
        have hd : ∃ a ∈ adds, a.2.1 = d := ⟨_, postingOf_some_mem adds w d p hp, rfl⟩
        rw [← hinj2 d d0 _ hd hd0 hnm hn0, hp]
        rfl
      have hrank : r.rank = rankOf adds (q0 :: qs) d0 := by
        rw [hrk]
        unfold rankOf
        congr 1
        apply List.map_congr_left
        intro w _
        exact hocc w r.document_name d0 hd0 hn0
      refine ⟨⟨d0, r.rank⟩, (hL.2 d0 r.rank).2 ⟨hqual, hrank⟩, ?_⟩
      simp only [namedResult, hn0, Option.map_some']
    · rintro ⟨s, hs, e⟩
      obtain ⟨nm2, hnm, hr⟩ := hnamedL s hs
      rw [hr] at e
      simp only [Option.some.injEq, Prod.mk.injEq] at e
      obtain ⟨rfl, rfl⟩ := e
      obtain ⟨hqual, hrank⟩ := (hL.2 s.doc_id s.rank).1 hs
      have hd := hinAdds _ hqual
      refine ⟨⟨nm2, s.rank⟩, (hmem nm2 s.rank).2 ⟨?_, ?_⟩, rfl⟩
      · intro w hw
        obtain ⟨p, hp⟩ := Option.isSome_iff_exists.1 (hqual w hw)
        exact (hcw w nm2).2 ⟨s.doc_id, p, hp, hnm⟩
      · rw [hrank]
        unfold rankOf
        congr 1
        apply List.map_congr_left
        intro w _
        exact (hocc w nm2 s.doc_id hd hnm).symm
  · rw [hmapL, List.length_map]

theorem oneWordIndex_built (w : CString) :
    MemIndex_AddPostingList 3 MemIndex_Allocate w 1 [0] = some (oneWordIndex w) := by
  have h1 := Insert_small 2 (MemIndex_Allocate)
    ⟨FNVHash64 w, { word := w, postings := HashTable_Allocate 2 }⟩
    (WF_Allocate 2 (by decide)) (by decide)
  have h2 : HashTable_Insert 3 (HashTable_Allocate 2 : HashTable (LinkedList Nat)) ⟨1, [0]⟩ =
      some (postingsDoc1, none) := by decide
  unfold MemIndex_AddPostingList
  simp only [MemIndex_Allocate] at h1 ⊢
  simp only [Find_Allocate, h1, Option.map_some', Option.some_bind, Option.isSome_none,
    Bool.false_eq_true, if_false, h2]
  rcases Nat.mod_two_eq_zero_or_one (FNVHash64 w) with h0 | h0
  · simp [oneWordIndex, insertPure, HashTable.updateValue, HashTable.setChain,
      HashTable.chain, HashTable_Allocate, HashKeyToBucketNum, h0, modifyFirst,
      LinkedList_Allocate, keyIs]
  · simp [oneWordIndex, insertPure, HashTable.updateValue, HashTable.setChain,
      HashTable.chain, HashTable_Allocate, HashKeyToBucketNum, h0, modifyFirst,
      LinkedList_Allocate, keyIs]

theorem oneWordIndex_written (kMagicNumber : Nat) (crc : List Nat → Nat) (w : CString)
    (hw : w.length = 14) :
    ∃ file, WriteIndex kMagicNumber crc (oneWordIndex w) docTableS3 = some (file, 139) := by
  have hD : WriteHashTable WriteDocidToDocnameFn [] 16 docTableS3.id_to_name =
      some (docTableFileS3, 39) := by decide
  have hQ : ∀ j, ∀ kv ∈ (oneWordIndex w).chain j, WordQ kv := by
    intro j kv hkv
    have hkv2 : kv = ⟨FNVHash64 w, { word := w, postings := postingsDoc1 }⟩ := by
      rcases Nat.mod_two_eq_zero_or_one (FNVHash64 w) with h0 | h0 <;>
        · simp only [oneWordIndex, HashTable.chain, h0, List.replicate, List.set] at hkv
          match j, hkv with
          | 0, hkv => first | (simp at hkv; done) | (simp at hkv; exact hkv)
          | 1, hkv => first | (simp at hkv; done) | (simp at hkv; exact hkv)
          | j + 2, hkv => simp at hkv
    subst hkv2
    refine ⟨by simp only [hw]; decide, by simp only [hw]; decide, ?_⟩
    intro j2 e he
    have he2 : e = ⟨1, [0]⟩ := by
      simp only [postingsDoc1, HashTable.chain] at he
      match j2, he with
      | 0, he => simp at he
      | 1, he => simpa using he
      | j + 2, he => simp at he
    subst he2
    exact ⟨by decide, by decide⟩
  obtain ⟨⟨f2, mib⟩, h2⟩ := WriteHashTable_total WriteWordToPostingsFn WordQ
    WriteWordToPostingsFn_total (oneWordIndex w) hQ docTableFileS3 (16 + 39)
  have hsz := (WriteHashTable_size WriteWordToPostingsFn sizeWordElement
    WriteWordToPostingsFn_layout _ _ _ _ _ h2).1
  have hmib : mib = 84 := by
    rw [hsz]
    have hnb : (oneWordIndex w).num_buckets = 2 := rfl
    have hpd : specBucketsBytes sizeDocIDElement postingsDoc1 0 postingsDoc1.num_buckets = 20 := by
      decide
    rw [hnb]
    rcases Nat.mod_two_eq_zero_or_one (FNVHash64 w) with h0 | h0 <;>
      · simp [specBucketsBytes, specBucketBytes, oneWordIndex, HashTable.chain, h0,
          sizeWordElement, sizeof_WordPostingsHeader, hw, hpd]
        decide
  subst hmib
  refine ⟨WriteHeader kMagicNumber crc f2 39 84, ?_⟩
  simp only [WriteIndex, WriteDocTable, WriteMemIndex, DT_GetIDToNameTable,
    sizeof_IndexFileHeader, hD, h2, Option.some_bind]

/-- C36 (amended): for an index built by `MemIndex_AddPostingList` calls and
a doc table built by `DocTable_Add` calls, with words and names of 1 to
`2^15 - 1` bytes, 64-bit doc-ids and 32-bit positions, in which every doc-id
of the index has a name and distinct doc-ids of the index have distinct
names; for the file `WriteIndex` wrote, shorter than `2^31` bytes; and for a
non-empty query no word of which has the `FNVHash64` of another word of the
index: the readers open the file, `ProcessQuery` over this one file returns,
`MemIndex_Search` returns (for every bound on the sweeps of its sort above
some `N`), and the `(name, rank)` pairs of `ProcessQuery` are, up to their
order, the results of `MemIndex_Search` (NULL read as no result) with every
doc-id replaced by its name in the doc table; both lists are in
non-increasing order of rank. -/
theorem C36_disk_refines_memory (kMagicNumber : Nat) (crc : List Nat → Nat) (validate : Bool)
    (hmagic : kMagicNumber < 2 ^ 32)
    (adds : List Posting) (fuelM : Nat) (M : MemIndex)
    (hM : buildIndex fuelM adds MemIndex_Allocate = some M)
    (names : List CString) (fuelD : Nat) (D : DocTable)
    (hD : buildDocTable fuelD names DocTable_Allocate = some D)
    (hadds : ∀ a ∈ adds, 0 < a.1.length ∧ a.1.length < 2 ^ 15 ∧ a.2.1 < 2 ^ 64 ∧
      ∀ p ∈ a.2.2, p < 2 ^ 32)
    (hnames : ∀ n ∈ names, 0 < n.length ∧ n.length < 2 ^ 15)
    (hnamed : ∀ a ∈ adds, (docName D a.2.1).isSome = true)
    (hinj : ∀ a1 ∈ adds, ∀ a2 ∈ adds, docName D a1.2.1 = docName D a2.2.1 → a1.2.1 = a2.2.1)
    (file : File) (n : Nat) (hw : WriteIndex kMagicNumber crc M D = some (file, n))
    (hn : n < 2 ^ 31) (q0 : CString) (qs : List CString)
    (hq : ∀ w ∈ q0 :: qs, ∀ a ∈ adds, FNVHash64 w = FNVHash64 a.1 → w = a.1) :
    ∃ readers res N sr,
      fileReaders kMagicNumber crc file validate = some readers ∧
      ProcessQuery [readers] (q0 :: qs) = some res ∧
      (∀ fuel, N ≤ fuel → MemIndex_Search fuel M (q0 :: qs) = some sr) ∧
      (res.map fun r => (r.document_name, r.rank)).Perm
        ((sr.getD []).filterMap (namedResult D)) ∧
      ((sr.getD []).filterMap (namedResult D)).length = (sr.getD []).length ∧
      res.Pairwise (fun a b => a.rank ≥ b.rank) ∧
      (sr.getD []).Pairwise (fun a b => a.rank ≥ b.rank) := by
  have hinvM : IndexInv M adds := by
    have := buildIndex_inv fuelM adds [] MemIndex_Allocate M IndexInv_Allocate hM
    simpa using this
  have hinvD : DocInv D names := by
    have := buildDocTable_inv fuelD names [] DocTable_Allocate D DocInv_Allocate hD
    simpa using this
  exact disk_refines_memory kMagicNumber crc validate hmagic adds M hinvM D hinvD.1.pos
    (DocInv_DocQ D names hinvD hnames) (IndexInv_WordQ M adds hinvM hadds) hnamed hinj file n
    hw hn q0 qs hq

/-- C36, as stated (every index, every query), fails: two distinct words of
fourteen letters have the same `FNVHash64`; for the index that holds the first
of them in document 1, named `x.txt` by the doc table, and the query for the
second, `MemIndex_Search` looks the word up by its hash alone and returns
document 1, while the reader of the file written by `WriteIndex` compares the
stored word and `ProcessQuery` returns no result. -/
theorem C36_counterexample :
    ¬ ∀ (adds : List Posting) (fuelM : Nat) (M : MemIndex) (names : List CString)
        (fuelD : Nat) (D : DocTable) (file : File) (n : Nat) (q0 : CString)
        (qs : List CString),
      buildIndex fuelM adds MemIndex_Allocate = some M →
      buildDocTable fuelD names DocTable_Allocate = some D →
      WriteIndex 0xcafef00d crcS3 M D = some (file, n) →
      ∃ readers res N sr,
        fileReaders 0xcafef00d crcS3 file true = some readers ∧
        ProcessQuery [readers] (q0 :: qs) = some res ∧
        (∀ fuel, N ≤ fuel → MemIndex_Search fuel M (q0 :: qs) = some sr) ∧
        (res.map fun r => (r.document_name, r.rank)).Perm
          ((sr.getD []).filterMap (namedResult D)) := by
  intro H
  obtain ⟨g1, g2, hne, heq⟩ := exists_collision
  have hbuild : buildIndex 3 [(letterWord g1, 1, [0])] MemIndex_Allocate =
      some (oneWordIndex (letterWord g1)) := by
    simp [buildIndex, oneWordIndex_built]
  have hD : buildDocTable 3 [bytes "x.txt"] DocTable_Allocate = some docTableS3 := by decide
  have hinvM : IndexInv (oneWordIndex (letterWord g1)) [(letterWord g1, 1, [0])] := by
    have := buildIndex_inv 3 [(letterWord g1, 1, [0])] [] MemIndex_Allocate _
      IndexInv_Allocate hbuild
    simpa using this
  have hinvD : DocInv docTableS3 [bytes "x.txt"] := by
    have := buildDocTable_inv 3 [bytes "x.txt"] [] DocTable_Allocate _ DocInv_Allocate hD
    simpa using this
  obtain ⟨file, hw⟩ := oneWordIndex_written 0xcafef00d crcS3 (letterWord g1)
    (letterWord_length g1)
  obtain ⟨readers, res, N, sr, hfr, hpq, hs, hperm⟩ := H [(letterWord g1, 1, [0])] 3 _
    [bytes "x.txt"] 3 docTableS3 file 139 (letterWord g2) [] hbuild hD hw
  have hadds : ∀ a ∈ [(letterWord g1, (1 : DocID_t), ([0] : LinkedList Nat))],
      0 < a.1.length ∧ a.1.length < 2 ^ 15 ∧ a.2.1 < 2 ^ 64 ∧ ∀ p ∈ a.2.2, p < 2 ^ 32 := by
    intro a ha
    rw [List.mem_singleton] at ha
    subst ha
    simp only [letterWord_length]
    refine ⟨by decide, by decide, by decide, ?_⟩
    intro p hp
    rw [List.mem_singleton] at hp
    subst hp
    decide
  have hnames : ∀ n ∈ [bytes "x.txt"], 0 < n.length ∧ n.length < 2 ^ 15 := by decide
  obtain ⟨dtb, hopen, hdecD, hdecM⟩ := WriteIndex_decodes 0xcafef00d crcS3 true (by decide)
    (oneWordIndex (letterWord g1)) docTableS3 (DocInv_DocQ _ _ hinvD hnames)
    (IndexInv_WordQ _ _ hinvM hadds) file 139 hw (by decide)
  have hr : readers = readersAt file 16 (16 + dtb) := by
    simp only [fileReaders, hopen, Option.map_some', Option.some.injEq] at hfr
    exact hfr.symm
  have hl := readers_word_absent file (16 + dtb) _ _ hdecM hinvM (letterWord g2) (by
    intro a ha
    rw [List.mem_singleton] at ha
    subst ha
    exact hne)
  have hres : res = [] := by
    rw [hr] at hpq
    simp only [ProcessQuery, AddFirstWordDocs, readersAt, hl, Option.none_bind,
      ProcessQuery_rest, Option.some_bind, Option.map_some', Bool.false_eq_true, if_false,
      sortResults, List.insertionSort, Option.some.injEq] at hpq
    exact hpq.symm
  rw [hres] at hperm
  have hnil : (sr.getD []).filterMap (namedResult docTableS3) = [] :=
    (List.Perm.nil_eq hperm).symm
  obtain ⟨N1, sr1, k1, k2, k3⟩ := Search_spec _ _ hinvM (letterWord g1) [] (by
    intro w hw a ha _
    rw [List.mem_singleton] at hw ha
    rw [hw, ha])
  have e1 := hs (max N N1) (le_max_left _ _)
  have e2 := k1 (max N N1) (le_max_right _ _)
  rw [Search_hash_congr _ _ _ _ heq, e1] at e2
  have hsr : sr = sr1 := Option.some.inj e2
  have hqual : qualifies [(letterWord g1, (1 : DocID_t), ([0] : LinkedList Nat))]
      [letterWord g1] 1 := by
    intro w hw
    rw [List.mem_singleton] at hw
    rw [hw]
    exact postingOf_isSome_of_mem _ _ _ [0] (List.mem_singleton.2 rfl)
  cases hsr1 : sr1 with
  | none => exact k2 hsr1 1 hqual
  | some l =>
    obtain ⟨hne2, hgood⟩ := k3 l hsr1
    rw [hsr, hsr1] at hnil
    simp only [Option.getD_some] at hnil
    cases l with
    | nil => exact hne2 rfl
    | cons s rest =>
      have hs1 := ((hgood.2 s.doc_id s.rank).1 (List.mem_cons_self _ _)).1
      have hp := hs1 (letterWord g1) (List.mem_singleton.2 rfl)
      obtain ⟨p, hp2⟩ := Option.isSome_iff_exists.1 hp
      have hmem := postingOf_some_mem _ _ _ _ hp2
      rw [List.mem_singleton] at hmem
      have hd : s.doc_id = 1 := by
        have := congrArg (fun t => t.2.1) hmem
        exact this
      have hname : namedResult docTableS3 s = some (bytes "x.txt", s.rank) := by
        have h1 : docName docTableS3 1 = some (bytes "x.txt") := by decide
        simp only [namedResult, hd, h1, Option.map_some']
      rw [List.filterMap_cons, hname] at hnil
      cases hnil

set_option maxRecDepth 100000 in
/-- C36 at scenario S3 (the word `a` at positions 0 and 2 of document 1,
named `x.txt`) and the query `[a]`: both paths give the one result of rank
2. -/
theorem C36_witness :
    ProcessQuery [readersAt fileS3 16 55] [bytes "a"] = some [⟨bytes "x.txt", 2⟩] ∧
    MemIndex_Search 2 indexS3 [bytes "a"] = some (some [⟨1, 2⟩]) ∧
    ∃ readers res N sr,
      fileReaders 0xcafef00d crcS3 fileS3 true = some readers ∧
      ProcessQuery [readers] (bytes "a" :: []) = some res ∧
      (∀ fuel, N ≤ fuel → MemIndex_Search fuel indexS3 (bytes "a" :: []) = some sr) ∧
      (res.map fun r => (r.document_name, r.rank)).Perm
        ((sr.getD []).filterMap (namedResult docTableS3)) ∧
      ((sr.getD []).filterMap (namedResult docTableS3)).length = (sr.getD []).length ∧
      res.Pairwise (fun a b => a.rank ≥ b.rank) ∧
      (sr.getD []).Pairwise (fun a b => a.rank ≥ b.rank) :=
  ⟨by decide, by decide,
    C36_disk_refines_memory 0xcafef00d crcS3 true (by decide) addsS3 3 indexS3 (by decide)
      [bytes "x.txt"] 3 docTableS3 (by decide) (by decide) (by decide) (by decide) (by decide)
      fileS3 130 (by decide) (by decide) (bytes "a") [] (by decide)⟩

end MiniGoogle
